import Mathlib

/-!
Intrusive chained hash table (`intrhash_t`).

A shallow embedding of `src/intrhash/intrhash.h` and of the adaptors of
`src/intrhash/hashmap.h` / `src/intrhash/hashset.h`.

* A node is identified by its address, a `Nat`.  The user part of a node (key,
  value) is never written by the table, so it is read through `Ops.extract_key`.
* A pointer-sized cell (`item_type*`) is a `Link`: the null pointer, a pointer with
  the `bucket_flag_` bit set (the address of a bucket slot, kept as the slot index),
  or a plain pointer to a node.
* A context (`context_base_t`, an `item_type**`) is a `Ctx`: the address of a bucket
  slot or the address of the `next_` field of a node.
* Loops take a fuel argument and yield `none` when it runs out; an access outside
  the bucket array or through a null pointer (undefined behaviour in the source)
  also yields `none`.
* `size_t` counters are unbounded naturals: `nitems_` counts linked nodes, which the
  address space bounds, and it is decremented only when a node is unlinked.
-/

namespace Intrhash

/-! ## `intrhash_priv::buckets_count` -/

/-- The table `primes` of `buckets_count`. -/
def primes : List Nat :=
  [7, 17, 29, 53, 97,
   193, 389, 769, 1543, 3079,
   6151, 12289, 24593, 49157, 98317,
   196613, 393241, 786433, 1572869, 3145739,
   6291469, 12582917, 25165843, 50331653, 100663319,
   201326611, 402653189, 805306457, 1610612741, 3221225473, 4294967291]

/-- The value `*first_prime`. -/
def first_prime : Nat := 7

/-- The value `*last_prime`: `last_prime` points at the last element of `primes`. -/
def last_prime : Nat := 4294967291

/-- The call `*std::lower_bound(first_prime, last_prime, n)`: the first element of the
range `[first_prime, last_prime)` that is not less than `n`, or `*last_prime`. -/
def lower_bound (n : Nat) : Nat :=
  (primes.dropLast.find? (fun p => !decide (p < n))).getD last_prime

/-- The function `intrhash_priv::buckets_count`. -/
def buckets_count (n : Nat) : Nat :=
  if n ≤ first_prime then first_prime else lower_bound n

/-! ## Memory model -/

/-- The value of a pointer-sized cell (`item_type*`). -/
inductive Link where
  /-- The null pointer. -/
  | null : Link
  /-- A pointer with `bucket_flag_` set: the address of bucket slot `i`. -/
  | bucket (i : Nat) : Link
  /-- An untagged pointer to the node at address `e`. -/
  | item (e : Nat) : Link
  deriving DecidableEq, Repr

/-- A context: the address of a cell. -/
inductive Ctx where
  /-- The address `&buckets[i]`. -/
  | slot (i : Nat) : Ctx
  /-- The address of the `next_` field of node `e`. -/
  | entry (e : Nat) : Ctx
  deriving DecidableEq, Repr

/-- One bucket array together with the `next_` fields of all nodes. -/
structure Mem where
  /-- The `oneshot_vector_t<item_type*>` of bucket slots. -/
  buckets : List Link
  /-- The field `next_` of every node (`nullptr` by default). -/
  next : Nat → Link

/-- The object `intrhash_t`: `buckets_` and `nitems_`. -/
structure Table extends Mem where
  /-- The field `nitems_`. -/
  nitems : Nat

/-- The policy `O`: `hash`, `equal_to`, `extract_key`. -/
structure Ops (K : Type) where
  /-- The function `O::hash`. -/
  hash : K → Nat
  /-- The function `O::equal_to`. -/
  equal_to : K → K → Bool
  /-- The function `O::extract_key`, reading the key stored in a node. -/
  extract_key : Nat → K

/-- The read `*ctx.ptr()`. -/
def Mem.read (m : Mem) : Ctx → Option Link
  | .slot i => m.buckets[i]?
  | .entry e => some (m.next e)

/-- The call `item->set_next(v)`. -/
def Mem.set_next (m : Mem) (e : Nat) (v : Link) : Mem :=
  { m with next := fun x => if x = e then v else m.next x }

/-- The write `*ctx.ptr() = v`. -/
def Mem.write (m : Mem) (ctx : Ctx) (v : Link) : Option Mem :=
  match ctx with
  | .slot i => if i < m.buckets.length then some { m with buckets := m.buckets.set i v } else none
  | .entry e => some (m.set_next e v)

/-- The method `intrhash_item_t::linked`. -/
def Mem.linked (m : Mem) (e : Nat) : Bool :=
  decide (m.next e ≠ Link.null)

/-! ## The addressing scheme -/

/-- The function `ctx_bucket_`: is the tag bit of the cell set? -/
def ctx_bucket_ (m : Mem) (ctx : Ctx) : Option Bool :=
  match m.read ctx with
  | some (.bucket _) => some true
  | some _ => some false
  | none => none

/-- The function `ctx_item_`. -/
def ctx_item_ (m : Mem) (ctx : Ctx) : Option Bool :=
  (ctx_bucket_ m ctx).map (fun b => !b)

/-- The function `next_ctx_bucket_`: the slot a tagged cell points to. -/
def next_ctx_bucket_ (m : Mem) (ctx : Ctx) : Option Ctx :=
  match m.read ctx with
  | some (.bucket j) => some (.slot j)
  | _ => none

/-- The function `next_ctx_item_`: the `next_` field of the node the cell points to. -/
def next_ctx_item_ (m : Mem) (ctx : Ctx) : Option Ctx :=
  match m.read ctx with
  | some (.item e) => some (.entry e)
  | _ => none

/-- The method `context_base_t::node` on a cell that points to a node. -/
def ctx_node (m : Mem) (ctx : Ctx) : Option Nat :=
  match m.read ctx with
  | some (.item e) => some e
  | _ => none

/-- The function `item_ctx_`: `while (ctx_bucket_(ctx)) ctx = next_ctx_bucket_(ctx);`. -/
def item_ctx_ (m : Mem) : Nat → Ctx → Option Ctx
  | 0, _ => none
  | fuel + 1, ctx => do
    if (← ctx_bucket_ m ctx) then
      item_ctx_ m fuel (← next_ctx_bucket_ m ctx)
    else
      pure ctx

/-- The function `ctx_relative_`. -/
def ctx_relative_ {K : Type} (ops : Ops K) (m : Mem) (ctx : Ctx) (key : K) : Option Bool := do
  let e ← ctx_node m ctx
  pure (ops.equal_to (ops.extract_key e) key)

/-- The function `push_item_`. -/
def push_item_ (m : Mem) (ctx : Ctx) (item : Nat) : Option Mem := do
  let v ← m.read ctx
  (m.set_next item v).write ctx (.item item)

/-- The function `pop_item_`. -/
def pop_item_ (m : Mem) (ctx : Ctx) : Option (Mem × Nat) := do
  let item ← ctx_node m ctx
  let m1 ← m.write ctx (m.next item)
  pure (m1.set_next item .null, item)

/-- The function `init_buckets_` applied to a freshly allocated array of `n` slots. -/
def init_buckets_ (n : Nat) : List Link :=
  if n = 0 then [] else (List.range (n - 1)).map (fun i => Link.bucket (i + 1)) ++ [Link.null]

/-- The function `base_ctx_`: `&bkts[hash(key) % (bkts.size() - 1)]`. -/
def base_ctx_ {K : Type} (ops : Ops K) (m : Mem) (key : K) : Option Ctx :=
  if m.buckets.length - 1 = 0 then none
  else some (.slot (ops.hash key % (m.buckets.length - 1)))

/-- The loop of `find_ctx_`. -/
def find_ctx_loop {K : Type} (ops : Ops K) (m : Mem) (key : K) : Nat → Ctx → Option (Ctx × Bool)
  | 0, _ => none
  | fuel + 1, ctx => do
    if (← ctx_item_ m ctx) then
      if (← ctx_relative_ ops m ctx key) then
        pure (ctx, true)
      else
        find_ctx_loop ops m key fuel (← next_ctx_item_ m ctx)
    else
      pure (ctx, false)

/-- The function `find_ctx_`. -/
def find_ctx_ {K : Type} (ops : Ops K) (fuel : Nat) (m : Mem) (key : K) : Option (Ctx × Bool) := do
  find_ctx_loop ops m key fuel (← base_ctx_ ops m key)

/-! ## Iteration -/

/-- The method `begin`. -/
def Table.begin (fuel : Nat) (t : Table) : Option Link := do
  t.read (← item_ctx_ t.toMem fuel (.slot 0))

/-- The method `end`: `*(buckets_.end() - 1)`. -/
def Table.end_ (t : Table) : Option Link :=
  if t.buckets.length = 0 then none else t.read (.slot (t.buckets.length - 1))

/-- The method `iterator_base_t::next`. -/
def iter_next (fuel : Nat) (m : Mem) (it : Link) : Option Link :=
  match it with
  | .item e => do m.read (← item_ctx_ m fuel (.entry e))
  | _ => none

/-- The loop `for (; it != last; ++it)` over iterators, collecting `it.node()`. -/
def iter_range (fuel : Nat) (m : Mem) (last : Link) : Nat → Link → Option (List Nat)
  | 0, _ => none
  | n + 1, it =>
    if it = last then some []
    else
      match it with
      | .item e => do
        let rest ← iter_range fuel m last n (← iter_next fuel m it)
        pure (e :: rest)
      | _ => none

/-- All nodes visited by `for (it = begin(); it != end(); ++it)`. -/
def Table.entries (fuel : Nat) (t : Table) : Option (List Nat) := do
  iter_range fuel t.toMem (← t.end_) fuel (← t.begin fuel)

/-- The nodes of one chain: `for (; ctx_item_(ctx); ctx = next_ctx_item_(ctx))`. -/
def chain_nodes (m : Mem) : Nat → Ctx → Option (List Nat)
  | 0, _ => none
  | fuel + 1, ctx => do
    if (← ctx_item_ m ctx) then
      let e ← ctx_node m ctx
      let rest ← chain_nodes m fuel (← next_ctx_item_ m ctx)
      pure (e :: rest)
    else
      pure []

/-- The chains of all real buckets `0 .. size() - 2`. -/
def Table.chains (fuel : Nat) (t : Table) : Option (List (List Nat)) :=
  (List.range (t.buckets.length - 1)).mapM (fun i => chain_nodes t.toMem fuel (.slot i))

/-! ## Table operations -/

/-- The constructor `intrhash_t(size_t n)`. -/
def Table.mk_ (n : Nat) : Table :=
  { buckets := init_buckets_ (buckets_count n + 1), next := fun _ => Link.null, nitems := 0 }

/-- The default constructor `intrhash_t()`. -/
def Table.default_ : Table := Table.mk_ 0

/-- The method `size`. -/
def Table.size (t : Table) : Nat := t.nitems

/-- The method `empty`. -/
def Table.empty (t : Table) : Bool := t.size == 0

/-- The number of real buckets, `buckets_.size() - 1`. -/
def Table.nbuckets (t : Table) : Nat := t.buckets.length - 1

/-- A callback that may write `next_` fields: it receives the node, the current
`next_` fields and its own state. -/
abbrev MemCallback (σ : Type) := Nat → (Nat → Link) → σ → Option ((Nat → Link) × σ)

/-- The loop of `decompose`. -/
def decompose_loop {σ : Type} (cbk : MemCallback σ) (end_idx : Nat) :
    Nat → Table → σ → Ctx → Option (Table × σ)
  | 0, _, _, _ => none
  | fuel + 1, t, s, ctx =>
    if ctx = .slot end_idx then some (t, s)
    else do
      if (← ctx_item_ t.toMem ctx) then
        let t1 : Table := { t with nitems := t.nitems - 1 }
        let (m, item) ← pop_item_ t1.toMem ctx
        let (nx, s1) ← cbk item m.next s
        decompose_loop cbk end_idx fuel { buckets := m.buckets, next := nx, nitems := t1.nitems } s1 ctx
      else
        decompose_loop cbk end_idx fuel t s (← next_ctx_bucket_ t.toMem ctx)

/-- The method `decompose(cbk)` for a callback that may write `next_` fields. -/
def decompose_with {σ : Type} (cbk : MemCallback σ) (fuel : Nat) (t : Table) (s : σ) :
    Option (Table × σ) :=
  if t.nitems ≠ 0 then
    if t.buckets.length = 0 then none
    else decompose_loop cbk (t.buckets.length - 1) fuel t s (.slot 0)
  else some (t, s)

/-- A caller's callback seen as a `MemCallback`: it does not touch the table. -/
def user_cbk {σ : Type} (cbk : Nat → σ → σ) : MemCallback σ :=
  fun item nx s => some (nx, cbk item s)

/-- The method `decompose(cbk)` for a caller's callback. -/
def decompose {σ : Type} (cbk : Nat → σ → σ) (fuel : Nat) (t : Table) (s : σ) :
    Option (Table × σ) :=
  decompose_with (user_cbk cbk) fuel t s

/-- The lambda of `resize`: `push_item_(base_ctx_(buckets, key(item)), item); ++nitems;`. -/
def rehash_cbk {K : Type} (ops : Ops K) : MemCallback (List Link × Nat) :=
  fun item nx s => do
    let m : Mem := { buckets := s.1, next := nx }
    let ctx ← base_ctx_ ops m (ops.extract_key item)
    let m1 ← push_item_ m ctx item
    pure (m1.next, (m1.buckets, s.2 + 1))

/-- The method `resize`. -/
def resize {K : Type} (ops : Ops K) (fuel : Nat) (t : Table) (n : Nat) : Option Table :=
  if n > t.buckets.length - 1 then
    let nbuckets := buckets_count n + 1
    if nbuckets > t.buckets.length then do
      let (t1, s) ← decompose_with (rehash_cbk ops) fuel t (init_buckets_ nbuckets, 0)
      pure { buckets := s.1, next := t1.next, nitems := s.2 }
    else some t
  else some t

/-- The method `find`. -/
def find {K : Type} (ops : Ops K) (fuel : Nat) (t : Table) (key : K) : Option Link := do
  let found_ctx ← find_ctx_ ops fuel t.toMem key
  if found_ctx.2 then t.read found_ctx.1 else t.end_

/-- The method `find_ptr` (`none` is `nullptr`). -/
def find_ptr {K : Type} (ops : Ops K) (fuel : Nat) (t : Table) (key : K) : Option (Option Nat) := do
  let found_ctx ← find_ctx_ ops fuel t.toMem key
  if found_ctx.2 then pure (some (← ctx_node t.toMem found_ctx.1)) else pure none

/-- The method `has`. -/
def has {K : Type} (ops : Ops K) (fuel : Nat) (t : Table) (key : K) : Option Bool := do
  pure (← find_ctx_ ops fuel t.toMem key).2

/-- The loop of `equal_range_impl_`:
`do last = next_ctx_item_(last); while (ctx_item_(last) && ctx_relative_(last, key));`. -/
def equal_range_loop {K : Type} (ops : Ops K) (m : Mem) (key : K) : Nat → Ctx → Option Ctx
  | 0, _ => none
  | fuel + 1, last => do
    let last1 ← next_ctx_item_ m last
    if (← ctx_item_ m last1) then
      if (← ctx_relative_ ops m last1 key) then
        equal_range_loop ops m key fuel last1
      else pure last1
    else pure last1

/-- The method `equal_range`. -/
def equal_range {K : Type} (ops : Ops K) (fuel : Nat) (t : Table) (key : K) :
    Option (Link × Link) := do
  let found_ctx ← find_ctx_ ops fuel t.toMem key
  if !found_ctx.2 then
    pure (← t.end_, ← t.end_)
  else
    let last ← equal_range_loop ops t.toMem key fuel found_ctx.1
    pure (← t.read found_ctx.1, ← t.read (← item_ctx_ t.toMem fuel last))

/-- The loop of `count`:
`do ++result; ctx = next_ctx_item_(ctx); while (ctx_item_(ctx) && ctx_relative_(ctx, key));`. -/
def count_loop {K : Type} (ops : Ops K) (m : Mem) (key : K) : Nat → Ctx → Nat → Option Nat
  | 0, _, _ => none
  | fuel + 1, ctx, result => do
    let ctx1 ← next_ctx_item_ m ctx
    if (← ctx_item_ m ctx1) then
      if (← ctx_relative_ ops m ctx1 key) then
        count_loop ops m key fuel ctx1 (result + 1)
      else pure (result + 1)
    else pure (result + 1)

/-- The method `count`. -/
def count {K : Type} (ops : Ops K) (fuel : Nat) (t : Table) (key : K) : Option Nat := do
  let found_ctx ← find_ctx_ ops fuel t.toMem key
  if !found_ctx.2 then pure 0
  else count_loop ops t.toMem key fuel found_ctx.1 0

/-- The method `push_no_resize`; the result is the table and the returned `ctx.node()`. -/
def push_no_resize {K : Type} (ops : Ops K) (fuel : Nat) (t : Table) (node : Nat) :
    Option (Table × Nat) := do
  let ctx := (← find_ctx_ ops fuel t.toMem (ops.extract_key node)).1
  let m ← push_item_ t.toMem ctx node
  let t1 : Table := { toMem := m, nitems := t.nitems + 1 }
  pure (t1, ← ctx_node t1.toMem ctx)

/-- The method `push`. -/
def push {K : Type} (ops : Ops K) (fuel : Nat) (t : Table) (node : Nat) :
    Option (Table × Nat) := do
  push_no_resize ops fuel (← resize ops fuel t (t.nitems + 1)) node

/-- The loop of `pop(node_type*)`; the second component is the returned pointer
(`none` is `nullptr`). -/
def pop_loop {K : Type} (ops : Ops K) (t : Table) (node : Nat) : Nat → Ctx → Option (Table × Option Nat)
  | 0, _ => none
  | fuel + 1, ctx => do
    if (← ctx_item_ t.toMem ctx) then
      if (← ctx_node t.toMem ctx) = node then
        let (m, item) ← pop_item_ t.toMem ctx
        pure ({ toMem := m, nitems := t.nitems - 1 }, some item)
      else
        pop_loop ops t node fuel (← next_ctx_item_ t.toMem ctx)
    else
      pure (t, none)

/-- The method `pop(node_type*)`. -/
def pop {K : Type} (ops : Ops K) (fuel : Nat) (t : Table) (node : Nat) :
    Option (Table × Option Nat) := do
  pop_loop ops t node fuel (← base_ctx_ ops t.toMem (ops.extract_key node))

/-- The method `pop(iterator)`: `pop(iter.node())`. -/
def pop_iter {K : Type} (ops : Ops K) (fuel : Nat) (t : Table) (iter : Link) :
    Option (Table × Option Nat) :=
  match iter with
  | .item e => pop ops fuel t e
  | _ => none

/-- The inner `do ... while (ctx.ptr() != end_ctx.ptr())` loop of `pop(first, last, cbk)`;
`last` is `none` for the null pointer. -/
def pop_range_loop {σ : Type} (cbk : Nat → σ → σ) (last : Option Nat) (end_idx : Nat) :
    Nat → Table → σ → Ctx → Option (Table × σ)
  | 0, _, _, _ => none
  | fuel + 1, t, s, ctx => do
    if (← ctx_item_ t.toMem ctx) then
      if some (← ctx_node t.toMem ctx) = last then
        pure (t, s)
      else
        let (m, item) ← pop_item_ t.toMem ctx
        let t1 : Table := { toMem := m, nitems := t.nitems - 1 }
        let s1 := cbk item s
        if ctx = .slot end_idx then pure (t1, s1)
        else pop_range_loop cbk last end_idx fuel t1 s1 ctx
    else
      let ctx1 ← next_ctx_bucket_ t.toMem ctx
      if ctx1 = .slot end_idx then pure (t, s)
      else pop_range_loop cbk last end_idx fuel t s ctx1

/-- The outer loop of `pop(first, last, cbk)`. -/
def pop_range_find {σ : Type} (cbk : Nat → σ → σ) (first : Nat) (last : Option Nat) (t : Table) (s : σ) :
    Nat → Ctx → Option (Table × σ)
  | 0, _ => none
  | fuel + 1, ctx => do
    if (← ctx_item_ t.toMem ctx) then
      if (← ctx_node t.toMem ctx) = first then
        if t.buckets.length = 0 then none
        else pop_range_loop cbk last (t.buckets.length - 1) (fuel + 1) t s ctx
      else
        pop_range_find cbk first last t s fuel (← next_ctx_item_ t.toMem ctx)
    else
      pure (t, s)

/-- The method `pop(node_type* first, node_type* last, cbk)`. -/
def pop_range {K σ : Type} (ops : Ops K) (cbk : Nat → σ → σ) (fuel : Nat) (t : Table)
    (first : Nat) (last : Option Nat) (s : σ) : Option (Table × σ) := do
  pop_range_find cbk first last t s fuel (← base_ctx_ ops t.toMem (ops.extract_key first))

/-- The method `pop_one`. -/
def pop_one {K : Type} (ops : Ops K) (fuel : Nat) (t : Table) (key : K) :
    Option (Table × Option Nat) := do
  let found_ctx ← find_ctx_ ops fuel t.toMem key
  if found_ctx.2 then
    let (m, item) ← pop_item_ t.toMem found_ctx.1
    pure ({ toMem := m, nitems := t.nitems - 1 }, some item)
  else
    pure (t, none)

/-- The loop of `pop_all`:
`do --nitems_; cbk(pop_item_(ctx)->node()); while (ctx_item_(ctx) && ctx_relative_(ctx, key));`. -/
def pop_all_loop {K σ : Type} (ops : Ops K) (cbk : Nat → σ → σ) (key : K) (ctx : Ctx) :
    Nat → Table → σ → Option (Table × σ)
  | 0, _, _ => none
  | fuel + 1, t, s => do
    let (m, item) ← pop_item_ t.toMem ctx
    let t1 : Table := { toMem := m, nitems := t.nitems - 1 }
    let s1 := cbk item s
    if (← ctx_item_ t1.toMem ctx) then
      if (← ctx_relative_ ops t1.toMem ctx key) then
        pop_all_loop ops cbk key ctx fuel t1 s1
      else pure (t1, s1)
    else pure (t1, s1)

/-- The method `pop_all(key, cbk)`. -/
def pop_all {K σ : Type} (ops : Ops K) (cbk : Nat → σ → σ) (fuel : Nat) (t : Table) (key : K)
    (s : σ) : Option (Table × σ) := do
  let found_ctx ← find_ctx_ ops fuel t.toMem key
  if found_ctx.2 then
    pop_all_loop ops cbk key found_ctx.1 fuel t s
  else
    pure (t, s)

/-- The outcome of a unique insert: the table, the state of the node factory, and the
returned pair; the pair is `none` when the factory failed and its failure propagates. -/
structure PushResult (G : Type) where
  /-- The table after the call. -/
  table : Table
  /-- The state of the node factory after the call. -/
  factory : G
  /-- The returned `(iterator, inserted)` pair. -/
  ret : Option (Link × Bool)

/-- The method `find_or_push_no_resize`.  The factory `gen` is a state transformer that
yields a node or fails. -/
def find_or_push_no_resize {K G : Type} (ops : Ops K) (fuel : Nat) (t : Table) (key : K)
    (gen : G → Option Nat × G) (g : G) : Option (PushResult G) := do
  let found_ctx ← find_ctx_ ops fuel t.toMem key
  if !found_ctx.2 then
    match gen g with
    | (none, g1) => pure { table := t, factory := g1, ret := none }
    | (some node, g1) =>
      let m ← push_item_ t.toMem found_ctx.1 node
      let t1 : Table := { toMem := m, nitems := t.nitems + 1 }
      pure { table := t1, factory := g1, ret := some (← t1.read found_ctx.1, true) }
  else
    pure { table := t, factory := g, ret := some (← t.read found_ctx.1, false) }

/-- The method `find_or_push`. -/
def find_or_push {K G : Type} (ops : Ops K) (fuel : Nat) (t : Table) (key : K)
    (gen : G → Option Nat × G) (g : G) : Option (PushResult G) := do
  find_or_push_no_resize ops fuel (← resize ops fuel t (t.nitems + 1)) key gen g

/-! ## Abstract chains -/

/-- The cell reached from `ctx` after walking over the nodes `l`. -/
def ctx_after : Ctx → List Nat → Ctx
  | ctx, [] => ctx
  | _, e :: l => ctx_after (.entry e) l

/-- Starting at cell `ctx`, the cells hold pointers to the nodes of `l`, in order. -/
def PreSeg (m : Mem) : Ctx → List Nat → Prop
  | _, [] => True
  | ctx, e :: c => m.read ctx = some (.item e) ∧ PreSeg m (.entry e) c

/-- A list segment: starting at cell `ctx` the nodes `c` are linked in order and the
cell after the last one holds `stop`. -/
def Seg (m : Mem) (stop : Link) (ctx : Ctx) (c : List Nat) : Prop :=
  PreSeg m ctx c ∧ m.read (ctx_after ctx c) = some stop

/-- The memory `m` holds exactly the chains `cs`. -/
structure Linked (m : Mem) (cs : List (List Nat)) : Prop where
  pos : 0 < cs.length
  len : m.buckets.length = cs.length + 1
  sentinel : m.buckets[cs.length]? = some Link.null
  seg : ∀ i c, cs[i]? = some c → Seg m (.bucket (i + 1)) (.slot i) c
  nodup : cs.flatten.Nodup

/-- Does node `e` carry a key equal to `key`? (`ctx_relative_` on a cell pointing to `e`) -/
def hit {K : Type} (ops : Ops K) (key : K) (e : Nat) : Bool :=
  ops.equal_to (ops.extract_key e) key

/-- The negation of `hit`. -/
def miss {K : Type} (ops : Ops K) (key : K) (e : Nat) : Bool :=
  !hit ops key e

/-- The table `t` holds exactly the chains `cs`, every other node is unlinked, and
`nitems_` counts the linked nodes. -/
structure Rep (t : Table) (cs : List (List Nat)) : Prop where
  linked : Linked t.toMem cs
  unlinked : ∀ e, e ∉ cs.flatten → t.next e = Link.null
  count : t.nitems = cs.flatten.length

/-- The policy's `equal_to` is an equivalence relation and equal keys hash equally. -/
structure EquivOps {K : Type} (ops : Ops K) : Prop where
  refl : ∀ a, ops.equal_to a a = true
  symm : ∀ a b, ops.equal_to a b = true → ops.equal_to b a = true
  trans : ∀ a b c, ops.equal_to a b = true → ops.equal_to b c = true → ops.equal_to a c = true
  hash_eq : ∀ a b, ops.equal_to a b = true → ops.hash a = ops.hash b

/-- Nodes `a` and `b` carry equal keys. -/
def same_key {K : Type} (ops : Ops K) (a b : Nat) : Prop :=
  ops.equal_to (ops.extract_key a) (ops.extract_key b) = true

/-- Equal keys are contiguous in the list `c`: whenever `a`, `x`, `b` occur in this
order and `a`, `b` carry equal keys, `x` carries that key too. -/
def Contig {K : Type} (ops : Ops K) (c : List Nat) : Prop :=
  ∀ a x b, [a, x, b].Sublist c → same_key ops a b → same_key ops x a

/-- Every node of chain `i` hashes to bucket `i`. -/
def Placed {K : Type} (ops : Ops K) (cs : List (List Nat)) : Prop :=
  ∀ i c, cs[i]? = some c → ∀ e ∈ c, ops.hash (ops.extract_key e) % cs.length = i

/-- The chains respect the hash placement and the key-group contiguity. -/
structure Good {K : Type} (ops : Ops K) (cs : List (List Nat)) : Prop where
  placed : Placed ops cs
  contig : ∀ c ∈ cs, Contig ops c

/-- The bucket index `hash(key) % (size() - 1)` in terms of the chains. -/
def bucket_of {K : Type} (ops : Ops K) (cs : List (List Nat)) (key : K) : Nat :=
  ops.hash key % cs.length

/-- The chain of bucket `b`. -/
def chain_at (cs : List (List Nat)) (b : Nat) : List Nat :=
  cs[b]?.getD []

/-- The chain that holds the nodes with key `key`. -/
def chain_of {K : Type} (ops : Ops K) (cs : List (List Nat)) (key : K) : List Nat :=
  chain_at cs (bucket_of ops cs key)

/-- The nodes of the chain of `key` that precede the first node with that key. -/
def before_key {K : Type} (ops : Ops K) (cs : List (List Nat)) (key : K) : List Nat :=
  (chain_of ops cs key).takeWhile (miss ops key)

/-- The nodes of the chain of `key` from the first node with that key on. -/
def from_key {K : Type} (ops : Ops K) (cs : List (List Nat)) (key : K) : List Nat :=
  (chain_of ops cs key).dropWhile (miss ops key)

/-- The chains after `push_no_resize(node)`: the node is linked in front of the first
node with an equal key, or at the end of the chain. -/
def chains_push {K : Type} (ops : Ops K) (cs : List (List Nat)) (node : Nat) : List (List Nat) :=
  cs.set (bucket_of ops cs (ops.extract_key node))
    (before_key ops cs (ops.extract_key node) ++ node :: from_key ops cs (ops.extract_key node))

/-- The chains after `pop_one(key)`: the first node with that key is unlinked. -/
def chains_pop_one {K : Type} (ops : Ops K) (cs : List (List Nat)) (key : K) : List (List Nat) :=
  cs.set (bucket_of ops cs key) (before_key ops cs key ++ (from_key ops cs key).tail)

/-- The chains after `pop_all(key)`: the run of nodes with that key is unlinked. -/
def chains_pop_all {K : Type} (ops : Ops K) (cs : List (List Nat)) (key : K) : List (List Nat) :=
  cs.set (bucket_of ops cs key)
    (before_key ops cs key ++ (from_key ops cs key).dropWhile (hit ops key))

/-- The chains after `pop(node)`: the node is unlinked from the chain of its key. -/
def chains_pop {K : Type} (ops : Ops K) (cs : List (List Nat)) (node : Nat) : List (List Nat) :=
  cs.set (bucket_of ops cs (ops.extract_key node))
    ((chain_of ops cs (ops.extract_key node)).erase node)

/-- Is node `x` the node `last` at which a range erase stops? -/
def stop_at (last : Option Nat) (x : Nat) : Bool :=
  decide (some x = last)

/-- The chains left when nodes are unlinked from the head of the first chain on, chain
after chain, until the node `last` is met. -/
def drop_until (last : Option Nat) : List (List Nat) → List (List Nat)
  | [] => []
  | c :: rest =>
    if c.any (stop_at last) then c.dropWhile (fun x => !stop_at last x) :: rest
    else [] :: drop_until last rest

/-- Put the nodes `l1` back in front of the first chain. -/
def cons_head (l1 : List Nat) : List (List Nat) → List (List Nat)
  | [] => []
  | c :: rest => (l1 ++ c) :: rest

/-- The chains after the inner loop of `pop(first, last, cbk)` started behind the nodes
`l1` of bucket `b`, where `S` is the rest of that chain. -/
def chains_pop_from (cs : List (List Nat)) (b : Nat) (l1 S : List Nat) (last : Option Nat) :
    List (List Nat) :=
  cs.take b ++ cons_head l1 (drop_until last (S :: cs.drop (b + 1)))

/-- The nodes unlinked by that loop, in order. -/
def popped_from (cs : List (List Nat)) (b : Nat) (S : List Nat) (last : Option Nat) : List Nat :=
  (S ++ (cs.drop (b + 1)).flatten).takeWhile (fun x => !stop_at last x)

/-- The chains after `pop(first, last, cbk)`. -/
def chains_pop_range {K : Type} (ops : Ops K) (cs : List (List Nat)) (first : Nat)
    (last : Option Nat) : List (List Nat) :=
  if first ∈ chain_of ops cs (ops.extract_key first) then
    chains_pop_from cs (bucket_of ops cs (ops.extract_key first))
      ((chain_of ops cs (ops.extract_key first)).takeWhile (fun x => x != first))
      ((chain_of ops cs (ops.extract_key first)).dropWhile (fun x => x != first)) last
  else cs

/-- The nodes passed to the callback by `pop(first, last, cbk)`, in order. -/
def popped_range {K : Type} (ops : Ops K) (cs : List (List Nat)) (first : Nat)
    (last : Option Nat) : List Nat :=
  if first ∈ chain_of ops cs (ops.extract_key first) then
    popped_from cs (bucket_of ops cs (ops.extract_key first))
      ((chain_of ops cs (ops.extract_key first)).dropWhile (fun x => x != first)) last
  else []

/-- The pointer to the first node of `c`, or `stop` when there is none. -/
def first_link (stop : Link) : List Nat → Link
  | [] => stop
  | e :: _ => .item e

/-- The value of the bucket slot `i` whose chain is `c`. -/
def head_link (i : Nat) (c : List Nat) : Link :=
  first_link (.bucket (i + 1)) c

/-- The bucket array that holds the chains `cs`. -/
def buckets_of (cs : List (List Nat)) : List Link :=
  (List.range cs.length).map (fun i => head_link i (chain_at cs i)) ++ [Link.null]

/-- The effect of the callbacks of `decompose` on the `next_` fields and on the
callback state: every node is unlinked and then handed to the callback. -/
def drain {σ : Type} (cbk : MemCallback σ) : List Nat → (Nat → Link) → σ → Option ((Nat → Link) × σ)
  | [], nx, s => some (nx, s)
  | e :: es, nx, s =>
    (cbk e (fun x => if x = e then Link.null else nx x) s).bind (fun r => drain cbk es r.1 r.2)

/-- A callback writes no `next_` field but that of the node it receives. -/
def CbkFrame {σ : Type} (cbk : MemCallback σ) : Prop :=
  ∀ e nx s nx1 s1, cbk e nx s = some (nx1, s1) → ∀ x, x ≠ e → nx1 x = nx x

/-- The chains built by the lambda of `resize`: every node of `es`, in order, is
linked at the head of the chain of its bucket. -/
def rehash_into {K : Type} (ops : Ops K) : List Nat → List (List Nat) → List (List Nat)
  | [], ncs => ncs
  | e :: es, ncs =>
    rehash_into ops es
      (ncs.set (bucket_of ops ncs (ops.extract_key e))
        (e :: chain_at ncs (bucket_of ops ncs (ops.extract_key e))))

/-- The chains after a `resize` that allocates `nb` real buckets. -/
def chains_rehash {K : Type} (ops : Ops K) (cs : List (List Nat)) (nb : Nat) : List (List Nat) :=
  rehash_into ops cs.flatten (List.replicate nb [])

/-- The table with `n` real buckets and no node linked. -/
def empty_table (n : Nat) : Table :=
  { buckets := init_buckets_ (n + 1), next := fun _ => Link.null, nitems := 0 }

/-- The fuel `fuel` lets every loop of an operation on `t` run to completion. -/
abbrev Table.enough (t : Table) (fuel : Nat) : Prop :=
  t.nitems + t.buckets.length ≤ fuel

/-- The table states reachable from a freshly constructed table by operations that run
to completion.  A node handed to an insert is not linked, a node factory yields an
unlinked node with the searched key, and the callbacks of the erasing operations do not
touch the table. -/
inductive Reachable {K : Type} (ops : Ops K) : Table → Prop
  | init (n : Nat) : Reachable ops (Table.mk_ n)
  | push_no_resize {t t1 : Table} {fuel node r : Nat} :
      Reachable ops t → t.enough fuel → t.toMem.linked node = false →
      push_no_resize ops fuel t node = some (t1, r) → Reachable ops t1
  | push {t t1 : Table} {fuel node r : Nat} :
      Reachable ops t → t.enough fuel → t.toMem.linked node = false →
      push ops fuel t node = some (t1, r) → Reachable ops t1
  | find_or_push_no_resize {G : Type} {t : Table} {fuel : Nat} {key : K}
      {gen : G → Option Nat × G} {g : G} {r : PushResult G} :
      Reachable ops t → t.enough fuel →
      (∀ node g1, gen g = (some node, g1) →
        t.toMem.linked node = false ∧ ops.equal_to (ops.extract_key node) key = true) →
      find_or_push_no_resize ops fuel t key gen g = some r → Reachable ops r.table
  | find_or_push {G : Type} {t : Table} {fuel : Nat} {key : K}
      {gen : G → Option Nat × G} {g : G} {r : PushResult G} :
      Reachable ops t → t.enough fuel →
      (∀ node g1, gen g = (some node, g1) →
        t.toMem.linked node = false ∧ ops.equal_to (ops.extract_key node) key = true) →
      find_or_push ops fuel t key gen g = some r → Reachable ops r.table
  | pop {t t1 : Table} {fuel node : Nat} {r : Option Nat} :
      Reachable ops t → t.enough fuel → pop ops fuel t node = some (t1, r) → Reachable ops t1
  | pop_range {σ : Type} {cbk : Nat → σ → σ} {t t1 : Table} {fuel first : Nat}
      {last : Option Nat} {s s1 : σ} :
      Reachable ops t → t.enough fuel → pop_range ops cbk fuel t first last s = some (t1, s1) →
      Reachable ops t1
  | pop_one {t t1 : Table} {fuel : Nat} {key : K} {r : Option Nat} :
      Reachable ops t → t.enough fuel → pop_one ops fuel t key = some (t1, r) → Reachable ops t1
  | pop_all {σ : Type} {cbk : Nat → σ → σ} {t t1 : Table} {fuel : Nat} {key : K} {s s1 : σ} :
      Reachable ops t → t.enough fuel → pop_all ops cbk fuel t key s = some (t1, s1) → Reachable ops t1
  | decompose {σ : Type} {cbk : Nat → σ → σ} {t t1 : Table} {fuel : Nat} {s s1 : σ} :
      Reachable ops t → t.enough fuel → decompose cbk fuel t s = some (t1, s1) → Reachable ops t1
  | resize {t t1 : Table} {fuel n : Nat} :
      Reachable ops t → t.enough fuel → resize ops fuel t n = some t1 → Reachable ops t1

/-- The invariant of reachable tables: the memory holds chains that respect the hash
placement and the key-group contiguity. -/
def Inv {K : Type} (ops : Ops K) (t : Table) : Prop :=
  ∃ cs, Rep t cs ∧ Good ops cs

/-- The chains after `resize(n)`: rehashed into `buckets_count n` buckets when `n` and
`buckets_count n` exceed the bucket count, unchanged otherwise. -/
def chains_resize {K : Type} (ops : Ops K) (cs : List (List Nat)) (n : Nat) : List (List Nat) :=
  if cs.length < n ∧ cs.length < buckets_count n then chains_rehash ops cs (buckets_count n)
  else cs

/-- A policy for examples: keys are naturals hashed by the identity, and the node at
address `e` stores the key `e / 10`. -/
def demo_ops : Ops Nat :=
  { hash := fun k => k, equal_to := fun a b => a == b, extract_key := fun e => e / 10 }

/-- A sequence of multi inserts (`push`) of unlinked nodes, each run to completion. -/
def push_seq {K : Type} (ops : Ops K) (fuel : Nat) : Table → List Nat → Option Table
  | t, [] => some t
  | t, node :: rest =>
    if t.nitems + t.buckets.length ≤ fuel ∧ t.toMem.linked node = false then
      (push ops fuel t node).bind (fun r => push_seq ops fuel r.1 rest)
    else none

/-- The table after the multi inserts of nodes 50, 120, 51, 30, 52 (keys 5, 12, 5, 3, 5). -/
def demo_multi : Table :=
  (push_seq demo_ops 32 Table.default_ [50, 120, 51, 30, 52]).getD Table.default_

/-- The table `demo_multi` after `resize(8)`. -/
def demo_resized : Table :=
  (resize demo_ops 32 demo_multi 8).getD Table.default_

/-- No two nodes of `es` carry equal keys. -/
def Unique {K : Type} (ops : Ops K) (es : List Nat) : Prop :=
  ∀ a ∈ es, ∀ b ∈ es, same_key ops a b → a = b

/-- The table states reachable from a freshly constructed table through unique inserts
(`find_or_push`, `find_or_push_no_resize`), erases and `resize`, each run to completion. -/
inductive UReachable {K : Type} (ops : Ops K) : Table → Prop
  | init (n : Nat) : UReachable ops (Table.mk_ n)
  | find_or_push_no_resize {G : Type} {t : Table} {fuel : Nat} {key : K}
      {gen : G → Option Nat × G} {g : G} {r : PushResult G} :
      UReachable ops t → t.enough fuel →
      (∀ node g1, gen g = (some node, g1) →
        t.toMem.linked node = false ∧ ops.equal_to (ops.extract_key node) key = true) →
      find_or_push_no_resize ops fuel t key gen g = some r → UReachable ops r.table
  | find_or_push {G : Type} {t : Table} {fuel : Nat} {key : K}
      {gen : G → Option Nat × G} {g : G} {r : PushResult G} :
      UReachable ops t → t.enough fuel →
      (∀ node g1, gen g = (some node, g1) →
        t.toMem.linked node = false ∧ ops.equal_to (ops.extract_key node) key = true) →
      find_or_push ops fuel t key gen g = some r → UReachable ops r.table
  | pop {t t1 : Table} {fuel node : Nat} {r : Option Nat} :
      UReachable ops t → t.enough fuel → pop ops fuel t node = some (t1, r) → UReachable ops t1
  | pop_range {σ : Type} {cbk : Nat → σ → σ} {t t1 : Table} {fuel first : Nat}
      {last : Option Nat} {s s1 : σ} :
      UReachable ops t → t.enough fuel → pop_range ops cbk fuel t first last s = some (t1, s1) →
      UReachable ops t1
  | pop_one {t t1 : Table} {fuel : Nat} {key : K} {r : Option Nat} :
      UReachable ops t → t.enough fuel → pop_one ops fuel t key = some (t1, r) →
      UReachable ops t1
  | pop_all {σ : Type} {cbk : Nat → σ → σ} {t t1 : Table} {fuel : Nat} {key : K} {s s1 : σ} :
      UReachable ops t → t.enough fuel → pop_all ops cbk fuel t key s = some (t1, s1) →
      UReachable ops t1
  | decompose {σ : Type} {cbk : Nat → σ → σ} {t t1 : Table} {fuel : Nat} {s s1 : σ} :
      UReachable ops t → t.enough fuel → decompose cbk fuel t s = some (t1, s1) →
      UReachable ops t1
  | resize {t t1 : Table} {fuel n : Nat} :
      UReachable ops t → t.enough fuel → resize ops fuel t n = some t1 → UReachable ops t1

/-- The chains after a unique insert that links `node` at the end of the chain of `key`. -/
def chains_append {K : Type} (ops : Ops K) (cs : List (List Nat)) (key : K) (node : Nat) :
    List (List Nat) :=
  cs.set (bucket_of ops cs key) (chain_of ops cs key ++ [node])

/-- The method `nodeallc_t::new_node` when it constructs the node at address `node`; the
factory state counts the allocations. -/
def new_node (node : Nat) : Nat → Option Nat × Nat :=
  fun g => (some node, g + 1)

/-- The method `intrhash_map_t::insert(value)` (and `intrhash_set_t::insert`), where
`node` is the node that `new_node(value)` constructs: its key is the key of `value`. -/
def map_insert {K : Type} (ops : Ops K) (fuel : Nat) (t : Table) (node : Nat) (g : Nat) :
    Option (PushResult Nat) :=
  find_or_push ops fuel t (ops.extract_key node) (new_node node) g

/-- The method `intrhash_multimap_t::insert(value)` (and `intrhash_multiset_t::insert`),
where `node` is the node that `new_node(value)` constructs; the result is the table and
the returned iterator. -/
def multimap_insert {K : Type} (ops : Ops K) (fuel : Nat) (t : Table) (node : Nat) :
    Option (Table × Link) :=
  (push ops fuel t node).map (fun r => (r.1, Link.item r.2))

/-- The values stored in the nodes of the examples. -/
def demo_value (node : Nat) : String :=
  if node = 10 then "a" else if node = 20 then "b" else if node = 11 then "c"
  else if node = 50 then "x" else if node = 51 then "y" else if node = 52 then "z" else ""

/-- A sequence of unique inserts (`intrhash_map_t::insert`) of unlinked nodes, each run
to completion. -/
def insert_seq {K : Type} (ops : Ops K) (fuel : Nat) : Table → List Nat → Option Table
  | t, [] => some t
  | t, node :: rest =>
    if t.nitems + t.buckets.length ≤ fuel ∧ t.toMem.linked node = false then
      (map_insert ops fuel t node 0).bind (fun r => insert_seq ops fuel r.table rest)
    else none

/-- The map after the unique inserts of nodes 10 and 20, that is of (1, "a") and (2, "b"). -/
def demo_map2 : Table :=
  (insert_seq demo_ops 32 Table.default_ [10, 20]).getD Table.default_

/-- The map after the unique inserts of (1, "a"), (2, "b") and (1, "c"). -/
def demo_map3 : Table :=
  (insert_seq demo_ops 32 Table.default_ [10, 20, 11]).getD Table.default_

/-- The table after the multi inserts of seven nodes with the distinct keys 1 to 7. -/
def demo_full : Table :=
  (push_seq demo_ops 32 Table.default_ [10, 20, 30, 40, 50, 60, 70]).getD Table.default_

/-- The table `demo_full` after the multi insert of an eighth node with key 8. -/
def demo_grown : Table :=
  ((push demo_ops 32 demo_full 80).map Prod.fst).getD Table.default_

/-- The method `erase(key)` of `intrhash_map_t` and `intrhash_set_t`: `pop_one` followed
by `delete_node`.  The list collects the destroyed nodes; the last component is the
returned count. -/
def map_erase {K : Type} (ops : Ops K) (fuel : Nat) (t : Table) (key : K)
    (destroyed : List Nat) : Option (Table × List Nat × Nat) := do
  let r ← pop_one ops fuel t key
  match r.2 with
  | some node => pure (r.1, destroyed ++ [node], 1)
  | none => pure (r.1, destroyed, 0)

/-- The method `erase(key)` of `intrhash_multimap_t` and `intrhash_multiset_t` (and
`ownintrhash_t::erase_all`): `pop_all` with a callback that destroys the node and
increments `result`. -/
def multimap_erase {K : Type} (ops : Ops K) (fuel : Nat) (t : Table) (key : K)
    (destroyed : List Nat) : Option (Table × List Nat × Nat) := do
  let r ← pop_all ops (fun node (s : List Nat × Nat) => (s.1 ++ [node], s.2 + 1)) fuel t key
    (destroyed, 0)
  pure (r.1, r.2.1, r.2.2)

/-- A callback of `decompose` that records, for each node it receives, the node and the
value of `node->linked()` at that moment. -/
def linked_probe : MemCallback (List (Nat × Bool)) :=
  fun item nx s => some (nx, s ++ [(item, decide (nx item ≠ Link.null))])

/-- The method `clear` of `ownintrhash_t` and of the adaptors: `decompose` with a callback
that destroys the node.  The list collects the destroyed nodes. -/
def clear (fuel : Nat) (t : Table) (destroyed : List Nat) : Option (Table × List Nat) :=
  decompose (fun node d => d ++ [node]) fuel t destroyed

/-- The operations of `intrhash_t` that change the table. -/
inductive OpKind where
  | push | push_no_resize | find_or_push | find_or_push_no_resize
  | pop | pop_range | pop_one | pop_all | decompose | resize
  deriving DecidableEq, Repr

/-- Does the operation call `resize`? -/
def OpKind.grows : OpKind → Bool
  | .push => true
  | .find_or_push => true
  | .resize => true
  | _ => false

/-- One operation of kind `k`, run to completion, takes the table `t` to `t1`.  The
premises on the arguments are those of `Reachable`. -/
inductive Step {K : Type} (ops : Ops K) : OpKind → Table → Table → Prop
  | push_no_resize {t t1 : Table} {fuel node r : Nat} :
      t.enough fuel → t.toMem.linked node = false →
      push_no_resize ops fuel t node = some (t1, r) → Step ops .push_no_resize t t1
  | push {t t1 : Table} {fuel node r : Nat} :
      t.enough fuel → t.toMem.linked node = false →
      push ops fuel t node = some (t1, r) → Step ops .push t t1
  | find_or_push_no_resize {G : Type} {t : Table} {fuel : Nat} {key : K}
      {gen : G → Option Nat × G} {g : G} {r : PushResult G} :
      t.enough fuel →
      (∀ node g1, gen g = (some node, g1) →
        t.toMem.linked node = false ∧ ops.equal_to (ops.extract_key node) key = true) →
      find_or_push_no_resize ops fuel t key gen g = some r →
      Step ops .find_or_push_no_resize t r.table
  | find_or_push {G : Type} {t : Table} {fuel : Nat} {key : K}
      {gen : G → Option Nat × G} {g : G} {r : PushResult G} :
      t.enough fuel →
      (∀ node g1, gen g = (some node, g1) →
        t.toMem.linked node = false ∧ ops.equal_to (ops.extract_key node) key = true) →
      find_or_push ops fuel t key gen g = some r → Step ops .find_or_push t r.table
  | pop {t t1 : Table} {fuel node : Nat} {r : Option Nat} :
      t.enough fuel → pop ops fuel t node = some (t1, r) → Step ops .pop t t1
  | pop_range {σ : Type} {cbk : Nat → σ → σ} {t t1 : Table} {fuel first : Nat}
      {last : Option Nat} {s s1 : σ} :
      t.enough fuel → pop_range ops cbk fuel t first last s = some (t1, s1) →
      Step ops .pop_range t t1
  | pop_one {t t1 : Table} {fuel : Nat} {key : K} {r : Option Nat} :
      t.enough fuel → pop_one ops fuel t key = some (t1, r) → Step ops .pop_one t t1
  | pop_all {σ : Type} {cbk : Nat → σ → σ} {t t1 : Table} {fuel : Nat} {key : K} {s s1 : σ} :
      t.enough fuel → pop_all ops cbk fuel t key s = some (t1, s1) → Step ops .pop_all t t1
  | decompose {σ : Type} {cbk : Nat → σ → σ} {t t1 : Table} {fuel : Nat} {s s1 : σ} :
      t.enough fuel → decompose cbk fuel t s = some (t1, s1) → Step ops .decompose t t1
  | resize {t t1 : Table} {fuel n : Nat} :
      t.enough fuel → resize ops fuel t n = some t1 → Step ops .resize t t1

/-- A finite sequence of operations takes the table `t` to `t1`. -/
inductive Run {K : Type} (ops : Ops K) : Table → Table → Prop
  | refl (t : Table) : Run ops t t
  | step {t t1 t2 : Table} {k : OpKind} : Run ops t t1 → Step ops k t1 t2 → Run ops t t2

/-- The value of the cell at which the loop
`for (; ctx_item_(ctx); ctx = next_ctx_item_(ctx))` over a chain stops: the first cell
on the way whose tag bit is set. -/
def chain_stop (m : Mem) : Nat → Ctx → Option Link
  | 0, _ => none
  | fuel + 1, ctx => do
    if (← ctx_item_ m ctx) then
      chain_stop m fuel (← next_ctx_item_ m ctx)
    else
      m.read ctx

/-- The method `resize` with the allocator made explicit.  `alloc n` tells whether
`allocator_.allocate(n)` in the constructor of `oneshot_vector_t` succeeds; when it
fails the exception leaves `resize` at the declaration of `buckets`.  The second
component of the result tells whether the call ended by that exception. -/
def resize_alloc {K : Type} (ops : Ops K) (alloc : Nat → Bool) (fuel : Nat) (t : Table)
    (n : Nat) : Option (Table × Bool) :=
  if n > t.buckets.length - 1 then
    let nbuckets := buckets_count n + 1
    if nbuckets > t.buckets.length then
      if alloc nbuckets then do
        let (t1, s) ← decompose_with (rehash_cbk ops) fuel t (init_buckets_ nbuckets, 0)
        pure ({ buckets := s.1, next := t1.next, nitems := s.2 }, false)
      else some (t, true)
    else some (t, false)
  else some (t, false)

/-- A node factory that always fails (its allocation throws). -/
def failing_gen : Nat → Option Nat × Nat :=
  fun g => (none, g + 1)

/-- The memory of `t` holds the chains `cs` and `nitems_` counts their nodes; nodes
outside the chains (the nodes of another table) may carry any link. -/
structure Holds (t : Table) (cs : List (List Nat)) : Prop where
  linked : Linked t.toMem cs
  count : t.nitems = cs.flatten.length

/-- The inner loop of the copy constructor for bucket `i`:
`while (!ctx_bucket_(ctx)) { push_item_(ins, gen(ctx.node())); ctx = next_ctx_item_(ctx); }`
where `ctx` walks a chain of `right` (bucket array `rb`) and `ins` is `&buckets_[i]`.
The clone factory `gen` is a state transformer.  The state of the loop is the bucket
array under construction, the `next_` fields of all nodes and the factory state. -/
def copy_chain {G : Type} (gen : Nat → G → Nat × G) (rb : List Link) (i : Nat) :
    Nat → List Link × (Nat → Link) × G → Ctx → Option (List Link × (Nat → Link) × G)
  | 0, _, _ => none
  | fuel + 1, s, ctx => do
    if (← ctx_bucket_ { buckets := rb, next := s.2.1 } ctx) then
      pure s
    else
      let e ← ctx_node { buckets := rb, next := s.2.1 } ctx
      let r := gen e s.2.2
      let m1 ← push_item_ { buckets := s.1, next := s.2.1 } (.slot i) r.1
      copy_chain gen rb i fuel (m1.buckets, m1.next, r.2)
        (← next_ctx_item_ { buckets := rb, next := m1.next } ctx)

/-- The loop `for (size_t i = 0; i != buckets_.size() - 1; ++i)` of the copy
constructor, with `k` buckets left. -/
def copy_loop {G : Type} (gen : Nat → G → Nat × G) (rb : List Link) (fuel : Nat) :
    Nat → Nat → List Link × (Nat → Link) × G → Option (List Link × (Nat → Link) × G)
  | 0, _, s => some s
  | k + 1, i, s => do
    copy_loop gen rb fuel k (i + 1) (← copy_chain gen rb i fuel s (.slot i))

/-- The protected constructor `intrhash_t(const intrhash_t& right, F gen)`.  The result is
the new table, whose `next` component is the node memory after the construction (it
still holds the links of the nodes of `right`), and the factory state. -/
def copy_construct {G : Type} (gen : Nat → G → Nat × G) (fuel : Nat) (right : Table) (g : G) :
    Option (Table × G) :=
  if right.buckets.length = 0 then none
  else do
    let s ← copy_loop gen right.buckets fuel (right.buckets.length - 1) 0
      (init_buckets_ right.buckets.length, right.next, g)
    pure ({ buckets := s.1, next := s.2.1, nitems := right.nitems }, s.2.2)

/-- The chain of the clones of the nodes of `c`, as the copy constructor links them. -/
def clone_chain (clone : Nat → Nat) (c : List Nat) : List Nat :=
  (c.map clone).reverse

/-- The clone of node 10 * k + d: the node 10 * k + d + 5, which carries the same key
under `demo_ops`. -/
def demo_clone (e : Nat) : Nat := e + 5

/-- A clone factory that logs its arguments. -/
def demo_clone_gen : Nat → List Nat → Nat × List Nat :=
  fun e log => (demo_clone e, log ++ [e])

/-- The copy of `demo_multi`. -/
def demo_copy : Table :=
  ((copy_construct demo_clone_gen 32 demo_multi []).map Prod.fst).getD Table.default_

/-- The chains of the copy when the first `i` source buckets have been cloned. -/
def copy_chains (clone : Nat → Nat) (cs : List (List Nat)) (i : Nat) : List (List Nat) :=
  (cs.take i).map (clone_chain clone) ++ List.replicate (cs.length - i) []

/-- The table states reachable from a freshly constructed table by the resizing inserts
`push` and `find_or_push`, the erases, `decompose` and `resize`, but not by the inserts
`push_no_resize` and `find_or_push_no_resize`. -/
inductive RReachable {K : Type} (ops : Ops K) : Table → Prop
  | init (n : Nat) : RReachable ops (Table.mk_ n)
  | step {t t1 : Table} {k : OpKind} :
      RReachable ops t → Step ops k t t1 →
      k ≠ OpKind.push_no_resize → k ≠ OpKind.find_or_push_no_resize → RReachable ops t1

/-- The load of the table is bounded: `size()` is at most the bucket count, or the
bucket count has reached the maximum of the table of `buckets_count`. -/
def Loaded (t : Table) : Prop :=
  t.nitems + 1 ≤ t.buckets.length ∨ 4294967291 + 1 ≤ t.buckets.length

/-- The pointer `iter.node()` of an iterator; `none` is the null pointer of `end()`. -/
def Link.node : Link → Option Nat
  | .item e => some e
  | _ => none

/-! ## Segments and cell updates -/

theorem ctx_after_append (ctx : Ctx) (l1 l2 : List Nat) :
    ctx_after ctx (l1 ++ l2) = ctx_after (ctx_after ctx l1) l2 := by
  induction l1 generalizing ctx with
  | nil => rfl
  | cons e l ih => simpa [ctx_after] using ih (.entry e)

theorem ctx_after_snoc (ctx : Ctx) (l : List Nat) (e : Nat) :
    ctx_after ctx (l ++ [e]) = .entry e := by
  simp [ctx_after_append, ctx_after]

theorem ctx_after_cases (ctx : Ctx) (l : List Nat) :
    (l = [] ∧ ctx_after ctx l = ctx) ∨ ∃ l0 p, l = l0 ++ [p] ∧ ctx_after ctx l = .entry p := by
  rcases List.eq_nil_or_concat l with h | ⟨l0, p, h⟩
  · left; subst h; exact ⟨rfl, rfl⟩
  · right
    rw [List.concat_eq_append] at h
    refine ⟨l0, p, h, ?_⟩; subst h; exact ctx_after_snoc _ _ _

theorem preSeg_append (m : Mem) (ctx : Ctx) (l1 l2 : List Nat) :
    PreSeg m ctx (l1 ++ l2) ↔ PreSeg m ctx l1 ∧ PreSeg m (ctx_after ctx l1) l2 := by
  induction l1 generalizing ctx with
  | nil => simp [PreSeg, ctx_after]
  | cons e l ih => simp [PreSeg, ctx_after, ih, and_assoc]

theorem seg_append (m : Mem) (stop : Link) (ctx : Ctx) (l1 l2 : List Nat) :
    Seg m stop ctx (l1 ++ l2) ↔ PreSeg m ctx l1 ∧ Seg m stop (ctx_after ctx l1) l2 := by
  simp [Seg, preSeg_append, ctx_after_append, and_assoc]

theorem seg_nil (m : Mem) (stop : Link) (ctx : Ctx) :
    Seg m stop ctx [] ↔ m.read ctx = some stop := by
  simp [Seg, PreSeg, ctx_after]

theorem seg_cons (m : Mem) (stop : Link) (ctx : Ctx) (e : Nat) (c : List Nat) :
    Seg m stop ctx (e :: c) ↔ m.read ctx = some (.item e) ∧ Seg m stop (.entry e) c := by
  simp [Seg, PreSeg, ctx_after, and_assoc]

theorem preSeg_congr {m m1 : Mem} {ctx : Ctx} {l : List Nat}
    (hn : ∀ x ∈ l.dropLast, m1.next x = m.next x)
    (hc : l ≠ [] → m1.read ctx = m.read ctx) (h : PreSeg m ctx l) : PreSeg m1 ctx l := by
  induction l generalizing ctx with
  | nil => trivial
  | cons e l ih =>
    obtain ⟨h1, h2⟩ := h
    refine ⟨by rw [hc (by simp), h1], ih ?_ ?_ h2⟩
    · intro x hx
      apply hn
      cases l with
      | nil => simp at hx
      | cons y l => simp [List.dropLast] at hx ⊢; tauto
    · intro hl
      cases l with
      | nil => exact absurd rfl hl
      | cons y l => simp [Mem.read, hn e (by simp [List.dropLast])]

theorem seg_congr {m m1 : Mem} {stop : Link} {ctx : Ctx} {l : List Nat}
    (hn : ∀ x ∈ l, m1.next x = m.next x)
    (hc : m1.read ctx = m.read ctx) (h : Seg m stop ctx l) : Seg m1 stop ctx l := by
  induction l generalizing ctx with
  | nil => rw [seg_nil] at h ⊢; rw [hc, h]
  | cons e l ih =>
    rw [seg_cons] at h ⊢
    refine ⟨by rw [hc, h.1], ih (fun x hx => hn x (by simp [hx])) ?_ h.2⟩
    simp [Mem.read, hn e (by simp)]

theorem flatten_split {cs : List (List Nat)} {b : Nat} {c : List Nat} (hb : cs[b]? = some c) :
    cs.flatten = (cs.take b).flatten ++ c ++ (cs.drop (b + 1)).flatten := by
  obtain ⟨hlt, hc⟩ := List.getElem?_eq_some_iff.mp hb
  conv_lhs => rw [← List.take_append_drop b cs, List.drop_eq_getElem_cons hlt]
  simp [hc]

theorem flatten_set {cs : List (List Nat)} {b : Nat} (hb : b < cs.length) (c1 : List Nat) :
    (cs.set b c1).flatten = (cs.take b).flatten ++ c1 ++ (cs.drop (b + 1)).flatten := by
  rw [List.set_eq_take_append_cons_drop]
  simp [hb]

theorem chain_sublist_flatten {cs : List (List Nat)} {b : Nat} {c : List Nat}
    (hb : cs[b]? = some c) : c.Sublist cs.flatten :=
  List.sublist_flatten_of_mem (List.getElem?_mem hb)

theorem chains_disjoint {cs : List (List Nat)} (hnd : cs.flatten.Nodup) {i j : Nat}
    {c d : List Nat} (hi : cs[i]? = some c) (hj : cs[j]? = some d) (hij : i ≠ j)
    {x : Nat} (hx : x ∈ c) : x ∉ d := by
  obtain ⟨hil, hic⟩ := List.getElem?_eq_some_iff.mp hi
  obtain ⟨hjl, hjc⟩ := List.getElem?_eq_some_iff.mp hj
  have hp := (List.nodup_flatten.mp hnd).2
  rw [List.pairwise_iff_getElem] at hp
  intro hxd
  rcases Nat.lt_or_gt_of_ne hij with h | h
  · exact hp i j hil hjl h (hic ▸ hx) (hjc ▸ hxd)
  · exact hp j i hjl hil h (hjc ▸ hxd) (hic ▸ hx)

theorem Mem.write_spec {m mw : Mem} {ctx : Ctx} {v : Link} (h : m.write ctx v = some mw) :
    mw.buckets.length = m.buckets.length ∧
    (∀ i, Ctx.slot i ≠ ctx → mw.buckets[i]? = m.buckets[i]?) ∧
    (∀ x, Ctx.entry x ≠ ctx → mw.next x = m.next x) ∧
    mw.read ctx = some v := by
  cases ctx with
  | slot i =>
    simp only [Mem.write] at h
    split at h
    · rename_i hi
      simp only [Option.some.injEq] at h
      subst h
      refine ⟨by simp, ?_, by simp, ?_⟩
      · intro j hj
        have : i ≠ j := fun hh => hj (by rw [hh])
        simp [List.getElem?_set, this]
      · simp [Mem.read, List.getElem?_set, hi]
    · simp at h
  | entry e =>
    simp only [Mem.write, Option.some.injEq] at h
    subst h
    refine ⟨rfl, fun _ _ => rfl, ?_, by simp [Mem.read, Mem.set_next]⟩
    intro x hx
    have : x ≠ e := fun hh => hx (by rw [hh])
    simp [Mem.set_next, this]

theorem Mem.write_some {m : Mem} {ctx : Ctx} {v0 : Link} (h : m.read ctx = some v0) (v : Link) :
    ∃ mw, m.write ctx v = some mw := by
  cases ctx with
  | slot i =>
    have hi : i < m.buckets.length := by
      simp only [Mem.read] at h
      exact (List.getElem?_eq_some_iff.mp h).1
    exact ⟨{ m with buckets := m.buckets.set i v }, by simp [Mem.write, hi]⟩
  | entry e => exact ⟨_, rfl⟩

theorem seg_move {m m1 : Mem} {stop : Link} {ctx ctx1 : Ctx} {l : List Nat}
    (hn : ∀ x ∈ l, m1.next x = m.next x)
    (hc : m1.read ctx1 = m.read ctx) (h : Seg m stop ctx l) : Seg m1 stop ctx1 l := by
  cases l with
  | nil => rw [seg_nil] at h ⊢; rw [hc, h]
  | cons e l =>
    rw [seg_cons] at h ⊢
    refine ⟨by rw [hc, h.1], seg_congr (fun x hx => hn x (by simp [hx])) ?_ h.2⟩
    simp [Mem.read, hn e (by simp)]

theorem ctx_after_slot_ne {b i : Nat} {l : List Nat} (h : i ≠ b) :
    Ctx.slot i ≠ ctx_after (.slot b) l := by
  rcases ctx_after_cases (.slot b) l with ⟨_, h2⟩ | ⟨l0, p, _, h2⟩
  · rw [h2]; simpa using h
  · rw [h2]; simp

theorem ctx_after_entry_ne {b x : Nat} {l : List Nat} (h : x ∉ l) :
    Ctx.entry x ≠ ctx_after (.slot b) l := by
  rcases ctx_after_cases (.slot b) l with ⟨_, h2⟩ | ⟨l0, p, h1, h2⟩
  · rw [h2]; simp
  · rw [h2]; subst h1; simp at h ⊢; tauto

theorem ctx_after_entry_ne_dropLast {b x : Nat} {l : List Nat} (hnd : l.Nodup)
    (h : x ∈ l.dropLast) : Ctx.entry x ≠ ctx_after (.slot b) l := by
  rcases ctx_after_cases (.slot b) l with ⟨_, h2⟩ | ⟨l0, p, h1, h2⟩
  · rw [h2]; simp
  · rw [h2]; subst h1
    simp at h
    have := List.nodup_append.mp hnd
    intro hh
    simp at hh
    subst hh
    exact this.2.2 h (by simp)

theorem Linked.chain_nodup {m : Mem} {cs : List (List Nat)} (h : Linked m cs) {b : Nat}
    {c : List Nat} (hb : cs[b]? = some c) : c.Nodup :=
  (chain_sublist_flatten hb).nodup h.nodup

theorem lt_of_get {cs : List (List Nat)} {b : Nat}
    {c : List Nat} (hb : cs[b]? = some c) : b < cs.length :=
  (List.getElem?_eq_some_iff.mp hb).1

theorem Linked.splice {m m1 : Mem} {cs : List (List Nat)} {b : Nat} {l1 l2 l3 : List Nat}
    {e : Nat} (h : Linked m cs) (hb : cs[b]? = some (l1 ++ l2))
    (hlen : m1.buckets.length = m.buckets.length)
    (hslot : ∀ i, Ctx.slot i ≠ ctx_after (.slot b) l1 → m1.buckets[i]? = m.buckets[i]?)
    (hnext : ∀ x, Ctx.entry x ≠ ctx_after (.slot b) l1 → x ≠ e → m1.next x = m.next x)
    (hnew : Seg m1 (.bucket (b + 1)) (ctx_after (.slot b) l1) l3)
    (he1 : e ∉ l1) (he2 : ∀ j c, j ≠ b → cs[j]? = some c → e ∉ c)
    (hnd : (cs.set b (l1 ++ l3)).flatten.Nodup) :
    Linked m1 (cs.set b (l1 ++ l3)) := by
  have hblt : b < cs.length := lt_of_get hb
  have hcnd : (l1 ++ l2).Nodup := h.chain_nodup hb
  have hl1nd : l1.Nodup := (List.nodup_append.mp hcnd).1
  refine ⟨by simpa using h.pos, by simpa [hlen] using h.len, ?_, ?_, hnd⟩
  · rw [List.length_set, hslot _ (ctx_after_slot_ne (by omega))]
    exact h.sentinel
  · intro i c hi
    rw [List.getElem?_set] at hi
    by_cases hbi : b = i
    · subst hbi
      simp only [hblt, if_true] at hi
      simp only [Option.some.injEq] at hi
      subst hi
      rw [seg_append]
      refine ⟨?_, hnew⟩
      have hold := ((seg_append _ _ _ _ _).mp (h.seg b _ hb)).1
      refine preSeg_congr ?_ ?_ hold
      · intro x hx
        exact hnext x (ctx_after_entry_ne_dropLast hl1nd hx)
          (fun hxe => he1 (hxe ▸ List.mem_of_mem_dropLast hx))
      · intro hne
        simp only [Mem.read]
        apply hslot
        rcases ctx_after_cases (.slot b) l1 with ⟨h1, _⟩ | ⟨l0, p, _, h2⟩
        · exact absurd h1 hne
        · rw [h2]; simp
    · simp only [hbi, if_false] at hi
      refine seg_congr ?_ ?_ (h.seg i c hi)
      · intro x hx
        refine hnext x (ctx_after_entry_ne ?_) ?_
        · intro hx1
          exact chains_disjoint h.nodup hi hb (Ne.symm hbi) hx (by simp [hx1])
        · intro hxe
          exact he2 i c (Ne.symm hbi) hi (hxe ▸ hx)
      · simp only [Mem.read]
        exact hslot i (ctx_after_slot_ne (Ne.symm hbi))

theorem Linked.read_after {m : Mem} {cs : List (List Nat)} (h : Linked m cs) {b : Nat}
    {l1 l2 : List Nat} (hb : cs[b]? = some (l1 ++ l2)) :
    Seg m (.bucket (b + 1)) (ctx_after (.slot b) l1) l2 :=
  ((seg_append _ _ _ _ _).mp (h.seg b _ hb)).2

theorem set_sublist_nodup {cs : List (List Nat)} {b : Nat} {c c1 : List Nat}
    (hb : cs[b]? = some c) (hs : c1.Sublist c) (hnd : cs.flatten.Nodup) :
    (cs.set b c1).flatten.Nodup := by
  rw [flatten_set (lt_of_get hb)]
  rw [flatten_split hb] at hnd
  exact ((List.Sublist.refl _).append hs |>.append (List.Sublist.refl _)).nodup hnd

theorem mem_flatten_of_get {cs : List (List Nat)} {b : Nat} {c : List Nat}
    (hb : cs[b]? = some c) {x : Nat} (hx : x ∈ c) : x ∈ cs.flatten :=
  List.mem_flatten_of_mem (List.getElem?_mem hb) hx

theorem Linked.pop_item {m : Mem} {cs : List (List Nat)} (h : Linked m cs) {b : Nat}
    {l1 l2 : List Nat} {e : Nat} (hb : cs[b]? = some (l1 ++ e :: l2)) :
    ∃ m1, pop_item_ m (ctx_after (.slot b) l1) = some (m1, e) ∧
      Linked m1 (cs.set b (l1 ++ l2)) ∧ m1.next e = Link.null ∧
      (∀ x, x ≠ e → Ctx.entry x ≠ ctx_after (.slot b) l1 → m1.next x = m.next x) := by
  have hcnd := h.chain_nodup hb
  have hseg := h.read_after hb
  rw [seg_cons] at hseg
  obtain ⟨hrd, hrest⟩ := hseg
  obtain ⟨mw, hw⟩ := Mem.write_some hrd (m.next e)
  obtain ⟨hwl, hws, hwn, hwr⟩ := Mem.write_spec hw
  have he1 : e ∉ l1 := fun hh => by
    have := (List.nodup_append.mp hcnd).2.2 hh (List.mem_cons_self _ _)
    exact this
  have hctxe : Ctx.entry e ≠ ctx_after (.slot b) l1 := ctx_after_entry_ne he1
  have hnext : ∀ x, x ≠ e → Ctx.entry x ≠ ctx_after (.slot b) l1 →
      (mw.set_next e Link.null).next x = m.next x := by
    intro x hxe hx
    simp [Mem.set_next, hxe, hwn x hx]
  refine ⟨mw.set_next e .null, ?_, ?_, by simp [Mem.set_next], hnext⟩
  · simp [pop_item_, ctx_node, hrd, hw]
  · refine h.splice (e := e) hb (by simpa [Mem.set_next] using hwl)
      (fun i hi => by simpa [Mem.set_next] using hws i hi)
      (fun x hx hxe => hnext x hxe hx) ?_ he1 ?_ ?_
    · refine seg_move ?_ ?_ hrest
      · intro x hx
        have hxe : x ≠ e := fun hh => by
          subst hh
          have := (List.nodup_append.mp hcnd).2.1
          exact (List.nodup_cons.mp this).1 hx
        refine hnext x hxe (ctx_after_entry_ne ?_)
        intro hx1
        exact (List.nodup_append.mp hcnd).2.2 hx1 (by simp [hx])
      · have : (mw.set_next e Link.null).read (ctx_after (.slot b) l1) = mw.read (ctx_after (.slot b) l1) := by
          cases hc : ctx_after (.slot b) l1 with
          | slot i => rfl
          | entry x =>
            have : x ≠ e := fun hh => hctxe (by rw [hc, hh])
            simp [Mem.read, Mem.set_next, this]
        rw [this, hwr]; rfl
    · intro j c hj hc hec
      exact chains_disjoint h.nodup hc hb hj hec (by simp)
    · exact set_sublist_nodup hb (by simp) h.nodup

theorem Linked.push_item {m : Mem} {cs : List (List Nat)} (h : Linked m cs) {b : Nat}
    {l1 l2 : List Nat} {e : Nat} (hb : cs[b]? = some (l1 ++ l2)) (he : e ∉ cs.flatten) :
    ∃ m1, push_item_ m (ctx_after (.slot b) l1) e = some m1 ∧
      Linked m1 (cs.set b (l1 ++ e :: l2)) ∧
      m1.read (ctx_after (.slot b) l1) = some (.item e) ∧
      m1.buckets.length = m.buckets.length ∧
      (∀ x, x ≠ e → Ctx.entry x ≠ ctx_after (.slot b) l1 → m1.next x = m.next x) := by
  have hseg := h.read_after hb
  have hec : e ∉ l1 ++ l2 := fun hh => he (mem_flatten_of_get hb hh)
  have he1 : e ∉ l1 := fun hh => hec (by simp [hh])
  have he2 : e ∉ l2 := fun hh => hec (by simp [hh])
  have hctxe : Ctx.entry e ≠ ctx_after (.slot b) l1 := ctx_after_entry_ne he1
  obtain ⟨v, hv⟩ : ∃ v, m.read (ctx_after (.slot b) l1) = some v := by
    cases l2 with
    | nil => exact ⟨_, (seg_nil _ _ _).mp hseg⟩
    | cons y l => exact ⟨_, ((seg_cons _ _ _ _ _).mp hseg).1⟩
  have hv1 : (m.set_next e v).read (ctx_after (.slot b) l1) = some v := by
    rw [← hv]
    cases hc : ctx_after (.slot b) l1 with
    | slot i => rfl
    | entry x =>
      have : x ≠ e := fun hh => hctxe (by rw [hc, hh])
      simp [Mem.read, Mem.set_next, this]
  obtain ⟨m1, hw⟩ := Mem.write_some hv1 (.item e)
  obtain ⟨hwl, hws, hwn, hwr⟩ := Mem.write_spec hw
  have hnext : ∀ x, x ≠ e → Ctx.entry x ≠ ctx_after (.slot b) l1 → m1.next x = m.next x := by
    intro x hxe hx
    rw [hwn x hx]
    simp [Mem.set_next, hxe]
  have hnd : (cs.set b (l1 ++ e :: l2)).flatten.Nodup := by
    rw [flatten_set (lt_of_get hb)]
    have h0 := h.nodup
    rw [flatten_split hb] at h0 he
    have hp : ((List.take b cs).flatten ++ (l1 ++ e :: l2) ++ (List.drop (b + 1) cs).flatten).Perm
        (e :: ((List.take b cs).flatten ++ (l1 ++ l2) ++ (List.drop (b + 1) cs).flatten)) := by
      simp only [List.append_assoc]
      refine (List.perm_middle.append_left _ |>.trans ?_)
      exact List.perm_middle
    exact hp.nodup_iff.mpr (List.nodup_cons.mpr ⟨he, h0⟩)
  refine ⟨m1, by simp [push_item_, hv, hw], ?_, hwr, by simpa [Mem.set_next] using hwl, hnext⟩
  refine h.splice (e := e) hb (by simpa [Mem.set_next] using hwl)
    (fun i hi => by simpa [Mem.set_next] using hws i hi)
    (fun x hx hxe => hnext x hxe hx) ?_ he1 ?_ hnd
  · rw [seg_cons]
    refine ⟨hwr, seg_move ?_ ?_ hseg⟩
    · intro x hx
      have hxe : x ≠ e := fun hh => he2 (hh ▸ hx)
      refine hnext x hxe (ctx_after_entry_ne ?_)
      intro hx1
      exact (List.nodup_append.mp (h.chain_nodup hb)).2.2 hx1 hx
    · rw [hv]
      simp [Mem.read, hwn e hctxe, Mem.set_next]
  · intro j c _ hc hh
    exact he (mem_flatten_of_get hc hh)

theorem find_ctx_loop_seg {K : Type} (ops : Ops K) {m : Mem} {j : Nat} (key : K)
    {c : List Nat} {ctx : Ctx} (h : Seg m (.bucket j) ctx c) {fuel : Nat} (hf : c.length < fuel) :
    find_ctx_loop ops m key fuel ctx =
      some (ctx_after ctx (c.takeWhile (miss ops key)), c.any (hit ops key)) := by
  induction c generalizing ctx fuel with
  | nil =>
    obtain ⟨f, rfl⟩ : ∃ f, fuel = f + 1 := ⟨fuel - 1, by omega⟩
    rw [seg_nil] at h
    simp [find_ctx_loop, ctx_item_, ctx_bucket_, h, ctx_after]
  | cons e c ih =>
    obtain ⟨f, rfl⟩ : ∃ f, fuel = f + 1 := ⟨fuel - 1, by omega⟩
    rw [seg_cons] at h
    have hf1 : c.length < f := by simpa using hf
    by_cases hh : hit ops key e = true
    · have hh1 : ops.equal_to (ops.extract_key e) key = true := by simpa [hit] using hh
      simp [find_ctx_loop, ctx_item_, ctx_bucket_, h.1, ctx_relative_, ctx_node, hit, miss,
        hh1, ctx_after, List.takeWhile]
    · have hh1 : ops.equal_to (ops.extract_key e) key = false := by simpa [hit] using hh
      simp [find_ctx_loop, ctx_item_, ctx_bucket_, h.1, ctx_relative_, ctx_node, hit, miss,
        next_ctx_item_, hh1, ctx_after]
      have := ih h.2 hf1
      simpa [hit, miss] using this

theorem Linked.base_ctx {K : Type} (ops : Ops K) {m : Mem} {cs : List (List Nat)}
    (h : Linked m cs) (key : K) :
    base_ctx_ ops m key = some (.slot (ops.hash key % cs.length)) := by
  have hp := h.pos
  simp only [base_ctx_, h.len, Nat.add_sub_cancel]
  rw [if_neg (by omega)]

theorem Linked.bucket_lt {K : Type} (ops : Ops K) {m : Mem} {cs : List (List Nat)}
    (h : Linked m cs) (key : K) : ops.hash key % cs.length < cs.length :=
  Nat.mod_lt _ h.pos

theorem chain_length_le {cs : List (List Nat)} {b : Nat} {c : List Nat}
    (hb : cs[b]? = some c) : c.length ≤ cs.flatten.length :=
  (chain_sublist_flatten hb).length_le

theorem Linked.find_ctx {K : Type} (ops : Ops K) {m : Mem} {cs : List (List Nat)}
    (h : Linked m cs) (key : K) {c : List Nat} (hb : cs[ops.hash key % cs.length]? = some c)
    {fuel : Nat} (hf : cs.flatten.length < fuel) :
    find_ctx_ ops fuel m key =
      some (ctx_after (.slot (ops.hash key % cs.length)) (c.takeWhile (miss ops key)),
        c.any (hit ops key)) := by
  simp only [find_ctx_, h.base_ctx ops key, Option.bind_eq_bind, Option.some_bind]
  exact find_ctx_loop_seg ops key (h.seg _ _ hb) (lt_of_le_of_lt (chain_length_le hb) hf)

theorem get_bucket {cs : List (List Nat)} {b : Nat} (hb : b < cs.length) :
    cs[b]? = some (cs[b]?.getD []) := by
  simp [List.getElem?_eq_getElem hb]

theorem Rep.pop_item_rep {t : Table} {cs : List (List Nat)} (h : Rep t cs) {b : Nat}
    {l1 l2 : List Nat} {e : Nat} (hb : cs[b]? = some (l1 ++ e :: l2)) :
    ∃ m1, pop_item_ t.toMem (ctx_after (.slot b) l1) = some (m1, e) ∧
      Rep { toMem := m1, nitems := t.nitems - 1 } (cs.set b (l1 ++ l2)) := by
  obtain ⟨m1, h1, h2, h3, h4⟩ := h.linked.pop_item hb
  refine ⟨m1, h1, h2, ?_, ?_⟩
  · intro x hx
    by_cases hxe : x = e
    · subst hxe; exact h3
    · have hx1 : x ∉ cs.flatten := by
        intro hh
        apply hx
        rw [flatten_set (lt_of_get hb)]
        rw [flatten_split hb] at hh
        simp only [List.mem_append, List.mem_cons] at hh ⊢
        tauto
      have : x ∉ l1 := fun hh => hx1 (mem_flatten_of_get hb (by simp [hh]))
      show m1.next x = _
      rw [h4 x hxe (ctx_after_entry_ne this)]
      exact h.unlinked x hx1
  · show t.nitems - 1 = _
    rw [h.count, flatten_set (lt_of_get hb), flatten_split hb]
    simp
    omega

theorem Rep.push_item_rep {t : Table} {cs : List (List Nat)} (h : Rep t cs) {b : Nat}
    {l1 l2 : List Nat} {e : Nat} (hb : cs[b]? = some (l1 ++ l2)) (he : e ∉ cs.flatten) :
    ∃ m1, push_item_ t.toMem (ctx_after (.slot b) l1) e = some m1 ∧
      Rep { toMem := m1, nitems := t.nitems + 1 } (cs.set b (l1 ++ e :: l2)) ∧
      m1.read (ctx_after (.slot b) l1) = some (.item e) := by
  obtain ⟨m1, h1, h2, h3, _, h4⟩ := h.linked.push_item hb he
  refine ⟨m1, h1, ⟨h2, ?_, ?_⟩, h3⟩
  · intro x hx
    have hxe : x ≠ e := by
      intro hh
      apply hx
      rw [flatten_set (lt_of_get hb), hh]
      simp
    have hx1 : x ∉ cs.flatten := by
      intro hh
      apply hx
      rw [flatten_set (lt_of_get hb)]
      rw [flatten_split hb] at hh
      simp only [List.mem_append, List.mem_cons] at hh ⊢
      tauto
    have : x ∉ l1 := fun hh => hx1 (mem_flatten_of_get hb (by simp [hh]))
    show m1.next x = _
    rw [h4 x hxe (ctx_after_entry_ne this)]
    exact h.unlinked x hx1
  · show t.nitems + 1 = _
    rw [h.count, flatten_set (lt_of_get hb), flatten_split hb]
    simp
    omega

theorem Contig.sublist {K : Type} {ops : Ops K} {c c1 : List Nat} (h : Contig ops c)
    (hs : c1.Sublist c) : Contig ops c1 :=
  fun a x b hsub hab => h a x b (hsub.trans hs) hab

theorem Contig.reverse {K : Type} {ops : Ops K} (he : EquivOps ops) {c : List Nat}
    (h : Contig ops c) : Contig ops c.reverse := by
  intro a x b hsub hab
  have h1 : [b, x, a].Sublist c := by
    have := List.reverse_sublist.mpr hsub
    simpa using this
  have h2 := h b x a h1 (he.symm _ _ hab)
  exact he.trans _ _ _ h2 (he.symm _ _ hab)

theorem contig_insert {K : Type} {ops : Ops K} (he : EquivOps ops) {pre suf : List Nat}
    {e : Nat} (h : Contig ops (pre ++ suf))
    (hpre : ∀ x ∈ pre, ¬ same_key ops x e)
    (hsuf : suf = [] ∨ ∃ y r, suf = y :: r ∧ same_key ops y e) :
    Contig ops (pre ++ e :: suf) := by
  intro a x b hsub hab
  obtain ⟨s1, s2, hs, hs1, hs2⟩ := List.sublist_append_iff.mp hsub
  rcases List.sublist_cons_iff.mp hs2 with hs2 | ⟨r, rfl, hr⟩
  · exact h a x b (hs ▸ hs1.append hs2) hab
  · match s1, hs, hs1 with
    | [], hs, _ =>
      simp only [List.nil_append, List.cons.injEq] at hs
      obtain ⟨rfl, rfl⟩ := hs
      rcases hsuf with rfl | ⟨y, r, rfl, hy⟩
      · simp at hr
      · rcases List.sublist_cons_iff.mp hr with hr | ⟨r1, hr1, _⟩
        · have h3 : [y, x, b].Sublist (pre ++ y :: r) :=
            (List.Sublist.cons₂ y hr).trans (List.sublist_append_right pre (y :: r))
          have := h y x b h3 (he.trans _ _ _ hy hab)
          exact he.trans _ _ _ this hy
        · simp only [List.cons.injEq] at hr1
          rw [hr1.1]; exact hy
    | [a1], hs, hs1 =>
      simp only [List.singleton_append, List.cons.injEq] at hs
      obtain ⟨rfl, rfl, rfl⟩ := hs
      rcases hsuf with rfl | ⟨y, r, rfl, hy⟩
      · simp at hr
      · have ha : a ∈ pre := by simpa using hs1.subset (List.mem_singleton_self a)
        have hya : same_key ops y a := by
          rcases List.sublist_cons_iff.mp hr with hr | ⟨r1, hr1, _⟩
          · have h3 : [a, y, b].Sublist (pre ++ y :: r) := by
              have := hs1.append (List.Sublist.cons₂ y hr)
              simpa using this
            exact h a y b h3 hab
          · simp only [List.cons.injEq] at hr1
            rw [← hr1.1]; exact he.symm _ _ hab
        exact he.trans _ _ _ (he.symm _ _ hy) hya
    | [a1, x1], hs, hs1 =>
      simp only [List.cons_append, List.nil_append, List.cons.injEq] at hs
      obtain ⟨rfl, rfl, rfl, _⟩ := hs
      have ha : a ∈ pre := hs1.subset (by simp)
      exact absurd hab (hpre a ha)
    | a1 :: x1 :: b1 :: s, hs, _ =>
      simp at hs

theorem contig_flatten {K : Type} {ops : Ops K} {cs : List (List Nat)}
    (hc : ∀ c ∈ cs, Contig ops c)
    (hp : cs.Pairwise (fun c d => ∀ a ∈ c, ∀ b ∈ d, ¬ same_key ops a b)) :
    Contig ops cs.flatten := by
  induction cs with
  | nil => intro a x b hsub; simp at hsub
  | cons c cs ih =>
    have hp1 := List.pairwise_cons.mp hp
    have ih1 := ih (fun d hd => hc d (by simp [hd])) hp1.2
    intro a x b hsub hab
    rw [List.flatten_cons] at hsub
    obtain ⟨s1, s2, hs, hs1, hs2⟩ := List.sublist_append_iff.mp hsub
    have hcross : ∀ u ∈ c, ∀ v ∈ cs.flatten, ¬ same_key ops u v := by
      intro u hu v hv
      obtain ⟨d, hd, hvd⟩ := List.mem_flatten.mp hv
      exact hp1.1 d hd u hu v hvd
    match s1, hs, hs1 with
    | [], hs, _ =>
      simp only [List.nil_append] at hs
      exact ih1 a x b (hs ▸ hs2) hab
    | [a1], hs, hs1 =>
      simp only [List.singleton_append, List.cons.injEq] at hs
      obtain ⟨rfl, rfl⟩ := hs
      exact absurd hab (hcross a (hs1.subset (by simp)) b (hs2.subset (by simp)))
    | [a1, x1], hs, hs1 =>
      simp only [List.cons_append, List.nil_append, List.cons.injEq] at hs
      obtain ⟨rfl, rfl, rfl⟩ := hs
      exact absurd hab (hcross a (hs1.subset (by simp)) b (hs2.subset (by simp)))
    | [a1, x1, b1], hs, hs1 =>
      simp only [List.cons_append, List.nil_append, List.cons.injEq] at hs
      obtain ⟨rfl, rfl, rfl, _⟩ := hs
      exact hc c (by simp) a x b hs1 hab
    | a1 :: x1 :: b1 :: y :: s, hs, _ =>
      simp at hs

theorem Good.separated {K : Type} {ops : Ops K} (he : EquivOps ops) {cs : List (List Nat)}
    (h : Good ops cs) {i j : Nat} {c d : List Nat} (hi : cs[i]? = some c) (hj : cs[j]? = some d)
    {a b : Nat} (ha : a ∈ c) (hb : b ∈ d) (hab : same_key ops a b) : i = j := by
  rw [← h.placed i c hi a ha, ← h.placed j d hj b hb, he.hash_eq _ _ hab]

theorem Good.flatten_contig {K : Type} {ops : Ops K} (he : EquivOps ops) {cs : List (List Nat)}
    (h : Good ops cs) : Contig ops cs.flatten := by
  refine contig_flatten h.contig ?_
  rw [List.pairwise_iff_getElem]
  intro i j hi hj hij a ha b hb hab
  have := h.separated he (List.getElem?_eq_getElem hi) (List.getElem?_eq_getElem hj) ha hb hab
  omega

theorem dropWhile_head {p : Nat → Bool} {l : List Nat} {y : Nat} {r : List Nat}
    (h : l.dropWhile p = y :: r) : p y = false := by
  induction l with
  | nil => simp at h
  | cons a l ih =>
    rw [List.dropWhile_cons] at h
    split at h
    · exact ih h
    · rename_i hp
      simp only [List.cons.injEq] at h
      rw [← h.1]; simpa using hp

theorem hit_iff_same_key {K : Type} (ops : Ops K) (e x : Nat) :
    hit ops (ops.extract_key e) x = true ↔ same_key ops x e := Iff.rfl

theorem miss_eq_true {K : Type} (ops : Ops K) (key : K) (x : Nat) :
    miss ops key x = true ↔ hit ops key x = false := by
  simp [miss]

theorem miss_eq_false {K : Type} (ops : Ops K) (key : K) (x : Nat) :
    miss ops key x = false ↔ hit ops key x = true := by
  simp [miss]

theorem takeWhile_miss {K : Type} (ops : Ops K) (key : K) (c : List Nat) :
    ∀ x ∈ c.takeWhile (miss ops key), hit ops key x = false := by
  intro x hx
  exact (miss_eq_true ops key x).mp (List.mem_takeWhile_imp hx)

theorem dropWhile_miss {K : Type} (ops : Ops K) (key : K) (c : List Nat) :
    c.dropWhile (miss ops key) = [] ∨
      ∃ y r, c.dropWhile (miss ops key) = y :: r ∧ hit ops key y = true := by
  cases h : c.dropWhile (miss ops key) with
  | nil => left; rfl
  | cons y r => right; exact ⟨y, r, rfl, (miss_eq_false ops key y).mp (dropWhile_head h)⟩

theorem any_hit_iff {K : Type} (ops : Ops K) (key : K) (c : List Nat) :
    c.any (hit ops key) = true ↔ c.dropWhile (miss ops key) ≠ [] := by
  induction c with
  | nil => simp
  | cons a c ih =>
    by_cases ha : hit ops key a = true
    · simp [List.dropWhile_cons, miss, ha]
    · simp only [Bool.not_eq_true] at ha
      simp only [List.any_cons, ha, Bool.false_or, List.dropWhile_cons, miss, Bool.not_false,
        if_true]
      exact ih

theorem any_hit_false {K : Type} (ops : Ops K) (key : K) (c : List Nat)
    (h : c.any (hit ops key) = false) :
    c.takeWhile (miss ops key) = c ∧ c.dropWhile (miss ops key) = [] := by
  have h1 : c.dropWhile (miss ops key) = [] := by
    by_contra hne
    have := (any_hit_iff ops key c).mpr hne
    simp [h] at this
  refine ⟨?_, h1⟩
  have := List.takeWhile_append_dropWhile (miss ops key) c
  rw [h1, List.append_nil] at this
  exact this

theorem Good.of_sublists {K : Type} {ops : Ops K} {cs cs1 : List (List Nat)} (h : Good ops cs)
    (hlen : cs1.length = cs.length)
    (hsub : ∀ (i : Nat) (c1 : List Nat), cs1[i]? = some c1 → ∃ c, cs[i]? = some c ∧ c1.Sublist c) :
    Good ops cs1 := by
  refine ⟨?_, ?_⟩
  · intro i c1 hi e he
    obtain ⟨c, hc, hs⟩ := hsub i c1 hi
    rw [hlen]
    exact h.placed i c hc e (hs.subset he)
  · intro c1 hc1
    obtain ⟨i, hi⟩ := List.mem_iff_getElem?.mp hc1
    obtain ⟨c, hc, hs⟩ := hsub i c1 hi
    exact (h.contig c (List.getElem?_mem hc)).sublist hs

theorem Good.set_sublist {K : Type} {ops : Ops K} {cs : List (List Nat)} (h : Good ops cs)
    {b : Nat} {c c1 : List Nat} (hb : cs[b]? = some c) (hs : c1.Sublist c) :
    Good ops (cs.set b c1) := by
  refine h.of_sublists (by simp) ?_
  intro i d hi
  rw [List.getElem?_set] at hi
  by_cases hbi : b = i
  · subst hbi
    simp only [lt_of_get hb, if_true, Option.some.injEq] at hi
    exact ⟨c, hb, hi ▸ hs⟩
  · simp only [hbi, if_false] at hi
    exact ⟨d, hi, List.Sublist.refl _⟩

theorem Good.set_insert {K : Type} {ops : Ops K} (he : EquivOps ops) {cs : List (List Nat)}
    (h : Good ops cs) {e : Nat} {c : List Nat}
    (hb : cs[ops.hash (ops.extract_key e) % cs.length]? = some c) :
    Good ops (cs.set (ops.hash (ops.extract_key e) % cs.length)
      (c.takeWhile (miss ops (ops.extract_key e)) ++
        e :: c.dropWhile (miss ops (ops.extract_key e)))) := by
  have hcc : Contig ops c := h.contig c (List.getElem?_mem hb)
  refine ⟨?_, ?_⟩
  · intro i d hi x hx
    rw [List.length_set]
    rw [List.getElem?_set] at hi
    by_cases hbi : ops.hash (ops.extract_key e) % cs.length = i
    · simp only [hbi, if_true] at hi
      rw [← hbi] at hi
      simp only [lt_of_get hb, if_true, Option.some.injEq] at hi
      subst hi
      simp only [List.mem_append, List.mem_cons] at hx
      rcases hx with hx | rfl | hx
      · rw [← hbi]; exact h.placed _ c hb x ((List.takeWhile_sublist _).subset hx)
      · exact hbi
      · rw [← hbi]; exact h.placed _ c hb x ((List.dropWhile_sublist _).subset hx)
    · simp only [hbi, if_false] at hi
      exact h.placed i d hi x hx
  · intro d hd
    rcases List.mem_or_eq_of_mem_set hd with hd | rfl
    · exact h.contig d hd
    · refine contig_insert he ?_ ?_ ?_
      · rw [List.takeWhile_append_dropWhile]; exact hcc
      · intro x hx hxe
        have := takeWhile_miss ops _ c x hx
        rw [(hit_iff_same_key ops e x).mpr hxe] at this
        exact Bool.noConfusion this
      · rcases dropWhile_miss ops (ops.extract_key e) c with h1 | ⟨y, r, h1, h2⟩
        · left; exact h1
        · right; exact ⟨y, r, h1, h2⟩

theorem Linked.chain_of_get {m : Mem} {cs : List (List Nat)} (h : Linked m cs) {K : Type}
    (ops : Ops K) (key : K) :
    cs[bucket_of ops cs key]? = some (chain_of ops cs key) := by
  have := h.bucket_lt ops key
  simp [chain_of, chain_at, bucket_of, List.getElem?_eq_getElem this]

theorem Linked.chain_split {m : Mem} {cs : List (List Nat)} (h : Linked m cs) {K : Type}
    (ops : Ops K) (key : K) :
    cs[bucket_of ops cs key]? = some (before_key ops cs key ++ from_key ops cs key) := by
  rw [h.chain_of_get ops key, before_key, from_key, List.takeWhile_append_dropWhile]

theorem Rep.find_ctx_spec {K : Type} (ops : Ops K) {t : Table} {cs : List (List Nat)}
    (h : Rep t cs) (key : K) {fuel : Nat} (hf : t.nitems < fuel) :
    find_ctx_ ops fuel t.toMem key =
      some (ctx_after (.slot (bucket_of ops cs key)) (before_key ops cs key),
        (chain_of ops cs key).any (hit ops key)) :=
  h.linked.find_ctx ops key (h.linked.chain_of_get ops key) (h.count ▸ hf)

theorem Rep.push_no_resize_spec {K : Type} (ops : Ops K) {t : Table} {cs : List (List Nat)}
    (h : Rep t cs) {node : Nat} (hn : node ∉ cs.flatten) {fuel : Nat} (hf : t.nitems < fuel) :
    ∃ t1, push_no_resize ops fuel t node = some (t1, node) ∧ Rep t1 (chains_push ops cs node) ∧
      t1.buckets.length = t.buckets.length := by
  obtain ⟨m1, h1, h2, h3⟩ := h.push_item_rep (h.linked.chain_split ops (ops.extract_key node)) hn
  refine ⟨{ toMem := m1, nitems := t.nitems + 1 }, ?_, h2, ?_⟩
  · simp [push_no_resize, h.find_ctx_spec ops _ hf, h1, ctx_node, h3]
  · have := h2.linked.len
    simp [chains_push] at this
    rw [this, h.linked.len]

theorem Rep.pop_one_found {K : Type} (ops : Ops K) {t : Table} {cs : List (List Nat)}
    (h : Rep t cs) (key : K) {fuel : Nat} (hf : t.nitems < fuel) {y : Nat} {r : List Nat}
    (hy : from_key ops cs key = y :: r) :
    ∃ t1, pop_one ops fuel t key = some (t1, some y) ∧ Rep t1 (chains_pop_one ops cs key) ∧
      t1.buckets.length = t.buckets.length ∧ t1.next y = Link.null := by
  have hsplit := h.linked.chain_split ops key
  rw [hy] at hsplit
  obtain ⟨m1, h1, h2⟩ := h.pop_item_rep hsplit
  have hany : (chain_of ops cs key).any (hit ops key) = true := by
    rw [any_hit_iff]; rw [from_key] at hy; simp [hy]
  refine ⟨{ toMem := m1, nitems := t.nitems - 1 }, ?_, ?_, ?_, ?_⟩
  · simp [pop_one, h.find_ctx_spec ops _ hf, hany, h1]
  · simpa [chains_pop_one, hy] using h2
  · have := h2.linked.len
    simp at this
    rw [this, h.linked.len]
  · apply h2.unlinked
    have hnd := h.linked.nodup
    rw [flatten_split hsplit] at hnd
    rw [flatten_set (lt_of_get hsplit)]
    intro hmem
    simp only [List.append_assoc, List.mem_append] at hmem
    have h3 := List.nodup_append.mp hnd
    have h4 := List.nodup_append.mp h3.1
    have h5 := List.nodup_append.mp h4.2.1
    rcases hmem with hm | hm | hm | hm
    · exact h4.2.2 hm (by simp)
    · exact h5.2.2 hm (by simp)
    · exact (List.nodup_cons.mp h5.2.1).1 hm
    · exact h3.2.2 (by simp) hm

theorem Rep.pop_one_absent {K : Type} (ops : Ops K) {t : Table} {cs : List (List Nat)}
    (h : Rep t cs) (key : K) {fuel : Nat} (hf : t.nitems < fuel)
    (hy : (chain_of ops cs key).any (hit ops key) = false) :
    pop_one ops fuel t key = some (t, none) := by
  simp [pop_one, h.find_ctx_spec ops _ hf, hy]

theorem pop_loop_absent {K : Type} (ops : Ops K) (t : Table) (node : Nat) {j : Nat}
    {c : List Nat} {ctx : Ctx} (h : Seg t.toMem (.bucket j) ctx c) (hn : node ∉ c)
    {fuel : Nat} (hf : c.length < fuel) :
    pop_loop ops t node fuel ctx = some (t, none) := by
  induction c generalizing ctx fuel with
  | nil =>
    obtain ⟨f, rfl⟩ : ∃ f, fuel = f + 1 := ⟨fuel - 1, by omega⟩
    rw [seg_nil] at h
    simp [pop_loop, ctx_item_, ctx_bucket_, h]
  | cons e c ih =>
    obtain ⟨f, rfl⟩ : ∃ f, fuel = f + 1 := ⟨fuel - 1, by omega⟩
    rw [seg_cons] at h
    have hf1 : c.length < f := by simpa using hf
    have hne : e ≠ node := fun hh => hn (by simp [hh])
    simp [pop_loop, ctx_item_, ctx_bucket_, h.1, ctx_node, hne, next_ctx_item_]
    exact ih h.2 (fun hh => hn (by simp [hh])) hf1

theorem pop_loop_found {K : Type} (ops : Ops K) (t : Table) (node : Nat) {j : Nat}
    {l1 l2 : List Nat} {ctx : Ctx} (h : Seg t.toMem (.bucket j) ctx (l1 ++ node :: l2))
    (hn : node ∉ l1) {fuel : Nat} (hf : l1.length < fuel) :
    pop_loop ops t node fuel ctx =
      (pop_item_ t.toMem (ctx_after ctx l1)).bind
        (fun r => some ({ toMem := r.1, nitems := t.nitems - 1 }, some r.2)) := by
  induction l1 generalizing ctx fuel with
  | nil =>
    obtain ⟨f, rfl⟩ : ∃ f, fuel = f + 1 := ⟨fuel - 1, by omega⟩
    rw [List.nil_append, seg_cons] at h
    simp [pop_loop, ctx_item_, ctx_bucket_, h.1, ctx_node, ctx_after]
  | cons e c ih =>
    obtain ⟨f, rfl⟩ : ∃ f, fuel = f + 1 := ⟨fuel - 1, by omega⟩
    rw [List.cons_append, seg_cons] at h
    have hf1 : c.length < f := by simpa using hf
    have hne : e ≠ node := fun hh => hn (by simp [hh])
    simp [pop_loop, ctx_item_, ctx_bucket_, h.1, ctx_node, hne, next_ctx_item_, ctx_after]
    exact ih h.2 (fun hh => hn (by simp [hh])) hf1

theorem Rep.pop_absent {K : Type} (ops : Ops K) {t : Table} {cs : List (List Nat)}
    (h : Rep t cs) {node : Nat} (hn : node ∉ chain_of ops cs (ops.extract_key node))
    {fuel : Nat} (hf : t.nitems < fuel) :
    pop ops fuel t node = some (t, none) := by
  have hb := h.linked.chain_of_get ops (ops.extract_key node)
  simp only [pop, h.linked.base_ctx ops, Option.bind_eq_bind, Option.some_bind]
  exact pop_loop_absent ops t node (h.linked.seg _ _ hb) hn
    (lt_of_le_of_lt (chain_length_le hb) (h.count ▸ hf))

theorem Rep.pop_found {K : Type} (ops : Ops K) {t : Table} {cs : List (List Nat)}
    (h : Rep t cs) {node : Nat} (hn : node ∈ chain_of ops cs (ops.extract_key node))
    {fuel : Nat} (hf : t.nitems < fuel) :
    ∃ t1, pop ops fuel t node = some (t1, some node) ∧ Rep t1 (chains_pop ops cs node) ∧
      t1.buckets.length = t.buckets.length ∧ t1.next node = Link.null := by
  have hb := h.linked.chain_of_get ops (ops.extract_key node)
  obtain ⟨l1, l2, hn1, hc, her⟩ := List.exists_erase_eq hn
  rw [hc] at hb
  obtain ⟨m1, h1, h2⟩ := h.pop_item_rep hb
  refine ⟨{ toMem := m1, nitems := t.nitems - 1 }, ?_, ?_, ?_, ?_⟩
  · simp only [pop, h.linked.base_ctx ops, Option.bind_eq_bind, Option.some_bind]
    show pop_loop ops t node fuel (Ctx.slot (bucket_of ops cs (ops.extract_key node))) = _
    rw [pop_loop_found ops t node (h.linked.seg _ _ hb) hn1
      (lt_of_le_of_lt (by simp) (lt_of_le_of_lt (chain_length_le hb) (h.count ▸ hf)))]
    simp [h1]
  · simpa [chains_pop, her] using h2
  · have := h2.linked.len
    simp at this
    rw [this, h.linked.len]
  · apply h2.unlinked
    have hnd := h.linked.nodup
    rw [flatten_split hb] at hnd
    rw [flatten_set (lt_of_get hb)]
    intro hmem
    simp only [List.append_assoc, List.mem_append] at hmem
    have h3 := List.nodup_append.mp hnd
    have h4 := List.nodup_append.mp h3.1
    have h5 := List.nodup_append.mp h4.2.1
    rcases hmem with hm | hm | hm | hm
    · exact h4.2.2 hm (by simp)
    · exact h5.2.2 hm (by simp)
    · exact (List.nodup_cons.mp h5.2.1).1 hm
    · exact h3.2.2 (by simp) hm

theorem get_set_self {cs : List (List Nat)} {b : Nat} (hb : b < cs.length) (c : List Nat) :
    (cs.set b c)[b]? = some c := by
  simp [List.getElem?_set, hb]

theorem Rep.buckets_length {t : Table} {cs : List (List Nat)} (h : Rep t cs) :
    t.buckets.length = cs.length + 1 := h.linked.len

theorem Rep.pop_all_loop_spec {K σ : Type} (ops : Ops K) (cbk : Nat → σ → σ) (key : K)
    {b : Nat} {pre : List Nat} (r : List Nat) :
    ∀ {t : Table} {cs : List (List Nat)} {y : Nat} {fuel : Nat} (s : σ), Rep t cs →
      cs[b]? = some (pre ++ y :: r) → r.length < fuel →
      ∃ t1, pop_all_loop ops cbk key (ctx_after (.slot b) pre) fuel t s =
          some (t1, (y :: r.takeWhile (hit ops key)).foldl (fun s e => cbk e s) s) ∧
        Rep t1 (cs.set b (pre ++ r.dropWhile (hit ops key))) ∧
        t1.buckets.length = t.buckets.length := by
  induction r with
  | nil =>
    intro t cs y fuel s h hb hf
    obtain ⟨f, rfl⟩ : ∃ f, fuel = f + 1 := ⟨fuel - 1, by omega⟩
    obtain ⟨m1, h1, h2⟩ := h.pop_item_rep hb
    have hseg := h2.linked.read_after (get_set_self (lt_of_get hb) (pre ++ []))
    rw [seg_nil] at hseg
    refine ⟨{ toMem := m1, nitems := t.nitems - 1 }, ?_, by simpa using h2, ?_⟩
    · simp [pop_all_loop, h1, ctx_item_, ctx_bucket_, hseg]
    · rw [h2.buckets_length, h.buckets_length]; simp
  | cons z r ih =>
    intro t cs y fuel s h hb hf
    obtain ⟨f, rfl⟩ : ∃ f, fuel = f + 1 := ⟨fuel - 1, by omega⟩
    have hf1 : r.length < f := by simpa using hf
    obtain ⟨m1, h1, h2⟩ := h.pop_item_rep hb
    have hb1 := get_set_self (lt_of_get hb) (pre ++ z :: r)
    have hseg := h2.linked.read_after hb1
    rw [seg_cons] at hseg
    have hlen : ({ toMem := m1, nitems := t.nitems - 1 } : Table).buckets.length
        = t.buckets.length := by
      rw [h2.buckets_length, h.buckets_length]; simp
    by_cases hz : hit ops key z = true
    · obtain ⟨t2, h3, h4, h5⟩ := ih (cbk y s) h2 hb1 hf1
      refine ⟨t2, ?_, ?_, by rw [h5, hlen]⟩
      · have hz1 : ops.equal_to (ops.extract_key z) key = true := hz
        simp [pop_all_loop, h1, ctx_item_, ctx_bucket_, hseg.1, ctx_relative_, ctx_node, hz1]
        rw [h3]
        simp [List.takeWhile_cons, hz]
      · simpa [List.dropWhile_cons, hz] using h4
    · have hz1 : ops.equal_to (ops.extract_key z) key = false := by simpa [hit] using hz
      refine ⟨{ toMem := m1, nitems := t.nitems - 1 }, ?_, ?_, hlen⟩
      · simp [pop_all_loop, h1, ctx_item_, ctx_bucket_, hseg.1, ctx_relative_, ctx_node, hz1,
          List.takeWhile_cons, hit]
      · simpa [List.dropWhile_cons, hz] using h2

theorem Rep.pop_all_found {K σ : Type} (ops : Ops K) (cbk : Nat → σ → σ) {t : Table}
    {cs : List (List Nat)} (h : Rep t cs) (key : K) {fuel : Nat} (hf : t.nitems < fuel) (s : σ)
    (hy : (chain_of ops cs key).any (hit ops key) = true) :
    ∃ t1, pop_all ops cbk fuel t key s =
        some (t1, ((from_key ops cs key).takeWhile (hit ops key)).foldl (fun s e => cbk e s) s) ∧
      Rep t1 (chains_pop_all ops cs key) ∧ t1.buckets.length = t.buckets.length := by
  have hsplit := h.linked.chain_split ops key
  obtain ⟨y, r, hyr, hhit⟩ : ∃ y r, from_key ops cs key = y :: r ∧ hit ops key y = true := by
    rcases dropWhile_miss ops key (chain_of ops cs key) with h1 | h1
    · exact absurd h1 ((any_hit_iff ops key _).mp hy)
    · exact h1
  rw [hyr] at hsplit
  have hlen : r.length < fuel := by
    have := chain_length_le hsplit
    rw [← h.count] at this
    simp at this
    omega
  obtain ⟨t1, h1, h2, h3⟩ := h.pop_all_loop_spec ops cbk key r s hsplit hlen
  refine ⟨t1, ?_, ?_, h3⟩
  · simp [pop_all, h.find_ctx_spec ops _ hf, hy, h1, hyr, List.takeWhile_cons, hhit]
  · simpa [chains_pop_all, hyr, List.dropWhile_cons, hhit] using h2

theorem Rep.pop_all_absent {K σ : Type} (ops : Ops K) (cbk : Nat → σ → σ) {t : Table}
    {cs : List (List Nat)} (h : Rep t cs) (key : K) {fuel : Nat} (hf : t.nitems < fuel) (s : σ)
    (hy : (chain_of ops cs key).any (hit ops key) = false) :
    pop_all ops cbk fuel t key s = some (t, s) := by
  simp [pop_all, h.find_ctx_spec ops _ hf, hy]

theorem Rep.find_or_push_no_resize_found {K G : Type} (ops : Ops K) {t : Table}
    {cs : List (List Nat)} (h : Rep t cs) (key : K) (gen : G → Option Nat × G) (g : G)
    {fuel : Nat} (hf : t.nitems < fuel) {y : Nat} {r : List Nat}
    (hy : from_key ops cs key = y :: r) :
    find_or_push_no_resize ops fuel t key gen g =
      some { table := t, factory := g, ret := some (.item y, false) } := by
  have hsplit := h.linked.chain_split ops key
  rw [hy] at hsplit
  have hseg := h.linked.read_after hsplit
  rw [seg_cons] at hseg
  have hany : (chain_of ops cs key).any (hit ops key) = true := by
    rw [any_hit_iff]; rw [from_key] at hy; simp [hy]
  simp [find_or_push_no_resize, h.find_ctx_spec ops _ hf, hany, hseg.1]

theorem Rep.find_or_push_no_resize_fail {K G : Type} (ops : Ops K) {t : Table}
    {cs : List (List Nat)} (h : Rep t cs) (key : K) (gen : G → Option Nat × G) (g : G)
    {fuel : Nat} (hf : t.nitems < fuel)
    (hy : (chain_of ops cs key).any (hit ops key) = false) {g1 : G} (hg : gen g = (none, g1)) :
    find_or_push_no_resize ops fuel t key gen g =
      some { table := t, factory := g1, ret := none } := by
  simp [find_or_push_no_resize, h.find_ctx_spec ops _ hf, hy, hg]

theorem Rep.find_or_push_no_resize_absent {K G : Type} (ops : Ops K) {t : Table}
    {cs : List (List Nat)} (h : Rep t cs) (key : K) (gen : G → Option Nat × G) (g : G)
    {fuel : Nat} (hf : t.nitems < fuel)
    (hy : (chain_of ops cs key).any (hit ops key) = false) {node : Nat} {g1 : G}
    (hg : gen g = (some node, g1)) (hn : node ∉ cs.flatten) :
    ∃ t1, find_or_push_no_resize ops fuel t key gen g =
        some { table := t1, factory := g1, ret := some (.item node, true) } ∧
      Rep t1 (cs.set (bucket_of ops cs key) (chain_of ops cs key ++ [node])) ∧
      t1.buckets.length = t.buckets.length := by
  have hsplit := h.linked.chain_split ops key
  obtain ⟨h1, h2⟩ := any_hit_false ops key _ hy
  have hb : before_key ops cs key = chain_of ops cs key := h1
  have hfk : from_key ops cs key = [] := h2
  rw [hb, hfk] at hsplit
  obtain ⟨m1, h3, h4, h5⟩ := h.push_item_rep hsplit hn
  refine ⟨{ toMem := m1, nitems := t.nitems + 1 }, ?_, h4, ?_⟩
  · simp [find_or_push_no_resize, h.find_ctx_spec ops _ hf, hy, hg, hb, h3]
    rw [h5]; rfl
  · rw [h4.buckets_length, h.buckets_length]; simp

theorem cons_head_nil (L : List (List Nat)) : cons_head [] L = L := by
  cases L <;> simp [cons_head]

theorem drop_until_cons_skip (last : Option Nat) (e : Nat) (S : List Nat)
    (rest : List (List Nat)) (he : some e ≠ last) :
    drop_until last ((e :: S) :: rest) = drop_until last (S :: rest) := by
  have : stop_at last e = false := by simp [stop_at, he]
  simp [drop_until, this, List.dropWhile_cons]

theorem split_at_get {cs : List (List Nat)} {b : Nat} {c : List Nat} (hb : cs[b]? = some c) :
    cs = cs.take b ++ c :: cs.drop (b + 1) := by
  obtain ⟨hlt, hc⟩ := List.getElem?_eq_some_iff.mp hb
  conv_lhs => rw [← List.take_append_drop b cs, List.drop_eq_getElem_cons hlt, hc]

theorem take_set_self (cs : List (List Nat)) (b : Nat) (c : List Nat) :
    (cs.set b c).take b = cs.take b :=
  List.ext_getElem? fun i => by
    rw [List.getElem?_take, List.getElem?_take]
    split
    · rw [List.getElem?_set_ne (by omega)]
    · rfl

theorem ctx_after_ne_end {b n : Nat} (l1 : List Nat) (hb : b < n) :
    ctx_after (.slot b) l1 ≠ .slot n := by
  rcases ctx_after_cases (.slot b) l1 with ⟨_, h2⟩ | ⟨l0, p, _, h2⟩
  · rw [h2]; simp; omega
  · rw [h2]; simp

theorem Rep.pop_range_loop_spec {σ : Type} (cbk : Nat → σ → σ) (last : Option Nat) (n : Nat) :
    ∀ {t : Table} {cs : List (List Nat)} {b : Nat} {l1 S : List Nat} {fuel : Nat} (s : σ),
      Rep t cs → cs[b]? = some (l1 ++ S) →
      S.length + (cs.drop (b + 1)).flatten.length + (cs.length - b) ≤ n → n < fuel →
      ∃ t1, pop_range_loop cbk last cs.length fuel t s (ctx_after (.slot b) l1) =
          some (t1, (popped_from cs b S last).foldl (fun s e => cbk e s) s) ∧
        Rep t1 (chains_pop_from cs b l1 S last) ∧ t1.buckets.length = t.buckets.length := by
  induction n with
  | zero =>
    intro t cs b l1 S fuel s h hb hn hf
    have := lt_of_get hb
    omega
  | succ n ih =>
    intro t cs b l1 S fuel s h hb hn hf
    obtain ⟨f, rfl⟩ : ∃ f, fuel = f + 1 := ⟨fuel - 1, by omega⟩
    have hblt := lt_of_get hb
    have hseg := h.linked.read_after hb
    cases S with
    | nil =>
      rw [seg_nil] at hseg
      have hb0 : cs[b]? = some l1 := by simpa using hb
      by_cases hend : b + 1 = cs.length
      · refine ⟨t, ?_, ?_, rfl⟩
        · simp [pop_range_loop, ctx_item_, ctx_bucket_, hseg, next_ctx_bucket_, hend,
            popped_from]
        · have hd : cs.drop (b + 1) = [] := by simp [hend]
          have : chains_pop_from cs b l1 [] last = cs := by
            conv_rhs => rw [split_at_get hb0, hd]
            simp [chains_pop_from, hd, drop_until, cons_head]
          rw [this]; exact h
      · have hb1lt : b + 1 < cs.length := by omega
        have hb1 : cs[b + 1]? = some ([] ++ cs[b + 1]) := by
          simp [List.getElem?_eq_getElem hb1lt]
        have hdrop : cs.drop (b + 1) = cs[b + 1] :: cs.drop (b + 2) :=
          List.drop_eq_getElem_cons hb1lt
        have hfl : (cs.drop (b + 1)).flatten.length
            = cs[b + 1].length + (cs.drop (b + 1 + 1)).flatten.length := by
          rw [hdrop, List.flatten_cons, List.length_append]
        have hpf : popped_from cs b [] last = popped_from cs (b + 1) cs[b + 1] last := by
          simp only [popped_from]
          rw [hdrop, List.flatten_cons, List.nil_append]
        obtain ⟨t1, h1, h2, h3⟩ := @ih t cs (b + 1) [] cs[b + 1] f s h hb1 (by
          simp only [List.length_nil, Nat.zero_add] at hn
          omega) (by omega)
        refine ⟨t1, ?_, ?_, h3⟩
        · have hne : ¬ (Ctx.slot (b + 1) = Ctx.slot cs.length) := by
            simp; omega
          simp only [ctx_after] at h1
          rw [pop_range_loop]
          simp only [ctx_item_, ctx_bucket_, hseg, next_ctx_bucket_, Option.map_some',
            Bool.not_true, Option.bind_eq_bind, Option.some_bind, Bool.false_eq_true, if_false,
            hne, h1, Option.pure_def, hpf]
        · have : chains_pop_from cs b l1 [] last
              = chains_pop_from cs (b + 1) [] cs[b + 1] last := by
            simp only [chains_pop_from, cons_head_nil]
            rw [← hdrop]
            have ht : cs.take (b + 1) = cs.take b ++ [l1] := by
              rw [List.take_succ, hb0]; rfl
            simp [drop_until, cons_head, ht]
          rw [this]; exact h2
    | cons e S =>
      rw [seg_cons] at hseg
      by_cases hlast : some e = last
      · refine ⟨t, ?_, ?_, rfl⟩
        · have : stop_at last e = true := by simp [stop_at, hlast]
          have hl : last = some e := hlast.symm
          simp [pop_range_loop, ctx_item_, ctx_bucket_, hseg.1, ctx_node, hl, popped_from,
            List.takeWhile_cons, stop_at]
        · have hst : stop_at last e = true := by simp [stop_at, hlast]
          have : chains_pop_from cs b l1 (e :: S) last = cs := by
            conv_rhs => rw [split_at_get hb]
            simp [chains_pop_from, drop_until, cons_head, hst, List.dropWhile_cons]
          rw [this]; exact h
      · obtain ⟨m1, h1, h2⟩ := h.pop_item_rep hb
        have hb1 := get_set_self hblt (l1 ++ S)
        obtain ⟨t1, h3, h4, h5⟩ := @ih _ (cs.set b (l1 ++ S)) b l1 S f (cbk e s) h2 hb1 (by
          simp [List.drop_set_of_lt _ _ (Nat.lt_succ_self b)] at hn ⊢
          omega) (by omega)
        have hlen : ({ toMem := m1, nitems := t.nitems - 1 } : Table).buckets.length
            = t.buckets.length := by
          rw [h2.buckets_length, h.buckets_length]; simp
        refine ⟨t1, ?_, ?_, by rw [h5, hlen]⟩
        · have hst : stop_at last e = false := by simp [stop_at, hlast]
          simp [pop_range_loop, ctx_item_, ctx_bucket_, hseg.1, ctx_node, hlast, h1,
            ctx_after_ne_end l1 hblt]
          simp only [List.length_set] at h3
          rw [h3]
          simp [popped_from, List.drop_set_of_lt _ _ (Nat.lt_succ_self b), List.takeWhile_cons,
            hst]
        · have : chains_pop_from (cs.set b (l1 ++ S)) b l1 S last
              = chains_pop_from cs b l1 (e :: S) last := by
            simp only [chains_pop_from]
            rw [drop_until_cons_skip last e S _ hlast,
              List.drop_set_of_lt _ _ (Nat.lt_succ_self b),
              take_set_self]
          rw [← this]; exact h4

theorem pop_range_find_absent {σ : Type} (cbk : Nat → σ → σ) (first : Nat) (last : Option Nat)
    (t : Table) (s : σ) {j : Nat} {c : List Nat} {ctx : Ctx}
    (h : Seg t.toMem (.bucket j) ctx c) (hn : first ∉ c) {fuel : Nat} (hf : c.length < fuel) :
    pop_range_find cbk first last t s fuel ctx = some (t, s) := by
  induction c generalizing ctx fuel with
  | nil =>
    obtain ⟨f, rfl⟩ : ∃ f, fuel = f + 1 := ⟨fuel - 1, by omega⟩
    rw [seg_nil] at h
    simp [pop_range_find, ctx_item_, ctx_bucket_, h]
  | cons e c ih =>
    obtain ⟨f, rfl⟩ : ∃ f, fuel = f + 1 := ⟨fuel - 1, by omega⟩
    rw [seg_cons] at h
    have hf1 : c.length < f := by simpa using hf
    have hne : e ≠ first := fun hh => hn (by simp [hh])
    simp [pop_range_find, ctx_item_, ctx_bucket_, h.1, ctx_node, hne, next_ctx_item_]
    exact ih h.2 (fun hh => hn (by simp [hh])) hf1

theorem pop_range_find_found {σ : Type} (cbk : Nat → σ → σ) (first : Nat) (last : Option Nat)
    (t : Table) (s : σ) (hlen : t.buckets.length ≠ 0) {j : Nat} {l1 l2 : List Nat} {ctx : Ctx}
    (h : Seg t.toMem (.bucket j) ctx (l1 ++ first :: l2))
    (hn : first ∉ l1) {fuel : Nat} (hf : l1.length < fuel) :
    pop_range_find cbk first last t s fuel ctx =
      pop_range_loop cbk last (t.buckets.length - 1) (fuel - l1.length) t s (ctx_after ctx l1) := by
  induction l1 generalizing ctx fuel with
  | nil =>
    obtain ⟨f, rfl⟩ : ∃ f, fuel = f + 1 := ⟨fuel - 1, by omega⟩
    rw [List.nil_append, seg_cons] at h
    simp [pop_range_find, ctx_item_, ctx_bucket_, h.1, ctx_node, ctx_after, hlen]
  | cons e c ih =>
    obtain ⟨f, rfl⟩ : ∃ f, fuel = f + 1 := ⟨fuel - 1, by omega⟩
    rw [List.cons_append, seg_cons] at h
    have hf1 : c.length < f := by simpa using hf
    have hne : e ≠ first := fun hh => hn (by simp [hh])
    simp [pop_range_find, ctx_item_, ctx_bucket_, h.1, ctx_node, hne, next_ctx_item_, ctx_after]
    exact ih h.2 (fun hh => hn (by simp [hh])) hf1

theorem split_at_first {c : List Nat} {first : Nat} (h : first ∈ c) :
    ∃ l2, c.dropWhile (fun x => x != first) = first :: l2 ∧
      first ∉ c.takeWhile (fun x => x != first) := by
  induction c with
  | nil => simp at h
  | cons a c ih =>
    by_cases ha : a = first
    · subst ha
      exact ⟨c, by simp [List.dropWhile_cons], by simp [List.takeWhile_cons]⟩
    · have hc : first ∈ c := by
        rcases List.mem_cons.mp h with h1 | h1
        · exact absurd h1.symm ha
        · exact h1
      obtain ⟨l2, h1, h2⟩ := ih hc
      refine ⟨l2, by simp [List.dropWhile_cons, ha, h1], ?_⟩
      simp only [List.takeWhile_cons, bne_iff_ne, ne_eq, ha, not_false_eq_true, decide_True,
        if_true, List.mem_cons, not_or]
      exact ⟨fun hh => ha hh.symm, h2⟩

theorem Rep.pop_range_absent {K σ : Type} (ops : Ops K) (cbk : Nat → σ → σ) {t : Table}
    {cs : List (List Nat)} (h : Rep t cs) {first : Nat} (last : Option Nat) (s : σ)
    (hn : first ∉ chain_of ops cs (ops.extract_key first))
    {fuel : Nat} (hf : t.nitems < fuel) :
    pop_range ops cbk fuel t first last s = some (t, s) := by
  have hb := h.linked.chain_of_get ops (ops.extract_key first)
  simp only [pop_range, h.linked.base_ctx ops, Option.bind_eq_bind, Option.some_bind]
  exact pop_range_find_absent cbk first last t s (h.linked.seg _ _ hb) hn
    (lt_of_le_of_lt (chain_length_le hb) (h.count ▸ hf))

theorem Rep.pop_range_spec {K σ : Type} (ops : Ops K) (cbk : Nat → σ → σ) {t : Table}
    {cs : List (List Nat)} (h : Rep t cs) (first : Nat) (last : Option Nat) (s : σ)
    {fuel : Nat} (hf : t.nitems + t.buckets.length ≤ fuel) :
    ∃ t1, pop_range ops cbk fuel t first last s =
        some (t1, (popped_range ops cs first last).foldl (fun s e => cbk e s) s) ∧
      Rep t1 (chains_pop_range ops cs first last) ∧ t1.buckets.length = t.buckets.length := by
  have hbl := h.buckets_length
  by_cases hn : first ∈ chain_of ops cs (ops.extract_key first)
  · have hb := h.linked.chain_of_get ops (ops.extract_key first)
    obtain ⟨l2, hd, hnt⟩ := split_at_first hn
    have hc := List.takeWhile_append_dropWhile (fun x => x != first)
      (chain_of ops cs (ops.extract_key first))
    rw [← hc, hd] at hb
    have hcl := chain_length_le hb
    have hfl := congrArg List.length (flatten_split hb)
    simp only [List.length_append] at hfl hcl
    rw [← h.count] at hfl hcl
    have hblt := lt_of_get hb
    obtain ⟨t1, h1, h2, h3⟩ := @Rep.pop_range_loop_spec σ cbk last
      ((first :: l2).length + (cs.drop (bucket_of ops cs (ops.extract_key first) + 1)).flatten.length
        + (cs.length - bucket_of ops cs (ops.extract_key first))) t cs _ _ _
      (fuel - (List.takeWhile (fun x => x != first)
        (chain_of ops cs (ops.extract_key first))).length) s h hb (le_refl _) (by omega)
    refine ⟨t1, ?_, ?_, h3⟩
    · simp only [pop_range, h.linked.base_ctx ops, Option.bind_eq_bind, Option.some_bind]
      show pop_range_find cbk first last t s fuel
        (Ctx.slot (bucket_of ops cs (ops.extract_key first))) = _
      rw [pop_range_find_found cbk first last t s (by omega) (h.linked.seg _ _ hb) hnt (by omega)]
      have : t.buckets.length - 1 = cs.length := by omega
      rw [this, h1]
      simp [popped_range, hn, hd]
    · simpa [chains_pop_range, hn, hd] using h2
  · refine ⟨t, ?_, ?_, rfl⟩
    · rw [h.pop_range_absent ops cbk last s hn (by omega)]
      simp [popped_range, hn]
    · simpa [chains_pop_range, hn] using h

theorem forall₂_sublist_refl (L : List (List Nat)) :
    List.Forall₂ (fun c1 c => c1.Sublist c) L L := by
  induction L with
  | nil => exact List.Forall₂.nil
  | cons c L ih => exact List.Forall₂.cons (List.Sublist.refl c) ih

theorem drop_until_sublists (last : Option Nat) (L : List (List Nat)) :
    List.Forall₂ (fun c1 c => c1.Sublist c) (drop_until last L) L := by
  induction L with
  | nil => exact List.Forall₂.nil
  | cons c L ih =>
    simp only [drop_until]
    split
    · exact List.Forall₂.cons (List.dropWhile_sublist _) (forall₂_sublist_refl L)
    · exact List.Forall₂.cons (List.nil_sublist c) ih

theorem chains_pop_from_sublists {cs : List (List Nat)} {b : Nat} {l1 S : List Nat}
    (hb : cs[b]? = some (l1 ++ S)) (last : Option Nat) :
    List.Forall₂ (fun c1 c => c1.Sublist c) (chains_pop_from cs b l1 S last) cs := by
  have h1 := drop_until_sublists last (S :: cs.drop (b + 1))
  have h2 : List.Forall₂ (fun c1 c => c1.Sublist c)
      (cons_head l1 (drop_until last (S :: cs.drop (b + 1)))) ((l1 ++ S) :: cs.drop (b + 1)) := by
    cases hd : drop_until last (S :: cs.drop (b + 1)) with
    | nil => rw [hd] at h1; cases h1
    | cons X R =>
      rw [hd] at h1
      cases h1 with
      | cons hx hr => exact List.Forall₂.cons ((List.Sublist.refl l1).append hx) hr
  have h3 : List.Forall₂ (fun c1 c => c1.Sublist c)
      (cs.take b ++ cons_head l1 (drop_until last (S :: cs.drop (b + 1))))
      (cs.take b ++ (l1 ++ S) :: cs.drop (b + 1)) :=
    List.rel_append (forall₂_sublist_refl (cs.take b)) h2
  rw [← split_at_get hb] at h3
  exact h3

theorem Good.of_forall₂ {K : Type} {ops : Ops K} {cs cs1 : List (List Nat)} (h : Good ops cs)
    (hs : List.Forall₂ (fun c1 c => c1.Sublist c) cs1 cs) : Good ops cs1 := by
  have hlen := hs.length_eq
  refine h.of_sublists hlen ?_
  intro i c1 hi
  obtain ⟨hlt, hc⟩ := List.getElem?_eq_some_iff.mp hi
  have hlt2 : i < cs.length := hlen ▸ hlt
  refine ⟨cs[i], List.getElem?_eq_getElem hlt2, ?_⟩
  have := (List.forall₂_iff_get.mp hs).2 i hlt hlt2
  simpa [hc] using this

theorem Good.pop_range {K : Type} {ops : Ops K} {cs : List (List Nat)} (h : Good ops cs)
    {m : Mem} (hl : Linked m cs) (first : Nat) (last : Option Nat) :
    Good ops (chains_pop_range ops cs first last) := by
  unfold chains_pop_range
  split
  · refine h.of_forall₂ (chains_pop_from_sublists ?_ last)
    rw [List.takeWhile_append_dropWhile]
    exact hl.chain_of_get ops _
  · exact h

theorem Good.replicate {K : Type} (ops : Ops K) (n : Nat) :
    Good ops (List.replicate n []) := by
  refine ⟨?_, ?_⟩
  · intro i c hi e he
    have := List.getElem?_mem hi
    rw [List.mem_replicate] at this
    rw [this.2] at he
    simp at he
  · intro c hc a x b hsub
    rw [List.mem_replicate] at hc
    rw [hc.2] at hsub
    simp at hsub

theorem seg_head {m : Mem} {stop : Link} {ctx : Ctx} {c : List Nat} (h : Seg m stop ctx c) :
    m.read ctx = some (first_link stop c) := by
  cases c with
  | nil => exact (seg_nil _ _ _).mp h
  | cons e c => exact ((seg_cons _ _ _ _ _).mp h).1

theorem Linked.slot_eq {m : Mem} {cs : List (List Nat)} (h : Linked m cs) {i : Nat}
    (hi : i < cs.length) : m.buckets[i]? = some (head_link i (chain_at cs i)) := by
  have hg : cs[i]? = some (chain_at cs i) := by
    simp [chain_at, List.getElem?_eq_getElem hi]
  have := seg_head (h.seg i _ hg)
  simpa only [Mem.read] using this

theorem buckets_of_length (cs : List (List Nat)) : (buckets_of cs).length = cs.length + 1 := by
  simp [buckets_of]

theorem buckets_of_get_lt {cs : List (List Nat)} {i : Nat} (hi : i < cs.length) :
    (buckets_of cs)[i]? = some (head_link i (chain_at cs i)) := by
  simp [buckets_of, List.getElem?_append_left, hi, List.getElem?_range]

theorem buckets_of_get_last (cs : List (List Nat)) :
    (buckets_of cs)[cs.length]? = some Link.null := by
  simp [buckets_of, List.getElem?_append_right]

theorem Linked.buckets_eq {m : Mem} {cs : List (List Nat)} (h : Linked m cs) :
    m.buckets = buckets_of cs := by
  apply List.ext_getElem?
  intro i
  rcases Nat.lt_trichotomy i cs.length with hi | hi | hi
  · rw [h.slot_eq hi, buckets_of_get_lt hi]
  · rw [hi, h.sentinel, buckets_of_get_last]
  · rw [List.getElem?_eq_none (by rw [h.len]; omega),
      List.getElem?_eq_none (by rw [buckets_of_length]; omega)]

theorem chain_at_replicate (n i : Nat) : chain_at (List.replicate n []) i = [] := by
  simp only [chain_at, List.getElem?_replicate]
  split <;> rfl

theorem buckets_of_replicate (n : Nat) :
    buckets_of (List.replicate n []) = init_buckets_ (n + 1) := by
  simp only [buckets_of, init_buckets_, List.length_replicate, chain_at_replicate, head_link,
    first_link]
  simp

theorem Linked.congr {m m1 : Mem} {cs : List (List Nat)} (h : Linked m cs)
    (hb : m1.buckets = m.buckets) (hn : ∀ x ∈ cs.flatten, m1.next x = m.next x) :
    Linked m1 cs := by
  refine ⟨h.pos, hb ▸ h.len, hb ▸ h.sentinel, ?_, h.nodup⟩
  intro i c hi
  refine seg_congr (fun x hx => hn x (mem_flatten_of_get hi hx)) ?_ (h.seg i c hi)
  simp [Mem.read, hb]

theorem linked_init {n : Nat} (hn : 0 < n) (nx : Nat → Link) :
    Linked { buckets := init_buckets_ (n + 1), next := nx } (List.replicate n []) := by
  rw [← buckets_of_replicate]
  refine ⟨by simpa using hn, by simp [buckets_of_length], ?_, ?_, by simp⟩
  · have := buckets_of_get_last (List.replicate n ([] : List Nat))
    simpa using this
  · intro i c hi
    have hlt := lt_of_get hi
    have hc : c = [] := by
      have := List.getElem?_mem hi
      rw [List.mem_replicate] at this
      exact this.2
    subst hc
    rw [seg_nil]
    simp only [Mem.read]
    rw [buckets_of_get_lt hlt, chain_at_replicate]
    rfl

theorem rep_init {n : Nat} (hn : 0 < n) :
    Rep { buckets := init_buckets_ (n + 1), next := fun _ => Link.null, nitems := 0 }
      (List.replicate n []) :=
  ⟨linked_init hn _, fun _ _ => rfl, by simp⟩

theorem decompose_loop_spec {σ : Type} (cbk : MemCallback σ) (hc : CbkFrame cbk) (n : Nat) :
    ∀ {t : Table} {cs : List (List Nat)} {b : Nat} {fuel : Nat} (s : σ),
      Linked t.toMem cs → b ≤ cs.length →
      (cs.drop b).flatten.length + (cs.length - b) ≤ n → n < fuel →
      decompose_loop cbk cs.length fuel t s (.slot b) =
        (drain cbk (cs.drop b).flatten t.next s).bind (fun r =>
          some ({ buckets := buckets_of (cs.take b ++ List.replicate (cs.length - b) []),
                  next := r.1, nitems := t.nitems - (cs.drop b).flatten.length }, r.2)) := by
  induction n with
  | zero =>
    intro t cs b fuel s h hb hn hf
    obtain ⟨f, rfl⟩ : ∃ f, fuel = f + 1 := ⟨fuel - 1, by omega⟩
    have hbN : b = cs.length := by omega
    subst hbN
    simp [decompose_loop, drain, ← h.buckets_eq]
  | succ n ih =>
    intro t cs b fuel s h hb hn hf
    obtain ⟨f, rfl⟩ : ∃ f, fuel = f + 1 := ⟨fuel - 1, by omega⟩
    by_cases hbN : b = cs.length
    · subst hbN
      simp [decompose_loop, drain, ← h.buckets_eq]
    · have hblt : b < cs.length := by omega
      have hne : ¬ (Ctx.slot b = Ctx.slot cs.length) := by simp; omega
      have hdrop : cs.drop b = cs[b] :: cs.drop (b + 1) := List.drop_eq_getElem_cons hblt
      have hg : cs[b]? = some ([] ++ cs[b]) := by simp [List.getElem?_eq_getElem hblt]
      have hseg := h.read_after hg
      simp only [ctx_after] at hseg
      cases hcb : cs[b] with
      | nil =>
        rw [hcb, seg_nil] at hseg
        rw [decompose_loop]
        simp only [hne, if_false, ctx_item_, ctx_bucket_, hseg, next_ctx_bucket_,
          Option.map_some', Bool.not_true, Option.bind_eq_bind, Option.some_bind,
          Bool.false_eq_true]
        rw [ih s h (by omega) (by
          rw [hdrop, hcb] at hn
          simp only [List.flatten_cons, List.nil_append] at hn
          omega) (by omega)]
        have h1 : (cs.drop b).flatten = (cs.drop (b + 1)).flatten := by
          rw [hdrop, hcb]; rfl
        have h2 : cs.take (b + 1) ++ List.replicate (cs.length - (b + 1)) ([] : List Nat)
            = cs.take b ++ List.replicate (cs.length - b) [] := by
          rw [List.take_succ, List.getElem?_eq_getElem hblt, hcb]
          have : cs.length - b = (cs.length - (b + 1)) + 1 := by omega
          rw [this, List.replicate_succ]
          simp
        rw [h1, h2]
      | cons e c =>
        rw [hcb] at hg hseg
        rw [seg_cons] at hseg
        obtain ⟨m1, hp1, hp2, hp3, hp4⟩ := h.pop_item hg
        simp only [ctx_after, List.nil_append] at hp1 hp2 hp4
        have hm1 : m1.next = fun x => if x = e then Link.null else t.next x := by
          funext x
          by_cases hx : x = e
          · simp [hx, hp3]
          · simp [hx, hp4 x hx (by simp)]
        have hfl : (cs.drop b).flatten = e :: (c ++ (cs.drop (b + 1)).flatten) := by
          rw [hdrop, hcb]; rfl
        rw [decompose_loop]
        simp only [hne, if_false, ctx_item_, ctx_bucket_, hseg.1, Option.map_some',
          Bool.not_false, Option.bind_eq_bind, Option.some_bind, if_true, hp1, hfl, drain, hm1]
        cases hcbk : cbk e (fun x => if x = e then Link.null else t.next x) s with
        | none => simp
        | some r =>
          obtain ⟨nx, s1⟩ := r
          have hfr := hc e _ s nx s1 hcbk
          have hend : e ∉ (cs.set b c).flatten := by
            have hnd := h.nodup
            rw [flatten_split hg] at hnd
            rw [flatten_set hblt]
            simp only [List.nil_append, List.append_assoc, List.mem_append] at hnd ⊢
            have h3 := List.nodup_append.mp hnd
            have h5 := List.nodup_append.mp h3.2.1
            intro hmem
            rcases hmem with hm | hm | hm
            · exact h3.2.2 hm (by simp)
            · exact (List.nodup_cons.mp h5.1).1 hm
            · exact h5.2.2 (by simp) hm
          have hl2 : Linked ({ buckets := m1.buckets, next := nx } : Mem) (cs.set b c) := by
            refine hp2.congr rfl ?_
            intro x hx
            have hxe : x ≠ e := fun hh => hend (hh ▸ hx)
            show nx x = m1.next x
            rw [hfr x hxe, hm1]
          have hd2 : ((cs.set b c).drop b).flatten = c ++ (cs.drop (b + 1)).flatten := by
            rw [List.drop_eq_getElem_cons (show b < (cs.set b c).length by simpa using hblt),
              List.getElem_set_self, List.drop_set_of_lt _ _ (Nat.lt_succ_self b)]
            rfl
          have hih := @ih { buckets := m1.buckets, next := nx, nitems := t.nitems - 1 }
            (cs.set b c) b f s1 hl2 (by simpa using hb) (by
            rw [hfl] at hn
            rw [hd2]
            simp only [List.length_set, List.length_append, List.length_cons] at hn ⊢
            omega) (by omega)
          simp only [List.length_set] at hih
          simp only [Option.some_bind]
          rw [hih]
          rw [hd2, take_set_self]
          cases drain cbk (c ++ (cs.drop (b + 1)).flatten) nx s1 with
          | none => rfl
          | some r2 =>
            simp only [Option.some_bind, List.length_cons, Option.some.injEq, Prod.mk.injEq,
              and_true]
            congr 1
            omega

theorem Rep.decompose_with_spec {σ : Type} (cbk : MemCallback σ) (hc : CbkFrame cbk)
    {t : Table} {cs : List (List Nat)} (h : Rep t cs) (s : σ) {fuel : Nat}
    (hf : t.nitems + t.buckets.length ≤ fuel) :
    decompose_with cbk fuel t s =
      (drain cbk cs.flatten t.next s).bind (fun r =>
        some ({ buckets := init_buckets_ (cs.length + 1), next := r.1, nitems := 0 }, r.2)) := by
  have hbl := h.buckets_length
  unfold decompose_with
  by_cases hn : t.nitems = 0
  · have hfl : cs.flatten = [] := by
      have := h.count
      rw [hn] at this
      exact List.length_eq_zero.mp this.symm
    have hcs : cs = List.replicate cs.length [] := by
      rw [List.eq_replicate_iff]
      exact ⟨rfl, List.flatten_eq_nil_iff.mp hfl⟩
    have hb : t.buckets = init_buckets_ (cs.length + 1) := by
      rw [h.linked.buckets_eq, ← buckets_of_replicate]
      conv_lhs => rw [hcs]
    rw [hfl, ← hb, if_neg (by simp [hn])]
    simp only [drain, Option.some_bind]
    have : t = { buckets := t.buckets, next := t.next, nitems := 0 } := by
      cases t
      simp only at hn
      simp [hn]
    rw [← this]
  · have hne : t.buckets.length ≠ 0 := by omega
    have hlen : t.buckets.length - 1 = cs.length := by omega
    simp only [ne_eq, hn, not_false_eq_true, if_true, hne, if_false, hlen]
    rw [decompose_loop_spec cbk hc (cs.flatten.length + cs.length) s h.linked (Nat.zero_le _)
      (by simp) (by rw [← h.count]; omega)]
    simp only [List.drop_zero, List.take_zero, List.nil_append, Nat.sub_zero,
      buckets_of_replicate, h.count, Nat.sub_self]

theorem user_cbk_frame {σ : Type} (cbk : Nat → σ → σ) : CbkFrame (user_cbk cbk) := by
  intro e nx s nx1 s1 h x _
  simp only [user_cbk, Option.some.injEq, Prod.mk.injEq] at h
  rw [← h.1]

theorem drain_user {σ : Type} (cbk : Nat → σ → σ) (es : List Nat) (nx : Nat → Link) (s : σ) :
    drain (user_cbk cbk) es nx s =
      some (fun x => if x ∈ es then Link.null else nx x, es.foldl (fun s e => cbk e s) s) := by
  induction es generalizing nx s with
  | nil => simp [drain]
  | cons e es ih =>
    simp only [drain, user_cbk, Option.some_bind, List.foldl_cons]
    have := ih (fun x => if x = e then Link.null else nx x) (cbk e s)
    simp only [user_cbk] at this
    rw [this]
    congr 2
    funext x
    by_cases h1 : x ∈ es <;> by_cases h2 : x = e <;> simp [h1, h2]

theorem Rep.decompose_spec {σ : Type} (cbk : Nat → σ → σ) {t : Table} {cs : List (List Nat)}
    (h : Rep t cs) (s : σ) {fuel : Nat} (hf : t.nitems + t.buckets.length ≤ fuel) :
    decompose cbk fuel t s =
      some (empty_table cs.length, cs.flatten.foldl (fun s e => cbk e s) s) := by
  rw [decompose, h.decompose_with_spec _ (user_cbk_frame cbk) s hf, drain_user]
  have hfun : (fun x => if x ∈ cs.flatten then Link.null else t.next x)
      = fun _ => Link.null := by
    funext x
    by_cases hx : x ∈ cs.flatten
    · simp [hx]
    · simp [hx, h.unlinked x hx]
  simp only [Option.some_bind, empty_table, hfun]

theorem rep_empty_table {n : Nat} (hn : 0 < n) : Rep (empty_table n) (List.replicate n []) :=
  rep_init hn

theorem rehash_cbk_frame {K : Type} (ops : Ops K) : CbkFrame (rehash_cbk ops) := by
  intro e nx s nx1 s1 h x hx
  simp only [rehash_cbk, base_ctx_, push_item_, Option.bind_eq_bind, Option.pure_def] at h
  split at h
  · simp at h
  · simp only [Option.some_bind, Mem.read] at h
    cases hr : s.1[ops.hash (ops.extract_key e) % (s.1.length - 1)]? with
    | none => simp [hr] at h
    | some v =>
      simp only [hr, Option.some_bind, Mem.write, Mem.set_next] at h
      split at h
      · simp only [Option.some_bind, Option.some.injEq, Prod.mk.injEq] at h
        rw [← h.1]
        simp [hx]
      · simp at h

theorem chain_at_get {cs : List (List Nat)} {b : Nat} (hb : b < cs.length) :
    cs[b]? = some (chain_at cs b) := by
  simp [chain_at, List.getElem?_eq_getElem hb]

theorem flatten_set_cons_perm {cs : List (List Nat)} {b : Nat} (hb : b < cs.length) (e : Nat) :
    ((cs.set b (e :: chain_at cs b)).flatten).Perm (e :: cs.flatten) := by
  rw [flatten_set hb, flatten_split (chain_at_get hb)]
  simp only [List.append_assoc, List.cons_append]
  exact List.perm_middle

theorem drain_rehash {K : Type} (ops : Ops K) (es : List Nat) :
    ∀ {nb : List Link} {nx : Nat → Link} {ncs : List (List Nat)} (n : Nat),
      Linked { buckets := nb, next := nx } ncs → es.Nodup → (∀ e ∈ es, e ∉ ncs.flatten) →
      ∃ nx1 nb1, drain (rehash_cbk ops) es nx (nb, n) = some (nx1, (nb1, n + es.length)) ∧
        Linked { buckets := nb1, next := nx1 } (rehash_into ops es ncs) ∧
        (∀ x, x ∉ es → x ∉ ncs.flatten → nx1 x = nx x) := by
  induction es with
  | nil =>
    intro nb nx ncs n h _ _
    exact ⟨nx, nb, by simp [drain], h, fun _ _ _ => rfl⟩
  | cons e es ih =>
    intro nb nx ncs n h hnd hout
    have he : e ∉ ncs.flatten := hout e (by simp)
    have h0 : Linked { buckets := nb, next := fun x => if x = e then Link.null else nx x } ncs := by
      refine h.congr rfl ?_
      intro x hx
      have : x ≠ e := fun hh => he (hh ▸ hx)
      simp [this]
    have hblt := h0.bucket_lt ops (ops.extract_key e)
    have hb : ncs[bucket_of ops ncs (ops.extract_key e)]?
        = some ([] ++ chain_at ncs (bucket_of ops ncs (ops.extract_key e))) := chain_at_get hblt
    obtain ⟨m1, hp1, hp2, _, _, hp5⟩ := h0.push_item hb he
    simp only [ctx_after, List.nil_append] at hp1 hp2 hp5
    have hcbk : rehash_cbk ops e (fun x => if x = e then Link.null else nx x) (nb, n)
        = some (m1.next, (m1.buckets, n + 1)) := by
      simp only [rehash_cbk, h0.base_ctx ops, Option.bind_eq_bind, Option.some_bind]
      show (push_item_ _ (Ctx.slot (bucket_of ops ncs (ops.extract_key e))) e).bind _ = _
      rw [hp1]; rfl
    have hnd1 := List.nodup_cons.mp hnd
    obtain ⟨nx1, nb1, h1, h2, h3⟩ := @ih m1.buckets m1.next _ (n + 1) hp2 hnd1.2 (by
      intro x hx hmem
      have := (flatten_set_cons_perm hblt e).mem_iff.mp hmem
      rcases List.mem_cons.mp this with h4 | h4
      · exact hnd1.1 (h4 ▸ hx)
      · exact hout x (by simp [hx]) h4)
    refine ⟨nx1, nb1, ?_, h2, ?_⟩
    · simp only [drain, hcbk, Option.some_bind, h1, List.length_cons]
      congr 3
      omega
    · intro x hx hx2
      have hxe : x ≠ e := fun hh => hx (by simp [hh])
      have hxes : x ∉ es := fun hh => hx (by simp [hh])
      rw [h3 x hxes (by
        intro hmem
        have := (flatten_set_cons_perm hblt e).mem_iff.mp hmem
        rcases List.mem_cons.mp this with h4 | h4
        · exact hxe h4
        · exact hx2 h4), hp5 x hxe (by simp)]
      simp [hxe]

theorem rehash_into_length {K : Type} (ops : Ops K) (es : List Nat) (ncs : List (List Nat)) :
    (rehash_into ops es ncs).length = ncs.length := by
  induction es generalizing ncs with
  | nil => rfl
  | cons e es ih => simp [rehash_into, ih]

theorem rehash_into_perm {K : Type} (ops : Ops K) (es : List Nat) (ncs : List (List Nat))
    (hpos : 0 < ncs.length) :
    ((rehash_into ops es ncs).flatten).Perm (es ++ ncs.flatten) := by
  induction es generalizing ncs with
  | nil => simp [rehash_into]
  | cons e es ih =>
    have hblt : bucket_of ops ncs (ops.extract_key e) < ncs.length := Nat.mod_lt _ hpos
    simp only [rehash_into]
    refine (ih _ (by simpa using hpos)).trans ?_
    refine ((flatten_set_cons_perm hblt e).append_left es).trans ?_
    exact List.perm_middle

theorem chain_at_set {cs : List (List Nat)} {b : Nat} (hb : b < cs.length) (c : List Nat)
    (j : Nat) : chain_at (cs.set b c) j = if b = j then c else chain_at cs j := by
  simp only [chain_at, List.getElem?_set]
  by_cases hbj : b = j
  · subst hbj
    simp [hb]
  · simp [hbj]

theorem rehash_into_get {K : Type} (ops : Ops K) (es : List Nat) (ncs : List (List Nat))
    (hpos : 0 < ncs.length) (j : Nat) :
    chain_at (rehash_into ops es ncs) j =
      (es.filter (fun e => ops.hash (ops.extract_key e) % ncs.length == j)).reverse
        ++ chain_at ncs j := by
  induction es generalizing ncs with
  | nil => simp [rehash_into]
  | cons e es ih =>
    have hblt : bucket_of ops ncs (ops.extract_key e) < ncs.length := Nat.mod_lt _ hpos
    simp only [rehash_into]
    rw [ih _ (by simpa using hpos), chain_at_set hblt, List.length_set, List.filter_cons]
    by_cases hj : ops.hash (ops.extract_key e) % ncs.length = j
    · simp [bucket_of, hj]
    · simp [bucket_of, hj]

theorem Good.rehash {K : Type} {ops : Ops K} (he : EquivOps ops) {cs : List (List Nat)}
    (h : Good ops cs) {nb : Nat} (hnb : 0 < nb) : Good ops (chains_rehash ops cs nb) := by
  have hlen : (chains_rehash ops cs nb).length = nb := by
    simp [chains_rehash, rehash_into_length]
  have hget : ∀ (i : Nat) (c : List Nat), (chains_rehash ops cs nb)[i]? = some c →
      c = (cs.flatten.filter (fun e => ops.hash (ops.extract_key e) % nb == i)).reverse := by
    intro i c hi
    have hlt : i < (chains_rehash ops cs nb).length := lt_of_get hi
    have h1 := chain_at_get hlt
    rw [hi] at h1
    have h2 := rehash_into_get ops cs.flatten (List.replicate nb []) (by simpa using hnb) i
    simp only [List.length_replicate, chain_at_replicate, List.append_nil] at h2
    rw [← h2]
    exact Option.some.inj h1
  refine ⟨?_, ?_⟩
  · intro i c hi e hec
    rw [hget i c hi] at hec
    rw [hlen]
    simpa using (List.mem_filter.mp (List.mem_reverse.mp hec)).2
  · intro c hc
    obtain ⟨i, hi⟩ := List.mem_iff_getElem?.mp hc
    rw [hget i c hi]
    exact ((h.flatten_contig he).reverse he).sublist
      (List.reverse_sublist.mpr (List.filter_sublist _))

theorem lower_bound_ge (n : Nat) : 7 ≤ lower_bound n := by
  unfold lower_bound
  cases h : primes.dropLast.find? (fun p => !decide (p < n)) with
  | none => simp [last_prime]
  | some x =>
    have hx := List.mem_of_find?_eq_some h
    have hall : ∀ y ∈ primes.dropLast, 7 ≤ y := by decide
    simpa using hall x hx

theorem buckets_count_ge (n : Nat) : 7 ≤ buckets_count n := by
  unfold buckets_count
  split
  · simp [first_prime]
  · exact lower_bound_ge n

theorem buckets_count_pos (n : Nat) : 0 < buckets_count n :=
  lt_of_lt_of_le (by decide) (buckets_count_ge n)

theorem rep_mk (n : Nat) : Rep (Table.mk_ n) (List.replicate (buckets_count n) []) :=
  rep_init (buckets_count_pos n)

theorem Linked.next_ne_null {m : Mem} {cs : List (List Nat)} (h : Linked m cs) {e : Nat}
    (he : e ∈ cs.flatten) : m.next e ≠ Link.null := by
  obtain ⟨c, hc, hec⟩ := List.mem_flatten.mp he
  obtain ⟨i, hi⟩ := List.mem_iff_getElem?.mp hc
  obtain ⟨l1, l2, rfl⟩ := List.append_of_mem hec
  have hi2 : cs[i]? = some ((l1 ++ [e]) ++ l2) := by simpa using hi
  have hseg := seg_head (h.read_after hi2)
  rw [ctx_after_snoc] at hseg
  simp only [Mem.read, Option.some.injEq] at hseg
  rw [hseg]
  cases l2 <;> simp [first_link]

theorem Rep.not_mem_of_unlinked {t : Table} {cs : List (List Nat)} (h : Rep t cs) {e : Nat}
    (he : t.toMem.linked e = false) : e ∉ cs.flatten := by
  intro hmem
  have := h.linked.next_ne_null hmem
  simp [Mem.linked] at he
  exact this he

theorem Rep.resize_noop {K : Type} (ops : Ops K) {t : Table} {cs : List (List Nat)}
    (h : Rep t cs) (n : Nat) (fuel : Nat)
    (hn : ¬ (cs.length < n ∧ cs.length < buckets_count n)) :
    resize ops fuel t n = some t := by
  have hbl := h.buckets_length
  unfold resize
  split
  · rename_i h1
    have h1a : cs.length < n := by omega
    simp only
    split
    · rename_i h2
      exact absurd ⟨h1a, by omega⟩ hn
    · rfl
  · rfl

theorem Rep.resize_grow {K : Type} (ops : Ops K) {t : Table} {cs : List (List Nat)}
    (h : Rep t cs) (n : Nat) {fuel : Nat} (hf : t.nitems + t.buckets.length ≤ fuel)
    (h1 : cs.length < n) (h2 : cs.length < buckets_count n) :
    ∃ t1, resize ops fuel t n = some t1 ∧ Rep t1 (chains_rehash ops cs (buckets_count n)) ∧
      t1.nitems = t.nitems := by
  have hbl := h.buckets_length
  have hpos := buckets_count_pos n
  obtain ⟨nx1, nb1, hd1, hd2, hd3⟩ := @drain_rehash K ops cs.flatten
    (init_buckets_ (buckets_count n + 1)) t.next (List.replicate (buckets_count n) []) 0
    (linked_init hpos _) h.linked.nodup (by simp)
  refine ⟨{ buckets := nb1, next := nx1, nitems := 0 + cs.flatten.length }, ?_, ⟨hd2, ?_, ?_⟩, ?_⟩
  · unfold resize
    rw [if_pos (by omega)]
    simp only
    rw [if_pos (by omega), h.decompose_with_spec _ (rehash_cbk_frame ops) _ hf, hd1]
    rfl
  · intro x hx
    have hp := rehash_into_perm ops cs.flatten (List.replicate (buckets_count n) [])
      (by simpa using hpos)
    have hx1 : x ∉ cs.flatten := by
      intro hh
      apply hx
      exact hp.mem_iff.mpr (by simp [hh])
    show nx1 x = _
    rw [hd3 x hx1 (by simp)]
    exact h.unlinked x hx1
  · have hp := rehash_into_perm ops cs.flatten (List.replicate (buckets_count n) [])
      (by simpa using hpos)
    show 0 + cs.flatten.length = _
    rw [chains_rehash, hp.length_eq]
    simp
  · show 0 + cs.flatten.length = _
    rw [h.count]; simp

theorem chains_rehash_perm {K : Type} (ops : Ops K) (cs : List (List Nat)) {nb : Nat}
    (hnb : 0 < nb) : ((chains_rehash ops cs nb).flatten).Perm cs.flatten := by
  have hp := rehash_into_perm ops cs.flatten (List.replicate nb []) (by simpa using hnb)
  simpa [chains_rehash] using hp

theorem chains_rehash_length {K : Type} (ops : Ops K) (cs : List (List Nat)) (nb : Nat) :
    (chains_rehash ops cs nb).length = nb := by
  simp [chains_rehash, rehash_into_length]

theorem Rep.resize_spec {K : Type} (ops : Ops K) {t : Table} {cs : List (List Nat)}
    (h : Rep t cs) (n : Nat) {fuel : Nat} (hf : t.enough fuel) :
    ∃ t1, resize ops fuel t n = some t1 ∧ Rep t1 (chains_resize ops cs n) ∧
      t1.nitems = t.nitems := by
  unfold chains_resize
  split
  · rename_i hc
    exact h.resize_grow ops n hf hc.1 hc.2
  · rename_i hc
    exact ⟨t, h.resize_noop ops n fuel hc, h, rfl⟩

theorem Good.resize {K : Type} {ops : Ops K} (he : EquivOps ops) {cs : List (List Nat)}
    (h : Good ops cs) (n : Nat) : Good ops (chains_resize ops cs n) := by
  unfold chains_resize
  split
  · exact h.rehash he (buckets_count_pos n)
  · exact h

theorem chains_resize_perm {K : Type} (ops : Ops K) (cs : List (List Nat)) (n : Nat) :
    ((chains_resize ops cs n).flatten).Perm cs.flatten := by
  unfold chains_resize
  split
  · exact chains_rehash_perm ops cs (buckets_count_pos n)
  · exact List.Perm.refl _

theorem Rep.enough_lt {t : Table} {cs : List (List Nat)} (h : Rep t cs) {fuel : Nat}
    (hf : t.enough fuel) : t.nitems < fuel := by
  have := h.buckets_length
  unfold Table.enough at hf
  omega

theorem Good.push {K : Type} {ops : Ops K} (he : EquivOps ops) {cs : List (List Nat)}
    (h : Good ops cs) {m : Mem} (hl : Linked m cs) (node : Nat) :
    Good ops (chains_push ops cs node) :=
  h.set_insert he (hl.chain_of_get ops (ops.extract_key node))

theorem Good.pop_one {K : Type} {ops : Ops K} {cs : List (List Nat)}
    (h : Good ops cs) {m : Mem} (hl : Linked m cs) (key : K) :
    Good ops (chains_pop_one ops cs key) := by
  refine h.set_sublist (hl.chain_split ops key) ?_
  exact (List.Sublist.refl _).append (List.tail_sublist _)

theorem Good.pop_all {K : Type} {ops : Ops K} {cs : List (List Nat)}
    (h : Good ops cs) {m : Mem} (hl : Linked m cs) (key : K) :
    Good ops (chains_pop_all ops cs key) := by
  refine h.set_sublist (hl.chain_split ops key) ?_
  exact (List.Sublist.refl _).append (List.dropWhile_sublist _)

theorem Good.pop {K : Type} {ops : Ops K} {cs : List (List Nat)}
    (h : Good ops cs) {m : Mem} (hl : Linked m cs) (node : Nat) :
    Good ops (chains_pop ops cs node) :=
  h.set_sublist (hl.chain_of_get ops _) (List.erase_sublist _ _)

theorem hit_congr {K : Type} {ops : Ops K} (he : EquivOps ops) {k1 k2 : K}
    (hk : ops.equal_to k1 k2 = true) (x : Nat) : hit ops k1 x = hit ops k2 x := by
  simp only [hit]
  cases h1 : ops.equal_to (ops.extract_key x) k1 with
  | true => exact (he.trans _ _ _ h1 hk).symm
  | false =>
    cases h2 : ops.equal_to (ops.extract_key x) k2 with
    | true =>
      have := he.trans _ _ _ h2 (he.symm _ _ hk)
      rw [h1] at this
      exact this
    | false => rfl

theorem miss_congr {K : Type} {ops : Ops K} (he : EquivOps ops) {k1 k2 : K}
    (hk : ops.equal_to k1 k2 = true) : miss ops k1 = miss ops k2 := by
  funext x
  simp [miss, hit_congr he hk x]

theorem chains_push_absent {K : Type} {ops : Ops K} (he : EquivOps ops) (cs : List (List Nat))
    {key : K} {node : Nat} (hk : ops.equal_to (ops.extract_key node) key = true)
    (hy : (chain_of ops cs key).any (hit ops key) = false) :
    chains_push ops cs node = cs.set (bucket_of ops cs key) (chain_of ops cs key ++ [node]) := by
  have hb : bucket_of ops cs (ops.extract_key node) = bucket_of ops cs key := by
    simp [bucket_of, he.hash_eq _ _ hk]
  obtain ⟨h1, h2⟩ := any_hit_false ops key _ hy
  simp only [chains_push, before_key, from_key, chain_of, hb, miss_congr he hk]
  simp only [chain_of] at h1 h2
  rw [h1, h2]

theorem from_key_nil_iff {K : Type} (ops : Ops K) (cs : List (List Nat)) (key : K) :
    from_key ops cs key = [] ↔ (chain_of ops cs key).any (hit ops key) = false := by
  have := any_hit_iff ops key (chain_of ops cs key)
  simp only [from_key]
  constructor
  · intro h
    cases h2 : (chain_of ops cs key).any (hit ops key) with
    | false => rfl
    | true => exact absurd h (this.mp h2)
  · intro h
    by_contra hne
    rw [this.mpr hne] at h
    exact Bool.noConfusion h

theorem Inv.of_reachable {K : Type} {ops : Ops K} (he : EquivOps ops) {t : Table}
    (h : Reachable ops t) : Inv ops t := by
  induction h with
  | init n => exact ⟨_, rep_mk n, Good.replicate ops _⟩
  | @push_no_resize t t1 fuel node r _ hf hn hop ih =>
    obtain ⟨cs, hr, hg⟩ := ih
    obtain ⟨t2, h1, h2, _⟩ := hr.push_no_resize_spec ops (hr.not_mem_of_unlinked hn)
      (hr.enough_lt hf)
    rw [h1] at hop
    simp only [Option.some.injEq, Prod.mk.injEq] at hop
    rw [← hop.1]
    exact ⟨_, h2, hg.push he hr.linked node⟩
  | @push t t1 fuel node r _ hf hn hop ih =>
    obtain ⟨cs, hr, hg⟩ := ih
    obtain ⟨t2, h1, h2, h3⟩ := hr.resize_spec ops (t.nitems + 1) hf
    have hnm : node ∉ (chains_resize ops cs (t.nitems + 1)).flatten := by
      intro hh
      exact hr.not_mem_of_unlinked hn ((chains_resize_perm ops cs _).mem_iff.mp hh)
    obtain ⟨t3, h4, h5, _⟩ := h2.push_no_resize_spec ops hnm
      (by rw [h3]; exact hr.enough_lt hf)
    simp only [Intrhash.push, h1, Option.bind_eq_bind, Option.some_bind, h4] at hop
    simp only [Option.some.injEq, Prod.mk.injEq] at hop
    rw [← hop.1]
    exact ⟨_, h5, (hg.resize he _).push he h2.linked node⟩
  | @find_or_push_no_resize G t fuel key gen g r _ hf hgen hop ih =>
    obtain ⟨cs, hr, hg⟩ := ih
    cases hy : (chain_of ops cs key).any (hit ops key) with
    | true =>
      obtain ⟨y, rr, hyr⟩ : ∃ y rr, from_key ops cs key = y :: rr := by
        cases hfk : from_key ops cs key with
        | nil => rw [(from_key_nil_iff ops cs key).mp hfk] at hy; exact Bool.noConfusion hy
        | cons y rr => exact ⟨y, rr, rfl⟩
      rw [hr.find_or_push_no_resize_found ops key gen g (hr.enough_lt hf) hyr] at hop
      simp only [Option.some.injEq] at hop
      rw [← hop]
      exact ⟨cs, hr, hg⟩
    | false =>
      cases hgg : gen g with
      | mk o g1 =>
        cases o with
        | none =>
          rw [hr.find_or_push_no_resize_fail ops key gen g (hr.enough_lt hf) hy hgg] at hop
          simp only [Option.some.injEq] at hop
          rw [← hop]
          exact ⟨cs, hr, hg⟩
        | some node =>
          obtain ⟨hn, hk⟩ := hgen node g1 hgg
          obtain ⟨t2, h1, h2, _⟩ := hr.find_or_push_no_resize_absent ops key gen g
            (hr.enough_lt hf) hy hgg (hr.not_mem_of_unlinked hn)
          rw [h1] at hop
          simp only [Option.some.injEq] at hop
          rw [← hop]
          refine ⟨_, h2, ?_⟩
          rw [← chains_push_absent he cs hk hy]
          exact hg.push he hr.linked node
  | @find_or_push G t fuel key gen g r _ hf hgen hop ih =>
    obtain ⟨cs0, hr0, hg0⟩ := ih
    obtain ⟨t2, h1, hr, h3⟩ := hr0.resize_spec ops (t.nitems + 1) hf
    have hg := hg0.resize he (t.nitems + 1)
    have hf2 : t2.nitems < fuel := by rw [h3]; exact hr0.enough_lt hf
    simp only [Intrhash.find_or_push, h1, Option.bind_eq_bind, Option.some_bind] at hop
    cases hy : (chain_of ops (chains_resize ops cs0 (t.nitems + 1)) key).any (hit ops key) with
    | true =>
      obtain ⟨y, rr, hyr⟩ : ∃ y rr,
          from_key ops (chains_resize ops cs0 (t.nitems + 1)) key = y :: rr := by
        cases hfk : from_key ops (chains_resize ops cs0 (t.nitems + 1)) key with
        | nil => rw [(from_key_nil_iff ops _ key).mp hfk] at hy; exact Bool.noConfusion hy
        | cons y rr => exact ⟨y, rr, rfl⟩
      rw [hr.find_or_push_no_resize_found ops key gen g hf2 hyr] at hop
      simp only [Option.some.injEq] at hop
      rw [← hop]
      exact ⟨_, hr, hg⟩
    | false =>
      cases hgg : gen g with
      | mk o g1 =>
        cases o with
        | none =>
          rw [hr.find_or_push_no_resize_fail ops key gen g hf2 hy hgg] at hop
          simp only [Option.some.injEq] at hop
          rw [← hop]
          exact ⟨_, hr, hg⟩
        | some node =>
          obtain ⟨hn, hk⟩ := hgen node g1 hgg
          have hnm : node ∉ (chains_resize ops cs0 (t.nitems + 1)).flatten := by
            intro hh
            exact hr0.not_mem_of_unlinked hn ((chains_resize_perm ops cs0 _).mem_iff.mp hh)
          obtain ⟨t3, h4, h5, _⟩ := hr.find_or_push_no_resize_absent ops key gen g
            hf2 hy hgg hnm
          rw [h4] at hop
          simp only [Option.some.injEq] at hop
          rw [← hop]
          refine ⟨_, h5, ?_⟩
          rw [← chains_push_absent he _ hk hy]
          exact hg.push he hr.linked node
  | @pop t t1 fuel node r _ hf hop ih =>
    obtain ⟨cs, hr, hg⟩ := ih
    by_cases hn : node ∈ chain_of ops cs (ops.extract_key node)
    · obtain ⟨t2, h1, h2, _⟩ := hr.pop_found ops hn (hr.enough_lt hf)
      rw [h1] at hop
      simp only [Option.some.injEq, Prod.mk.injEq] at hop
      rw [← hop.1]
      exact ⟨_, h2, hg.pop hr.linked node⟩
    · rw [hr.pop_absent ops hn (hr.enough_lt hf)] at hop
      simp only [Option.some.injEq, Prod.mk.injEq] at hop
      rw [← hop.1]
      exact ⟨cs, hr, hg⟩
  | @pop_range σ cbk t t1 fuel first last s s1 _ hf hop ih =>
    obtain ⟨cs, hr, hg⟩ := ih
    obtain ⟨t2, h1, h2, _⟩ := hr.pop_range_spec ops cbk first last s hf
    rw [h1] at hop
    simp only [Option.some.injEq, Prod.mk.injEq] at hop
    rw [← hop.1]
    exact ⟨_, h2, hg.pop_range hr.linked first last⟩
  | @pop_one t t1 fuel key r _ hf hop ih =>
    obtain ⟨cs, hr, hg⟩ := ih
    cases hfk : from_key ops cs key with
    | nil =>
      rw [hr.pop_one_absent ops key (hr.enough_lt hf) ((from_key_nil_iff ops cs key).mp hfk)] at hop
      simp only [Option.some.injEq, Prod.mk.injEq] at hop
      rw [← hop.1]
      exact ⟨cs, hr, hg⟩
    | cons y rr =>
      obtain ⟨t2, h1, h2, _⟩ := hr.pop_one_found ops key (hr.enough_lt hf) hfk
      rw [h1] at hop
      simp only [Option.some.injEq, Prod.mk.injEq] at hop
      rw [← hop.1]
      exact ⟨_, h2, hg.pop_one hr.linked key⟩
  | @pop_all σ cbk t t1 fuel key s s1 _ hf hop ih =>
    obtain ⟨cs, hr, hg⟩ := ih
    cases hy : (chain_of ops cs key).any (hit ops key) with
    | false =>
      rw [hr.pop_all_absent ops cbk key (hr.enough_lt hf) s hy] at hop
      simp only [Option.some.injEq, Prod.mk.injEq] at hop
      rw [← hop.1]
      exact ⟨cs, hr, hg⟩
    | true =>
      obtain ⟨t2, h1, h2, _⟩ := hr.pop_all_found ops cbk key (hr.enough_lt hf) s hy
      rw [h1] at hop
      simp only [Option.some.injEq, Prod.mk.injEq] at hop
      rw [← hop.1]
      exact ⟨_, h2, hg.pop_all hr.linked key⟩
  | @decompose σ cbk t t1 fuel s s1 _ hf hop ih =>
    obtain ⟨cs, hr, hg⟩ := ih
    rw [hr.decompose_spec cbk s hf] at hop
    simp only [Option.some.injEq, Prod.mk.injEq] at hop
    rw [← hop.1]
    exact ⟨_, rep_empty_table hr.linked.pos, Good.replicate ops _⟩
  | @resize t t1 fuel n _ hf hop ih =>
    obtain ⟨cs, hr, hg⟩ := ih
    obtain ⟨t2, h1, h2, _⟩ := hr.resize_spec ops n hf
    rw [h1] at hop
    simp only [Option.some.injEq] at hop
    rw [← hop]
    exact ⟨_, h2, hg.resize he n⟩

theorem chain_nodes_seg {m : Mem} {j : Nat} {c : List Nat} {ctx : Ctx}
    (h : Seg m (.bucket j) ctx c) {fuel : Nat} (hf : c.length < fuel) :
    chain_nodes m fuel ctx = some c := by
  induction c generalizing ctx fuel with
  | nil =>
    obtain ⟨f, rfl⟩ : ∃ f, fuel = f + 1 := ⟨fuel - 1, by omega⟩
    rw [seg_nil] at h
    simp [chain_nodes, ctx_item_, ctx_bucket_, h]
  | cons e c ih =>
    obtain ⟨f, rfl⟩ : ∃ f, fuel = f + 1 := ⟨fuel - 1, by omega⟩
    rw [seg_cons] at h
    have hf1 : c.length < f := by simpa using hf
    simp [chain_nodes, ctx_item_, ctx_bucket_, h.1, ctx_node, next_ctx_item_, ih h.2 hf1]

theorem mapM_option_eq {α : Type} (l : List Nat) (f : Nat → Option α) (g : Nat → α)
    (h : ∀ i ∈ l, f i = some (g i)) : l.mapM f = some (l.map g) := by
  induction l with
  | nil => rfl
  | cons a l ih =>
    rw [List.mapM_cons, h a (by simp), ih (fun i hi => h i (by simp [hi]))]
    rfl

theorem map_chain_at (cs : List (List Nat)) :
    (List.range cs.length).map (fun i => chain_at cs i) = cs := by
  apply List.ext_getElem?
  intro i
  by_cases hi : i < cs.length
  · simp [List.getElem?_range, hi, chain_at, List.getElem?_eq_getElem hi]
  · rw [List.getElem?_eq_none (by simpa using hi), List.getElem?_eq_none (by simpa using hi)]

theorem Rep.chains_eq {t : Table} {cs : List (List Nat)} (h : Rep t cs) {fuel : Nat}
    (hf : t.nitems < fuel) : t.chains fuel = some cs := by
  unfold Table.chains
  rw [h.buckets_length, Nat.add_sub_cancel]
  rw [mapM_option_eq _ _ (fun i => chain_at cs i), map_chain_at]
  intro i hi
  have hlt : i < cs.length := by simpa using hi
  have hg := chain_at_get hlt
  exact chain_nodes_seg (h.linked.seg i _ hg)
    (lt_of_le_of_lt (chain_length_le hg) (h.count ▸ hf))

theorem Linked.read_end {m : Mem} {cs : List (List Nat)} (h : Linked m cs) :
    m.read (.slot cs.length) = some Link.null := h.sentinel

theorem Rep.end_eq {t : Table} {cs : List (List Nat)} (h : Rep t cs) :
    t.end_ = some Link.null := by
  have hbl := h.buckets_length
  unfold Table.end_
  rw [if_neg (by omega), hbl, Nat.add_sub_cancel]
  exact h.linked.read_end

theorem Linked.item_ctx_skip {m : Mem} {cs : List (List Nat)} (h : Linked m cs) (k : Nat) :
    ∀ {i fuel : Nat}, i ≤ cs.length → cs.length - i ≤ k → k < fuel →
      ∃ ctx1, item_ctx_ m fuel (.slot i) = some ctx1 ∧
        m.read ctx1 = some (first_link Link.null (cs.drop i).flatten) := by
  induction k with
  | zero =>
    intro i fuel hi hk hf
    obtain ⟨f, rfl⟩ : ∃ f, fuel = f + 1 := ⟨fuel - 1, by omega⟩
    have hiN : i = cs.length := by omega
    subst hiN
    refine ⟨.slot cs.length, ?_, ?_⟩
    · simp [item_ctx_, ctx_bucket_, h.read_end]
    · simp [h.read_end, first_link]
  | succ k ih =>
    intro i fuel hi hk hf
    obtain ⟨f, rfl⟩ : ∃ f, fuel = f + 1 := ⟨fuel - 1, by omega⟩
    by_cases hiN : i = cs.length
    · subst hiN
      refine ⟨.slot cs.length, ?_, ?_⟩
      · simp [item_ctx_, ctx_bucket_, h.read_end]
      · simp [h.read_end, first_link]
    · have hlt : i < cs.length := by omega
      have hdrop : cs.drop i = cs[i] :: cs.drop (i + 1) := List.drop_eq_getElem_cons hlt
      have hhead := seg_head (h.seg i _ (List.getElem?_eq_getElem hlt))
      cases hc : cs[i] with
      | nil =>
        rw [hc] at hhead
        obtain ⟨ctx1, h1, h2⟩ := @ih (i + 1) f (by omega) (by omega) (by omega)
        refine ⟨ctx1, ?_, ?_⟩
        · simp [item_ctx_, ctx_bucket_, hhead, first_link, next_ctx_bucket_, h1]
        · rw [h2, hdrop, hc]; rfl
      | cons e c =>
        rw [hc] at hhead
        refine ⟨.slot i, ?_, ?_⟩
        · simp [item_ctx_, ctx_bucket_, hhead, first_link]
        · rw [hhead, hdrop, hc]; rfl

theorem Linked.item_ctx_seg {m : Mem} {cs : List (List Nat)} (h : Linked m cs) {i : Nat}
    (hi : i < cs.length) {ctx : Ctx} {l2 : List Nat} (hs : Seg m (.bucket (i + 1)) ctx l2)
    {fuel : Nat} (hf : cs.length - i < fuel) :
    ∃ ctx1, item_ctx_ m fuel ctx = some ctx1 ∧
      m.read ctx1 = some (first_link Link.null (l2 ++ (cs.drop (i + 1)).flatten)) := by
  obtain ⟨f, rfl⟩ : ∃ f, fuel = f + 1 := ⟨fuel - 1, by omega⟩
  have hhead := seg_head hs
  cases l2 with
  | nil =>
    obtain ⟨ctx1, h1, h2⟩ := @Linked.item_ctx_skip m cs h (cs.length - (i + 1)) (i + 1) f
      (by omega) (le_refl _) (by omega)
    refine ⟨ctx1, ?_, ?_⟩
    · simp [item_ctx_, ctx_bucket_, hhead, first_link, next_ctx_bucket_, h1]
    · rw [h2]; rfl
  | cons e c =>
    refine ⟨ctx, ?_, ?_⟩
    · simp [item_ctx_, ctx_bucket_, hhead, first_link]
    · rw [hhead]; rfl

theorem Rep.begin_eq {t : Table} {cs : List (List Nat)} (h : Rep t cs) {fuel : Nat}
    (hf : t.enough fuel) : t.begin fuel = some (first_link Link.null cs.flatten) := by
  have hbl := h.buckets_length
  unfold Table.enough at hf
  obtain ⟨ctx1, h1, h2⟩ := @Linked.item_ctx_skip _ cs h.linked cs.length 0 fuel
    (Nat.zero_le _) (by omega) (by omega)
  simp only [Table.begin, h1, Option.bind_eq_bind, Option.some_bind]
  rw [h2]; rfl

theorem Linked.iter_next_eq {m : Mem} {cs : List (List Nat)} (h : Linked m cs) {i : Nat}
    {l1 l2 : List Nat} {e : Nat} (hb : cs[i]? = some (l1 ++ e :: l2))
    {fuel : Nat} (hf : cs.length - i < fuel) :
    iter_next fuel m (.item e) =
      some (first_link Link.null (l2 ++ (cs.drop (i + 1)).flatten)) := by
  have hb2 : cs[i]? = some ((l1 ++ [e]) ++ l2) := by simpa using hb
  have hs := h.read_after hb2
  rw [ctx_after_snoc] at hs
  obtain ⟨ctx1, h1, h2⟩ := h.item_ctx_seg (lt_of_get hb) hs hf
  simp only [iter_next, h1, Option.bind_eq_bind, Option.some_bind]
  exact h2

theorem Linked.iter_range_eq {m : Mem} {cs : List (List Nat)} (h : Linked m cs) {fuel : Nat}
    (hf : cs.length < fuel) (k : Nat) :
    ∀ {i : Nat} {l1 l2 : List Nat} {n : Nat}, cs[i]? = some (l1 ++ l2) →
      (l2 ++ (cs.drop (i + 1)).flatten).length + (cs.length - i) ≤ k →
      (l2 ++ (cs.drop (i + 1)).flatten).length < n →
      iter_range fuel m Link.null n (first_link Link.null (l2 ++ (cs.drop (i + 1)).flatten)) =
        some (l2 ++ (cs.drop (i + 1)).flatten) := by
  induction k with
  | zero =>
    intro i l1 l2 n hb hk _
    have := lt_of_get hb
    omega
  | succ k ih =>
    intro i l1 l2 n hb hk hn
    obtain ⟨n1, rfl⟩ : ∃ n1, n = n1 + 1 := ⟨n - 1, by omega⟩
    have hlt := lt_of_get hb
    cases l2 with
    | nil =>
      by_cases hend : i + 1 = cs.length
      · have : cs.drop (i + 1) = [] := by simp [hend]
        simp [this, first_link, iter_range]
      · have hlt1 : i + 1 < cs.length := by omega
        have hdrop : cs.drop (i + 1) = cs[i + 1] :: cs.drop (i + 1 + 1) :=
          List.drop_eq_getElem_cons hlt1
        have hb1 : cs[i + 1]? = some ([] ++ cs[i + 1]) := by
          simp [List.getElem?_eq_getElem hlt1]
        have hfl : ([] ++ (cs.drop (i + 1)).flatten : List Nat)
            = cs[i + 1] ++ (cs.drop (i + 1 + 1)).flatten := by
          rw [List.nil_append, hdrop, List.flatten_cons]
        rw [hfl] at hk hn ⊢
        exact @ih (i + 1) [] cs[i + 1] (n1 + 1) hb1 (by omega) hn
    | cons e l2 =>
      have hnext := h.iter_next_eq hb (show cs.length - i < fuel by omega)
      have hb2 : cs[i]? = some ((l1 ++ [e]) ++ l2) := by simpa using hb
      have := @ih i (l1 ++ [e]) l2 n1 hb2 (by
        simp only [List.cons_append, List.length_cons] at hk
        omega) (by
        simp only [List.cons_append, List.length_cons] at hn
        omega)
      have hfl : first_link Link.null (e :: l2 ++ (cs.drop (i + 1)).flatten) = Link.item e := rfl
      rw [hfl, iter_range]
      simp only [reduceCtorEq, if_false, hnext, Option.bind_eq_bind, Option.some_bind, this]
      rfl

theorem Rep.entries_eq {t : Table} {cs : List (List Nat)} (h : Rep t cs) {fuel : Nat}
    (hf : t.enough fuel) : t.entries fuel = some cs.flatten := by
  have hbl := h.buckets_length
  have hcnt := h.count
  have hpos := h.linked.pos
  unfold Table.enough at hf
  have h0 : cs[0]? = some ([] ++ cs[0]) := by simp [List.getElem?_eq_getElem hpos]
  have hfl : cs.flatten = cs[0] ++ (cs.drop (0 + 1)).flatten := by
    conv_lhs => rw [← List.drop_zero (l := cs), List.drop_eq_getElem_cons hpos, List.flatten_cons]
  simp only [Table.entries, h.end_eq, h.begin_eq hf, Option.bind_eq_bind, Option.some_bind]
  rw [hfl]
  exact @Linked.iter_range_eq _ cs h.linked fuel (by omega)
    ((cs[0] ++ (cs.drop (0 + 1)).flatten).length + (cs.length - 0)) 0 [] cs[0] fuel h0
    (le_refl _) (by rw [← hfl]; omega)

theorem Rep.find_eq {K : Type} (ops : Ops K) {t : Table} {cs : List (List Nat)}
    (h : Rep t cs) (key : K) {fuel : Nat} (hf : t.nitems < fuel) :
    find ops fuel t key = some (first_link Link.null (from_key ops cs key)) := by
  simp only [find, h.find_ctx_spec ops key hf, Option.bind_eq_bind, Option.some_bind]
  cases hfk : from_key ops cs key with
  | nil =>
    rw [(from_key_nil_iff ops cs key).mp hfk]
    simp [h.end_eq, first_link]
  | cons y r =>
    have hany : (chain_of ops cs key).any (hit ops key) = true := by
      cases hy : (chain_of ops cs key).any (hit ops key) with
      | true => rfl
      | false => rw [(from_key_nil_iff ops cs key).mpr hy] at hfk; cases hfk
    have hsplit := h.linked.chain_split ops key
    rw [hfk] at hsplit
    have := seg_head (h.linked.read_after hsplit)
    simp only [hany, if_true, this]
    rfl

theorem Rep.has_eq {K : Type} (ops : Ops K) {t : Table} {cs : List (List Nat)}
    (h : Rep t cs) (key : K) {fuel : Nat} (hf : t.nitems < fuel) :
    has ops fuel t key = some ((chain_of ops cs key).any (hit ops key)) := by
  simp [has, h.find_ctx_spec ops key hf]

theorem count_loop_seg {K : Type} (ops : Ops K) {m : Mem} {j : Nat} (key : K)
    (r : List Nat) : ∀ {y : Nat} {ctx : Ctx} {fuel : Nat} (result : Nat),
      Seg m (.bucket j) ctx (y :: r) → r.length < fuel →
      count_loop ops m key fuel ctx result =
        some (result + 1 + (r.takeWhile (hit ops key)).length) := by
  induction r with
  | nil =>
    intro y ctx fuel result h hf
    obtain ⟨f, rfl⟩ : ∃ f, fuel = f + 1 := ⟨fuel - 1, by omega⟩
    rw [seg_cons, seg_nil] at h
    simp [count_loop, next_ctx_item_, h.1, ctx_item_, ctx_bucket_, h.2]
  | cons z r ih =>
    intro y ctx fuel result h hf
    obtain ⟨f, rfl⟩ : ∃ f, fuel = f + 1 := ⟨fuel - 1, by omega⟩
    have hf1 : r.length < f := by simpa using hf
    rw [seg_cons] at h
    have h2 := h.2
    have hz := ((seg_cons _ _ _ _ _).mp h2).1
    by_cases hh : ops.equal_to (ops.extract_key z) key = true
    · simp [count_loop, next_ctx_item_, h.1, ctx_item_, ctx_bucket_, hz, ctx_relative_, ctx_node,
        hh, ih (result + 1) h2 hf1, List.takeWhile_cons, hit]
      omega
    · simp only [Bool.not_eq_true] at hh
      simp [count_loop, next_ctx_item_, h.1, ctx_item_, ctx_bucket_, hz, ctx_relative_, ctx_node,
        hh, List.takeWhile_cons, hit]

theorem Rep.count_eq {K : Type} (ops : Ops K) {t : Table} {cs : List (List Nat)}
    (h : Rep t cs) (key : K) {fuel : Nat} (hf : t.nitems < fuel) :
    Intrhash.count ops fuel t key =
      some ((from_key ops cs key).takeWhile (hit ops key)).length := by
  simp only [Intrhash.count, h.find_ctx_spec ops key hf, Option.bind_eq_bind, Option.some_bind]
  cases hfk : from_key ops cs key with
  | nil =>
    rw [(from_key_nil_iff ops cs key).mp hfk]
    simp
  | cons y r =>
    have hany : (chain_of ops cs key).any (hit ops key) = true := by
      cases hy : (chain_of ops cs key).any (hit ops key) with
      | true => rfl
      | false => rw [(from_key_nil_iff ops cs key).mpr hy] at hfk; cases hfk
    have hy : hit ops key y = true := by
      rcases dropWhile_miss ops key (chain_of ops cs key) with h1 | ⟨y1, r1, h1, h2⟩
      · rw [from_key, h1] at hfk; cases hfk
      · rw [from_key, h1] at hfk
        simp only [List.cons.injEq] at hfk
        rw [← hfk.1]; exact h2
    have hsplit := h.linked.chain_split ops key
    rw [hfk] at hsplit
    have hlen : r.length < fuel := by
      have := chain_length_le hsplit
      rw [← h.count] at this
      simp at this
      omega
    simp only [hany, Bool.not_true, Bool.false_eq_true, if_false]
    rw [count_loop_seg ops key r 0 (h.linked.read_after hsplit) hlen]
    simp [List.takeWhile_cons, hy]
    omega

theorem Good.hit_bucket {K : Type} {ops : Ops K} (he : EquivOps ops) {cs : List (List Nat)}
    (h : Good ops cs) {i : Nat} {c : List Nat} (hi : cs[i]? = some c) {e : Nat} (hec : e ∈ c)
    {key : K} (hk : hit ops key e = true) : i = bucket_of ops cs key := by
  rw [← h.placed i c hi e hec, bucket_of, he.hash_eq _ _ hk]

theorem Good.no_hit_take {K : Type} {ops : Ops K} (he : EquivOps ops) {cs : List (List Nat)}
    (h : Good ops cs) (key : K) :
    ∀ x ∈ (cs.take (bucket_of ops cs key)).flatten, hit ops key x = false := by
  intro x hx
  obtain ⟨c, hc, hxc⟩ := List.mem_flatten.mp hx
  obtain ⟨i, hi⟩ := List.mem_iff_getElem?.mp hc
  rw [List.getElem?_take] at hi
  split at hi
  · rename_i hlt
    cases hk : hit ops key x with
    | false => rfl
    | true =>
      have := h.hit_bucket he hi hxc hk
      omega
  · cases hi

theorem Good.no_hit_drop {K : Type} {ops : Ops K} (he : EquivOps ops) {cs : List (List Nat)}
    (h : Good ops cs) (key : K) :
    ∀ x ∈ (cs.drop (bucket_of ops cs key + 1)).flatten, hit ops key x = false := by
  intro x hx
  obtain ⟨c, hc, hxc⟩ := List.mem_flatten.mp hx
  obtain ⟨i, hi⟩ := List.mem_iff_getElem?.mp hc
  rw [List.getElem?_drop] at hi
  cases hk : hit ops key x with
  | false => rfl
  | true =>
    have := h.hit_bucket he hi hxc hk
    omega

theorem Good.any_hit_flatten {K : Type} {ops : Ops K} (he : EquivOps ops)
    {cs : List (List Nat)} (h : Good ops cs) {m : Mem} (hl : Linked m cs) (key : K) :
    cs.flatten.any (hit ops key) = (chain_of ops cs key).any (hit ops key) := by
  rw [flatten_split (hl.chain_of_get ops key), List.any_append, List.any_append]
  have h1 : (cs.take (bucket_of ops cs key)).flatten.any (hit ops key) = false := by
    rw [List.any_eq_false]
    intro x hx
    simp [h.no_hit_take he key x hx]
  have h2 : (cs.drop (bucket_of ops cs key + 1)).flatten.any (hit ops key) = false := by
    rw [List.any_eq_false]
    intro x hx
    simp [h.no_hit_drop he key x hx]
  rw [h1, h2]
  simp

theorem hit_same_key {K : Type} {ops : Ops K} (he : EquivOps ops) {key : K} {a b : Nat}
    (ha : hit ops key a = true) (hb : hit ops key b = true) : same_key ops a b :=
  he.trans _ _ _ ha (he.symm _ _ hb)

theorem Contig.no_hit_after_run {K : Type} {ops : Ops K} (he : EquivOps ops) {key : K}
    {c : List Nat} (h : Contig ops c) :
    ∀ x ∈ (c.dropWhile (miss ops key)).dropWhile (hit ops key), hit ops key x = false := by
  intro z hz
  rcases dropWhile_miss ops key c with h1 | ⟨y, r, h1, hy⟩
  · rw [h1] at hz; simp at hz
  · rw [h1, List.dropWhile_cons, if_pos hy] at hz
    cases hpost : r.dropWhile (hit ops key) with
    | nil => rw [hpost] at hz; simp at hz
    | cons x rest =>
      have hx : hit ops key x = false := dropWhile_head hpost
      rw [hpost] at hz
      rcases List.mem_cons.mp hz with rfl | hz1
      · exact hx
      · cases hzk : hit ops key z with
        | false => rfl
        | true =>
          have hsub : [y, x, z].Sublist c := by
            have h2 : [x, z].Sublist (x :: rest) :=
              List.Sublist.cons₂ x (List.singleton_sublist.mpr hz1)
            have h3 : [x, z].Sublist r := by
              rw [← hpost] at h2
              exact h2.trans (List.dropWhile_sublist _)
            have h4 : [y, x, z].Sublist (y :: r) := List.Sublist.cons₂ y h3
            rw [← h1] at h4
            exact h4.trans (List.dropWhile_sublist _)
          have hxy := h y x z hsub (hit_same_key he hy hzk)
          have : hit ops key x = true := he.trans _ _ _ hxy hy
          rw [hx] at this
          exact Bool.noConfusion this

theorem countP_eq_zero_of {p : Nat → Bool} {l : List Nat} (h : ∀ x ∈ l, p x = false) :
    l.countP p = 0 := by
  rw [List.countP_eq_zero]
  intro x hx
  simp [h x hx]

theorem countP_takeWhile_self (p : Nat → Bool) (l : List Nat) :
    (l.takeWhile p).countP p = (l.takeWhile p).length := by
  rw [List.countP_eq_length]
  intro x hx
  exact List.mem_takeWhile_imp hx

theorem Contig.countP_chain {K : Type} {ops : Ops K} (he : EquivOps ops) (key : K)
    {c : List Nat} (h : Contig ops c) :
    c.countP (hit ops key) =
      ((c.dropWhile (miss ops key)).takeWhile (hit ops key)).length := by
  conv_lhs => rw [← List.takeWhile_append_dropWhile (miss ops key) c,
    ← List.takeWhile_append_dropWhile (hit ops key) (c.dropWhile (miss ops key))]
  rw [List.countP_append, List.countP_append, countP_eq_zero_of (takeWhile_miss ops key c),
    countP_eq_zero_of (h.no_hit_after_run he), countP_takeWhile_self]
  simp

theorem Good.countP_flatten {K : Type} {ops : Ops K} (he : EquivOps ops)
    {cs : List (List Nat)} (h : Good ops cs) {m : Mem} (hl : Linked m cs) (key : K) :
    cs.flatten.countP (hit ops key) =
      ((from_key ops cs key).takeWhile (hit ops key)).length := by
  have hg := hl.chain_of_get ops key
  rw [flatten_split hg, List.countP_append, List.countP_append,
    countP_eq_zero_of (h.no_hit_take he key), countP_eq_zero_of (h.no_hit_drop he key),
    (h.contig _ (List.getElem?_mem hg)).countP_chain he key]
  simp [from_key]

theorem perm_any_eq {l1 l2 : List Nat} (h : l1.Perm l2) (p : Nat → Bool) :
    l1.any p = l2.any p := by
  rw [Bool.eq_iff_iff, List.any_eq_true, List.any_eq_true]
  constructor
  · rintro ⟨x, hx, hp⟩; exact ⟨x, h.mem_iff.mp hx, hp⟩
  · rintro ⟨x, hx, hp⟩; exact ⟨x, h.mem_iff.mpr hx, hp⟩

theorem Rep.count_flatten {K : Type} {ops : Ops K} (he : EquivOps ops) {t : Table}
    {cs : List (List Nat)} (h : Rep t cs) (hg : Good ops cs) (key : K) {fuel : Nat}
    (hf : t.nitems < fuel) :
    Intrhash.count ops fuel t key = some (cs.flatten.countP (hit ops key)) := by
  rw [h.count_eq ops key hf, hg.countP_flatten he h.linked key]

theorem Rep.has_flatten {K : Type} {ops : Ops K} (he : EquivOps ops) {t : Table}
    {cs : List (List Nat)} (h : Rep t cs) (hg : Good ops cs) (key : K) {fuel : Nat}
    (hf : t.nitems < fuel) :
    has ops fuel t key = some (cs.flatten.any (hit ops key)) := by
  rw [h.has_eq ops key hf, hg.any_hit_flatten he h.linked key]

theorem UReachable.reachable {K : Type} {ops : Ops K} {t : Table} (h : UReachable ops t) :
    Reachable ops t := by
  induction h with
  | init n => exact Reachable.init n
  | find_or_push_no_resize _ hf hgen hop ih => exact Reachable.find_or_push_no_resize ih hf hgen hop
  | find_or_push _ hf hgen hop ih => exact Reachable.find_or_push ih hf hgen hop
  | pop _ hf hop ih => exact Reachable.pop ih hf hop
  | pop_range _ hf hop ih => exact Reachable.pop_range ih hf hop
  | pop_one _ hf hop ih => exact Reachable.pop_one ih hf hop
  | pop_all _ hf hop ih => exact Reachable.pop_all ih hf hop
  | decompose _ hf hop ih => exact Reachable.decompose ih hf hop
  | resize _ hf hop ih => exact Reachable.resize ih hf hop

theorem flatten_set_sublist {cs : List (List Nat)} {b : Nat} {c c1 : List Nat}
    (hb : cs[b]? = some c) (hs : c1.Sublist c) :
    (cs.set b c1).flatten.Sublist cs.flatten := by
  rw [flatten_set (lt_of_get hb), flatten_split hb]
  exact ((List.Sublist.refl _).append hs).append (List.Sublist.refl _)

theorem forall₂_flatten_sublist {cs1 cs : List (List Nat)}
    (h : List.Forall₂ (fun c1 c => c1.Sublist c) cs1 cs) : cs1.flatten.Sublist cs.flatten := by
  induction h with
  | nil => exact List.Sublist.refl _
  | cons hc _ ih => exact hc.append ih

theorem flatten_set_snoc_perm {cs : List (List Nat)} {b : Nat} (hb : b < cs.length) (e : Nat) :
    ((cs.set b (chain_at cs b ++ [e])).flatten).Perm (e :: cs.flatten) := by
  rw [flatten_set hb, flatten_split (chain_at_get hb)]
  simp only [List.append_assoc, List.singleton_append]
  refine (List.perm_middle.append_left _ |>.trans ?_)
  exact List.perm_middle

theorem chains_pop_sublist {K : Type} (ops : Ops K) {m : Mem} {cs : List (List Nat)}
    (hl : Linked m cs) (node : Nat) : (chains_pop ops cs node).flatten.Sublist cs.flatten :=
  flatten_set_sublist (hl.chain_of_get ops _) (List.erase_sublist _ _)

theorem chains_pop_one_sublist {K : Type} (ops : Ops K) {m : Mem} {cs : List (List Nat)}
    (hl : Linked m cs) (key : K) : (chains_pop_one ops cs key).flatten.Sublist cs.flatten :=
  flatten_set_sublist (hl.chain_split ops key)
    ((List.Sublist.refl _).append (List.tail_sublist _))

theorem chains_pop_all_sublist {K : Type} (ops : Ops K) {m : Mem} {cs : List (List Nat)}
    (hl : Linked m cs) (key : K) : (chains_pop_all ops cs key).flatten.Sublist cs.flatten :=
  flatten_set_sublist (hl.chain_split ops key)
    ((List.Sublist.refl _).append (List.dropWhile_sublist _))

theorem chains_pop_range_sublist {K : Type} (ops : Ops K) {m : Mem} {cs : List (List Nat)}
    (hl : Linked m cs) (first : Nat) (last : Option Nat) :
    (chains_pop_range ops cs first last).flatten.Sublist cs.flatten := by
  unfold chains_pop_range
  split
  · refine forall₂_flatten_sublist (chains_pop_from_sublists ?_ last)
    rw [List.takeWhile_append_dropWhile]
    exact hl.chain_of_get ops _
  · exact List.Sublist.refl _

theorem Unique.subset {K : Type} {ops : Ops K} {es es1 : List Nat} (h : Unique ops es)
    (hs : ∀ x ∈ es1, x ∈ es) : Unique ops es1 :=
  fun a ha b hb hab => h a (hs a ha) b (hs b hb) hab

theorem Unique.cons {K : Type} {ops : Ops K} (he : EquivOps ops) {es : List Nat} {node : Nat}
    {key : K} (h : Unique ops es) (hk : ops.equal_to (ops.extract_key node) key = true)
    (hno : es.any (hit ops key) = false) : Unique ops (node :: es) := by
  have hmiss : ∀ x ∈ es, ¬ same_key ops x node := by
    intro x hx hxn
    have h1 : hit ops key x = true := he.trans _ _ _ hxn hk
    have h2 := List.any_eq_false.mp hno x hx
    exact h2 h1
  intro a ha b hb hab
  rcases List.mem_cons.mp ha with rfl | ha1 <;> rcases List.mem_cons.mp hb with rfl | hb1
  · rfl
  · exact absurd (he.symm _ _ hab) (hmiss b hb1)
  · exact absurd hab (hmiss a ha1)
  · exact h a ha1 b hb1 hab

theorem Rep.find_or_push_no_resize_spec {K G : Type} {ops : Ops K} (he : EquivOps ops)
    {t : Table} {cs : List (List Nat)} (h : Rep t cs) (hg : Good ops cs) (key : K)
    (gen : G → Option Nat × G) (g : G) {fuel : Nat} (hf : t.nitems < fuel)
    (hgen : ∀ node g1, gen g = (some node, g1) → node ∉ cs.flatten) :
    ∃ r cs1, find_or_push_no_resize ops fuel t key gen g = some r ∧ Rep r.table cs1 ∧
      r.table.buckets.length = t.buckets.length ∧
      ((∃ y rr, from_key ops cs key = y :: rr ∧ hit ops key y = true ∧
          r = { table := t, factory := g, ret := some (.item y, false) } ∧ cs1 = cs) ∨
       (cs.flatten.any (hit ops key) = false ∧ ∃ g1, gen g = (none, g1) ∧
          r = { table := t, factory := g1, ret := none } ∧ cs1 = cs) ∨
       (cs.flatten.any (hit ops key) = false ∧ ∃ node g1, gen g = (some node, g1) ∧
          r.factory = g1 ∧ r.ret = some (.item node, true) ∧
          cs1 = chains_append ops cs key node ∧ r.table.nitems = t.nitems + 1)) := by
  have hany := hg.any_hit_flatten he h.linked key
  cases hy : (chain_of ops cs key).any (hit ops key) with
  | true =>
    obtain ⟨y, rr, hyr, hhit⟩ : ∃ y rr, from_key ops cs key = y :: rr ∧ hit ops key y = true := by
      rcases dropWhile_miss ops key (chain_of ops cs key) with h1 | h1
      · exact absurd h1 ((any_hit_iff ops key _).mp hy)
      · exact h1
    exact ⟨_, cs, h.find_or_push_no_resize_found ops key gen g hf hyr, h, rfl,
      Or.inl ⟨y, rr, hyr, hhit, rfl, rfl⟩⟩
  | false =>
    rw [hy] at hany
    cases hgg : gen g with
    | mk o g1 =>
      cases o with
      | none =>
        exact ⟨_, cs, h.find_or_push_no_resize_fail ops key gen g hf hy hgg, h, rfl,
          Or.inr (Or.inl ⟨hany, g1, rfl, rfl, rfl⟩)⟩
      | some node =>
        obtain ⟨t2, h1, h2, h3⟩ := h.find_or_push_no_resize_absent ops key gen g hf hy hgg
          (hgen node g1 hgg)
        have hcnt : t2.nitems = t.nitems + 1 := by
          have hp : ((cs.set (bucket_of ops cs key) (chain_of ops cs key ++ [node])).flatten).Perm
              (node :: cs.flatten) := flatten_set_snoc_perm (h.linked.bucket_lt ops key) node
          rw [h2.count, h.count, hp.length_eq]
          rfl
        exact ⟨_, _, h1, h2, h3, Or.inr (Or.inr ⟨hany, node, g1, rfl, rfl, rfl, rfl, hcnt⟩)⟩

theorem chains_append_perm {K : Type} (ops : Ops K) {m : Mem} {cs : List (List Nat)}
    (hl : Linked m cs) (key : K) (node : Nat) :
    ((chains_append ops cs key node).flatten).Perm (node :: cs.flatten) :=
  flatten_set_snoc_perm (hl.bucket_lt ops key) node

theorem Good.append {K : Type} {ops : Ops K} (he : EquivOps ops) {cs : List (List Nat)}
    (h : Good ops cs) {m : Mem} (hl : Linked m cs) {key : K} {node : Nat}
    (hk : ops.equal_to (ops.extract_key node) key = true)
    (hno : cs.flatten.any (hit ops key) = false) : Good ops (chains_append ops cs key node) := by
  have hy : (chain_of ops cs key).any (hit ops key) = false := by
    rw [← h.any_hit_flatten he hl key]; exact hno
  rw [chains_append, ← chains_push_absent he cs hk hy]
  exact h.push he hl node

theorem Rep.find_or_push_spec {K G : Type} {ops : Ops K} (he : EquivOps ops)
    {t : Table} {cs : List (List Nat)} (h : Rep t cs) (hg : Good ops cs) (key : K)
    (gen : G → Option Nat × G) (g : G) {fuel : Nat} (hf : t.enough fuel)
    (hgen : ∀ node g1, gen g = (some node, g1) → node ∉ cs.flatten) :
    ∃ t2 r cs1, resize ops fuel t (t.nitems + 1) = some t2 ∧
      Rep t2 (chains_resize ops cs (t.nitems + 1)) ∧ t2.nitems = t.nitems ∧
      find_or_push ops fuel t key gen g = some r ∧ Rep r.table cs1 ∧
      r.table.buckets.length = t2.buckets.length ∧
      ((∃ y rr, from_key ops (chains_resize ops cs (t.nitems + 1)) key = y :: rr ∧
          hit ops key y = true ∧
          r = { table := t2, factory := g, ret := some (.item y, false) } ∧
          cs1 = chains_resize ops cs (t.nitems + 1)) ∨
       (cs.flatten.any (hit ops key) = false ∧ ∃ g1, gen g = (none, g1) ∧
          r = { table := t2, factory := g1, ret := none } ∧
          cs1 = chains_resize ops cs (t.nitems + 1)) ∨
       (cs.flatten.any (hit ops key) = false ∧ ∃ node g1, gen g = (some node, g1) ∧
          r.factory = g1 ∧ r.ret = some (.item node, true) ∧
          cs1 = chains_append ops (chains_resize ops cs (t.nitems + 1)) key node ∧
          r.table.nitems = t.nitems + 1)) := by
  obtain ⟨t2, h1, hr, h3⟩ := h.resize_spec ops (t.nitems + 1) hf
  have hg2 := hg.resize he (t.nitems + 1)
  have hp := chains_resize_perm ops cs (t.nitems + 1)
  have hf2 : t2.nitems < fuel := by rw [h3]; exact h.enough_lt hf
  obtain ⟨r, cs1, h4, h5, h6, h7⟩ := hr.find_or_push_no_resize_spec he hg2 key gen g hf2
    (fun node g1 hgg hmem => hgen node g1 hgg (hp.mem_iff.mp hmem))
  refine ⟨t2, r, cs1, h1, hr, h3, ?_, h5, h6, ?_⟩
  · simp only [find_or_push, h1, Option.bind_eq_bind, Option.some_bind, h4]
  · rcases h7 with h7 | ⟨hno, h7⟩ | ⟨hno, node, g1, hgg, h8, h9, h10, h11⟩
    · exact Or.inl h7
    · exact Or.inr (Or.inl ⟨by rw [← perm_any_eq hp]; exact hno, h7⟩)
    · exact Or.inr (Or.inr ⟨by rw [← perm_any_eq hp]; exact hno, node, g1, hgg, h8, h9, h10,
        by rw [h11, h3]⟩)

theorem unique_replicate {K : Type} (ops : Ops K) (n : Nat) :
    Unique ops (List.replicate n ([] : List Nat)).flatten := by
  intro a ha
  simp at ha

theorem UReachable.unique {K : Type} {ops : Ops K} (he : EquivOps ops) {t : Table}
    (h : UReachable ops t) : ∃ cs, Rep t cs ∧ Good ops cs ∧ Unique ops cs.flatten := by
  induction h with
  | init n => exact ⟨_, rep_mk n, Good.replicate ops _, unique_replicate ops _⟩
  | @find_or_push_no_resize G t fuel key gen g r _ hf hgen hop ih =>
    obtain ⟨cs, hr, hg, hu⟩ := ih
    obtain ⟨r1, cs1, h1, h2, _, h4⟩ := hr.find_or_push_no_resize_spec he hg key gen g
      (hr.enough_lt hf) (fun node g1 hgg => hr.not_mem_of_unlinked (hgen node g1 hgg).1)
    rw [h1] at hop
    simp only [Option.some.injEq] at hop
    subst hop
    rcases h4 with ⟨_, _, _, _, _, rfl⟩ | ⟨_, _, _, _, rfl⟩ | ⟨hno, node, g1, hgg, _, _, rfl, _⟩
    · exact ⟨_, h2, hg, hu⟩
    · exact ⟨_, h2, hg, hu⟩
    · have hk := (hgen node g1 hgg).2
      refine ⟨_, h2, hg.append he hr.linked hk hno, ?_⟩
      exact (hu.cons he hk hno).subset
        (fun x hx => (chains_append_perm ops hr.linked key node).mem_iff.mp hx)
  | @find_or_push G t fuel key gen g r _ hf hgen hop ih =>
    obtain ⟨cs, hr, hg, hu⟩ := ih
    obtain ⟨t2, r1, cs1, _, hr2, _, h1, h2, _, h4⟩ := hr.find_or_push_spec he hg key gen g hf
      (fun node g1 hgg => hr.not_mem_of_unlinked (hgen node g1 hgg).1)
    rw [h1] at hop
    simp only [Option.some.injEq] at hop
    subst hop
    have hp := chains_resize_perm ops cs (t.nitems + 1)
    have hg2 := hg.resize he (t.nitems + 1)
    have hu2 : Unique ops (chains_resize ops cs (t.nitems + 1)).flatten :=
      hu.subset (fun x hx => hp.mem_iff.mp hx)
    rcases h4 with ⟨_, _, _, _, _, rfl⟩ | ⟨_, _, _, _, rfl⟩ | ⟨hno, node, g1, hgg, _, _, rfl, _⟩
    · exact ⟨_, h2, hg2, hu2⟩
    · exact ⟨_, h2, hg2, hu2⟩
    · have hk := (hgen node g1 hgg).2
      have hno2 : (chains_resize ops cs (t.nitems + 1)).flatten.any (hit ops key) = false := by
        rw [perm_any_eq hp]; exact hno
      refine ⟨_, h2, hg2.append he hr2.linked hk hno2, ?_⟩
      exact (hu2.cons he hk hno2).subset
        (fun x hx => (chains_append_perm ops hr2.linked key node).mem_iff.mp hx)
  | @pop t t1 fuel node r _ hf hop ih =>
    obtain ⟨cs, hr, hg, hu⟩ := ih
    by_cases hn : node ∈ chain_of ops cs (ops.extract_key node)
    · obtain ⟨t2, h1, h2, _⟩ := hr.pop_found ops hn (hr.enough_lt hf)
      rw [h1] at hop
      simp only [Option.some.injEq, Prod.mk.injEq] at hop
      rw [← hop.1]
      exact ⟨_, h2, hg.pop hr.linked node,
        hu.subset (fun x hx => (chains_pop_sublist ops hr.linked node).subset hx)⟩
    · rw [hr.pop_absent ops hn (hr.enough_lt hf)] at hop
      simp only [Option.some.injEq, Prod.mk.injEq] at hop
      rw [← hop.1]
      exact ⟨cs, hr, hg, hu⟩
  | @pop_range σ cbk t t1 fuel first last s s1 _ hf hop ih =>
    obtain ⟨cs, hr, hg, hu⟩ := ih
    obtain ⟨t2, h1, h2, _⟩ := hr.pop_range_spec ops cbk first last s hf
    rw [h1] at hop
    simp only [Option.some.injEq, Prod.mk.injEq] at hop
    rw [← hop.1]
    exact ⟨_, h2, hg.pop_range hr.linked first last,
      hu.subset (fun x hx => (chains_pop_range_sublist ops hr.linked first last).subset hx)⟩
  | @pop_one t t1 fuel key r _ hf hop ih =>
    obtain ⟨cs, hr, hg, hu⟩ := ih
    cases hfk : from_key ops cs key with
    | nil =>
      rw [hr.pop_one_absent ops key (hr.enough_lt hf) ((from_key_nil_iff ops cs key).mp hfk)] at hop
      simp only [Option.some.injEq, Prod.mk.injEq] at hop
      rw [← hop.1]
      exact ⟨cs, hr, hg, hu⟩
    | cons y rr =>
      obtain ⟨t2, h1, h2, _⟩ := hr.pop_one_found ops key (hr.enough_lt hf) hfk
      rw [h1] at hop
      simp only [Option.some.injEq, Prod.mk.injEq] at hop
      rw [← hop.1]
      exact ⟨_, h2, hg.pop_one hr.linked key,
        hu.subset (fun x hx => (chains_pop_one_sublist ops hr.linked key).subset hx)⟩
  | @pop_all σ cbk t t1 fuel key s s1 _ hf hop ih =>
    obtain ⟨cs, hr, hg, hu⟩ := ih
    cases hy : (chain_of ops cs key).any (hit ops key) with
    | false =>
      rw [hr.pop_all_absent ops cbk key (hr.enough_lt hf) s hy] at hop
      simp only [Option.some.injEq, Prod.mk.injEq] at hop
      rw [← hop.1]
      exact ⟨cs, hr, hg, hu⟩
    | true =>
      obtain ⟨t2, h1, h2, _⟩ := hr.pop_all_found ops cbk key (hr.enough_lt hf) s hy
      rw [h1] at hop
      simp only [Option.some.injEq, Prod.mk.injEq] at hop
      rw [← hop.1]
      exact ⟨_, h2, hg.pop_all hr.linked key,
        hu.subset (fun x hx => (chains_pop_all_sublist ops hr.linked key).subset hx)⟩
  | @decompose σ cbk t t1 fuel s s1 _ hf hop ih =>
    obtain ⟨cs, hr, hg, hu⟩ := ih
    rw [hr.decompose_spec cbk s hf] at hop
    simp only [Option.some.injEq, Prod.mk.injEq] at hop
    rw [← hop.1]
    exact ⟨_, rep_empty_table hr.linked.pos, Good.replicate ops _, unique_replicate ops _⟩
  | @resize t t1 fuel n _ hf hop ih =>
    obtain ⟨cs, hr, hg, hu⟩ := ih
    obtain ⟨t2, h1, h2, _⟩ := hr.resize_spec ops n hf
    rw [h1] at hop
    simp only [Option.some.injEq] at hop
    rw [← hop]
    exact ⟨_, h2, hg.resize he n,
      hu.subset (fun x hx => (chains_resize_perm ops cs n).mem_iff.mp hx)⟩

theorem dropWhile_append_of_all {p : Nat → Bool} {l1 : List Nat} (l2 : List Nat)
    (h : ∀ x ∈ l1, p x = true) : (l1 ++ l2).dropWhile p = l2.dropWhile p := by
  induction l1 with
  | nil => rfl
  | cons a l ih =>
    rw [List.cons_append, List.dropWhile_cons, if_pos (h a (by simp))]
    exact ih (fun x hx => h x (by simp [hx]))

theorem takeWhile_append_of_all {p : Nat → Bool} {l1 : List Nat} (l2 : List Nat)
    (h : ∀ x ∈ l1, p x = true) : (l1 ++ l2).takeWhile p = l1 ++ l2.takeWhile p := by
  induction l1 with
  | nil => rfl
  | cons a l ih =>
    rw [List.cons_append, List.takeWhile_cons, if_pos (h a (by simp))]
    rw [ih (fun x hx => h x (by simp [hx]))]
    rfl

theorem chain_of_set {K : Type} (ops : Ops K) {cs : List (List Nat)} {b : Nat}
    (hb : b < cs.length) (c : List Nat) (key : K) :
    chain_of ops (cs.set b c) key =
      if b = bucket_of ops cs key then c else chain_of ops cs key := by
  simp only [chain_of, bucket_of, List.length_set]
  exact chain_at_set hb c _

theorem from_key_push {K : Type} {ops : Ops K} (he : EquivOps ops) {m : Mem}
    {cs : List (List Nat)} (hl : Linked m cs) (node : Nat) :
    from_key ops (chains_push ops cs node) (ops.extract_key node) =
      node :: from_key ops cs (ops.extract_key node) := by
  have hb : bucket_of ops cs (ops.extract_key node) < cs.length :=
    hl.bucket_lt ops (ops.extract_key node)
  have hall : ∀ x ∈ before_key ops cs (ops.extract_key node),
      miss ops (ops.extract_key node) x = true := fun x hx => List.mem_takeWhile_imp hx
  have : miss ops (ops.extract_key node) node = false := by
    simp [miss, hit, he.refl]
  simp only [from_key, chains_push]
  rw [chain_of_set ops hb, if_pos rfl, dropWhile_append_of_all _ hall, List.dropWhile_cons]
  simp only [this, Bool.false_eq_true, if_false]

theorem before_key_push {K : Type} {ops : Ops K} {m : Mem}
    {cs : List (List Nat)} (hl : Linked m cs) (node : Nat) :
    chain_of ops (chains_push ops cs node) (ops.extract_key node) =
      before_key ops cs (ops.extract_key node) ++ node :: from_key ops cs (ops.extract_key node) := by
  have hb : bucket_of ops cs (ops.extract_key node) < cs.length :=
    hl.bucket_lt ops (ops.extract_key node)
  simp only [chains_push]
  rw [chain_of_set ops hb, if_pos rfl]

theorem from_key_append {K : Type} {ops : Ops K} {m : Mem}
    {cs : List (List Nat)} (hl : Linked m cs) {key : K} {node : Nat}
    (hk : ops.equal_to (ops.extract_key node) key = true)
    (hy : (chain_of ops cs key).any (hit ops key) = false) :
    from_key ops (chains_append ops cs key node) key = [node] := by
  have hb : bucket_of ops cs key < cs.length := hl.bucket_lt ops key
  obtain ⟨h1, _⟩ := any_hit_false ops key _ hy
  have hall : ∀ x ∈ chain_of ops cs key, miss ops key x = true := by
    intro x hx
    rw [← h1] at hx
    exact List.mem_takeWhile_imp hx
  have : miss ops key node = false := by
    simp [miss, hit, hk]
  simp only [from_key, chains_append]
  rw [chain_of_set ops hb, if_pos rfl, dropWhile_append_of_all _ hall, List.dropWhile_cons]
  simp [this]

theorem erase_split {l1 l2 : List Nat} {y : Nat} (h : y ∉ l1) :
    (l1 ++ y :: l2).erase y = l1 ++ l2 := by
  rw [List.erase_append_right _ h, List.erase_cons_head]

theorem first_link_item {stop : Link} {l : List Nat} {y : Nat} (hs : stop ≠ Link.item y)
    (h : first_link stop l = Link.item y) : ∃ r, l = y :: r := by
  cases l with
  | nil => exact absurd h hs
  | cons a r =>
    simp only [first_link, Link.item.injEq] at h
    exact ⟨r, by rw [h]⟩

theorem chains_pop_one_flatten {K : Type} (ops : Ops K) {m : Mem} {cs : List (List Nat)}
    (hl : Linked m cs) (key : K) {y : Nat} {rr : List Nat}
    (hfk : from_key ops cs key = y :: rr) :
    (chains_pop_one ops cs key).flatten = cs.flatten.erase y ∧
      cs.flatten.Perm (y :: (chains_pop_one ops cs key).flatten) := by
  have hsplit := hl.chain_split ops key
  rw [hfk] at hsplit
  have hnd := hl.nodup
  have hfl := flatten_split hsplit
  have hfs : (chains_pop_one ops cs key).flatten
      = (cs.take (bucket_of ops cs key)).flatten ++ (before_key ops cs key ++ rr)
        ++ (cs.drop (bucket_of ops cs key + 1)).flatten := by
    simp only [chains_pop_one, hfk, List.tail_cons]
    exact flatten_set (lt_of_get hsplit) _
  rw [hfl] at hnd
  have hy : y ∉ (cs.take (bucket_of ops cs key)).flatten ++ before_key ops cs key := by
    have h3 := List.nodup_append.mp hnd
    have h4 := List.nodup_append.mp h3.1
    have h5 := List.nodup_append.mp h4.2.1
    intro hmem
    rcases List.mem_append.mp hmem with hm | hm
    · exact h4.2.2 hm (by simp)
    · exact h5.2.2 hm (by simp)
  refine ⟨?_, ?_⟩
  · rw [hfs, hfl]
    have : (cs.take (bucket_of ops cs key)).flatten ++ (before_key ops cs key ++ y :: rr)
        ++ (cs.drop (bucket_of ops cs key + 1)).flatten
        = ((cs.take (bucket_of ops cs key)).flatten ++ before_key ops cs key)
          ++ y :: (rr ++ (cs.drop (bucket_of ops cs key + 1)).flatten) := by
      simp
    rw [this, erase_split hy]
    simp
  · rw [hfs, hfl]
    simp only [List.append_assoc]
    refine (List.perm_middle.append_left _ |>.trans ?_)
    exact List.perm_middle

theorem equal_range_loop_seg {K : Type} (ops : Ops K) {m : Mem} {j : Nat} (key : K)
    (r : List Nat) : ∀ {y : Nat} {ctx : Ctx} {fuel : Nat},
      Seg m (.bucket j) ctx (y :: r) → r.length < fuel →
      equal_range_loop ops m key fuel ctx =
        some (ctx_after ctx (y :: r.takeWhile (hit ops key))) := by
  induction r with
  | nil =>
    intro y ctx fuel h hf
    obtain ⟨f, rfl⟩ : ∃ f, fuel = f + 1 := ⟨fuel - 1, by omega⟩
    rw [seg_cons, seg_nil] at h
    simp [equal_range_loop, next_ctx_item_, h.1, ctx_item_, ctx_bucket_, h.2, ctx_after]
  | cons z r ih =>
    intro y ctx fuel h hf
    obtain ⟨f, rfl⟩ : ∃ f, fuel = f + 1 := ⟨fuel - 1, by omega⟩
    have hf1 : r.length < f := by simpa using hf
    rw [seg_cons] at h
    have h2 := h.2
    have hz := ((seg_cons _ _ _ _ _).mp h2).1
    by_cases hh : ops.equal_to (ops.extract_key z) key = true
    · simp [equal_range_loop, next_ctx_item_, h.1, ctx_item_, ctx_bucket_, hz, ctx_relative_,
        ctx_node, hh, ih h2 hf1, List.takeWhile_cons, hit, ctx_after]
    · simp only [Bool.not_eq_true] at hh
      simp [equal_range_loop, next_ctx_item_, h.1, ctx_item_, ctx_bucket_, hz, ctx_relative_,
        ctx_node, hh, List.takeWhile_cons, hit, ctx_after]

theorem append_cons_inj {A A1 B B1 : List Nat} {x : Nat} (h : A ++ x :: B = A1 ++ x :: B1)
    (hA : x ∉ A) (hA1 : x ∉ A1) : B = B1 := by
  induction A generalizing A1 with
  | nil =>
    cases A1 with
    | nil => simpa using h
    | cons a A1 =>
      simp only [List.nil_append, List.cons_append, List.cons.injEq] at h
      exact absurd h.1 (fun hh => hA1 (by simp [hh]))
  | cons a A ih =>
    cases A1 with
    | nil =>
      simp only [List.nil_append, List.cons_append, List.cons.injEq] at h
      exact absurd h.1.symm (fun hh => hA (by simp [hh]))
    | cons a1 A1 =>
      simp only [List.cons_append, List.cons.injEq] at h
      exact ih h.2 (fun hh => hA (by simp [hh])) (fun hh => hA1 (by simp [hh]))

theorem Linked.iter_next_flat {m : Mem} {cs : List (List Nat)} (h : Linked m cs)
    {A B : List Nat} {x : Nat} (hfl : cs.flatten = A ++ x :: B) {fuel : Nat}
    (hf : cs.length < fuel) :
    iter_next fuel m (.item x) = some (first_link Link.null B) := by
  have hx : x ∈ cs.flatten := by rw [hfl]; simp
  obtain ⟨c, hc, hxc⟩ := List.mem_flatten.mp hx
  obtain ⟨i, hi⟩ := List.mem_iff_getElem?.mp hc
  obtain ⟨l1, l2, rfl⟩ := List.append_of_mem hxc
  have hnd := h.nodup
  have hfl2 := flatten_split hi
  have hB : B = l2 ++ (cs.drop (i + 1)).flatten := by
    have h1 : A ++ x :: B = ((cs.take i).flatten ++ l1) ++ x :: (l2 ++ (cs.drop (i + 1)).flatten) := by
      rw [← hfl, hfl2]; simp
    refine append_cons_inj h1 ?_ ?_
    · rw [hfl] at hnd
      have := (List.nodup_append.mp hnd).2.2
      intro hxa
      exact this hxa (by simp)
    · rw [hfl2] at hnd
      have h3 := List.nodup_append.mp hnd
      have h4 := List.nodup_append.mp h3.1
      have h5 := List.nodup_append.mp h4.2.1
      intro hmem
      rcases List.mem_append.mp hmem with hm | hm
      · exact h4.2.2 hm (by simp)
      · exact h5.2.2 hm (by simp)
  rw [hB]
  have := lt_of_get hi
  exact h.iter_next_eq hi (by omega)

theorem Linked.iter_range_flat {m : Mem} {cs : List (List Nat)} (h : Linked m cs)
    {fuel : Nat} (hf : cs.length < fuel) (X : List Nat) :
    ∀ {A Y : List Nat} {n : Nat}, cs.flatten = A ++ X ++ Y → X.length < n →
      iter_range fuel m (first_link Link.null Y) n (first_link Link.null (X ++ Y)) = some X := by
  induction X with
  | nil =>
    intro A Y n _ hn
    obtain ⟨n1, rfl⟩ : ∃ n1, n = n1 + 1 := ⟨n - 1, by omega⟩
    simp [iter_range]
  | cons x X ih =>
    intro A Y n hfl hn
    obtain ⟨n1, rfl⟩ : ∃ n1, n = n1 + 1 := ⟨n - 1, by omega⟩
    have hnd := h.nodup
    rw [hfl] at hnd
    have hne : Link.item x ≠ first_link Link.null Y := by
      cases Y with
      | nil => simp [first_link]
      | cons y Y =>
        simp only [first_link, ne_eq, Link.item.injEq]
        intro hxy
        subst hxy
        have h1 := (List.nodup_append.mp hnd).2.2
        exact h1 (show x ∈ A ++ x :: X by simp) (by simp)
    have hnext := h.iter_next_flat (show cs.flatten = A ++ x :: (X ++ Y) by rw [hfl]; simp) hf
    have hrec := @ih (A ++ [x]) Y n1 (by rw [hfl]; simp) (by simpa using hn)
    have hfl1 : first_link Link.null (x :: X ++ Y) = Link.item x := rfl
    rw [hfl1, iter_range]
    simp only [hne, if_false, hnext, Option.bind_eq_bind, Option.some_bind, hrec]
    rfl

theorem filter_eq_nil_of {p : Nat → Bool} {l : List Nat} (h : ∀ x ∈ l, p x = false) :
    l.filter p = [] := by
  rw [List.filter_eq_nil_iff]
  intro x hx
  simp [h x hx]

theorem filter_eq_self_of {p : Nat → Bool} {l : List Nat} (h : ∀ x ∈ l, p x = true) :
    l.filter p = l :=
  List.filter_eq_self.mpr h

theorem Rep.equal_range_absent {K : Type} (ops : Ops K) {t : Table} {cs : List (List Nat)}
    (h : Rep t cs) (key : K) {fuel : Nat} (hf : t.nitems < fuel)
    (hy : (chain_of ops cs key).any (hit ops key) = false) :
    equal_range ops fuel t key = some (Link.null, Link.null) := by
  simp [equal_range, h.find_ctx_spec ops key hf, hy, h.end_eq]

theorem Rep.equal_range_found {K : Type} (ops : Ops K) {t : Table} {cs : List (List Nat)}
    (h : Rep t cs) (key : K) {fuel : Nat} (hf : t.enough fuel) {y : Nat} {rr : List Nat}
    (hfk : from_key ops cs key = y :: rr) :
    equal_range ops fuel t key =
      some (Link.item y, first_link Link.null
        (rr.dropWhile (hit ops key) ++ (cs.drop (bucket_of ops cs key + 1)).flatten)) := by
  have hlt := h.enough_lt hf
  have hbl := h.buckets_length
  have hany : (chain_of ops cs key).any (hit ops key) = true := by
    cases hy : (chain_of ops cs key).any (hit ops key) with
    | true => rfl
    | false => rw [(from_key_nil_iff ops cs key).mpr hy] at hfk; cases hfk
  have hsplit := h.linked.chain_split ops key
  rw [hfk] at hsplit
  have hseg := h.linked.read_after hsplit
  have hlen : rr.length < fuel := by
    have := chain_length_le hsplit
    rw [← h.count] at this
    simp at this
    omega
  have hsplit2 : cs[bucket_of ops cs key]? =
      some ((before_key ops cs key ++ y :: rr.takeWhile (hit ops key))
        ++ rr.dropWhile (hit ops key)) := by
    rw [hsplit]
    simp [List.takeWhile_append_dropWhile]
  have hseg2 := h.linked.read_after hsplit2
  rw [ctx_after_append] at hseg2
  have hblt := lt_of_get hsplit
  obtain ⟨ctx1, h1, h2⟩ := h.linked.item_ctx_seg hblt hseg2
    (show cs.length - bucket_of ops cs key < fuel by unfold Table.enough at hf; omega)
  simp only [equal_range, h.find_ctx_spec ops key hlt, hany, Bool.not_true, Bool.false_eq_true,
    if_false, Option.bind_eq_bind, Option.some_bind, equal_range_loop_seg ops key rr hseg hlen,
    h1, ((seg_cons _ _ _ _ _).mp hseg).1, h2, Option.pure_def]

theorem buckets_count_ge_self {n : Nat} (hn : n ≤ 4294967291) : n ≤ buckets_count n := by
  unfold buckets_count
  split
  · rename_i h; exact h
  · unfold lower_bound
    cases hfd : primes.dropLast.find? (fun p => !decide (p < n)) with
    | none => simpa [last_prime] using hn
    | some x =>
      have := List.find?_some hfd
      simp only [Bool.not_eq_true', decide_eq_false_iff_not, Nat.not_lt] at this
      simpa using this

theorem Rep.nbuckets_eq {t : Table} {cs : List (List Nat)} (h : Rep t cs) :
    t.nbuckets = cs.length := by
  rw [Table.nbuckets, h.buckets_length, Nat.add_sub_cancel]

theorem chains_resize_full {K : Type} (ops : Ops K) (cs : List (List Nat))
    (hmax : cs.length < 4294967291) :
    chains_resize ops cs (cs.length + 1) = chains_rehash ops cs (buckets_count (cs.length + 1)) := by
  have := buckets_count_ge_self (show cs.length + 1 ≤ 4294967291 by omega)
  unfold chains_resize
  rw [if_pos ⟨by omega, by omega⟩]

theorem Rep.find_item_of_has {K : Type} (ops : Ops K) {t : Table} {cs : List (List Nat)}
    (h : Rep t cs) (key : K) {fuel : Nat} (hf : t.nitems < fuel)
    (hany : (chain_of ops cs key).any (hit ops key) = true) :
    ∃ e, find ops fuel t key = some (Link.item e) := by
  rw [h.find_eq ops key hf]
  cases hfk : from_key ops cs key with
  | nil => rw [(from_key_nil_iff ops cs key).mp hfk] at hany; exact Bool.noConfusion hany
  | cons y rr => exact ⟨y, rfl⟩

theorem chains_pop_flatten {K : Type} (ops : Ops K) {m : Mem} {cs : List (List Nat)}
    (hl : Linked m cs) {node : Nat} (hn : node ∈ chain_of ops cs (ops.extract_key node)) :
    (chains_pop ops cs node).flatten = cs.flatten.erase node := by
  have hb := hl.chain_of_get ops (ops.extract_key node)
  obtain ⟨l1, l2, hn1, hc, her⟩ := List.exists_erase_eq hn
  have hnd := hl.nodup
  have hfl := flatten_split hb
  rw [hfl, hc] at hnd
  have hy : node ∉ (cs.take (bucket_of ops cs (ops.extract_key node))).flatten ++ l1 := by
    have h3 := List.nodup_append.mp hnd
    have h4 := List.nodup_append.mp h3.1
    intro hmem
    rcases List.mem_append.mp hmem with hm | hm
    · exact h4.2.2 hm (by simp)
    · exact hn1 hm
  unfold chains_pop
  rw [flatten_set (lt_of_get hb), hfl, her, hc]
  have : (cs.take (bucket_of ops cs (ops.extract_key node))).flatten ++ (l1 ++ node :: l2)
      ++ (cs.drop (bucket_of ops cs (ops.extract_key node) + 1)).flatten
      = ((cs.take (bucket_of ops cs (ops.extract_key node))).flatten ++ l1)
        ++ node :: (l2 ++ (cs.drop (bucket_of ops cs (ops.extract_key node) + 1)).flatten) := by
    simp
  rw [this, erase_split hy]
  simp

theorem find_ge_least (n : Nat) : ∀ (l : List Nat), l.Pairwise (fun a b => a ≤ b) →
    (∀ x, l.find? (fun p => !decide (p < n)) = some x →
      x ∈ l ∧ n ≤ x ∧ ∀ p ∈ l, n ≤ p → x ≤ p) ∧
    (l.find? (fun p => !decide (p < n)) = none → ∀ p ∈ l, p < n) := by
  intro l
  induction l with
  | nil => intro _; simp
  | cons a l ih =>
    intro hs
    rw [List.pairwise_cons] at hs
    obtain ⟨ih1, ih2⟩ := ih hs.2
    by_cases ha : a < n
    · have hfa : (a :: l).find? (fun p => !decide (p < n)) = l.find? (fun p => !decide (p < n)) := by
        simp [List.find?_cons, ha]
      rw [hfa]
      refine ⟨fun x hx => ?_, fun hx p hp => ?_⟩
      · obtain ⟨h1, h2, h3⟩ := ih1 x hx
        refine ⟨List.mem_cons_of_mem _ h1, h2, fun p hp hnp => ?_⟩
        rcases List.mem_cons.mp hp with rfl | hp1
        · omega
        · exact h3 p hp1 hnp
      · rcases List.mem_cons.mp hp with rfl | hp1
        · exact ha
        · exact ih2 hx p hp1
    · have hfa : (a :: l).find? (fun p => !decide (p < n)) = some a := by
        simp [List.find?_cons, ha]
      rw [hfa]
      refine ⟨fun x hx => ?_, fun hx => by cases hx⟩
      obtain rfl := Option.some.inj hx
      refine ⟨List.mem_cons_self _ _, by omega, fun p hp _ => ?_⟩
      rcases List.mem_cons.mp hp with rfl | hp1
      · exact le_refl _
      · exact hs.1 p hp1

theorem buckets_count_least (n : Nat) :
    buckets_count (n + 1) ∈ primes ∧ ∀ p ∈ primes, n < p → buckets_count (n + 1) ≤ p := by
  have hsorted : primes.dropLast.Pairwise (fun a b => a ≤ b) := by decide
  have hpr : primes = primes.dropLast ++ [last_prime] := by decide
  have hmin : ∀ p ∈ primes, first_prime ≤ p := by decide
  have hmax : ∀ p ∈ primes.dropLast, p ≤ last_prime := by decide
  unfold buckets_count
  split
  · exact ⟨by decide, fun p hp _ => hmin p hp⟩
  · obtain ⟨h1, h2⟩ := find_ge_least (n + 1) primes.dropLast hsorted
    unfold lower_bound
    cases hfd : primes.dropLast.find? (fun p => !decide (p < n + 1)) with
    | none =>
      simp only [Option.getD_none]
      refine ⟨by decide, fun p hp hnp => ?_⟩
      rw [hpr] at hp
      rcases List.mem_append.mp hp with hp1 | hp1
      · have := h2 hfd p hp1
        omega
      · simp at hp1
        omega
    | some x =>
      simp only [Option.getD_some]
      obtain ⟨h3, h4, h5⟩ := h1 x hfd
      refine ⟨?_, fun p hp hnp => ?_⟩
      · rw [hpr]
        exact List.mem_append_left _ h3
      · rw [hpr] at hp
        rcases List.mem_append.mp hp with hp1 | hp1
        · exact h5 p hp1 hnp
        · simp at hp1
          rw [hp1]
          exact hmax x h3

theorem filter_append3 (p : Nat → Bool) {A R B : List Nat}
    (hA : ∀ x ∈ A, p x = false) (hR : ∀ x ∈ R, p x = true) (hB : ∀ x ∈ B, p x = false) :
    (A ++ R ++ B).filter p = R ∧ (A ++ R ++ B).filter (fun x => !p x) = A ++ B := by
  refine ⟨?_, ?_⟩
  · rw [List.filter_append, List.filter_append, filter_eq_nil_of hA, filter_eq_self_of hR,
      filter_eq_nil_of hB]
    simp
  · rw [List.filter_append, List.filter_append,
      filter_eq_self_of (show ∀ x ∈ A, (!p x) = true from fun x hx => by simp [hA x hx]),
      filter_eq_nil_of (show ∀ x ∈ R, (!p x) = false from fun x hx => by simp [hR x hx]),
      filter_eq_self_of (show ∀ x ∈ B, (!p x) = true from fun x hx => by simp [hB x hx])]
    simp

/-- The iteration order splits around the run of the nodes with key `key`. -/
theorem Good.key_split {K : Type} {ops : Ops K} (he : EquivOps ops) {cs : List (List Nat)}
    (hg : Good ops cs) {m : Mem} (hl : Linked m cs) (key : K) :
    cs.flatten = ((cs.take (bucket_of ops cs key)).flatten ++ before_key ops cs key)
        ++ (from_key ops cs key).takeWhile (hit ops key)
        ++ ((from_key ops cs key).dropWhile (hit ops key)
          ++ (cs.drop (bucket_of ops cs key + 1)).flatten) ∧
    (∀ x ∈ (cs.take (bucket_of ops cs key)).flatten ++ before_key ops cs key,
      hit ops key x = false) ∧
    (∀ x ∈ (from_key ops cs key).takeWhile (hit ops key), hit ops key x = true) ∧
    (∀ x ∈ (from_key ops cs key).dropWhile (hit ops key)
          ++ (cs.drop (bucket_of ops cs key + 1)).flatten, hit ops key x = false) := by
  have hsplit := hl.chain_split ops key
  have hcontig := hg.contig _ (List.getElem?_mem (hl.chain_of_get ops key))
  refine ⟨?_, ?_, ?_, ?_⟩
  · rw [flatten_split hsplit]
    simp only [List.append_assoc]
    rw [← List.append_assoc ((from_key ops cs key).takeWhile (hit ops key)),
      List.takeWhile_append_dropWhile]
  · intro x hx
    rcases List.mem_append.mp hx with h1 | h1
    · exact hg.no_hit_take he key x h1
    · exact takeWhile_miss ops key _ x h1
  · intro x hx
    exact List.mem_takeWhile_imp hx
  · intro x hx
    rcases List.mem_append.mp hx with h1 | h1
    · exact @Contig.no_hit_after_run K ops he key _ hcontig x h1
    · exact hg.no_hit_drop he key x h1

theorem chains_pop_all_flatten {K : Type} (ops : Ops K) {m : Mem} {cs : List (List Nat)}
    (hl : Linked m cs) (key : K) :
    (chains_pop_all ops cs key).flatten =
      ((cs.take (bucket_of ops cs key)).flatten ++ before_key ops cs key)
        ++ ((from_key ops cs key).dropWhile (hit ops key)
          ++ (cs.drop (bucket_of ops cs key + 1)).flatten) := by
  have hsplit := hl.chain_split ops key
  unfold chains_pop_all
  rw [flatten_set (lt_of_get hsplit)]
  simp only [List.append_assoc]

theorem Good.filter_hit {K : Type} {ops : Ops K} (he : EquivOps ops) {cs : List (List Nat)}
    (hg : Good ops cs) {m : Mem} (hl : Linked m cs) (key : K) :
    cs.flatten.filter (hit ops key) = (from_key ops cs key).takeWhile (hit ops key) ∧
    cs.flatten.filter (fun x => !hit ops key x) = (chains_pop_all ops cs key).flatten ∧
    (chain_of ops cs key).filter (hit ops key) = (from_key ops cs key).takeWhile (hit ops key) := by
  obtain ⟨h1, h2, h3, h4⟩ := hg.key_split he hl key
  have h5 := filter_append3 (hit ops key) h2 h3 h4
  rw [← h1] at h5
  refine ⟨h5.1, ?_, ?_⟩
  · rw [h5.2, chains_pop_all_flatten ops hl key]
  · have hc : chain_of ops cs key = (before_key ops cs key
        ++ (from_key ops cs key).takeWhile (hit ops key))
        ++ (from_key ops cs key).dropWhile (hit ops key) := by
      rw [List.append_assoc, List.takeWhile_append_dropWhile]
      exact (List.takeWhile_append_dropWhile _ _).symm
    have := filter_append3 (hit ops key)
      (show ∀ x ∈ before_key ops cs key, hit ops key x = false from
        fun x hx => h2 x (List.mem_append_right _ hx)) h3
      (show ∀ x ∈ (from_key ops cs key).dropWhile (hit ops key), hit ops key x = false from
        fun x hx => h4 x (List.mem_append_left _ hx))
    rw [hc]
    exact this.1

theorem Linked.next_eq {m : Mem} {cs : List (List Nat)} (h : Linked m cs) {i : Nat}
    {l1 l2 : List Nat} {e : Nat} (hi : cs[i]? = some ((l1 ++ [e]) ++ l2)) :
    m.next e = first_link (.bucket (i + 1)) l2 := by
  have hseg := seg_head (h.read_after hi)
  rw [ctx_after_snoc] at hseg
  simp only [Mem.read, Option.some.injEq] at hseg
  exact hseg

/-- The chains determine the table state. -/
theorem Rep.ext {t t1 : Table} {cs : List (List Nat)} (h : Rep t cs) (h1 : Rep t1 cs) :
    t = t1 := by
  have hb : t.buckets = t1.buckets := by rw [h.linked.buckets_eq, h1.linked.buckets_eq]
  have hn : t.nitems = t1.nitems := by rw [h.count, h1.count]
  have hx : t.next = t1.next := by
    funext e
    by_cases hmem : e ∈ cs.flatten
    · obtain ⟨c, hc, hec⟩ := List.mem_flatten.mp hmem
      obtain ⟨i, hi⟩ := List.mem_iff_getElem?.mp hc
      obtain ⟨l1, l2, rfl⟩ := List.append_of_mem hec
      have hi2 : cs[i]? = some ((l1 ++ [e]) ++ l2) := by simpa using hi
      rw [h.linked.next_eq hi2, h1.linked.next_eq hi2]
    · rw [h.unlinked e hmem, h1.unlinked e hmem]
  cases t with
  | mk m n =>
    cases t1 with
    | mk m1 n1 =>
      cases m with
      | mk b x =>
        cases m1 with
        | mk b1 x1 =>
          simp only at hb hn hx
          subst hb hn hx
          rfl

theorem set_get_self {cs : List (List Nat)} {b : Nat} {c : List Nat} (hb : cs[b]? = some c) :
    cs.set b c = cs := by
  rw [List.set_eq_take_append_cons_drop, if_pos (lt_of_get hb)]
  exact (split_at_get hb).symm

theorem chains_pop_all_absent {K : Type} (ops : Ops K) {m : Mem} {cs : List (List Nat)}
    (hl : Linked m cs) (key : K) (hy : (chain_of ops cs key).any (hit ops key) = false) :
    chains_pop_all ops cs key = cs := by
  have hfk := (from_key_nil_iff ops cs key).mpr hy
  have hsplit := hl.chain_split ops key
  unfold chains_pop_all
  rw [hfk] at hsplit ⊢
  exact set_get_self hsplit

/-- The table after `pop_all` and the callback state, for every callback. -/
theorem Rep.pop_all_spec {K σ : Type} (ops : Ops K) (cbk : Nat → σ → σ) {t : Table}
    {cs : List (List Nat)} (h : Rep t cs) (key : K) {fuel : Nat} (hf : t.nitems < fuel) (s : σ) :
    ∃ t1, pop_all ops cbk fuel t key s =
        some (t1, ((from_key ops cs key).takeWhile (hit ops key)).foldl (fun s e => cbk e s) s) ∧
      Rep t1 (chains_pop_all ops cs key) ∧ t1.buckets.length = t.buckets.length := by
  cases hy : (chain_of ops cs key).any (hit ops key) with
  | true => exact h.pop_all_found ops cbk key hf s hy
  | false =>
    refine ⟨t, ?_, ?_, rfl⟩
    · rw [h.pop_all_absent ops cbk key hf s hy, (from_key_nil_iff ops cs key).mpr hy]
      rfl
    · rw [chains_pop_all_absent ops h.linked key hy]
      exact h

theorem foldl_collect (R : List Nat) : ∀ (d : List Nat) (n : Nat),
    R.foldl (fun (s : List Nat × Nat) e => (s.1 ++ [e], s.2 + 1)) (d, n) = (d ++ R, n + R.length) := by
  induction R with
  | nil => intro d n; simp
  | cons a R ih =>
    intro d n
    rw [List.foldl_cons, ih]
    simp only [List.append_assoc, List.singleton_append, List.length_cons, Prod.mk.injEq, true_and]
    omega

theorem takeWhile_ne_split {A R : List Nat} {first : Nat} (h : first ∉ A) :
    (A ++ first :: R).takeWhile (fun x => x != first) = A ∧
    (A ++ first :: R).dropWhile (fun x => x != first) = first :: R := by
  have hA : ∀ x ∈ A, (x != first) = true := by
    intro x hx
    simp only [bne_iff_ne, ne_eq]
    rintro rfl
    exact h hx
  refine ⟨?_, ?_⟩
  · rw [takeWhile_append_of_all _ hA]
    simp [List.takeWhile_cons]
  · rw [dropWhile_append_of_all _ hA]
    simp [List.dropWhile_cons]

theorem takeWhile_stop {X : List Nat} {last : Nat} (Y : List Nat) (h : last ∉ X) :
    (X ++ last :: Y).takeWhile (fun x => !stop_at (some last) x) = X ∧
    (X ++ last :: Y).dropWhile (fun x => !stop_at (some last) x) = last :: Y := by
  have hX : ∀ x ∈ X, (!stop_at (some last) x) = true := by
    intro x hx
    simp only [stop_at, Option.some.injEq, Bool.not_eq_true', decide_eq_false_iff_not]
    rintro rfl
    exact h hx
  refine ⟨?_, ?_⟩
  · rw [takeWhile_append_of_all _ hX]
    simp [List.takeWhile_cons, stop_at]
  · rw [dropWhile_append_of_all _ hX]
    simp [List.dropWhile_cons, stop_at]

theorem drop_until_stop {X : List Nat} {last : Nat} (Y : List Nat) (rest : List (List Nat))
    (h : last ∉ X) :
    drop_until (some last) ((X ++ last :: Y) :: rest) = (last :: Y) :: rest := by
  have hany : (X ++ last :: Y).any (stop_at (some last)) = true := by
    simp [stop_at]
  simp only [drop_until, hany, if_true, (takeWhile_stop Y h).2]

/-- The chains and the callback arguments of a range erase inside one chain. -/
theorem chains_pop_range_chain {K : Type} {ops : Ops K} {cs : List (List Nat)}
    (hg : Good ops cs) {m : Mem} (hl : Linked m cs) {b : Nat} {A X B : List Nat}
    {first last : Nat} (hc : cs[b]? = some (A ++ X ++ last :: B))
    (hX : (X ++ [last]).head? = some first) :
    chains_pop_range ops cs first (some last) = cs.set b (A ++ last :: B) ∧
    popped_range ops cs first (some last) = X := by
  have hnd : (A ++ X ++ last :: B).Nodup := hl.chain_nodup hc
  obtain ⟨R, hR⟩ : ∃ R, X ++ last :: B = first :: R := by
    cases X with
    | nil =>
      simp only [List.nil_append, List.head?_cons, Option.some.injEq] at hX
      exact ⟨B, by simp [hX]⟩
    | cons x X1 =>
      simp only [List.cons_append, List.head?_cons, Option.some.injEq] at hX
      exact ⟨X1 ++ last :: B, by simp [hX]⟩
  have hcR : A ++ X ++ last :: B = A ++ first :: R := by
    rw [List.append_assoc, hR]
  have hfA : first ∉ A := by
    rw [hcR] at hnd
    have := List.nodup_append.mp hnd
    intro hin
    exact this.2.2 hin (List.mem_cons_self _ _)
  have hlX : last ∉ X := by
    rw [List.append_assoc] at hnd
    have h2 := (List.nodup_append.mp hnd).2.1
    have h3 := List.nodup_append.mp h2
    intro hin
    exact h3.2.2 hin (List.mem_cons_self _ _)
  have hmem : first ∈ A ++ X ++ last :: B := by
    rw [hcR]
    simp
  have hb : b = bucket_of ops cs (ops.extract_key first) := by
    rw [bucket_of, hg.placed b _ hc first hmem]
  have hco : chain_of ops cs (ops.extract_key first) = A ++ X ++ last :: B := by
    have := hl.chain_of_get ops (ops.extract_key first)
    rw [← hb, hc] at this
    exact (Option.some.inj this).symm
  have hsp := @takeWhile_ne_split A R first hfA
  refine ⟨?_, ?_⟩
  · unfold chains_pop_range
    rw [if_pos (by rw [hco]; exact hmem), hco, ← hb, hcR, hsp.1, hsp.2, ← hR]
    unfold chains_pop_from
    rw [drop_until_stop B _ hlX]
    simp only [cons_head]
    rw [List.set_eq_take_append_cons_drop, if_pos (lt_of_get hc)]
  · unfold popped_range
    rw [if_pos (by rw [hco]; exact hmem), hco, ← hb, hcR, hsp.2, ← hR]
    unfold popped_from
    rw [List.append_assoc, List.cons_append]
    exact (takeWhile_stop _ hlX).1

theorem linked_probe_frame : CbkFrame linked_probe := by
  intro e nx s nx1 s1 h x _
  simp only [linked_probe, Option.some.injEq, Prod.mk.injEq] at h
  rw [← h.1]

theorem drain_probe (es : List Nat) : ∀ (nx : Nat → Link) (s : List (Nat × Bool)),
    drain linked_probe es nx s =
      some (fun x => if x ∈ es then Link.null else nx x, s ++ es.map (fun e => (e, false))) := by
  induction es with
  | nil => intro nx s; simp [drain]
  | cons e es ih =>
    intro nx s
    simp only [drain, linked_probe, Option.some_bind]
    have := ih (fun x => if x = e then Link.null else nx x)
      (s ++ [(e, decide ((if e = e then Link.null else nx e) ≠ Link.null))])
    simp only [linked_probe] at this
    rw [this]
    congr 2
    · funext x
      by_cases h1 : x ∈ es <;> by_cases h2 : x = e <;> simp [h1, h2]
    · simp

theorem foldl_snoc (es : List Nat) : ∀ (d : List Nat),
    es.foldl (fun d e => d ++ [e]) d = d ++ es := by
  induction es with
  | nil => intro d; simp
  | cons a es ih =>
    intro d
    rw [List.foldl_cons, ih]
    simp

theorem init_buckets_get (n : Nat) :
    (∀ i, i < n → (init_buckets_ (n + 1))[i]? = some (Link.bucket (i + 1))) ∧
    (init_buckets_ (n + 1))[n]? = some Link.null ∧ (init_buckets_ (n + 1)).length = n + 1 := by
  have hlen : ((List.range n).map (fun i => Link.bucket (i + 1))).length = n := by simp
  refine ⟨fun i hi => ?_, ?_, ?_⟩
  · simp only [init_buckets_, Nat.add_one_ne_zero, if_false, Nat.add_sub_cancel]
    rw [List.getElem?_append_left (by rw [hlen]; exact hi)]
    simp [List.getElem?_map, List.getElem?_range hi]
  · simp only [init_buckets_, Nat.add_one_ne_zero, if_false, Nat.add_sub_cancel]
    rw [List.getElem?_append_right (by rw [hlen])]
    simp
  · simp [init_buckets_]

theorem flatten_replicate_nil (n : Nat) : (List.replicate n ([] : List Nat)).flatten = [] := by
  induction n with
  | zero => rfl
  | succ n ih => rw [List.replicate_succ, List.flatten_cons, ih]; rfl

theorem buckets_count_mem_least (n : Nat) :
    buckets_count n ∈ primes ∧ ∀ p ∈ primes, n ≤ p → buckets_count n ≤ p := by
  cases n with
  | zero =>
    have hmin : ∀ p ∈ primes, 7 ≤ p := by decide
    exact ⟨by decide, fun p hp _ => hmin p hp⟩
  | succ n =>
    obtain ⟨h1, h2⟩ := buckets_count_least n
    exact ⟨h1, fun p hp hnp => h2 p hp hnp⟩

theorem buckets_count_max {n : Nat} (hn : 4294967291 < n) : buckets_count n = 4294967291 := by
  have hmax : ∀ p ∈ primes, p ≤ 4294967291 := by decide
  obtain ⟨h1, _⟩ := buckets_count_mem_least n
  have hsorted : primes.dropLast.Pairwise (fun a b => a ≤ b) := by decide
  have hsub : ∀ p ∈ primes.dropLast, p ∈ primes := by decide
  unfold buckets_count
  rw [if_neg (by simp only [first_prime]; omega)]
  unfold lower_bound
  cases hfd : primes.dropLast.find? (fun p => !decide (p < n)) with
  | none => rfl
  | some x =>
    exfalso
    obtain ⟨h3, h4, _⟩ := (find_ge_least n primes.dropLast hsorted).1 x hfd
    have := hmax x (hsub x h3)
    omega

theorem buckets_count_mono {a b : Nat} (hab : a ≤ b) : buckets_count a ≤ buckets_count b := by
  have hmax : ∀ p ∈ primes, p ≤ 4294967291 := by decide
  by_cases hb : b ≤ 4294967291
  · have h1 := buckets_count_ge_self hb
    exact (buckets_count_mem_least a).2 _ (buckets_count_mem_least b).1 (by omega)
  · rw [@buckets_count_max b (by omega)]
    exact hmax _ (buckets_count_mem_least a).1

theorem Step.reachable_next {K : Type} {ops : Ops K} {k : OpKind} {t t1 : Table}
    (h : Reachable ops t) (hs : Step ops k t t1) : Reachable ops t1 := by
  cases hs with
  | push_no_resize hf hn hop => exact Reachable.push_no_resize h hf hn hop
  | push hf hn hop => exact Reachable.push h hf hn hop
  | find_or_push_no_resize hf hgen hop => exact Reachable.find_or_push_no_resize h hf hgen hop
  | find_or_push hf hgen hop => exact Reachable.find_or_push h hf hgen hop
  | pop hf hop => exact Reachable.pop h hf hop
  | pop_range hf hop => exact Reachable.pop_range h hf hop
  | pop_one hf hop => exact Reachable.pop_one h hf hop
  | pop_all hf hop => exact Reachable.pop_all h hf hop
  | decompose hf hop => exact Reachable.decompose h hf hop
  | resize hf hop => exact Reachable.resize h hf hop

theorem Run.reachable_end {K : Type} {ops : Ops K} {t t1 : Table}
    (h : Reachable ops t) (hr : Run ops t t1) : Reachable ops t1 := by
  induction hr with
  | refl => exact h
  | step _ hs ih => exact hs.reachable_next ih

theorem chains_resize_length_ge {K : Type} (ops : Ops K) (cs : List (List Nat)) (n : Nat) :
    cs.length ≤ (chains_resize ops cs n).length := by
  unfold chains_resize
  split
  · rename_i hc
    rw [chains_rehash_length]
    exact Nat.le_of_lt hc.2
  · exact Nat.le_refl _

theorem Step.buckets_length_le {K : Type} {ops : Ops K} (he : EquivOps ops) {k : OpKind}
    {t t1 : Table} (h : Reachable ops t) (hs : Step ops k t t1) :
    t.buckets.length ≤ t1.buckets.length ∧
      (k.grows = false → t1.buckets.length = t.buckets.length) := by
  obtain ⟨cs, hr, hg⟩ := Inv.of_reachable he h
  have hlt : ∀ {fuel : Nat}, t.enough fuel → t.nitems < fuel := fun hf => hr.enough_lt hf
  have hgenm : ∀ {G : Type} {gen : G → Option Nat × G} {g : G} {key : K},
      (∀ node g1, gen g = (some node, g1) →
        t.toMem.linked node = false ∧ ops.equal_to (ops.extract_key node) key = true) →
      ∀ node g1, gen g = (some node, g1) → node ∉ cs.flatten :=
    fun hgen node g1 hgg => hr.not_mem_of_unlinked (hgen node g1 hgg).1
  cases hs with
  | @push_no_resize _ _ fuel node r hf hn hop =>
    obtain ⟨t2, h1, _, h3⟩ := hr.push_no_resize_spec ops (hr.not_mem_of_unlinked hn) (hlt hf)
    rw [h1] at hop
    simp only [Option.some.injEq, Prod.mk.injEq] at hop
    rw [← hop.1, h3]
    exact ⟨Nat.le_refl _, fun _ => rfl⟩
  | @push _ _ fuel node r hf hn hop =>
    obtain ⟨t2, h1, h2, h3⟩ := hr.resize_spec ops (t.nitems + 1) hf
    have hnm : node ∉ (chains_resize ops cs (t.nitems + 1)).flatten := by
      intro hh
      exact hr.not_mem_of_unlinked hn ((chains_resize_perm ops cs _).mem_iff.mp hh)
    obtain ⟨t3, h4, _, h6⟩ := h2.push_no_resize_spec ops hnm (by rw [h3]; exact hlt hf)
    simp only [Intrhash.push, h1, Option.bind_eq_bind, Option.some_bind, h4] at hop
    simp only [Option.some.injEq, Prod.mk.injEq] at hop
    rw [← hop.1, h6, h2.buckets_length, hr.buckets_length]
    have := chains_resize_length_ge ops cs (t.nitems + 1)
    exact ⟨by omega, fun hk => by simp [OpKind.grows] at hk⟩
  | @find_or_push_no_resize G _ fuel key gen g r hf hgen hop =>
    obtain ⟨r1, cs1, h1, _, h3, _⟩ := hr.find_or_push_no_resize_spec he hg key gen g (hlt hf)
      (hgenm hgen)
    rw [h1] at hop
    obtain rfl := Option.some.inj hop
    rw [h3]
    exact ⟨Nat.le_refl _, fun _ => rfl⟩
  | @find_or_push G _ fuel key gen g r hf hgen hop =>
    obtain ⟨t2, r1, cs1, _, h2, _, h4, _, h6, _⟩ := hr.find_or_push_spec he hg key gen g hf
      (hgenm hgen)
    rw [h4] at hop
    obtain rfl := Option.some.inj hop
    rw [h6, h2.buckets_length, hr.buckets_length]
    have := chains_resize_length_ge ops cs (t.nitems + 1)
    exact ⟨by omega, fun hk => by simp [OpKind.grows] at hk⟩
  | @pop _ _ fuel node r hf hop =>
    by_cases hn : node ∈ chain_of ops cs (ops.extract_key node)
    · obtain ⟨t2, h1, _, h3, _⟩ := hr.pop_found ops hn (hlt hf)
      rw [h1] at hop
      simp only [Option.some.injEq, Prod.mk.injEq] at hop
      rw [← hop.1, h3]
      exact ⟨Nat.le_refl _, fun _ => rfl⟩
    · rw [hr.pop_absent ops hn (hlt hf)] at hop
      simp only [Option.some.injEq, Prod.mk.injEq] at hop
      rw [← hop.1]
      exact ⟨Nat.le_refl _, fun _ => rfl⟩
  | @pop_range σ cbk _ _ fuel first last s s1 hf hop =>
    obtain ⟨t2, h1, _, h3⟩ := hr.pop_range_spec ops cbk first last s hf
    rw [h1] at hop
    simp only [Option.some.injEq, Prod.mk.injEq] at hop
    rw [← hop.1, h3]
    exact ⟨Nat.le_refl _, fun _ => rfl⟩
  | @pop_one _ _ fuel key r hf hop =>
    cases hfk : from_key ops cs key with
    | nil =>
      rw [hr.pop_one_absent ops key (hlt hf) ((from_key_nil_iff ops cs key).mp hfk)] at hop
      simp only [Option.some.injEq, Prod.mk.injEq] at hop
      rw [← hop.1]
      exact ⟨Nat.le_refl _, fun _ => rfl⟩
    | cons y rr =>
      obtain ⟨t2, h1, _, h3, _⟩ := hr.pop_one_found ops key (hlt hf) hfk
      rw [h1] at hop
      simp only [Option.some.injEq, Prod.mk.injEq] at hop
      rw [← hop.1, h3]
      exact ⟨Nat.le_refl _, fun _ => rfl⟩
  | @pop_all σ cbk _ _ fuel key s s1 hf hop =>
    obtain ⟨t2, h1, _, h3⟩ := hr.pop_all_spec ops cbk key (hlt hf) s
    rw [h1] at hop
    simp only [Option.some.injEq, Prod.mk.injEq] at hop
    rw [← hop.1, h3]
    exact ⟨Nat.le_refl _, fun _ => rfl⟩
  | @decompose σ cbk _ _ fuel s s1 hf hop =>
    rw [hr.decompose_spec cbk s hf] at hop
    simp only [Option.some.injEq, Prod.mk.injEq] at hop
    rw [← hop.1]
    have : (empty_table cs.length).buckets.length = t.buckets.length := by
      rw [hr.buckets_length]
      exact (init_buckets_get cs.length).2.2
    rw [this]
    exact ⟨Nat.le_refl _, fun _ => rfl⟩
  | @resize _ _ fuel n hf hop =>
    obtain ⟨t2, h1, h2, _⟩ := hr.resize_spec ops n hf
    rw [h1] at hop
    obtain rfl := Option.some.inj hop
    rw [h2.buckets_length, hr.buckets_length]
    have := chains_resize_length_ge ops cs n
    exact ⟨by omega, fun hk => by simp [OpKind.grows] at hk⟩

theorem chain_stop_seg {m : Mem} {j : Nat} {c : List Nat} {ctx : Ctx}
    (h : Seg m (.bucket j) ctx c) {fuel : Nat} (hf : c.length < fuel) :
    chain_stop m fuel ctx = some (.bucket j) := by
  induction c generalizing ctx fuel with
  | nil =>
    obtain ⟨f, rfl⟩ : ∃ f, fuel = f + 1 := ⟨fuel - 1, by omega⟩
    rw [seg_nil] at h
    simp [chain_stop, ctx_item_, ctx_bucket_, h]
  | cons e c ih =>
    obtain ⟨f, rfl⟩ : ∃ f, fuel = f + 1 := ⟨fuel - 1, by omega⟩
    rw [seg_cons] at h
    have hf1 : c.length < f := by simpa using hf
    simp [chain_stop, ctx_item_, ctx_bucket_, h.1, next_ctx_item_, ih h.2 hf1]

theorem Linked.slot_ne_null {m : Mem} {cs : List (List Nat)} (h : Linked m cs) {i : Nat}
    (hi : i < cs.length) : m.buckets[i]? ≠ some Link.null := by
  rw [h.slot_eq hi, head_link]
  cases chain_at cs i <;> simp [first_link]

theorem drop_until_ne_nil (last : Option Nat) (c : List Nat) (rest : List (List Nat)) :
    ∃ c1 rest1, drop_until last (c :: rest) = c1 :: rest1 := by
  unfold drop_until
  split
  · exact ⟨_, _, rfl⟩
  · exact ⟨_, _, rfl⟩

theorem drop_until_flatten (last : Option Nat) (L : List (List Nat)) :
    (drop_until last L).flatten = L.flatten.dropWhile (fun x => !stop_at last x) := by
  induction L with
  | nil => simp [drop_until]
  | cons c rest ih =>
    unfold drop_until
    by_cases hany : c.any (stop_at last) = true
    · rw [if_pos hany, List.flatten_cons, List.flatten_cons]
      obtain ⟨x, hx, hs⟩ := List.any_eq_true.mp hany
      obtain ⟨l1, l2, rfl⟩ := List.append_of_mem hx
      clear hx hany
      induction l1 with
      | nil => simp [List.dropWhile_cons, hs]
      | cons a l1 ih1 =>
        by_cases ha : stop_at last a = true
        · simp [List.dropWhile_cons, ha]
        · simp only [List.cons_append, List.dropWhile_cons, ha, Bool.not_false, if_true]
          simpa using ih1
    · rw [if_neg hany, List.flatten_cons, List.flatten_cons, List.nil_append, ih]
      have hall : ∀ x ∈ c, (!stop_at last x) = true := by
        intro x hx
        have := List.any_eq_false.mp (by simpa using hany) x hx
        simp [this]
      rw [dropWhile_append_of_all _ hall]

theorem chains_pop_from_flatten (cs : List (List Nat)) (b : Nat) (l1 S : List Nat)
    (last : Option Nat) :
    (chains_pop_from cs b l1 S last).flatten = ((cs.take b).flatten ++ l1)
      ++ (S ++ (cs.drop (b + 1)).flatten).dropWhile (fun x => !stop_at last x) := by
  unfold chains_pop_from
  have hfl := drop_until_flatten last (S :: cs.drop (b + 1))
  obtain ⟨c1, rest1, hd⟩ := drop_until_ne_nil last S (cs.drop (b + 1))
  rw [hd] at hfl ⊢
  simp only [cons_head, List.flatten_append, List.flatten_cons, List.append_assoc] at hfl ⊢
  rw [hfl]

/-- A range erase splits the iteration order: the nodes handed to the callback are a
contiguous part of it, the rest stays linked in the same order. -/
theorem chains_pop_range_split {K : Type} (ops : Ops K) {m : Mem} {cs : List (List Nat)}
    (hl : Linked m cs) (first : Nat) (last : Option Nat) :
    ∃ P Q, cs.flatten = P ++ popped_range ops cs first last ++ Q ∧
      (chains_pop_range ops cs first last).flatten = P ++ Q := by
  unfold popped_range chains_pop_range
  by_cases hmem : first ∈ chain_of ops cs (ops.extract_key first)
  · rw [if_pos hmem, if_pos hmem]
    have hb := hl.chain_of_get ops (ops.extract_key first)
    refine ⟨(cs.take (bucket_of ops cs (ops.extract_key first))).flatten
      ++ (chain_of ops cs (ops.extract_key first)).takeWhile (fun x => x != first),
      ((chain_of ops cs (ops.extract_key first)).dropWhile (fun x => x != first)
        ++ (cs.drop (bucket_of ops cs (ops.extract_key first) + 1)).flatten).dropWhile
          (fun x => !stop_at last x), ?_, chains_pop_from_flatten _ _ _ _ _⟩
    unfold popped_from
    rw [List.append_assoc, List.takeWhile_append_dropWhile, flatten_split hb]
    simp only [List.append_assoc]
    rw [← List.append_assoc (List.takeWhile _ _) (List.dropWhile _ _),
      List.takeWhile_append_dropWhile]
  · rw [if_neg hmem, if_neg hmem]
    exact ⟨cs.flatten, [], by simp, by simp⟩

theorem nodup_middle_out {P X Q : List Nat} (h : (P ++ X ++ Q).Nodup) :
    ∀ e ∈ X, e ∉ P ++ Q := by
  intro e heX hin
  have h1 := List.nodup_append.mp h
  have h2 := List.nodup_append.mp h1.1
  rcases List.mem_append.mp hin with h3 | h3
  · exact h2.2.2 h3 heX
  · exact h1.2.2 (List.mem_append_right _ heX) h3

theorem linked_false_of_next {m : Mem} {e : Nat} (h : m.next e = Link.null) :
    m.linked e = false := by
  simp [Mem.linked, h]

theorem Rep.linked_iff {t : Table} {cs : List (List Nat)} (h : Rep t cs) (e : Nat) :
    t.toMem.linked e = decide (e ∈ cs.flatten) := by
  by_cases hmem : e ∈ cs.flatten
  · have := h.linked.next_ne_null hmem
    simp [Mem.linked, hmem]
    exact this
  · simp [Mem.linked, hmem, h.unlinked e hmem]

theorem Rep.holds {t : Table} {cs : List (List Nat)} (h : Rep t cs) : Holds t cs :=
  ⟨h.linked, h.count⟩

theorem Holds.buckets_len {t : Table} {cs : List (List Nat)} (h : Holds t cs) :
    t.buckets.length = cs.length + 1 := h.linked.len

theorem Holds.nbuckets_val {t : Table} {cs : List (List Nat)} (h : Holds t cs) :
    t.nbuckets = cs.length := by
  rw [Table.nbuckets, h.buckets_len, Nat.add_sub_cancel]

theorem Holds.fuel_lt {t : Table} {cs : List (List Nat)} (h : Holds t cs) {fuel : Nat}
    (hf : t.enough fuel) : t.nitems < fuel := by
  have := h.buckets_len
  unfold Table.enough at hf
  omega

theorem Holds.find_ctx_at {K : Type} (ops : Ops K) {t : Table} {cs : List (List Nat)}
    (h : Holds t cs) (key : K) {fuel : Nat} (hf : t.nitems < fuel) :
    find_ctx_ ops fuel t.toMem key =
      some (ctx_after (.slot (bucket_of ops cs key)) (before_key ops cs key),
        (chain_of ops cs key).any (hit ops key)) :=
  h.linked.find_ctx ops key (h.linked.chain_of_get ops key) (h.count ▸ hf)

theorem Holds.chains_val {t : Table} {cs : List (List Nat)} (h : Holds t cs) {fuel : Nat}
    (hf : t.nitems < fuel) : t.chains fuel = some cs := by
  unfold Table.chains
  rw [h.buckets_len, Nat.add_sub_cancel]
  rw [mapM_option_eq _ _ (fun i => chain_at cs i), map_chain_at]
  intro i hi
  have hlt : i < cs.length := by simpa using hi
  have hg := chain_at_get hlt
  exact chain_nodes_seg (h.linked.seg i _ hg)
    (lt_of_le_of_lt (chain_length_le hg) (h.count ▸ hf))

theorem Holds.end_val {t : Table} {cs : List (List Nat)} (h : Holds t cs) :
    t.end_ = some Link.null := by
  have hbl := h.buckets_len
  unfold Table.end_
  rw [if_neg (by omega), hbl, Nat.add_sub_cancel]
  exact h.linked.read_end

theorem Holds.begin_val {t : Table} {cs : List (List Nat)} (h : Holds t cs) {fuel : Nat}
    (hf : t.enough fuel) : t.begin fuel = some (first_link Link.null cs.flatten) := by
  have hbl := h.buckets_len
  unfold Table.enough at hf
  obtain ⟨ctx1, h1, h2⟩ := @Linked.item_ctx_skip _ cs h.linked cs.length 0 fuel
    (Nat.zero_le _) (by omega) (by omega)
  simp only [Table.begin, h1, Option.bind_eq_bind, Option.some_bind]
  rw [h2]; rfl

theorem Holds.entries_val {t : Table} {cs : List (List Nat)} (h : Holds t cs) {fuel : Nat}
    (hf : t.enough fuel) : t.entries fuel = some cs.flatten := by
  have hbl := h.buckets_len
  have hcnt := h.count
  have hpos := h.linked.pos
  unfold Table.enough at hf
  have h0 : cs[0]? = some ([] ++ cs[0]) := by simp [List.getElem?_eq_getElem hpos]
  have hfl : cs.flatten = cs[0] ++ (cs.drop (0 + 1)).flatten := by
    conv_lhs => rw [← List.drop_zero (l := cs), List.drop_eq_getElem_cons hpos, List.flatten_cons]
  simp only [Table.entries, h.end_val, h.begin_val hf, Option.bind_eq_bind, Option.some_bind]
  rw [hfl]
  exact @Linked.iter_range_eq _ cs h.linked fuel (by omega)
    ((cs[0] ++ (cs.drop (0 + 1)).flatten).length + (cs.length - 0)) 0 [] cs[0] fuel h0
    (le_refl _) (by rw [← hfl]; omega)

theorem Holds.find_val {K : Type} (ops : Ops K) {t : Table} {cs : List (List Nat)}
    (h : Holds t cs) (key : K) {fuel : Nat} (hf : t.nitems < fuel) :
    find ops fuel t key = some (first_link Link.null (from_key ops cs key)) := by
  simp only [find, h.find_ctx_at ops key hf, Option.bind_eq_bind, Option.some_bind]
  cases hfk : from_key ops cs key with
  | nil =>
    rw [(from_key_nil_iff ops cs key).mp hfk]
    simp [h.end_val, first_link]
  | cons y r =>
    have hany : (chain_of ops cs key).any (hit ops key) = true := by
      cases hy : (chain_of ops cs key).any (hit ops key) with
      | true => rfl
      | false => rw [(from_key_nil_iff ops cs key).mpr hy] at hfk; cases hfk
    have hsplit := h.linked.chain_split ops key
    rw [hfk] at hsplit
    have := seg_head (h.linked.read_after hsplit)
    simp only [hany, if_true, this]
    rfl

theorem Holds.has_val {K : Type} (ops : Ops K) {t : Table} {cs : List (List Nat)}
    (h : Holds t cs) (key : K) {fuel : Nat} (hf : t.nitems < fuel) :
    has ops fuel t key = some ((chain_of ops cs key).any (hit ops key)) := by
  simp [has, h.find_ctx_at ops key hf]

theorem Holds.count_val {K : Type} (ops : Ops K) {t : Table} {cs : List (List Nat)}
    (h : Holds t cs) (key : K) {fuel : Nat} (hf : t.nitems < fuel) :
    Intrhash.count ops fuel t key =
      some ((from_key ops cs key).takeWhile (hit ops key)).length := by
  simp only [Intrhash.count, h.find_ctx_at ops key hf, Option.bind_eq_bind, Option.some_bind]
  cases hfk : from_key ops cs key with
  | nil =>
    rw [(from_key_nil_iff ops cs key).mp hfk]
    simp
  | cons y r =>
    have hany : (chain_of ops cs key).any (hit ops key) = true := by
      cases hy : (chain_of ops cs key).any (hit ops key) with
      | true => rfl
      | false => rw [(from_key_nil_iff ops cs key).mpr hy] at hfk; cases hfk
    have hy : hit ops key y = true := by
      rcases dropWhile_miss ops key (chain_of ops cs key) with h1 | ⟨y1, r1, h1, h2⟩
      · rw [from_key, h1] at hfk; cases hfk
      · rw [from_key, h1] at hfk
        simp only [List.cons.injEq] at hfk
        rw [← hfk.1]; exact h2
    have hsplit := h.linked.chain_split ops key
    rw [hfk] at hsplit
    have hlen : r.length < fuel := by
      have := chain_length_le hsplit
      rw [← h.count] at this
      simp at this
      omega
    simp only [hany, Bool.not_true, Bool.false_eq_true, if_false]
    rw [count_loop_seg ops key r 0 (h.linked.read_after hsplit) hlen]
    simp [List.takeWhile_cons, hy]
    omega

theorem Holds.has_any {K : Type} {ops : Ops K} (he : EquivOps ops) {t : Table}
    {cs : List (List Nat)} (h : Holds t cs) (hg : Good ops cs) (key : K) {fuel : Nat}
    (hf : t.nitems < fuel) :
    has ops fuel t key = some (cs.flatten.any (hit ops key)) := by
  rw [h.has_val ops key hf, hg.any_hit_flatten he h.linked key]

theorem Holds.count_countP {K : Type} {ops : Ops K} (he : EquivOps ops) {t : Table}
    {cs : List (List Nat)} (h : Holds t cs) (hg : Good ops cs) (key : K) {fuel : Nat}
    (hf : t.nitems < fuel) :
    Intrhash.count ops fuel t key = some (cs.flatten.countP (hit ops key)) := by
  rw [h.count_val ops key hf, hg.countP_flatten he h.linked key]

theorem mem_flatten_set {cs : List (List Nat)} {b : Nat} {c c1 : List Nat}
    (hb : cs[b]? = some c) {x : Nat} (hx : x ∈ (cs.set b c1).flatten) :
    x ∈ c1 ∨ x ∈ cs.flatten := by
  rw [flatten_set (lt_of_get hb)] at hx
  rw [flatten_split hb]
  simp only [List.mem_append] at hx ⊢
  tauto

theorem copy_chain_spec {G : Type} (gen : Nat → G → Nat × G) (clone : Nat → Nat)
    (hgen : ∀ e g, (gen e g).1 = clone e) (rb : List Link) (i j : Nat) (S : List Nat)
    (hfresh : ∀ a ∈ S, clone a ∉ S) :
    ∀ (c : List Nat) {cb : List Link} {nx : Nat → Link} {g : G} {ctx : Ctx} {acc : List Nat}
      {ccs : List (List Nat)} {fuel : Nat},
      Seg { buckets := rb, next := nx } (.bucket j) ctx c →
      (∀ x, ctx = .entry x → x ∈ S) → (∀ x ∈ c, x ∈ S) → c.Nodup →
      (∀ a ∈ c, ∀ b ∈ c, clone a = clone b → a = b) →
      Linked { buckets := cb, next := nx } ccs → ccs[i]? = some acc →
      (∀ a ∈ c, clone a ∉ ccs.flatten) → c.length < fuel →
      ∃ cb1 nx1, copy_chain gen rb i fuel (cb, nx, g) ctx =
          some (cb1, nx1, c.foldl (fun g e => (gen e g).2) g) ∧
        Linked { buckets := cb1, next := nx1 } (ccs.set i (clone_chain clone c ++ acc)) ∧
        (∀ x, x ∉ c.map clone → nx1 x = nx x) := by
  intro c
  induction c with
  | nil =>
    intro cb nx g ctx acc ccs fuel hseg _ _ _ _ hl hacc _ hf
    obtain ⟨f, rfl⟩ : ∃ f, fuel = f + 1 := ⟨fuel - 1, by omega⟩
    rw [seg_nil] at hseg
    refine ⟨cb, nx, ?_, ?_, fun _ _ => rfl⟩
    · simp [copy_chain, ctx_bucket_, hseg]
    · simp only [clone_chain, List.map_nil, List.reverse_nil, List.nil_append]
      rw [set_get_self hacc]
      exact hl
  | cons e c ih =>
    intro cb nx g ctx acc ccs fuel hseg hctx hS hnd hinj hl hacc hout hf
    obtain ⟨f, rfl⟩ : ∃ f, fuel = f + 1 := ⟨fuel - 1, by omega⟩
    have hf1 : c.length < f := by simpa using hf
    rw [seg_cons] at hseg
    obtain ⟨hread, hrest⟩ := hseg
    have heS : e ∈ S := hS e (List.mem_cons_self _ _)
    have hce : clone e ∉ S := hfresh e heS
    have hacc0 : ccs[i]? = some ([] ++ acc) := by simpa using hacc
    obtain ⟨m1, hpush, hl1, _, _, hframe⟩ :=
      hl.push_item hacc0 (hout e (List.mem_cons_self _ _))
    have hnx : ∀ x, x ∈ S → m1.next x = nx x := by
      intro x hx
      apply hframe x
      · rintro rfl
        exact hce hx
      · simp [ctx_after]
    have hread1 : Mem.read { buckets := rb, next := m1.next } ctx = some (.item e) := by
      cases ctx with
      | slot k => exact hread
      | entry x =>
        simp only [Mem.read] at hread ⊢
        rw [hnx x (hctx x rfl)]
        exact hread
    have hseg1 : Seg { buckets := rb, next := m1.next } (.bucket j) (.entry e) c := by
      refine seg_congr (fun x hx => ?_) ?_ hrest
      · exact hnx x (hS x (List.mem_cons_of_mem _ hx))
      · simp only [Mem.read]
        rw [hnx e heS]
    have hnd1 := List.nodup_cons.mp hnd
    have hacc1 : (ccs.set i ([] ++ clone e :: acc))[i]? = some (clone e :: acc) := by
      simpa using get_set_self (lt_of_get hacc) (clone e :: acc)
    have hout1 : ∀ a ∈ c, clone a ∉ (ccs.set i ([] ++ clone e :: acc)).flatten := by
      intro a ha hin
      rcases mem_flatten_set hacc hin with h1 | h1
      · simp only [List.nil_append, List.mem_cons] at h1
        rcases h1 with h1 | h1
        · have := hinj a (List.mem_cons_of_mem _ ha) e (List.mem_cons_self _ _) h1
          rw [this] at ha
          exact hnd1.1 ha
        · exact hout a (List.mem_cons_of_mem _ ha) (mem_flatten_of_get hacc h1)
      · exact hout a (List.mem_cons_of_mem _ ha) h1
    obtain ⟨cb1, nx1, hcopy, hl2, hfr2⟩ := @ih m1.buckets m1.next (gen e g).2 (.entry e)
      (clone e :: acc) (ccs.set i ([] ++ clone e :: acc)) f hseg1
      (fun x hx => by cases hx; exact heS)
      (fun x hx => hS x (List.mem_cons_of_mem _ hx)) hnd1.2
      (fun a ha b hb => hinj a (List.mem_cons_of_mem _ ha) b (List.mem_cons_of_mem _ hb))
      hl1 hacc1 hout1 hf1
    refine ⟨cb1, nx1, ?_, ?_, ?_⟩
    · have hb0 : ctx_bucket_ { buckets := rb, next := nx } ctx = some false := by
        simp [ctx_bucket_, hread]
      have hn0 : ctx_node { buckets := rb, next := nx } ctx = some e := by
        simp [ctx_node, hread]
      have hni : next_ctx_item_ { buckets := rb, next := m1.next } ctx = some (.entry e) := by
        simp [next_ctx_item_, hread1]
      have hpush1 : push_item_ { buckets := cb, next := nx } (.slot i) (gen e g).1 = some m1 := by
        rw [hgen]
        exact hpush
      simp only [copy_chain, hb0, hn0, hpush1, hni, Option.bind_eq_bind, Option.some_bind,
        Bool.false_eq_true, if_false, List.foldl_cons]
      exact hcopy
    · have : (ccs.set i ([] ++ clone e :: acc)).set i (clone_chain clone c ++ clone e :: acc)
          = ccs.set i (clone_chain clone (e :: c) ++ acc) := by
        rw [List.set_set]
        simp [clone_chain]
      rw [← this]
      exact hl2
    · intro x hx
      simp only [List.map_cons, List.mem_cons, not_or] at hx
      rw [hfr2 x hx.2]
      apply hframe x hx.1
      simp [ctx_after]

theorem copy_chains_set (clone : Nat → Nat) {cs : List (List Nat)} {i : Nat} {c : List Nat}
    (hc : cs[i]? = some c) :
    (copy_chains clone cs i).set i (clone_chain clone c ++ []) = copy_chains clone cs (i + 1) := by
  have hi := lt_of_get hc
  have hlen : ((cs.take i).map (clone_chain clone)).length = i := by
    simp [List.length_take]
    omega
  unfold copy_chains
  rw [List.set_append_right _ _ (by rw [hlen]), hlen, Nat.sub_self]
  obtain ⟨k, hk⟩ : ∃ k, cs.length - i = k + 1 := ⟨cs.length - i - 1, by omega⟩
  have hk1 : cs.length - (i + 1) = k := by omega
  rw [hk, hk1, List.replicate_succ, List.set_cons_zero, List.take_succ, hc]
  simp

theorem copy_chains_get (clone : Nat → Nat) {cs : List (List Nat)} {i : Nat}
    (hi : i < cs.length) : (copy_chains clone cs i)[i]? = some [] := by
  have hlen : ((cs.take i).map (clone_chain clone)).length = i := by
    simp [List.length_take]
    omega
  unfold copy_chains
  rw [List.getElem?_append_right (by rw [hlen]), hlen, Nat.sub_self]
  obtain ⟨k, hk⟩ : ∃ k, cs.length - i = k + 1 := ⟨cs.length - i - 1, by omega⟩
  rw [hk, List.replicate_succ]
  simp

theorem copy_chains_full (clone : Nat → Nat) (cs : List (List Nat)) :
    copy_chains clone cs cs.length = cs.map (clone_chain clone) := by
  simp [copy_chains]

theorem copy_chains_zero (clone : Nat → Nat) (cs : List (List Nat)) :
    copy_chains clone cs 0 = List.replicate cs.length [] := by
  simp [copy_chains]

theorem mem_flatten_map_clone (clone : Nat → Nat) {L : List (List Nat)} {x : Nat}
    (hx : x ∈ (L.map (clone_chain clone)).flatten) : ∃ b ∈ L.flatten, x = clone b := by
  obtain ⟨c1, hc1, hxc⟩ := List.mem_flatten.mp hx
  obtain ⟨c, hc, rfl⟩ := List.mem_map.mp hc1
  simp only [clone_chain, List.mem_reverse, List.mem_map] at hxc
  obtain ⟨b, hb, rfl⟩ := hxc
  exact ⟨b, List.mem_flatten.mpr ⟨c, hc, hb⟩, rfl⟩

theorem mem_copy_chains (clone : Nat → Nat) {cs : List (List Nat)} {i : Nat} {x : Nat}
    (hx : x ∈ (copy_chains clone cs i).flatten) : ∃ b ∈ (cs.take i).flatten, x = clone b := by
  unfold copy_chains at hx
  rw [List.flatten_append, flatten_replicate_nil, List.append_nil] at hx
  exact mem_flatten_map_clone clone hx

theorem mem_take_flatten_get {cs : List (List Nat)} {i : Nat} {b : Nat}
    (hb : b ∈ (cs.take i).flatten) : ∃ j c, j < i ∧ cs[j]? = some c ∧ b ∈ c := by
  obtain ⟨c, hc, hbc⟩ := List.mem_flatten.mp hb
  obtain ⟨j, hj⟩ := List.mem_iff_getElem?.mp hc
  rw [List.getElem?_take] at hj
  split at hj
  · rename_i hlt
    exact ⟨j, c, hlt, hj, hbc⟩
  · cases hj

theorem copy_loop_spec {G : Type} (gen : Nat → G → Nat × G) (clone : Nat → Nat)
    (hgen : ∀ e g, (gen e g).1 = clone e) (cs : List (List Nat))
    (hfresh : ∀ a ∈ cs.flatten, clone a ∉ cs.flatten)
    (hinj : ∀ a ∈ cs.flatten, ∀ b ∈ cs.flatten, clone a = clone b → a = b)
    (rb : List Link) :
    ∀ (k i : Nat) {cb : List Link} {nx : Nat → Link} {g : G} {fuel : Nat},
      i + k = cs.length → Linked { buckets := rb, next := nx } cs →
      Linked { buckets := cb, next := nx } (copy_chains clone cs i) →
      cs.flatten.length < fuel →
      ∃ cb1 nx1, copy_loop gen rb fuel k i (cb, nx, g) =
          some (cb1, nx1, (cs.drop i).flatten.foldl (fun g e => (gen e g).2) g) ∧
        Linked { buckets := cb1, next := nx1 } (cs.map (clone_chain clone)) ∧
        (∀ x, x ∉ cs.flatten.map clone → nx1 x = nx x) := by
  intro k
  induction k with
  | zero =>
    intro i cb nx g fuel hik _ hl _
    have hi : i = cs.length := by omega
    subst hi
    refine ⟨cb, nx, ?_, ?_, fun _ _ => rfl⟩
    · simp [copy_loop]
    · rw [← copy_chains_full]
      exact hl
  | succ k ih =>
    intro i cb nx g fuel hik hls hl hf
    have hi : i < cs.length := by omega
    have hc := chain_at_get hi
    have hS : ∀ x ∈ chain_at cs i, x ∈ cs.flatten := fun x hx => mem_flatten_of_get hc hx
    have hout : ∀ a ∈ chain_at cs i, clone a ∉ (copy_chains clone cs i).flatten := by
      intro a ha hin
      obtain ⟨b, hb, hab⟩ := mem_copy_chains clone hin
      obtain ⟨j, d, hji, hd, hbd⟩ := mem_take_flatten_get hb
      have hbS : b ∈ cs.flatten := mem_flatten_of_get hd hbd
      have := hinj a (hS a ha) b hbS hab
      subst this
      exact chains_disjoint hls.nodup hc hd (by omega) ha hbd
    obtain ⟨cb1, nx1, hcopy, hl1, hfr1⟩ := copy_chain_spec gen clone hgen rb i (i + 1)
      cs.flatten hfresh (chain_at cs i) (hls.seg i _ hc) (fun x hx => by cases hx) hS
      (hls.chain_nodup hc) (fun a ha b hb => hinj a (hS a ha) b (hS b hb)) hl
      (copy_chains_get clone hi) hout (lt_of_le_of_lt (chain_length_le hc) hf) (g := g)
    rw [copy_chains_set clone hc] at hl1
    have hkeep : ∀ x ∈ cs.flatten, nx1 x = nx x := by
      intro x hx
      apply hfr1
      intro hin
      obtain ⟨a, ha, rfl⟩ := List.mem_map.mp hin
      exact hfresh a (hS a ha) hx
    have hls1 : Linked { buckets := rb, next := nx1 } cs := hls.congr rfl hkeep
    obtain ⟨cb2, nx2, hloop, hl2, hfr2⟩ := @ih (i + 1) cb1 nx1
      ((chain_at cs i).foldl (fun g e => (gen e g).2) g) fuel (by omega) hls1 hl1 hf
    refine ⟨cb2, nx2, ?_, hl2, ?_⟩
    · simp only [copy_loop, hcopy, Option.bind_eq_bind, Option.some_bind]
      rw [hloop, List.drop_eq_getElem_cons hi, List.flatten_cons, List.foldl_append]
      have : cs[i] = chain_at cs i := by
        simp [chain_at, List.getElem?_eq_getElem hi]
      rw [this]
    · intro x hx
      rw [hfr2 x hx]
      apply hfr1
      intro hin
      apply hx
      obtain ⟨a, ha, rfl⟩ := List.mem_map.mp hin
      exact List.mem_map.mpr ⟨a, hS a ha, rfl⟩

theorem clone_chains_flatten_perm (clone : Nat → Nat) (cs : List (List Nat)) :
    ((cs.map (clone_chain clone)).flatten).Perm (cs.flatten.map clone) := by
  induction cs with
  | nil => simp
  | cons c cs ih =>
    simp only [List.map_cons, List.flatten_cons, List.map_append, clone_chain]
    exact (List.reverse_perm _).append ih

/-- The copy constructor on a table that holds the chains `cs`, for a clone factory
whose nodes are new and pairwise distinct. -/
theorem Rep.copy_construct_spec {G : Type} (gen : Nat → G → Nat × G) (clone : Nat → Nat)
    (hgen : ∀ e g, (gen e g).1 = clone e) {right : Table} {cs : List (List Nat)}
    (h : Rep right cs)
    (hfresh : ∀ a ∈ cs.flatten, clone a ∉ cs.flatten)
    (hinj : ∀ a ∈ cs.flatten, ∀ b ∈ cs.flatten, clone a = clone b → a = b)
    (g : G) {fuel : Nat} (hf : right.nitems < fuel) :
    ∃ t2, copy_construct gen fuel right g =
        some (t2, cs.flatten.foldl (fun g e => (gen e g).2) g) ∧
      Holds t2 (cs.map (clone_chain clone)) ∧ t2.nitems = right.nitems ∧
      t2.buckets.length = right.buckets.length ∧
      (∀ x, x ∉ cs.flatten.map clone → t2.next x = right.next x) := by
  have hbl := h.buckets_length
  have hinit : Linked { buckets := init_buckets_ right.buckets.length, next := right.next }
      (copy_chains clone cs 0) := by
    rw [copy_chains_zero, hbl]
    exact linked_init h.linked.pos right.next
  obtain ⟨cb1, nx1, hloop, hl, hfr⟩ := copy_loop_spec gen clone hgen cs hfresh hinj
    right.buckets cs.length 0 (Nat.zero_add _) h.linked hinit (g := g) (h.count ▸ hf)
  refine ⟨{ buckets := cb1, next := nx1, nitems := right.nitems }, ?_, ⟨hl, ?_⟩, rfl, ?_, hfr⟩
  · unfold copy_construct
    rw [if_neg (by omega)]
    have : right.buckets.length - 1 = cs.length := by omega
    rw [this, hloop]
    simp
  · show right.nitems = _
    rw [h.count, (clone_chains_flatten_perm clone cs).length_eq, List.length_map]
  · show cb1.length = _
    have := hl.len
    simp only [List.length_map] at this
    rw [this, hbl]

theorem Contig.map_clone {K : Type} {ops : Ops K} (he : EquivOps ops) {c : List Nat}
    (h : Contig ops c) {clone : Nat → Nat}
    (hkey : ∀ a ∈ c, ops.equal_to (ops.extract_key (clone a)) (ops.extract_key a) = true) :
    Contig ops (c.map clone) := by
  intro a1 x1 b1 hs hab
  obtain ⟨l, hl, hmap⟩ := List.sublist_map_iff.mp hs
  match l, hl, hmap with
  | [a, x, b], hl, hmap =>
    simp only [List.map_cons, List.map_nil, List.cons.injEq, and_true] at hmap
    obtain ⟨rfl, rfl, rfl⟩ := hmap
    have ha : a ∈ c := hl.subset (by simp)
    have hx : x ∈ c := hl.subset (by simp)
    have hb : b ∈ c := hl.subset (by simp)
    have h1 : same_key ops a b :=
      he.trans _ _ _ (he.symm _ _ (hkey a ha)) (he.trans _ _ _ hab (hkey b hb))
    have h2 : same_key ops x a := h a x b hl h1
    exact he.trans _ _ _ (hkey x hx) (he.trans _ _ _ h2 (he.symm _ _ (hkey a ha)))
  | [], _, hmap => simp at hmap
  | [_], _, hmap => simp at hmap
  | [_, _], _, hmap => simp at hmap
  | _ :: _ :: _ :: _ :: _, _, hmap => simp at hmap

theorem Good.clone {K : Type} {ops : Ops K} (he : EquivOps ops) {cs : List (List Nat)}
    (h : Good ops cs) {clone : Nat → Nat}
    (hkey : ∀ a ∈ cs.flatten,
      ops.equal_to (ops.extract_key (clone a)) (ops.extract_key a) = true) :
    Good ops (cs.map (clone_chain clone)) := by
  refine ⟨?_, ?_⟩
  · intro i c1 hi e hec
    rw [List.getElem?_map] at hi
    cases hc : cs[i]? with
    | none => rw [hc] at hi; cases hi
    | some c =>
      rw [hc] at hi
      simp only [Option.map_some', Option.some.injEq] at hi
      subst hi
      simp only [clone_chain, List.mem_reverse, List.mem_map] at hec
      obtain ⟨a, ha, rfl⟩ := hec
      rw [List.length_map, he.hash_eq _ _ (hkey a (mem_flatten_of_get hc ha))]
      exact h.placed i c hc a ha
  · intro c1 hc1
    obtain ⟨c, hc, rfl⟩ := List.mem_map.mp hc1
    exact Contig.reverse he ((h.contig c hc).map_clone he
      (fun a ha => hkey a (List.mem_flatten.mpr ⟨c, hc, ha⟩)))

theorem hit_clone {K : Type} {ops : Ops K} (he : EquivOps ops) {clone : Nat → Nat} {a : Nat}
    (hkey : ops.equal_to (ops.extract_key (clone a)) (ops.extract_key a) = true) (key : K) :
    hit ops key (clone a) = hit ops key a := by
  unfold hit
  cases h1 : ops.equal_to (ops.extract_key a) key with
  | true => exact he.trans _ _ _ hkey h1
  | false =>
    cases h2 : ops.equal_to (ops.extract_key (clone a)) key with
    | false => rfl
    | true =>
      have := he.trans _ _ _ (he.symm _ _ hkey) h2
      rw [h1] at this
      cases this

theorem any_map_clone {K : Type} {ops : Ops K} (he : EquivOps ops) {clone : Nat → Nat}
    (key : K) : ∀ (l : List Nat),
    (∀ a ∈ l, ops.equal_to (ops.extract_key (clone a)) (ops.extract_key a) = true) →
    (l.map clone).any (hit ops key) = l.any (hit ops key) ∧
      (l.map clone).countP (hit ops key) = l.countP (hit ops key) := by
  intro l
  induction l with
  | nil => intro _; simp
  | cons a l ih =>
    intro hkey
    obtain ⟨h1, h2⟩ := ih (fun x hx => hkey x (List.mem_cons_of_mem _ hx))
    have ha := hit_clone he (hkey a (List.mem_cons_self _ _)) key
    refine ⟨?_, ?_⟩
    · rw [List.map_cons, List.any_cons, List.any_cons, h1, ha]
    · rw [List.map_cons, List.countP_cons, List.countP_cons, h2, ha]

theorem filter_filter_hit {K : Type} {ops : Ops K} (he : EquivOps ops) (key : K) (M : Nat)
    (l : List Nat) :
    (l.filter (fun e => ops.hash (ops.extract_key e) % M == ops.hash key % M)).filter (hit ops key)
      = l.filter (hit ops key) := by
  rw [List.filter_filter]
  apply List.filter_congr
  intro x _
  cases hx : hit ops key x with
  | false => simp
  | true =>
    have := he.hash_eq _ _ hx
    simp [this]

theorem chains_rehash_get {K : Type} (ops : Ops K) (cs : List (List Nat)) {nb : Nat}
    (hnb : 0 < nb) {j : Nat} (hj : j < nb) :
    (chains_rehash ops cs nb)[j]? =
      some (cs.flatten.filter (fun e => ops.hash (ops.extract_key e) % nb == j)).reverse := by
  have hlen := chains_rehash_length ops cs nb
  rw [chain_at_get (by rw [hlen]; exact hj)]
  unfold chains_rehash
  rw [rehash_into_get ops cs.flatten (List.replicate nb []) (by simpa using hnb) j,
    chain_at_replicate, List.length_replicate, List.append_nil]

theorem Reachable.buckets_ge {K : Type} {ops : Ops K} (he : EquivOps ops) {t : Table}
    (h : Reachable ops t) : 8 ≤ t.buckets.length := by
  induction h with
  | init n =>
    have h1 := (init_buckets_get (buckets_count n)).2.2
    have h2 := buckets_count_ge n
    show 8 ≤ (init_buckets_ (buckets_count n + 1)).length
    omega
  | push_no_resize h hf hn hop ih =>
    have := (Step.push_no_resize hf hn hop).buckets_length_le he h
    omega
  | push h hf hn hop ih =>
    have := (Step.push hf hn hop).buckets_length_le he h
    omega
  | find_or_push_no_resize h hf hgen hop ih =>
    have := (Step.find_or_push_no_resize hf hgen hop).buckets_length_le he h
    omega
  | find_or_push h hf hgen hop ih =>
    have := (Step.find_or_push hf hgen hop).buckets_length_le he h
    omega
  | pop h hf hop ih =>
    have := (Step.pop hf hop).buckets_length_le he h
    omega
  | pop_range h hf hop ih =>
    have := (Step.pop_range hf hop).buckets_length_le he h
    omega
  | pop_one h hf hop ih =>
    have := (Step.pop_one hf hop).buckets_length_le he h
    omega
  | pop_all h hf hop ih =>
    have := (Step.pop_all hf hop).buckets_length_le he h
    omega
  | decompose h hf hop ih =>
    have hs : Step ops OpKind.decompose _ _ := Step.decompose hf hop
    have := hs.buckets_length_le he h
    omega
  | resize h hf hop ih =>
    have := (Step.resize hf hop).buckets_length_le he h
    omega

/-- The bucket placement of one reachable state. -/
theorem Reachable.placement {K : Type} {ops : Ops K} (he : EquivOps ops) {t : Table}
    (h : Reachable ops t) {fuel : Nat} (hf : t.enough fuel) :
    7 ≤ t.nbuckets ∧
    (∀ key : K, base_ctx_ ops t.toMem key = some (.slot (ops.hash key % t.nbuckets)) ∧
      ops.hash key % t.nbuckets < t.nbuckets) ∧
    ∃ cs, t.chains fuel = some cs ∧ cs.length = t.nbuckets ∧
      (∀ (i : Nat) (c : List Nat), cs[i]? = some c →
        ∀ e ∈ c, ops.hash (ops.extract_key e) % t.nbuckets = i) ∧
      (∀ key : K, has ops fuel t key = some (cs.flatten.any (hit ops key))) ∧
      (∀ (key : K) (e : Nat), e ∈ cs.flatten → hit ops key e = true →
        e ∈ chain_at cs (ops.hash key % t.nbuckets) ∧
        ∃ y, find ops fuel t key = some (Link.item y) ∧ hit ops key y = true) := by
  obtain ⟨cs, hr, hg⟩ := Inv.of_reachable he h
  have hlt := hr.enough_lt hf
  have hN := hr.nbuckets_eq
  have h8 := h.buckets_ge he
  have hbl := hr.buckets_length
  refine ⟨by rw [hN]; omega, fun key => ?_, cs, hr.chains_eq hlt, hN.symm, ?_,
    fun key => hr.has_flatten he hg key hlt, ?_⟩
  · rw [hN]
    exact ⟨hr.linked.base_ctx ops key, hr.linked.bucket_lt ops key⟩
  · intro i c hc e hec
    rw [hN]
    exact hg.placed i c hc e hec
  · intro key e hmem hhit
    obtain ⟨c, hc, hec⟩ := List.mem_flatten.mp hmem
    obtain ⟨i, hi⟩ := List.mem_iff_getElem?.mp hc
    have hib := hg.hit_bucket he hi hec hhit
    have hco := hr.linked.chain_of_get ops key
    rw [← hib, hi] at hco
    have hco2 : chain_of ops cs key = c := (Option.some.inj hco).symm
    refine ⟨?_, ?_⟩
    · rw [hN]
      show e ∈ chain_of ops cs key
      rw [hco2]
      exact hec
    · have hany : (chain_of ops cs key).any (hit ops key) = true := by
        rw [hco2]
        exact List.any_eq_true.mpr ⟨e, hec, hhit⟩
      rcases dropWhile_miss ops key (chain_of ops cs key) with h3 | ⟨y, R, h3, h4⟩
      · exact absurd h3 ((any_hit_iff ops key _).mp hany)
      · have hfk : from_key ops cs key = y :: R := h3
        exact ⟨y, by rw [hr.find_eq ops key hlt, hfk]; rfl, h4⟩

theorem RReachable.reachable_of {K : Type} {ops : Ops K} {t : Table}
    (h : RReachable ops t) : Reachable ops t := by
  induction h with
  | init n => exact Reachable.init n
  | step _ hs _ _ ih => exact hs.reachable_next ih

theorem chains_resize_load {K : Type} (ops : Ops K) (cs : List (List Nat)) (m : Nat) :
    m ≤ (chains_resize ops cs m).length ∨ 4294967291 ≤ (chains_resize ops cs m).length := by
  unfold chains_resize
  by_cases hm : m ≤ 4294967291
  · have := buckets_count_ge_self hm
    split
    · rw [chains_rehash_length]
      exact Or.inl this
    · rename_i hc
      left
      by_contra hlt
      exact hc ⟨by omega, by omega⟩
  · have hmax := @buckets_count_max m (by omega)
    split
    · rw [chains_rehash_length, hmax]
      exact Or.inr (Nat.le_refl _)
    · rename_i hc
      by_cases h1 : cs.length < m
      · right
        by_contra hlt
        exact hc ⟨h1, by rw [hmax]; omega⟩
      · left
        omega

theorem Rep.push_no_resize_size {K : Type} (ops : Ops K) {t : Table} {cs : List (List Nat)}
    (h : Rep t cs) {node : Nat} (hn : node ∉ cs.flatten) {fuel : Nat} (hf : t.nitems < fuel) :
    ∃ t1, push_no_resize ops fuel t node = some (t1, node) ∧
      t1.buckets.length = t.buckets.length ∧ t1.nitems = t.nitems + 1 := by
  obtain ⟨t1, h1, hr1, hbl⟩ := h.push_no_resize_spec ops hn hf
  refine ⟨t1, h1, hbl, ?_⟩
  have hsplit := h.linked.chain_split ops (ops.extract_key node)
  rw [hr1.count, h.count, flatten_split hsplit]
  unfold chains_push
  rw [flatten_set (lt_of_get hsplit)]
  simp only [List.length_append, List.length_cons]
  omega

theorem Step.loaded {K : Type} {ops : Ops K} (he : EquivOps ops) {k : OpKind}
    {t t1 : Table} (h : Reachable ops t) (hs : Step ops k t t1)
    (hk1 : k ≠ OpKind.push_no_resize) (hk2 : k ≠ OpKind.find_or_push_no_resize)
    (hl : Loaded t) : Loaded t1 := by
  obtain ⟨cs, hr, hg⟩ := Inv.of_reachable he h
  have hlt : ∀ {fuel : Nat}, t.enough fuel → t.nitems < fuel := fun hf => hr.enough_lt hf
  have hbl0 := hr.buckets_length
  unfold Loaded at hl ⊢
  cases hs with
  | push_no_resize _ _ _ => exact absurd rfl hk1
  | find_or_push_no_resize _ _ _ => exact absurd rfl hk2
  | @push _ _ fuel node r hf hn hop =>
    obtain ⟨t2, h1, h2, h3⟩ := hr.resize_spec ops (t.nitems + 1) hf
    have hnm : node ∉ (chains_resize ops cs (t.nitems + 1)).flatten := by
      intro hh
      exact hr.not_mem_of_unlinked hn ((chains_resize_perm ops cs _).mem_iff.mp hh)
    obtain ⟨t3, h4, h5, h6⟩ := h2.push_no_resize_size ops hnm (by rw [h3]; exact hlt hf)
    simp only [Intrhash.push, h1, Option.bind_eq_bind, Option.some_bind, h4] at hop
    simp only [Option.some.injEq, Prod.mk.injEq] at hop
    rw [← hop.1, h5, h6, h3, h2.buckets_length]
    have := chains_resize_load ops cs (t.nitems + 1)
    omega
  | @find_or_push G _ fuel key gen g r hf hgen hop =>
    obtain ⟨t2, r1, cs1, _, h2, h3, h4, h5, h6, h7⟩ := hr.find_or_push_spec he hg key gen g hf
      (fun node g1 hgg => hr.not_mem_of_unlinked (hgen node g1 hgg).1)
    rw [h4] at hop
    obtain rfl := Option.some.inj hop
    have hload := chains_resize_load ops cs (t.nitems + 1)
    have hb2 := h2.buckets_length
    have hsz : r1.table.nitems ≤ t.nitems + 1 := by
      rcases h7 with ⟨_, _, _, _, hreq, _⟩ | ⟨_, _, _, hreq, _⟩ | ⟨_, _, _, _, _, _, _, hn1⟩
      · rw [hreq]; show t2.nitems ≤ _; omega
      · rw [hreq]; show t2.nitems ≤ _; omega
      · omega
    rw [h6, hb2]
    omega
  | @pop _ _ fuel node r hf hop =>
    by_cases hn : node ∈ chain_of ops cs (ops.extract_key node)
    · obtain ⟨t2, h1, h2, h3, _⟩ := hr.pop_found ops hn (hlt hf)
      rw [h1] at hop
      simp only [Option.some.injEq, Prod.mk.injEq] at hop
      have := (chains_pop_sublist ops hr.linked node).length_le
      rw [← hop.1, h3, h2.count]
      rw [hr.count] at hl
      omega
    · rw [hr.pop_absent ops hn (hlt hf)] at hop
      simp only [Option.some.injEq, Prod.mk.injEq] at hop
      rw [← hop.1]
      exact hl
  | @pop_range σ cbk _ _ fuel first last s s1 hf hop =>
    obtain ⟨t2, h1, h2, h3⟩ := hr.pop_range_spec ops cbk first last s hf
    rw [h1] at hop
    simp only [Option.some.injEq, Prod.mk.injEq] at hop
    have := (chains_pop_range_sublist ops hr.linked first last).length_le
    rw [← hop.1, h3, h2.count]
    rw [hr.count] at hl
    omega
  | @pop_one _ _ fuel key r hf hop =>
    cases hfk : from_key ops cs key with
    | nil =>
      rw [hr.pop_one_absent ops key (hlt hf) ((from_key_nil_iff ops cs key).mp hfk)] at hop
      simp only [Option.some.injEq, Prod.mk.injEq] at hop
      rw [← hop.1]
      exact hl
    | cons y rr =>
      obtain ⟨t2, h1, h2, h3, _⟩ := hr.pop_one_found ops key (hlt hf) hfk
      rw [h1] at hop
      simp only [Option.some.injEq, Prod.mk.injEq] at hop
      have := (chains_pop_one_sublist ops hr.linked key).length_le
      rw [← hop.1, h3, h2.count]
      rw [hr.count] at hl
      omega
  | @pop_all σ cbk _ _ fuel key s s1 hf hop =>
    obtain ⟨t2, h1, h2, h3⟩ := hr.pop_all_spec ops cbk key (hlt hf) s
    rw [h1] at hop
    simp only [Option.some.injEq, Prod.mk.injEq] at hop
    have := (chains_pop_all_sublist ops hr.linked key).length_le
    rw [← hop.1, h3, h2.count]
    rw [hr.count] at hl
    omega
  | @decompose σ cbk _ _ fuel s s1 hf hop =>
    rw [hr.decompose_spec cbk s hf] at hop
    simp only [Option.some.injEq, Prod.mk.injEq] at hop
    rw [← hop.1]
    left
    show 0 + 1 ≤ (init_buckets_ (cs.length + 1)).length
    rw [(init_buckets_get cs.length).2.2]
    omega
  | @resize _ _ fuel n hf hop =>
    obtain ⟨t2, h1, h2, h3⟩ := hr.resize_spec ops n hf
    rw [h1] at hop
    obtain rfl := Option.some.inj hop
    have := chains_resize_length_ge ops cs n
    rw [h2.buckets_length, h3]
    omega

theorem rreachable_push_seq {K : Type} {ops : Ops K} (fuel : Nat) (nodes : List Nat) :
    ∀ {t t1 : Table}, RReachable ops t → push_seq ops fuel t nodes = some t1 →
      RReachable ops t1 := by
  induction nodes with
  | nil =>
    intro t t1 h heq
    simp only [push_seq, Option.some.injEq] at heq
    exact heq ▸ h
  | cons node rest ih =>
    intro t t1 h heq
    simp only [push_seq] at heq
    split at heq
    · rename_i hc
      cases hp : push ops fuel t node with
      | none => rw [hp] at heq; cases heq
      | some r =>
        rw [hp] at heq
        exact ih (RReachable.step h
          (Step.push hc.1 hc.2 (show push ops fuel t node = some (r.1, r.2) from hp))
          (by decide) (by decide)) heq
    · cases heq

theorem RReachable.load {K : Type} {ops : Ops K} (he : EquivOps ops) {t : Table}
    (h : RReachable ops t) : Loaded t := by
  induction h with
  | init n =>
    left
    show 0 + 1 ≤ (init_buckets_ (buckets_count n + 1)).length
    rw [(init_buckets_get (buckets_count n)).2.2]
    omega
  | step hprev hs hk1 hk2 ih => exact hs.loaded he hprev.reachable_of hk1 hk2 ih

theorem Linked.item_ctx_slot {m : Mem} {cs : List (List Nat)} (h : Linked m cs) (k : Nat) :
    ∀ {i fuel : Nat}, i ≤ cs.length → cs.length - i ≤ k → k < fuel →
      ∃ j, i ≤ j ∧ j ≤ cs.length ∧ item_ctx_ m fuel (.slot i) = some (.slot j) ∧
        (∀ x, i ≤ x → x < j → chain_at cs x = []) ∧
        ((j = cs.length ∧ m.read (.slot j) = some Link.null) ∨
          (j < cs.length ∧ ∃ e c, cs[j]? = some (e :: c) ∧ m.read (.slot j) = some (.item e))) := by
  induction k with
  | zero =>
    intro i fuel hi hk hf
    obtain ⟨f, rfl⟩ : ∃ f, fuel = f + 1 := ⟨fuel - 1, by omega⟩
    have hiN : i = cs.length := by omega
    subst hiN
    refine ⟨cs.length, Nat.le_refl _, Nat.le_refl _, ?_, fun x h1 h2 => by omega,
      Or.inl ⟨rfl, h.read_end⟩⟩
    simp [item_ctx_, ctx_bucket_, h.read_end]
  | succ k ih =>
    intro i fuel hi hk hf
    obtain ⟨f, rfl⟩ : ∃ f, fuel = f + 1 := ⟨fuel - 1, by omega⟩
    by_cases hiN : i = cs.length
    · subst hiN
      refine ⟨cs.length, Nat.le_refl _, Nat.le_refl _, ?_, fun x h1 h2 => by omega,
        Or.inl ⟨rfl, h.read_end⟩⟩
      simp [item_ctx_, ctx_bucket_, h.read_end]
    · have hlt : i < cs.length := by omega
      have hget := chain_at_get hlt
      have hhead := seg_head (h.seg i _ hget)
      cases hc : chain_at cs i with
      | nil =>
        rw [hc] at hhead
        obtain ⟨j, h1, h2, h3, h4, h5⟩ := @ih (i + 1) f (by omega) (by omega) (by omega)
        refine ⟨j, by omega, h2, ?_, ?_, h5⟩
        · simp [item_ctx_, ctx_bucket_, hhead, first_link, next_ctx_bucket_, h3]
        · intro x hx1 hx2
          by_cases hxi : x = i
          · rw [hxi, hc]
          · exact h4 x (by omega) hx2
      | cons e c =>
        rw [hc] at hhead hget
        refine ⟨i, Nat.le_refl _, hi, ?_, fun x h1 h2 => by omega,
          Or.inr ⟨hlt, e, c, hget, hhead⟩⟩
        simp [item_ctx_, ctx_bucket_, hhead, first_link]

theorem takeWhile_stop_head {X : List Nat} (Y : List Nat) (h : ∀ x ∈ X, x ∉ Y) :
    (X ++ Y).takeWhile (fun x => !stop_at (first_link Link.null Y).node x) = X ∧
    (X ++ Y).dropWhile (fun x => !stop_at (first_link Link.null Y).node x) = Y := by
  cases Y with
  | nil =>
    have hall : ∀ x ∈ X ++ [], (!stop_at (first_link Link.null []).node x) = true := by
      intro x _
      simp [stop_at, first_link, Link.node]
    refine ⟨?_, List.dropWhile_eq_nil_iff.mpr hall⟩
    have := List.takeWhile_eq_self_iff.mpr hall
    rw [List.append_nil] at this ⊢
    exact this
  | cons p P =>
    have hp : p ∉ X := fun hin => h p hin (List.mem_cons_self _ _)
    exact takeWhile_stop P hp

theorem takeWhile_stop_none (L : List Nat) :
    L.takeWhile (fun x => !stop_at none x) = L ∧
    L.dropWhile (fun x => !stop_at none x) = [] := by
  have hall : ∀ x ∈ L, (!stop_at none x) = true := by
    intro x _
    simp [stop_at]
  exact ⟨List.takeWhile_eq_self_iff.mpr hall, List.dropWhile_eq_nil_iff.mpr hall⟩

/-- The range erase from `first` to `end()`: everything from `first` on is unlinked. -/
theorem chains_pop_range_none {K : Type} {ops : Ops K} {cs : List (List Nat)}
    (hg : Good ops cs) {m : Mem} (hl : Linked m cs) {first : Nat} (hmem : first ∈ cs.flatten) :
    popped_range ops cs first none = cs.flatten.dropWhile (fun x => x != first) ∧
    (chains_pop_range ops cs first none).flatten
      = cs.flatten.takeWhile (fun x => x != first) := by
  obtain ⟨c, hc, hfc⟩ := List.mem_flatten.mp hmem
  obtain ⟨i, hi⟩ := List.mem_iff_getElem?.mp hc
  have hb : i = bucket_of ops cs (ops.extract_key first) := by
    rw [bucket_of, hg.placed i c hi first hfc]
  have hget := hl.chain_of_get ops (ops.extract_key first)
  rw [← hb, hi] at hget
  have hco : chain_of ops cs (ops.extract_key first) = c := (Option.some.inj hget).symm
  obtain ⟨A, R, rfl⟩ := List.append_of_mem hfc
  have hnd := hl.nodup
  have hfl := flatten_split hi
  rw [hfl] at hnd
  have hfA : first ∉ (cs.take i).flatten ++ A := by
    have h1 := List.nodup_append.mp hnd
    have h2 := List.nodup_append.mp h1.1
    have h3 := List.nodup_append.mp h2.2.1
    intro hin
    rcases List.mem_append.mp hin with h4 | h4
    · exact h2.2.2 h4 (by simp)
    · exact h3.2.2 h4 (List.mem_cons_self _ _)
  have hfA2 : first ∉ A := fun hin => hfA (List.mem_append_right _ hin)
  have hsp := @takeWhile_ne_split A R first hfA2
  have hfl2 : cs.flatten = ((cs.take i).flatten ++ A) ++ first :: (R ++ (cs.drop (i + 1)).flatten) := by
    rw [hfl]
    simp only [List.append_assoc, List.cons_append]
  have hsp2 := @takeWhile_ne_split ((cs.take i).flatten ++ A) (R ++ (cs.drop (i + 1)).flatten)
    first hfA
  refine ⟨?_, ?_⟩
  · unfold popped_range
    rw [if_pos (by rw [hco]; exact hfc), hco, ← hb, hsp.2]
    unfold popped_from
    rw [(takeWhile_stop_none _).1, hfl2, hsp2.2]
    simp
  · unfold chains_pop_range
    rw [if_pos (by rw [hco]; exact hfc), hco, ← hb, hsp.1, hsp.2, chains_pop_from_flatten,
      (takeWhile_stop_none _).2, List.append_nil, hfl2, hsp2.1]

/-- The range erase from the first node of the run of `key` to the iterator behind the
run, as `equal_range` returns them. -/
theorem chains_pop_range_run {K : Type} {ops : Ops K} (he : EquivOps ops)
    {cs : List (List Nat)} (hg : Good ops cs) {m : Mem} (hl : Linked m cs) (key : K)
    {y : Nat} {rr : List Nat} (hfk : from_key ops cs key = y :: rr) :
    popped_range ops cs y
      (first_link Link.null (rr.dropWhile (hit ops key)
        ++ (cs.drop (bucket_of ops cs key + 1)).flatten)).node
      = cs.flatten.filter (hit ops key) ∧
    (chains_pop_range ops cs y
      (first_link Link.null (rr.dropWhile (hit ops key)
        ++ (cs.drop (bucket_of ops cs key + 1)).flatten)).node).flatten
      = cs.flatten.filter (fun x => !hit ops key x) := by
  have hyhit : hit ops key y = true := by
    rcases dropWhile_miss ops key (chain_of ops cs key) with h3 | ⟨y1, r1, h3, h4⟩
    · rw [from_key, h3] at hfk; cases hfk
    · rw [from_key, h3] at hfk
      simp only [List.cons.injEq] at hfk
      rw [← hfk.1]; exact h4
  have hhash : ops.hash (ops.extract_key y) = ops.hash key := he.hash_eq _ _ hyhit
  have hbk : bucket_of ops cs (ops.extract_key y) = bucket_of ops cs key := by
    simp only [bucket_of, hhash]
  have hco : chain_of ops cs (ops.extract_key y) = chain_of ops cs key := by
    simp only [chain_of, hbk]
  have hsplit := hl.chain_split ops key
  have hget := hl.chain_of_get ops key
  have hchain : chain_of ops cs key = before_key ops cs key ++ y :: rr := by
    rw [hget, hfk] at hsplit
    exact Option.some.inj hsplit
  have hyb : y ∉ before_key ops cs key := by
    intro hin
    have := takeWhile_miss ops key _ y hin
    rw [hyhit] at this
    cases this
  have hsp := @takeWhile_ne_split (before_key ops cs key) rr y hyb
  obtain ⟨hks, hpre, hrun, hpost⟩ := hg.key_split he hl key
  obtain ⟨hfh, hfm, _⟩ := hg.filter_hit he hl key
  have htw : (from_key ops cs key).takeWhile (hit ops key) = y :: rr.takeWhile (hit ops key) := by
    rw [hfk, List.takeWhile_cons, if_pos hyhit]
  have hdw : (from_key ops cs key).dropWhile (hit ops key) = rr.dropWhile (hit ops key) := by
    rw [hfk, List.dropWhile_cons, if_pos hyhit]
  rw [htw, hdw] at hks
  rw [htw] at hrun
  rw [hdw] at hpost
  rw [htw] at hfh
  have hnd := hl.nodup
  rw [hks] at hnd
  have hdisj : ∀ x ∈ y :: rr.takeWhile (hit ops key),
      x ∉ rr.dropWhile (hit ops key) ++ (cs.drop (bucket_of ops cs key + 1)).flatten :=
    fun x hx hin => (List.nodup_append.mp hnd).2.2
      (List.mem_append_right _ hx) hin
  have hS : (y :: rr) ++ (cs.drop (bucket_of ops cs key + 1)).flatten
      = (y :: rr.takeWhile (hit ops key)) ++ (rr.dropWhile (hit ops key)
        ++ (cs.drop (bucket_of ops cs key + 1)).flatten) := by
    simp only [List.cons_append, List.append_assoc]
    rw [← List.append_assoc (rr.takeWhile (hit ops key)), List.takeWhile_append_dropWhile]
  have hmem : y ∈ chain_of ops cs key := by
    rw [hchain]
    simp
  refine ⟨?_, ?_⟩
  · unfold popped_range
    rw [hco, hbk, if_pos hmem, hchain, hsp.2]
    unfold popped_from
    rw [hS, (takeWhile_stop_head _ hdisj).1, hfh]
  · unfold chains_pop_range
    rw [hco, hbk, if_pos hmem, hchain, hsp.1, hsp.2, chains_pop_from_flatten, hS,
      (takeWhile_stop_head _ hdisj).2, hfm, chains_pop_all_flatten ops hl key, hdw]

theorem Rep.chains_unique {t : Table} {cs cs1 : List (List Nat)} (h : Rep t cs)
    (h1 : Rep t cs1) : cs = cs1 := by
  have a := h.chains_eq (Nat.lt_succ_self t.nitems)
  have b := h1.chains_eq (Nat.lt_succ_self t.nitems)
  rw [a] at b
  exact Option.some.inj b

theorem UReachable.find_hit {K : Type} {ops : Ops K} (he : EquivOps ops) {t : Table}
    (h : UReachable ops t) {cs : List (List Nat)} (hr : Rep t cs) {fuel : Nat}
    (hlt : t.nitems < fuel) {key : K} {y : Nat} (hy : y ∈ cs.flatten)
    (hhit : hit ops key y = true) :
    find ops fuel t key = some (Link.item y) ∧
      ∀ z ∈ cs.flatten, hit ops key z = true → z = y := by
  obtain ⟨cs1, hr1, hg, hu⟩ := h.unique he
  have hcs := hr.chains_unique hr1
  subst hcs
  have huniq : ∀ z ∈ cs.flatten, hit ops key z = true → z = y :=
    fun z hz hzhit => hu z hz y hy (hit_same_key he hzhit hhit)
  refine ⟨?_, huniq⟩
  rw [hr.find_eq ops key hlt]
  rcases dropWhile_miss ops key (chain_of ops cs key) with h3 | ⟨y1, r1, h3, h4⟩
  · exfalso
    have hany : cs.flatten.any (hit ops key) = true := List.any_eq_true.mpr ⟨y, hy, hhit⟩
    rw [hg.any_hit_flatten he hr.linked key] at hany
    have := (from_key_nil_iff ops cs key).mp h3
    rw [this] at hany
    exact Bool.noConfusion hany
  · have hsplit := hr.linked.chain_split ops key
    have hfk : from_key ops cs key = y1 :: r1 := h3
    rw [hfk] at hsplit
    have hmem : y1 ∈ cs.flatten := mem_flatten_of_get hsplit (by simp)
    rw [hfk, huniq y1 hmem h4]
    rfl

theorem insert_seq_keeps {K : Type} {ops : Ops K} (he : EquivOps ops) (fuel : Nat)
    (nodes : List Nat) :
    ∀ {t t1 : Table} {cs : List (List Nat)}, Reachable ops t → Rep t cs → t.nitems < fuel →
      insert_seq ops fuel t nodes = some t1 →
      ∃ cs1, Rep t1 cs1 ∧ t1.nitems < fuel ∧ ∀ y ∈ cs.flatten, y ∈ cs1.flatten := by
  induction nodes with
  | nil =>
    intro t t1 cs _ hr hlt heq
    simp only [insert_seq, Option.some.injEq] at heq
    subst heq
    exact ⟨cs, hr, hlt, fun y hy => hy⟩
  | cons node rest ih =>
    intro t t1 cs h hr hlt heq
    simp only [insert_seq] at heq
    split at heq
    · rename_i hc
      have hf : t.enough fuel := hc.1
      obtain ⟨cs0, hr0, hg⟩ := Inv.of_reachable he h
      have hcs := hr.chains_unique hr0
      subst hcs
      have hgen : ∀ n g1, new_node node 0 = (some n, g1) →
          t.toMem.linked n = false ∧
            ops.equal_to (ops.extract_key n) (ops.extract_key node) = true := by
        intro n g1 hgg
        simp only [new_node, Prod.mk.injEq, Option.some.injEq] at hgg
        rw [← hgg.1]
        exact ⟨hc.2, he.refl _⟩
      obtain ⟨t2, r, cs1, _, hr2, h3, h1, h2, _, h4⟩ := hr.find_or_push_spec he hg
        (ops.extract_key node) (new_node node) 0 hf
        (fun n g1 hgg => hr.not_mem_of_unlinked (hgen n g1 hgg).1)
      have hp : map_insert ops fuel t node 0 = some r := h1
      rw [hp] at heq
      have hbl := hr.buckets_length
      have hpos := hr.linked.pos
      have hf1 : t.nitems + 1 < fuel := by
        unfold Table.enough at hf
        omega
      have hperm := chains_resize_perm ops cs (t.nitems + 1)
      have hstep : r.table.nitems < fuel ∧ ∀ y ∈ cs.flatten, y ∈ cs1.flatten := by
        rcases h4 with ⟨_, _, _, _, rfl, rfl⟩ | ⟨_, _, _, rfl, rfl⟩ | ⟨_, n, g1, _, _, _, rfl, h8⟩
        · exact ⟨by show t2.nitems < fuel; omega, fun y hy => hperm.mem_iff.mpr hy⟩
        · exact ⟨by show t2.nitems < fuel; omega, fun y hy => hperm.mem_iff.mpr hy⟩
        · refine ⟨by omega, fun y hy => ?_⟩
          exact (chains_append_perm ops hr2.linked _ n).mem_iff.mpr
            (List.mem_cons_of_mem _ (hperm.mem_iff.mpr hy))
      have hreach : Reachable ops r.table := Reachable.find_or_push h hf hgen h1
      obtain ⟨cs2, hr3, hlt3, hsub⟩ := ih hreach h2 hstep.1 heq
      exact ⟨cs2, hr3, hlt3, fun y hy => hsub y (hstep.2 y hy)⟩
    · cases heq

theorem demo_ops_equiv : EquivOps demo_ops := by
  refine ⟨?_, ?_, ?_, ?_⟩
  · intro a; simp [demo_ops]
  · intro a b h; simp [demo_ops] at h ⊢; exact h.symm
  · intro a b c h1 h2; simp [demo_ops] at h1 h2 ⊢; exact h1.trans h2
  · intro a b h; simp [demo_ops] at h ⊢; exact h

theorem reachable_push_seq {K : Type} {ops : Ops K} (fuel : Nat) (nodes : List Nat) :
    ∀ {t t1 : Table}, Reachable ops t → push_seq ops fuel t nodes = some t1 →
      Reachable ops t1 := by
  induction nodes with
  | nil =>
    intro t t1 h heq
    simp only [push_seq, Option.some.injEq] at heq
    exact heq ▸ h
  | cons node rest ih =>
    intro t t1 h heq
    simp only [push_seq] at heq
    split at heq
    · rename_i hc
      cases hp : push ops fuel t node with
      | none => rw [hp] at heq; cases heq
      | some r =>
        rw [hp] at heq
        exact ih (Reachable.push h hc.1 hc.2 (show push ops fuel t node = some (r.1, r.2) from hp))
          heq
    · cases heq

theorem demo_multi_reachable : Reachable demo_ops demo_multi :=
  reachable_push_seq 32 [50, 120, 51, 30, 52] (Reachable.init 0) (by rfl)

/-- Claim C1 (key-group contiguity invariant).  If `equal_to` is an equivalence relation
and equal keys hash equally, then in every reachable table state the chains `cs` of the
buckets can be read off, and for every key `k` there is one bucket `i` whose chain splits
as `pre ++ run ++ post` where `run` holds exactly the nodes of the whole table with key
`k`: every node of `run` has key `k`, no node of `pre` or `post` has it, and no node of
another chain has it. -/
theorem contiguity_invariant {K : Type} (ops : Ops K) (he : EquivOps ops) (t : Table)
    (h : Reachable ops t) (fuel : Nat) (hf : t.enough fuel) :
    ∃ cs, t.chains fuel = some cs ∧
      ∀ k : K, ∃ i pre run post, cs[i]? = some (pre ++ run ++ post) ∧
        (∀ e ∈ run, hit ops k e = true) ∧
        (∀ e ∈ pre ++ post, hit ops k e = false) ∧
        (∀ (j : Nat) (c : List Nat), j ≠ i → cs[j]? = some c → ∀ e ∈ c, hit ops k e = false) := by
  obtain ⟨cs, hr, hg⟩ := Inv.of_reachable he h
  refine ⟨cs, hr.chains_eq (hr.enough_lt hf), ?_⟩
  intro k
  have hgc := hr.linked.chain_of_get ops k
  refine ⟨bucket_of ops cs k, before_key ops cs k,
    (from_key ops cs k).takeWhile (hit ops k), (from_key ops cs k).dropWhile (hit ops k),
    ?_, ?_, ?_, ?_⟩
  · rw [List.append_assoc, List.takeWhile_append_dropWhile]
    exact hr.linked.chain_split ops k
  · intro e hmem
    exact List.mem_takeWhile_imp hmem
  · intro e hmem
    rcases List.mem_append.mp hmem with h1 | h1
    · exact takeWhile_miss ops k _ e h1
    · exact (hg.contig _ (List.getElem?_mem hgc)).no_hit_after_run he e h1
  · intro j c hj hc e hec
    cases hk : hit ops k e with
    | false => rfl
    | true => exact absurd (hg.hit_bucket he hc hec hk) hj

theorem contiguity_invariant_witness :
    EquivOps demo_ops ∧ Reachable demo_ops demo_multi ∧ demo_multi.enough 32 ∧
    demo_multi.chains 32 = some [[], [], [], [30], [], [52, 51, 50, 120], []] ∧
    ∃ cs, demo_multi.chains 32 = some cs ∧
      ∀ k : Nat, ∃ i pre run post, cs[i]? = some (pre ++ run ++ post) ∧
        (∀ e ∈ run, hit demo_ops k e = true) ∧
        (∀ e ∈ pre ++ post, hit demo_ops k e = false) ∧
        (∀ (j : Nat) (c : List Nat), j ≠ i → cs[j]? = some c →
          ∀ e ∈ c, hit demo_ops k e = false) :=
  ⟨demo_ops_equiv, demo_multi_reachable, by decide, by decide,
    contiguity_invariant demo_ops demo_ops_equiv demo_multi demo_multi_reachable 32 (by decide)⟩

/-- Claim C2 (count consistency).  In every reachable table state the chains of all
buckets can be read off, iterating from `begin()` to `end()` visits exactly their nodes,
and for every key `k`, `count(k)` is the number of linked nodes, over all buckets, whose
key is equal to `k`. -/
theorem count_consistency {K : Type} (ops : Ops K) (he : EquivOps ops) (t : Table)
    (h : Reachable ops t) (fuel : Nat) (hf : t.enough fuel) :
    ∃ cs, t.chains fuel = some cs ∧ t.entries fuel = some cs.flatten ∧
      ∀ k : K, count ops fuel t k = some (cs.flatten.countP (hit ops k)) := by
  obtain ⟨cs, hr, hg⟩ := Inv.of_reachable he h
  exact ⟨cs, hr.chains_eq (hr.enough_lt hf), hr.entries_eq hf,
    fun k => hr.count_flatten he hg k (hr.enough_lt hf)⟩

theorem count_consistency_witness :
    EquivOps demo_ops ∧ Reachable demo_ops demo_multi ∧ demo_multi.enough 32 ∧
    count demo_ops 32 demo_multi 5 = some 3 ∧ count demo_ops 32 demo_multi 12 = some 1 ∧
    count demo_ops 32 demo_multi 4 = some 0 ∧
    ∃ cs, demo_multi.chains 32 = some cs ∧ demo_multi.entries 32 = some cs.flatten ∧
      ∀ k : Nat, count demo_ops 32 demo_multi k = some (cs.flatten.countP (hit demo_ops k)) :=
  ⟨demo_ops_equiv, demo_multi_reachable, by decide, by decide, by decide, by decide,
    count_consistency demo_ops demo_ops_equiv demo_multi demo_multi_reachable 32 (by decide)⟩

/-- Claim C3 (resize preserves membership).  For every reachable table and every `n`,
`resize(n)` returns; the nodes visited by iterating the new table are a permutation of
the nodes visited before (the same multiset of linked nodes), `size()` is unchanged, and
for every key `k` both `has(k)` and `count(k)` give the same result as before. -/
theorem resize_preserves_membership {K : Type} (ops : Ops K) (he : EquivOps ops) (t : Table)
    (h : Reachable ops t) (fuel : Nat) (hf : t.enough fuel) (n : Nat) :
    ∃ t1 es, resize ops fuel t n = some t1 ∧ t.entries fuel = some es ∧ t1.size = t.size ∧
      (∀ fuel1, t1.enough fuel1 → ∃ es1, t1.entries fuel1 = some es1 ∧ es1.Perm es) ∧
      ∀ k : K, ∃ b c, has ops fuel t k = some b ∧ has ops fuel t1 k = some b ∧
        count ops fuel t k = some c ∧ count ops fuel t1 k = some c := by
  obtain ⟨cs, hr, hg⟩ := Inv.of_reachable he h
  obtain ⟨t1, h1, hr1, h3⟩ := hr.resize_spec ops n hf
  have hg1 := hg.resize he n
  have hp := chains_resize_perm ops cs n
  have hlt := hr.enough_lt hf
  have hlt1 : t1.nitems < fuel := by rw [h3]; exact hlt
  refine ⟨t1, cs.flatten, h1, hr.entries_eq hf, h3, ?_, ?_⟩
  · intro fuel1 hf1
    exact ⟨_, hr1.entries_eq hf1, hp⟩
  · intro k
    refine ⟨cs.flatten.any (hit ops k), cs.flatten.countP (hit ops k),
      hr.has_flatten he hg k hlt, ?_, hr.count_flatten he hg k hlt, ?_⟩
    · rw [hr1.has_flatten he hg1 k hlt1, perm_any_eq hp]
    · rw [hr1.count_flatten he hg1 k hlt1, hp.countP_eq]

theorem resize_preserves_membership_witness :
    EquivOps demo_ops ∧ Reachable demo_ops demo_multi ∧ demo_multi.enough 32 ∧
    resize demo_ops 32 demo_multi 8 = some demo_resized ∧
    demo_multi.nbuckets = 7 ∧ demo_resized.nbuckets = 17 ∧
    demo_multi.entries 32 = some [30, 52, 51, 50, 120] ∧
    demo_resized.entries 32 = some [30, 50, 51, 52, 120] ∧
    ∃ t1 es, resize demo_ops 32 demo_multi 8 = some t1 ∧ demo_multi.entries 32 = some es ∧
      t1.size = demo_multi.size ∧
      (∀ fuel1, t1.enough fuel1 → ∃ es1, t1.entries fuel1 = some es1 ∧ es1.Perm es) ∧
      ∀ k : Nat, ∃ b c, has demo_ops 32 demo_multi k = some b ∧ has demo_ops 32 t1 k = some b ∧
        count demo_ops 32 demo_multi k = some c ∧ count demo_ops 32 t1 k = some c :=
  ⟨demo_ops_equiv, demo_multi_reachable, by decide, by rfl, by decide, by decide, by decide,
    by decide,
    resize_preserves_membership demo_ops demo_ops_equiv demo_multi demo_multi_reachable 32
      (by decide) 8⟩

theorem ureachable_insert_seq {K : Type} {ops : Ops K} (he : EquivOps ops) (fuel : Nat)
    (nodes : List Nat) :
    ∀ {t t1 : Table}, UReachable ops t → insert_seq ops fuel t nodes = some t1 →
      UReachable ops t1 := by
  induction nodes with
  | nil =>
    intro t t1 h heq
    simp only [insert_seq, Option.some.injEq] at heq
    exact heq ▸ h
  | cons node rest ih =>
    intro t t1 h heq
    simp only [insert_seq] at heq
    split at heq
    · rename_i hc
      cases hp : map_insert ops fuel t node 0 with
      | none => rw [hp] at heq; cases heq
      | some r =>
        rw [hp] at heq
        refine ih (UReachable.find_or_push h hc.1 ?_ hp) heq
        intro n g1 hgg
        simp only [new_node, Prod.mk.injEq, Option.some.injEq] at hgg
        rw [← hgg.1]
        exact ⟨hc.2, he.refl _⟩
    · cases heq

theorem demo_map2_reachable : Reachable demo_ops demo_map2 :=
  (ureachable_insert_seq demo_ops_equiv 32 [10, 20] (UReachable.init 0) (by rfl)).reachable

/-- Claim C4 (unique insert, first insert wins).  On a reachable table, with a factory
that yields an unlinked node: if a node with a key equal to `key` is linked,
`find_or_push(key, gen)` returns (iterator to such a linked node, `false`), leaves the
factory state untouched (`gen` is not invoked), and leaves `size()` and the multiset of
linked nodes unchanged; if no linked node has that key and `gen` yields `node`, it
returns (iterator to `node`, `true`), `size()` grows by exactly 1 and the linked nodes
are the previous ones together with `node`. -/
theorem unique_insert {K G : Type} (ops : Ops K) (he : EquivOps ops) (t : Table)
    (h : Reachable ops t) (fuel : Nat) (hf : t.enough fuel) (key : K)
    (gen : G → Option Nat × G) (g : G)
    (hgen : ∀ node g1, gen g = (some node, g1) → t.toMem.linked node = false) :
    ∃ es, t.entries fuel = some es ∧
      ((∃ y ∈ es, hit ops key y = true) →
        ∃ r y, find_or_push ops fuel t key gen g = some r ∧ r.ret = some (.item y, false) ∧
          y ∈ es ∧ hit ops key y = true ∧ r.factory = g ∧ r.table.size = t.size ∧
          ∀ fuel1, r.table.enough fuel1 →
            ∃ es1, r.table.entries fuel1 = some es1 ∧ es1.Perm es) ∧
      ((∀ y ∈ es, hit ops key y = false) → ∀ node g1, gen g = (some node, g1) →
        ∃ r, find_or_push ops fuel t key gen g = some r ∧ r.ret = some (.item node, true) ∧
          r.factory = g1 ∧ r.table.size = t.size + 1 ∧
          ∀ fuel1, r.table.enough fuel1 →
            ∃ es1, r.table.entries fuel1 = some es1 ∧ es1.Perm (node :: es)) := by
  obtain ⟨cs, hr, hg⟩ := Inv.of_reachable he h
  obtain ⟨t2, r, cs1, _, hr2, h3, h1, h2, _, h4⟩ := hr.find_or_push_spec he hg key gen g hf
    (fun node g1 hgg => hr.not_mem_of_unlinked (hgen node g1 hgg))
  have hp := chains_resize_perm ops cs (t.nitems + 1)
  refine ⟨cs.flatten, hr.entries_eq hf, ?_, ?_⟩
  · rintro ⟨y0, hy0, hhit0⟩
    have hany : cs.flatten.any (hit ops key) = true := List.any_eq_true.mpr ⟨y0, hy0, hhit0⟩
    rcases h4 with ⟨y, rr, hfk, hhit, rfl, rfl⟩ | ⟨hno, _⟩ | ⟨hno, _⟩
    · refine ⟨_, y, h1, rfl, ?_, hhit, rfl, h3, ?_⟩
      · apply hp.mem_iff.mp
        have hsplit := hr2.linked.chain_split ops key
        rw [hfk] at hsplit
        exact mem_flatten_of_get hsplit (by simp)
      · intro fuel1 hf1
        exact ⟨_, h2.entries_eq hf1, hp⟩
    · rw [hno] at hany; exact Bool.noConfusion hany
    · rw [hno] at hany; exact Bool.noConfusion hany
  · intro hnone node g1 hgg
    rcases h4 with ⟨y, rr, hfk, hhit, _, _⟩ | ⟨_, g2, hgg2, _⟩ | ⟨_, node2, g2, hgg2, h5, h6, rfl, h8⟩
    · exfalso
      have hmem : y ∈ cs.flatten := by
        apply hp.mem_iff.mp
        have hsplit := hr2.linked.chain_split ops key
        rw [hfk] at hsplit
        exact mem_flatten_of_get hsplit (by simp)
      rw [hnone y hmem] at hhit
      exact Bool.noConfusion hhit
    · rw [hgg] at hgg2
      simp at hgg2
    · rw [hgg] at hgg2
      simp only [Prod.mk.injEq, Option.some.injEq] at hgg2
      obtain ⟨rfl, rfl⟩ := hgg2
      refine ⟨r, h1, h6, h5, h8, ?_⟩
      intro fuel1 hf1
      refine ⟨_, h2.entries_eq hf1, ?_⟩
      exact (chains_append_perm ops hr2.linked key node).trans (hp.cons node)

theorem unique_insert_witness :
    EquivOps demo_ops ∧ Reachable demo_ops demo_map2 ∧ demo_map2.enough 32 ∧
    insert_seq demo_ops 32 Table.default_ [10, 20, 11] = some demo_map3 ∧
    (map_insert demo_ops 32 demo_map2 11 2).map (fun r => (r.ret, r.factory, r.table.size))
      = some (some (Link.item 10, false), 2, 2) ∧
    demo_map3.size = 2 ∧ find demo_ops 32 demo_map3 1 = some (Link.item 10) ∧
    demo_value 10 = "a" ∧
    ∃ es, demo_map2.entries 32 = some es ∧
      ((∃ y ∈ es, hit demo_ops 1 y = true) →
        ∃ r y, find_or_push demo_ops 32 demo_map2 1 (new_node 11) 2 = some r ∧
          r.ret = some (.item y, false) ∧
          y ∈ es ∧ hit demo_ops 1 y = true ∧ r.factory = 2 ∧ r.table.size = demo_map2.size ∧
          ∀ fuel1, r.table.enough fuel1 →
            ∃ es1, r.table.entries fuel1 = some es1 ∧ es1.Perm es) ∧
      ((∀ y ∈ es, hit demo_ops 1 y = false) → ∀ node g1, new_node 11 2 = (some node, g1) →
        ∃ r, find_or_push demo_ops 32 demo_map2 1 (new_node 11) 2 = some r ∧
          r.ret = some (.item node, true) ∧
          r.factory = g1 ∧ r.table.size = demo_map2.size + 1 ∧
          ∀ fuel1, r.table.enough fuel1 →
            ∃ es1, r.table.entries fuel1 = some es1 ∧ es1.Perm (node :: es)) :=
  ⟨demo_ops_equiv, demo_map2_reachable, by decide, by rfl, by decide, by decide, by decide,
    by decide,
    unique_insert demo_ops demo_ops_equiv demo_map2 demo_map2_reachable 32 (by decide) 1
      (new_node 11) 2 (by
        intro node g1 hgg
        simp only [new_node, Prod.mk.injEq, Option.some.injEq] at hgg
        rw [← hgg.1]
        decide)⟩

/-- Claim C5, the claim as stated fails for unique inserts: after the unique inserts of
(1, "a") and (2, "b"), the unique insert of (1, "c") is followed by a `find(1)` that
yields the node holding "a", not one holding "c". -/
theorem round_trip_insert_counterexample :
    (map_insert demo_ops 32 demo_map2 11 2).bind (fun r => find demo_ops 32 r.table 1)
      = some (Link.item 10) ∧
    demo_ops.extract_key 11 = 1 ∧ demo_value 11 = "c" ∧ demo_value 10 = "a" ∧
    ¬ ∃ e, (map_insert demo_ops 32 demo_map2 11 2).bind (fun r => find demo_ops 32 r.table 1)
        = some (Link.item e) ∧ demo_value e = demo_value 11 := by
  have h1 : (map_insert demo_ops 32 demo_map2 11 2).bind (fun r => find demo_ops 32 r.table 1)
      = some (Link.item 10) := by decide
  refine ⟨h1, by decide, by decide, by decide, ?_⟩
  rintro ⟨e, h2, h3⟩
  rw [h1] at h2
  simp only [Option.some.injEq, Link.item.injEq] at h2
  rw [← h2] at h3
  exact absurd h3 (by decide)

/-- Claim C5 as amended (round trip insert then find).  An entry is a node, which stores
its value.  On a reachable table: after a multi insert `push(node)` of an unlinked node,
`find` of the node's key returns the iterator to that node.  After a unique insert
`find_or_push(key, gen)`, whose factory yields an unlinked node with the searched key,
`find(key)` returns the iterator that the insert returned and it is not `end()`.  When the
insert reports `inserted = true`, no entry had the key before and the iterator points to
the node made by the factory.  When it reports `inserted = false`, the iterator points to
an entry `y` that was stored before the insert and carries the key; the factory was not
invoked, the node it would have made is another node and stays unlinked, and `size()` and
the stored entries are unchanged; on a table built by unique inserts, `y` is the only
entry with that key and is the entry that `find(key)` returned before the insert.  First
insert wins: on a table built by unique inserts, after any further sequence of unique
inserts `find` of the key of a stored entry still returns that entry. -/
theorem round_trip_insert_find {K G : Type} (ops : Ops K) (he : EquivOps ops) (t : Table)
    (h : Reachable ops t) (fuel : Nat) (hf : t.enough fuel) :
    (∀ node, t.toMem.linked node = false →
      ∃ t1, push ops fuel t node = some (t1, node) ∧
        find ops fuel t1 (ops.extract_key node) = some (Link.item node)) ∧
    (∀ (key : K) (gen : G → Option Nat × G) (g : G),
      (∀ node g1, gen g = (some node, g1) →
        t.toMem.linked node = false ∧ ops.equal_to (ops.extract_key node) key = true) →
      ∃ r, find_or_push ops fuel t key gen g = some r ∧
        ∀ it b, r.ret = some (it, b) →
          find ops fuel r.table key = some it ∧ (∃ e, it = Link.item e) ∧
          (b = true → ∃ node g1, gen g = (some node, g1) ∧ it = Link.item node) ∧
          (b = true → ∃ es, t.entries fuel = some es ∧ ∀ y ∈ es, hit ops key y = false) ∧
          (b = false → ∃ y es, it = Link.item y ∧ t.entries fuel = some es ∧ y ∈ es ∧
            hit ops key y = true ∧ r.factory = g ∧ r.table.size = t.size ∧
            (∀ fuel1, r.table.enough fuel1 →
              ∃ es1, r.table.entries fuel1 = some es1 ∧ es1.Perm es) ∧
            (∀ node g1, gen g = (some node, g1) →
              node ≠ y ∧ r.table.toMem.linked node = false) ∧
            (UReachable ops t → find ops fuel t key = some (Link.item y) ∧
              ∀ z ∈ es, hit ops key z = true → z = y))) ∧
    (UReachable ops t → ∀ nodes t1, insert_seq ops fuel t nodes = some t1 →
      ∃ es, t.entries fuel = some es ∧
        ∀ y ∈ es, find ops fuel t1 (ops.extract_key y) = some (Link.item y)) := by
  obtain ⟨cs, hr, hg⟩ := Inv.of_reachable he h
  have hlt := hr.enough_lt hf
  have hbl := hr.buckets_length
  have hf1 : t.nitems + 1 < fuel := by
    have := hr.linked.pos
    unfold Table.enough at hf
    omega
  refine ⟨?_, ?_, ?_⟩
  · intro node hn
    obtain ⟨t2, h1, h2, h3⟩ := hr.resize_spec ops (t.nitems + 1) hf
    have hnm : node ∉ (chains_resize ops cs (t.nitems + 1)).flatten := by
      intro hh
      exact hr.not_mem_of_unlinked hn ((chains_resize_perm ops cs _).mem_iff.mp hh)
    obtain ⟨t3, h4, h5, _⟩ := h2.push_no_resize_spec ops hnm (by rw [h3]; exact hlt)
    refine ⟨t3, by simp only [push, h1, Option.bind_eq_bind, Option.some_bind, h4], ?_⟩
    have hcnt : t3.nitems < fuel := by
      have hp := flatten_set_cons_perm (h2.linked.bucket_lt ops (ops.extract_key node)) node
      have h6 := h5.count
      have h7 := h2.count
      have hlen : (chains_push ops (chains_resize ops cs (t.nitems + 1)) node).flatten.length
          = (chains_resize ops cs (t.nitems + 1)).flatten.length + 1 := by
        have hsplit := h2.linked.chain_split ops (ops.extract_key node)
        simp only [chains_push]
        rw [flatten_set (lt_of_get hsplit), flatten_split hsplit]
        simp only [List.length_append, List.length_cons]
        omega
      omega
    rw [h5.find_eq ops _ hcnt, from_key_push he h2.linked node]
    rfl
  · intro key gen g hgen
    obtain ⟨t2, r, cs1, _, hr2, h3, h1, h2, _, h4⟩ := hr.find_or_push_spec he hg key gen g hf
      (fun node g1 hgg => hr.not_mem_of_unlinked (hgen node g1 hgg).1)
    have hp := chains_resize_perm ops cs (t.nitems + 1)
    refine ⟨r, h1, ?_⟩
    intro it b hret
    rcases h4 with ⟨y, rr, hfk, hhit, rfl, rfl⟩ | ⟨_, g2, _, rfl, _⟩ |
      ⟨hno, node, g1, hgg, h5, h6, rfl, h8⟩
    · simp only [Option.some.injEq, Prod.mk.injEq] at hret
      obtain ⟨rfl, rfl⟩ := hret
      have hmem2 : y ∈ (chains_resize ops cs (t.nitems + 1)).flatten := by
        have hsplit := hr2.linked.chain_split ops key
        rw [hfk] at hsplit
        exact mem_flatten_of_get hsplit (by simp)
      have hmem : y ∈ cs.flatten := hp.mem_iff.mp hmem2
      refine ⟨?_, ⟨y, rfl⟩, fun hb => Bool.noConfusion hb, fun hb => Bool.noConfusion hb,
        fun _ => ⟨y, cs.flatten, rfl, hr.entries_eq hf, hmem, hhit, rfl, h3,
          fun fuel1 hfu => ⟨_, hr2.entries_eq hfu, hp⟩, ?_, ?_⟩⟩
      · rw [hr2.find_eq ops key (by rw [h3]; exact hlt), hfk]
        rfl
      · intro node g1 hgg
        have hnm := hr.not_mem_of_unlinked (hgen node g1 hgg).1
        refine ⟨fun hc => hnm (hc ▸ hmem), ?_⟩
        show t2.toMem.linked node = false
        rw [hr2.linked_iff]
        exact decide_eq_false (fun hc => hnm (hp.mem_iff.mp hc))
      · intro hu
        exact hu.find_hit he hr hlt hmem hhit
    · simp at hret
    · rw [h6] at hret
      simp only [Option.some.injEq, Prod.mk.injEq] at hret
      obtain ⟨rfl, rfl⟩ := hret
      refine ⟨?_, ⟨node, rfl⟩, fun _ => ⟨node, g1, hgg, rfl⟩,
        fun _ => ⟨cs.flatten, hr.entries_eq hf, fun y hy => ?_⟩, fun hb => Bool.noConfusion hb⟩
      · have hno2 :
            (chains_resize ops cs (t.nitems + 1)).flatten.any (hit ops key) = false := by
          rw [perm_any_eq hp]; exact hno
        have hy : (chain_of ops (chains_resize ops cs (t.nitems + 1)) key).any (hit ops key)
            = false := by
          rw [← (hg.resize he (t.nitems + 1)).any_hit_flatten he hr2.linked key]; exact hno2
        rw [h2.find_eq ops key (by rw [h8]; exact hf1),
          from_key_append hr2.linked (hgen node g1 hgg).2 hy]
        rfl
      · exact Bool.eq_false_iff.mpr (List.any_eq_false.mp hno y hy)
  · intro hu nodes t1 hseq
    obtain ⟨cs1, hr1, hlt1, hsub⟩ := insert_seq_keeps he fuel nodes h hr hlt hseq
    refine ⟨cs.flatten, hr.entries_eq hf, fun y hy => ?_⟩
    exact ((ureachable_insert_seq he fuel nodes hu hseq).find_hit he hr1 hlt1 (hsub y hy)
      (he.refl _)).1

theorem round_trip_insert_find_witness :
    EquivOps demo_ops ∧ Reachable demo_ops demo_map2 ∧ demo_map2.enough 32 ∧
    UReachable demo_ops demo_map2 ∧ demo_map2.entries 32 = some [10, 20] ∧
    find demo_ops 32 demo_map2 1 = some (Link.item 10) ∧
    (map_insert demo_ops 32 demo_map2 11 2).map (fun r => (r.ret, r.factory))
      = some (some (Link.item 10, false), 2) ∧
    insert_seq demo_ops 32 demo_map2 [11] = some demo_map3 ∧
    find demo_ops 32 demo_map3 1 = some (Link.item 10) ∧
    demo_value 10 = "a" ∧ demo_value 11 = "c" ∧
    (∀ node, demo_map2.toMem.linked node = false →
      ∃ t1, push demo_ops 32 demo_map2 node = some (t1, node) ∧
        find demo_ops 32 t1 (demo_ops.extract_key node) = some (Link.item node)) ∧
    (∀ (key : Nat) (gen : Nat → Option Nat × Nat) (g : Nat),
      (∀ node g1, gen g = (some node, g1) →
        demo_map2.toMem.linked node = false ∧
          demo_ops.equal_to (demo_ops.extract_key node) key = true) →
      ∃ r, find_or_push demo_ops 32 demo_map2 key gen g = some r ∧
        ∀ it b, r.ret = some (it, b) →
          find demo_ops 32 r.table key = some it ∧ (∃ e, it = Link.item e) ∧
          (b = true → ∃ node g1, gen g = (some node, g1) ∧ it = Link.item node) ∧
          (b = true →
            ∃ es, demo_map2.entries 32 = some es ∧ ∀ y ∈ es, hit demo_ops key y = false) ∧
          (b = false → ∃ y es, it = Link.item y ∧ demo_map2.entries 32 = some es ∧ y ∈ es ∧
            hit demo_ops key y = true ∧ r.factory = g ∧ r.table.size = demo_map2.size ∧
            (∀ fuel1, r.table.enough fuel1 →
              ∃ es1, r.table.entries fuel1 = some es1 ∧ es1.Perm es) ∧
            (∀ node g1, gen g = (some node, g1) →
              node ≠ y ∧ r.table.toMem.linked node = false) ∧
            (UReachable demo_ops demo_map2 →
              find demo_ops 32 demo_map2 key = some (Link.item y) ∧
              ∀ z ∈ es, hit demo_ops key z = true → z = y))) ∧
    (UReachable demo_ops demo_map2 →
      ∀ nodes t1, insert_seq demo_ops 32 demo_map2 nodes = some t1 →
      ∃ es, demo_map2.entries 32 = some es ∧
        ∀ y ∈ es, find demo_ops 32 t1 (demo_ops.extract_key y) = some (Link.item y)) :=
  ⟨demo_ops_equiv, demo_map2_reachable, by decide,
    ureachable_insert_seq demo_ops_equiv 32 [10, 20] (UReachable.init 0) (by rfl),
    by decide, by decide, by decide, by rfl, by decide, by decide, by decide,
    round_trip_insert_find demo_ops demo_ops_equiv demo_map2 demo_map2_reachable 32
      (by decide)⟩

/-- Claim C6 (round trip erase then find).  On every table reachable through unique
inserts, erases and resizes, after `pop_one(key)` (the erase by key of the map and set
adaptors) `find(key)` equals `end()` and `has(key)` is false.  On every reachable table,
where several nodes may share a key, if `find(key)` returns the node `y` then
`pop_one(key)` unlinks and returns exactly `y`, the remaining nodes keep their iteration
order, and `count(key)` decreases by exactly 1. -/
theorem round_trip_erase_find {K : Type} (ops : Ops K) (he : EquivOps ops) :
    (∀ t, UReachable ops t → ∀ fuel, t.enough fuel → ∀ key : K,
      ∃ t1 r, pop_one ops fuel t key = some (t1, r) ∧
        find ops fuel t1 key = some Link.null ∧ t1.end_ = some Link.null ∧
        has ops fuel t1 key = some false) ∧
    (∀ t, Reachable ops t → ∀ fuel, t.enough fuel → ∀ (key : K) (y : Nat),
      find ops fuel t key = some (Link.item y) →
      ∃ t1 es c, pop_one ops fuel t key = some (t1, some y) ∧
        t.entries fuel = some es ∧ t1.entries fuel = some (es.erase y) ∧
        count ops fuel t key = some (c + 1) ∧ count ops fuel t1 key = some c) := by
  refine ⟨?_, ?_⟩
  · intro t h fuel hf key
    obtain ⟨cs, hr, hg, hu⟩ := h.unique he
    have hlt := hr.enough_lt hf
    cases hfk : from_key ops cs key with
    | nil =>
      have hy := (from_key_nil_iff ops cs key).mp hfk
      refine ⟨t, none, hr.pop_one_absent ops key hlt hy, ?_, hr.end_eq, ?_⟩
      · rw [hr.find_eq ops key hlt, hfk]; rfl
      · rw [hr.has_eq ops key hlt, hy]
    | cons y rr =>
      obtain ⟨t1, h1, h2, _, _⟩ := hr.pop_one_found ops key hlt hfk
      have hlt1 : t1.nitems < fuel := by
        have := h2.count
        have hs := (chains_pop_one_sublist ops hr.linked key).length_le
        have := hr.count
        omega
      have hsplit := hr.linked.chain_split ops key
      rw [hfk] at hsplit
      have hyhit : hit ops key y = true := by
        rcases dropWhile_miss ops key (chain_of ops cs key) with h3 | ⟨y1, r1, h3, h4⟩
        · rw [from_key, h3] at hfk; cases hfk
        · rw [from_key, h3] at hfk
          simp only [List.cons.injEq] at hfk
          rw [← hfk.1]; exact h4
      have hb : bucket_of ops cs key < cs.length := hr.linked.bucket_lt ops key
      have hchain : chain_of ops (chains_pop_one ops cs key) key = before_key ops cs key ++ rr := by
        simp only [chains_pop_one, hfk, List.tail_cons]
        rw [chain_of_set ops hb, if_pos rfl]
      have hnohit : (chain_of ops (chains_pop_one ops cs key) key).any (hit ops key) = false := by
        rw [hchain, List.any_eq_false]
        intro z hz hzhit
        rcases List.mem_append.mp hz with hz1 | hz1
        · have := takeWhile_miss ops key _ z hz1
          rw [hzhit] at this
          exact Bool.noConfusion this
        · have hzy : z = y := hu z (mem_flatten_of_get hsplit (by simp [hz1]))
            y (mem_flatten_of_get hsplit (by simp)) (hit_same_key he hzhit hyhit)
          have hnd := hr.linked.chain_nodup hsplit
          have h5 := (List.nodup_append.mp hnd).2.1
          exact (List.nodup_cons.mp h5).1 (hzy ▸ hz1)
      refine ⟨t1, some y, h1, ?_, h2.end_eq, ?_⟩
      · rw [h2.find_eq ops key hlt1, (from_key_nil_iff ops _ key).mpr hnohit]; rfl
      · rw [h2.has_eq ops key hlt1, hnohit]
  · intro t h fuel hf key y hfind
    obtain ⟨cs, hr, hg⟩ := Inv.of_reachable he h
    have hlt := hr.enough_lt hf
    rw [hr.find_eq ops key hlt] at hfind
    obtain ⟨rr, hfk⟩ := first_link_item (by simp) (Option.some.inj hfind)
    obtain ⟨t1, h1, h2, h3, _⟩ := hr.pop_one_found ops key hlt hfk
    obtain ⟨hfl, hperm⟩ := chains_pop_one_flatten ops hr.linked key hfk
    have hg1 := hg.pop_one hr.linked key
    have hcnt : t1.nitems + 1 = t.nitems := by
      rw [h2.count, hr.count, hperm.length_eq]; rfl
    have hf1 : t1.enough fuel := by
      unfold Table.enough at hf ⊢
      omega
    have hyhit : hit ops key y = true := by
      rcases dropWhile_miss ops key (chain_of ops cs key) with h4 | ⟨y1, r1, h4, h5⟩
      · rw [from_key, h4] at hfk; cases hfk
      · rw [from_key, h4] at hfk
        simp only [List.cons.injEq] at hfk
        rw [← hfk.1]; exact h5
    refine ⟨t1, cs.flatten, (chains_pop_one ops cs key).flatten.countP (hit ops key), h1,
      hr.entries_eq hf, ?_, ?_, ?_⟩
    · rw [h2.entries_eq hf1, hfl]
    · rw [hr.count_flatten he hg key hlt, hperm.countP_eq, List.countP_cons, if_pos hyhit]
    · exact h2.count_flatten he hg1 key (by omega)

theorem round_trip_erase_find_witness :
    EquivOps demo_ops ∧ UReachable demo_ops demo_map2 ∧ demo_map2.enough 32 ∧
    Reachable demo_ops demo_multi ∧ demo_multi.enough 32 ∧
    find demo_ops 32 demo_multi 5 = some (Link.item 52) ∧
    (∃ t1 r, pop_one demo_ops 32 demo_map2 1 = some (t1, r) ∧
        find demo_ops 32 t1 1 = some Link.null ∧ t1.end_ = some Link.null ∧
        has demo_ops 32 t1 1 = some false) ∧
    (∃ t1 es c, pop_one demo_ops 32 demo_multi 5 = some (t1, some 52) ∧
        demo_multi.entries 32 = some es ∧ t1.entries 32 = some (es.erase 52) ∧
        count demo_ops 32 demo_multi 5 = some (c + 1) ∧ count demo_ops 32 t1 5 = some c) :=
  ⟨demo_ops_equiv,
    ureachable_insert_seq demo_ops_equiv 32 [10, 20] (UReachable.init 0) (by rfl),
    by decide, demo_multi_reachable, by decide, by decide,
    (round_trip_erase_find demo_ops demo_ops_equiv).1 demo_map2
      (ureachable_insert_seq demo_ops_equiv 32 [10, 20] (UReachable.init 0) (by rfl)) 32
      (by decide) 1,
    (round_trip_erase_find demo_ops demo_ops_equiv).2 demo_multi demo_multi_reachable 32
      (by decide) 5 52 (by decide)⟩

/-- Claim C7 (`equal_range`).  On a reachable table, `equal_range(key)` returns a pair
`(b, e)` with `b = find(key)`; the iteration order of the table splits as
`pre ++ run ++ post` where `run` lists exactly the nodes with a key equal to `key`;
no node occurs twice in the iteration order, so each is visited once;
stepping an iterator from `b` until it equals `e` visits exactly `run`, which has
`count(key)` nodes; `e` points to the first node of `post`, or is `end()` when `post` is
empty; and when no node has the key, `b` and `e` are both `end()`. -/
theorem equal_range_run {K : Type} (ops : Ops K) (he : EquivOps ops) (t : Table)
    (h : Reachable ops t) (fuel : Nat) (hf : t.enough fuel) (key : K) :
    ∃ b e es pre run post, equal_range ops fuel t key = some (b, e) ∧
      find ops fuel t key = some b ∧ t.end_ = some Link.null ∧
      t.entries fuel = some es ∧ es.Nodup ∧ es = pre ++ run ++ post ∧
      run = es.filter (hit ops key) ∧
      iter_range fuel t.toMem e fuel b = some run ∧
      count ops fuel t key = some run.length ∧
      e = first_link Link.null post ∧
      (run = [] → b = Link.null ∧ e = Link.null) := by
  obtain ⟨cs, hr, hg⟩ := Inv.of_reachable he h
  have hlt := hr.enough_lt hf
  have hbl := hr.buckets_length
  have hNlt : cs.length < fuel := by unfold Table.enough at hf; omega
  have hcnt := hr.count
  cases hfk : from_key ops cs key with
  | nil =>
    have hy := (from_key_nil_iff ops cs key).mp hfk
    have hnone : ∀ x ∈ cs.flatten, hit ops key x = false := by
      have := hg.any_hit_flatten he hr.linked key
      rw [hy, List.any_eq_false] at this
      intro x hx
      simpa using this x hx
    refine ⟨Link.null, Link.null, cs.flatten, cs.flatten, [], [],
      hr.equal_range_absent ops key hlt hy, ?_, hr.end_eq, hr.entries_eq hf, hr.linked.nodup, by simp,
      (filter_eq_nil_of hnone).symm, ?_, ?_, rfl, fun _ => ⟨rfl, rfl⟩⟩
    · rw [hr.find_eq ops key hlt, hfk]; rfl
    · obtain ⟨f, hfe⟩ : ∃ f, fuel = f + 1 := ⟨fuel - 1, by omega⟩
      rw [hfe]
      simp [iter_range]
    · rw [hr.count_eq ops key hlt, hfk]; rfl
  | cons y rr =>
    have hsplit := hr.linked.chain_split ops key
    rw [hfk] at hsplit
    have hyhit : hit ops key y = true := by
      rcases dropWhile_miss ops key (chain_of ops cs key) with h3 | ⟨y1, r1, h3, h4⟩
      · rw [from_key, h3] at hfk; cases hfk
      · rw [from_key, h3] at hfk
        simp only [List.cons.injEq] at hfk
        rw [← hfk.1]; exact h4
    have hcontig := hg.contig _ (List.getElem?_mem (hr.linked.chain_of_get ops key))
    have hpostno := @Contig.no_hit_after_run K ops he key _ hcontig
    have hfk2 : (chain_of ops cs key).dropWhile (miss ops key) = y :: rr := hfk
    rw [hfk2, List.dropWhile_cons, if_pos hyhit] at hpostno
    have hfl : cs.flatten = ((cs.take (bucket_of ops cs key)).flatten ++ before_key ops cs key)
        ++ (y :: rr.takeWhile (hit ops key))
        ++ (rr.dropWhile (hit ops key) ++ (cs.drop (bucket_of ops cs key + 1)).flatten) := by
      rw [flatten_split hsplit]
      simp only [List.append_assoc, List.cons_append]
      rw [← List.append_assoc (rr.takeWhile (hit ops key)), List.takeWhile_append_dropWhile]
    have hrunhit : ∀ x ∈ y :: rr.takeWhile (hit ops key), hit ops key x = true := by
      intro x hx
      rcases List.mem_cons.mp hx with rfl | hx1
      · exact hyhit
      · exact List.mem_takeWhile_imp hx1
    have hrunlen : (y :: rr.takeWhile (hit ops key)).length < fuel := by
      have h1 := congrArg List.length hfl
      simp only [List.length_append] at h1
      omega
    refine ⟨Link.item y, _, cs.flatten, _, y :: rr.takeWhile (hit ops key), _,
      hr.equal_range_found ops key hf hfk, ?_, hr.end_eq, hr.entries_eq hf, hr.linked.nodup, hfl, ?_, ?_, ?_,
      rfl, fun hnil => by cases hnil⟩
    · rw [hr.find_eq ops key hlt, hfk]; rfl
    · rw [hfl, List.filter_append, List.filter_append, List.filter_append, List.filter_append,
        filter_eq_nil_of (hg.no_hit_take he key),
        filter_eq_nil_of (show ∀ x ∈ before_key ops cs key, hit ops key x = false from
          takeWhile_miss ops key _),
        filter_eq_self_of hrunhit, filter_eq_nil_of hpostno,
        filter_eq_nil_of (hg.no_hit_drop he key)]
      simp
    · have := @Linked.iter_range_flat _ cs hr.linked fuel hNlt (y :: rr.takeWhile (hit ops key))
        _ _ fuel hfl hrunlen
      exact this
    · rw [hr.count_eq ops key hlt, hfk, List.takeWhile_cons, if_pos hyhit]

theorem equal_range_run_witness :
    EquivOps demo_ops ∧ Reachable demo_ops demo_multi ∧ demo_multi.enough 32 ∧
    push_seq demo_ops 32 Table.default_ [50, 120, 51, 30, 52] = some demo_multi ∧
    demo_ops.extract_key 50 = 5 ∧ demo_ops.extract_key 51 = 5 ∧ demo_ops.extract_key 52 = 5 ∧
    demo_value 50 = "x" ∧ demo_value 51 = "y" ∧ demo_value 52 = "z" ∧
    count demo_ops 32 demo_multi 5 = some 3 ∧
    equal_range demo_ops 32 demo_multi 5 = some (Link.item 52, Link.item 120) ∧
    iter_range 32 demo_multi.toMem (Link.item 120) 32 (Link.item 52) = some [52, 51, 50] ∧
    ∃ b e es pre run post, equal_range demo_ops 32 demo_multi 5 = some (b, e) ∧
      find demo_ops 32 demo_multi 5 = some b ∧ demo_multi.end_ = some Link.null ∧
      demo_multi.entries 32 = some es ∧ es.Nodup ∧ es = pre ++ run ++ post ∧
      run = es.filter (hit demo_ops 5) ∧
      iter_range 32 demo_multi.toMem e 32 b = some run ∧
      count demo_ops 32 demo_multi 5 = some run.length ∧
      e = first_link Link.null post ∧
      (run = [] → b = Link.null ∧ e = Link.null) :=
  ⟨demo_ops_equiv, demo_multi_reachable, by decide, by rfl, by decide, by decide, by decide,
    by decide, by decide, by decide, by decide, by decide, by decide,
    equal_range_run demo_ops demo_ops_equiv demo_multi demo_multi_reachable 32 (by decide) 5⟩

/-- Claim C8 (forced growth).  On a reachable table whose `size()` equals its bucket
count `N`, with `N < 4294967291`: a multi insert `push(node)` of an unlinked node, and a
unique insert `find_or_push(key, gen)` of a key that is not present, both return, make
the bucket count equal to `buckets_count(N + 1)`, which is larger than `N` and is the
least value of the table `primes` above `N`, make
`size()` equal to `N + 1`, and every key that `has` found before is still found by
`has` and by `find`, as is the inserted key. -/
theorem forced_growth {K G : Type} (ops : Ops K) (he : EquivOps ops) (t : Table)
    (h : Reachable ops t) (fuel : Nat) (hf : t.enough fuel)
    (hfull : t.size = t.nbuckets) (hmax : t.nbuckets < 4294967291) :
    (∀ node, t.toMem.linked node = false →
      ∃ t1, push ops fuel t node = some (t1, node) ∧
        t1.nbuckets = buckets_count (t.nbuckets + 1) ∧ t.nbuckets < t1.nbuckets ∧
        t1.size = t.size + 1 ∧
        (∀ k : K, has ops fuel t k = some true →
          has ops fuel t1 k = some true ∧ ∃ e, find ops fuel t1 k = some (Link.item e)) ∧
        has ops fuel t1 (ops.extract_key node) = some true) ∧
    (∀ (key : K) (gen : G → Option Nat × G) (g : G) (node : Nat) (g1 : G),
      gen g = (some node, g1) → t.toMem.linked node = false →
      ops.equal_to (ops.extract_key node) key = true → has ops fuel t key = some false →
      ∃ r, find_or_push ops fuel t key gen g = some r ∧ r.ret = some (Link.item node, true) ∧
        r.table.nbuckets = buckets_count (t.nbuckets + 1) ∧ t.nbuckets < r.table.nbuckets ∧
        r.table.size = t.size + 1 ∧
        (∀ k : K, has ops fuel t k = some true →
          has ops fuel r.table k = some true ∧ ∃ e, find ops fuel r.table k = some (Link.item e)) ∧
        has ops fuel r.table key = some true) ∧
    (buckets_count (t.nbuckets + 1) ∈ primes ∧
      ∀ p ∈ primes, t.nbuckets < p → buckets_count (t.nbuckets + 1) ≤ p) := by
  obtain ⟨cs, hr, hg⟩ := Inv.of_reachable he h
  have hlt := hr.enough_lt hf
  have hN := hr.nbuckets_eq
  have hpos := hr.linked.pos
  have hbl := hr.buckets_length
  rw [hN] at hmax
  have hsz : t.nitems = cs.length := by rw [← hN]; exact hfull
  have hf1 : t.nitems + 1 < fuel := by unfold Table.enough at hf; omega
  have hgrow := buckets_count_ge_self (show cs.length + 1 ≤ 4294967291 by omega)
  obtain ⟨t2, h1, h2, h3⟩ := hr.resize_spec ops (t.nitems + 1) hf
  have hg2 := hg.resize he (t.nitems + 1)
  have hp := chains_resize_perm ops cs (t.nitems + 1)
  have hlen2 : (chains_resize ops cs (t.nitems + 1)).length = buckets_count (cs.length + 1) := by
    rw [hsz, chains_resize_full ops cs hmax, chains_rehash_length]
  refine ⟨?_, ?_, buckets_count_least _⟩
  · intro node hn
    have hnm : node ∉ (chains_resize ops cs (t.nitems + 1)).flatten := by
      intro hh
      exact hr.not_mem_of_unlinked hn (hp.mem_iff.mp hh)
    obtain ⟨t3, h4, h5, _⟩ := h2.push_no_resize_spec ops hnm (by rw [h3]; exact hlt)
    have hg3 := hg2.push he h2.linked node
    have hp3 : (chains_push ops (chains_resize ops cs (t.nitems + 1)) node).flatten.Perm
        (node :: cs.flatten) := by
      have hsplit := h2.linked.chain_split ops (ops.extract_key node)
      have h6 : (chains_push ops (chains_resize ops cs (t.nitems + 1)) node).flatten.Perm
          (node :: (chains_resize ops cs (t.nitems + 1)).flatten) := by
        simp only [chains_push]
        rw [flatten_set (lt_of_get hsplit), flatten_split hsplit]
        simp only [List.append_assoc]
        refine (List.perm_middle.append_left _ |>.trans ?_)
        exact List.perm_middle
      exact h6.trans (hp.cons node)
    have hcnt3 : t3.nitems = t.nitems + 1 := by
      rw [h5.count, hp3.length_eq, hr.count]; rfl
    have hlen3 : (chains_push ops (chains_resize ops cs (t.nitems + 1)) node).length
        = buckets_count (cs.length + 1) := by
      simp only [chains_push, List.length_set]; exact hlen2
    refine ⟨t3, by simp only [push, h1, Option.bind_eq_bind, Option.some_bind, h4], ?_, ?_,
      hcnt3, ?_, ?_⟩
    · rw [h5.nbuckets_eq, hlen3, hN]
    · rw [h5.nbuckets_eq, hlen3, hN]; omega
    · intro k hk
      rw [hr.has_flatten he hg k hlt] at hk
      have hk3 : (chains_push ops (chains_resize ops cs (t.nitems + 1)) node).flatten.any
          (hit ops k) = true := by
        rw [perm_any_eq hp3, List.any_cons, Option.some.inj hk, Bool.or_true]
      refine ⟨by rw [h5.has_flatten he hg3 k (by omega), hk3], ?_⟩
      refine h5.find_item_of_has ops k (by omega) ?_
      rw [← hg3.any_hit_flatten he h5.linked k]; exact hk3
    · rw [h5.has_flatten he hg3 _ (by omega), perm_any_eq hp3, List.any_cons]
      have : hit ops (ops.extract_key node) node = true := he.refl _
      rw [this, Bool.true_or]
  · intro key gen g node g1 hgg hn hk hhas
    rw [hr.has_flatten he hg key hlt] at hhas
    have hno : cs.flatten.any (hit ops key) = false := Option.some.inj hhas
    obtain ⟨t2a, r, cs1, h1a, hr2, _, h4, h5, _, h7⟩ := hr.find_or_push_spec he hg key gen g hf
      (fun n2 g2 hgg2 => by
        rw [hgg] at hgg2
        simp only [Prod.mk.injEq, Option.some.injEq] at hgg2
        rw [← hgg2.1]
        exact hr.not_mem_of_unlinked hn)
    rcases h7 with ⟨y, rr, hfk, hhit, _, _⟩ | ⟨_, g2, hgg2, _⟩ |
      ⟨_, node2, g2, hgg2, h8, h9, rfl, h11⟩
    · exfalso
      have hmem : y ∈ cs.flatten := by
        apply hp.mem_iff.mp
        have hsplit := hr2.linked.chain_split ops key
        rw [hfk] at hsplit
        exact mem_flatten_of_get hsplit (by simp)
      have := List.any_eq_false.mp hno y hmem
      exact this hhit
    · rw [hgg] at hgg2
      simp at hgg2
    · rw [hgg] at hgg2
      simp only [Prod.mk.injEq, Option.some.injEq] at hgg2
      obtain ⟨rfl, rfl⟩ := hgg2
      have hno2 : (chains_resize ops cs (t.nitems + 1)).flatten.any (hit ops key) = false := by
        rw [perm_any_eq hp]; exact hno
      have hg3 := hg2.append he hr2.linked hk hno2
      have hp3 : (chains_append ops (chains_resize ops cs (t.nitems + 1)) key node).flatten.Perm
          (node :: cs.flatten) :=
        (chains_append_perm ops hr2.linked key node).trans (hp.cons node)
      have hlen3 : (chains_append ops (chains_resize ops cs (t.nitems + 1)) key node).length
          = buckets_count (cs.length + 1) := by
        simp only [chains_append, List.length_set]; exact hlen2
      refine ⟨r, h4, h9, ?_, ?_, h11, ?_, ?_⟩
      · rw [h5.nbuckets_eq, hlen3, hN]
      · rw [h5.nbuckets_eq, hlen3, hN]; omega
      · intro k hk2
        rw [hr.has_flatten he hg k hlt] at hk2
        have hk3 : (chains_append ops (chains_resize ops cs (t.nitems + 1)) key node).flatten.any
            (hit ops k) = true := by
          rw [perm_any_eq hp3, List.any_cons, Option.some.inj hk2, Bool.or_true]
        refine ⟨by rw [h5.has_flatten he hg3 k (by omega), hk3], ?_⟩
        refine h5.find_item_of_has ops k (by omega) ?_
        rw [← hg3.any_hit_flatten he h5.linked k]; exact hk3
      · rw [h5.has_flatten he hg3 _ (by omega), perm_any_eq hp3, List.any_cons]
        have : hit ops key node = true := hk
        rw [this, Bool.true_or]

theorem forced_growth_witness :
    EquivOps demo_ops ∧ Reachable demo_ops demo_full ∧ demo_full.enough 32 ∧
    demo_full.size = demo_full.nbuckets ∧ demo_full.nbuckets < 4294967291 ∧
    Table.default_.nbuckets = 7 ∧ demo_full.nbuckets = 7 ∧
    push demo_ops 32 demo_full 80 = some (demo_grown, 80) ∧
    demo_grown.nbuckets = 17 ∧ demo_grown.size = 8 ∧
    ([1, 2, 3, 4, 5, 6, 7, 8].all (fun k => has demo_ops 32 demo_grown k == some true)) = true ∧
    (∀ node, demo_full.toMem.linked node = false →
      ∃ t1, push demo_ops 32 demo_full node = some (t1, node) ∧
        t1.nbuckets = buckets_count (demo_full.nbuckets + 1) ∧
        demo_full.nbuckets < t1.nbuckets ∧ t1.size = demo_full.size + 1 ∧
        (∀ k : Nat, has demo_ops 32 demo_full k = some true →
          has demo_ops 32 t1 k = some true ∧ ∃ e, find demo_ops 32 t1 k = some (Link.item e)) ∧
        has demo_ops 32 t1 (demo_ops.extract_key node) = some true) :=
  ⟨demo_ops_equiv,
    reachable_push_seq 32 [10, 20, 30, 40, 50, 60, 70] (Reachable.init 0) (by rfl),
    by decide, by decide, by decide, by decide, by decide, by rfl, by decide, by decide,
    by decide,
    (@forced_growth Nat Nat demo_ops demo_ops_equiv demo_full
      (reachable_push_seq 32 [10, 20, 30, 40, 50, 60, 70] (Reachable.init 0) (by rfl)) 32
      (by decide) (by decide) (by decide)).1⟩

/-- Claim C9 (absent key gives empty results and no change).  On a reachable table, for
a key that no linked node has: `find` returns `end()`, `has` is false, `count` is 0,
`equal_range` is `(end(), end())`, `pop_one` returns null, `pop_all` never invokes its
callback (its state is returned untouched), the adaptors' `erase(key)` return 0 and
destroy nothing, and each of these calls leaves the table state exactly as it was. -/
theorem absent_key {K : Type} (ops : Ops K) (he : EquivOps ops) (t : Table)
    (h : Reachable ops t) (fuel : Nat) (hf : t.enough fuel) (key : K) (es : List Nat)
    (hes : t.entries fuel = some es) (habs : ∀ e ∈ es, hit ops key e = false) :
    t.end_ = some Link.null ∧ find ops fuel t key = some Link.null ∧
    has ops fuel t key = some false ∧ count ops fuel t key = some 0 ∧
    equal_range ops fuel t key = some (Link.null, Link.null) ∧
    pop_one ops fuel t key = some (t, none) ∧
    (∀ (σ : Type) (cbk : Nat → σ → σ) (s : σ), pop_all ops cbk fuel t key s = some (t, s)) ∧
    (∀ d, map_erase ops fuel t key d = some (t, d, 0)) ∧
    (∀ d, multimap_erase ops fuel t key d = some (t, d, 0)) := by
  obtain ⟨cs, hr, hg⟩ := Inv.of_reachable he h
  have hlt := hr.enough_lt hf
  rw [hr.entries_eq hf] at hes
  have hes2 : cs.flatten = es := Option.some.inj hes
  have hy : (chain_of ops cs key).any (hit ops key) = false := by
    rw [List.any_eq_false]
    intro x hx
    have hmem : x ∈ es := by
      rw [← hes2]
      exact mem_flatten_of_get (hr.linked.chain_of_get ops key) hx
    simp [habs x hmem]
  have hfk := (from_key_nil_iff ops cs key).mpr hy
  have hpop := hr.pop_one_absent ops key hlt hy
  refine ⟨hr.end_eq, ?_, ?_, ?_, hr.equal_range_absent ops key hlt hy, hpop, ?_, ?_, ?_⟩
  · rw [hr.find_eq ops key hlt, hfk]; rfl
  · rw [hr.has_eq ops key hlt, hy]
  · rw [hr.count_eq ops key hlt, hfk]; rfl
  · intro σ cbk s
    exact hr.pop_all_absent ops cbk key hlt s hy
  · intro d
    simp [map_erase, hpop]
  · intro d
    simp [multimap_erase, hr.pop_all_absent ops _ key hlt (d, 0) hy]

theorem absent_key_witness :
    EquivOps demo_ops ∧ Reachable demo_ops demo_multi ∧ demo_multi.enough 32 ∧
    demo_multi.entries 32 = some [30, 52, 51, 50, 120] ∧
    (∀ e ∈ [30, 52, 51, 50, 120], hit demo_ops 4 e = false) ∧
    demo_multi.end_ = some Link.null ∧ find demo_ops 32 demo_multi 4 = some Link.null ∧
    has demo_ops 32 demo_multi 4 = some false ∧ count demo_ops 32 demo_multi 4 = some 0 ∧
    equal_range demo_ops 32 demo_multi 4 = some (Link.null, Link.null) ∧
    pop_one demo_ops 32 demo_multi 4 = some (demo_multi, none) ∧
    (∀ (σ : Type) (cbk : Nat → σ → σ) (s : σ),
      pop_all demo_ops cbk 32 demo_multi 4 s = some (demo_multi, s)) ∧
    (∀ d, map_erase demo_ops 32 demo_multi 4 d = some (demo_multi, d, 0)) ∧
    (∀ d, multimap_erase demo_ops 32 demo_multi 4 d = some (demo_multi, d, 0)) :=
  ⟨demo_ops_equiv, demo_multi_reachable, by decide, by decide, by decide,
    absent_key demo_ops demo_ops_equiv demo_multi demo_multi_reachable 32 (by decide) 4
      [30, 52, 51, 50, 120] (by decide) (by decide)⟩

/-- Claim C10 (erase of one entry).  On a reachable table with chains `cs` and entries
`es` in iteration order: if node `e` is linked in the chain of bucket
`hash(key(e)) mod N`, then `pop(e)` returns `e`, `size()` decreases by exactly 1, the link
of `e` is reset (`e.linked()` is false), only that chain changes (it loses `e`), every
other entry stays linked in the same relative iteration order (the new traversal is the
old one with `e` filtered out) and the traversal from `begin()` to `end()` no longer
visits `e`; if `e` is not in that chain, `pop(e)` returns null and the table state is
unchanged. -/
theorem erase_entry {K : Type} (ops : Ops K) (he : EquivOps ops) (t : Table)
    (h : Reachable ops t) (fuel : Nat) (hf : t.enough fuel) (e : Nat)
    (cs : List (List Nat)) (hcs : t.chains fuel = some cs)
    (es : List Nat) (hes : t.entries fuel = some es) :
    (e ∈ chain_of ops cs (ops.extract_key e) →
      ∃ t1, pop ops fuel t e = some (t1, some e) ∧ t1.size + 1 = t.size ∧
        t1.toMem.linked e = false ∧ t1.nbuckets = t.nbuckets ∧
        t1.chains fuel = some (cs.set (bucket_of ops cs (ops.extract_key e))
          ((chain_of ops cs (ops.extract_key e)).erase e)) ∧
        t1.entries fuel = some (es.filter (fun x => x != e)) ∧
        (∀ x ∈ es, x ≠ e → t1.toMem.linked x = true) ∧
        (∀ es1, t1.entries fuel = some es1 → e ∉ es1)) ∧
    (e ∉ chain_of ops cs (ops.extract_key e) → pop ops fuel t e = some (t, none)) := by
  obtain ⟨cs0, hr, hg⟩ := Inv.of_reachable he h
  have hlt := hr.enough_lt hf
  rw [hr.chains_eq hlt] at hcs
  obtain rfl : cs0 = cs := Option.some.inj hcs
  rw [hr.entries_eq hf] at hes
  obtain rfl : cs0.flatten = es := Option.some.inj hes
  refine ⟨fun hn => ?_, fun hn => hr.pop_absent ops hn hlt⟩
  obtain ⟨t1, hp, hr1, hbl, hnx⟩ := hr.pop_found ops hn hlt
  have hfl := chains_pop_flatten ops hr.linked hn
  have hmem : e ∈ cs0.flatten := mem_flatten_of_get (hr.linked.chain_of_get ops _) hn
  have hcnt1 := hr1.count
  have hcnt := hr.count
  rw [hfl, List.length_erase_of_mem hmem] at hcnt1
  have hpos : 0 < cs0.flatten.length := List.length_pos_of_mem hmem
  have hsize : t1.size + 1 = t.size := by
    unfold Table.size
    omega
  have hf1 : t1.enough fuel := by
    unfold Table.enough at hf ⊢
    unfold Table.size at hsize
    omega
  have hent : t1.entries fuel = some (cs0.flatten.filter (fun x => x != e)) := by
    rw [hr1.entries_eq hf1, hfl, hr.linked.nodup.erase_eq_filter]
  refine ⟨t1, hp, hsize, ?_, ?_, ?_, hent, ?_, ?_⟩
  · simp [Mem.linked]
    exact hnx
  · unfold Table.nbuckets
    rw [hbl]
  · rw [hr1.chains_eq (hr1.enough_lt hf1)]
    rfl
  · intro x hx hxe
    have hx1 : x ∈ (chains_pop ops cs0 e).flatten := by
      rw [hfl]
      exact (List.mem_erase_of_ne hxe).mpr hx
    have := hr1.linked.next_ne_null hx1
    simp [Mem.linked]
    exact this
  · intro es1 h1
    rw [hent] at h1
    obtain rfl := Option.some.inj h1
    simp

theorem erase_entry_witness :
    EquivOps demo_ops ∧ Reachable demo_ops demo_multi ∧ demo_multi.enough 32 ∧
    demo_multi.chains 32 = some [[], [], [], [30], [], [52, 51, 50, 120], []] ∧
    demo_multi.entries 32 = some [30, 52, 51, 50, 120] ∧
    ((51 ∈ chain_of demo_ops [[], [], [], [30], [], [52, 51, 50, 120], []]
        (demo_ops.extract_key 51) →
      ∃ t1, pop demo_ops 32 demo_multi 51 = some (t1, some 51) ∧
        t1.size + 1 = demo_multi.size ∧
        t1.toMem.linked 51 = false ∧ t1.nbuckets = demo_multi.nbuckets ∧
        t1.chains 32 = some ([[], [], [], [30], [], [52, 51, 50, 120], []].set
          (bucket_of demo_ops [[], [], [], [30], [], [52, 51, 50, 120], []]
            (demo_ops.extract_key 51))
          ((chain_of demo_ops [[], [], [], [30], [], [52, 51, 50, 120], []]
            (demo_ops.extract_key 51)).erase 51)) ∧
        t1.entries 32 = some ([30, 52, 51, 50, 120].filter (fun x => x != 51)) ∧
        (∀ x ∈ [30, 52, 51, 50, 120], x ≠ 51 → t1.toMem.linked x = true) ∧
        (∀ es1, t1.entries 32 = some es1 → 51 ∉ es1)) ∧
    (51 ∉ chain_of demo_ops [[], [], [], [30], [], [52, 51, 50, 120], []]
        (demo_ops.extract_key 51) →
      pop demo_ops 32 demo_multi 51 = some (demo_multi, none))) ∧
    51 ∈ chain_of demo_ops [[], [], [], [30], [], [52, 51, 50, 120], []]
        (demo_ops.extract_key 51) ∧
    (pop demo_ops 32 demo_multi 51).map (fun r => (r.2, r.1.size, r.1.entries 32)) =
      some (some 51, 4, some [30, 52, 50, 120]) :=
  ⟨demo_ops_equiv, demo_multi_reachable, by decide, by decide, by decide,
    erase_entry demo_ops demo_ops_equiv demo_multi demo_multi_reachable 32 (by decide) 51
      [[], [], [], [30], [], [52, 51, 50, 120], []] (by decide)
      [30, 52, 51, 50, 120] (by decide),
    by decide, by decide⟩

/-- Claim C11 (erase all matching).  On a reachable table with chains `cs` and entries
`es` in iteration order, `pop_all(key, cbk)` returns; it invokes `cbk` exactly once for
each entry whose key equals `key`, in chain order (the callback state is the fold of
`cbk` over these entries, which are pairwise distinct), that is `count(key)` times;
afterwards `count(key)` is 0, `find(key)` is `end()`, `size()` has decreased by that
count, the bucket count is unchanged, the entries with other keys are still linked in
their previous relative order and the removed ones are unlinked.  The adaptors'
`erase(key)` (`intrhash_multimap_t::erase`, `ownintrhash_t::erase_all`) returns that
count and destroys each removed entry exactly once. -/
theorem erase_all_matching {K σ : Type} (ops : Ops K) (he : EquivOps ops) (t : Table)
    (h : Reachable ops t) (fuel : Nat) (hf : t.enough fuel) (key : K)
    (cbk : Nat → σ → σ) (s : σ)
    (cs : List (List Nat)) (hcs : t.chains fuel = some cs)
    (es : List Nat) (hes : t.entries fuel = some es) :
    ∃ t1, pop_all ops cbk fuel t key s =
        some (t1, (es.filter (hit ops key)).foldl (fun s e => cbk e s) s) ∧
      es.filter (hit ops key) = (chain_of ops cs key).filter (hit ops key) ∧
      (es.filter (hit ops key)).Nodup ∧
      count ops fuel t key = some (es.filter (hit ops key)).length ∧
      count ops fuel t1 key = some 0 ∧ find ops fuel t1 key = t1.end_ ∧
      t1.end_ = some Link.null ∧
      t1.size + (es.filter (hit ops key)).length = t.size ∧
      t1.nbuckets = t.nbuckets ∧
      t1.entries fuel = some (es.filter (fun x => !hit ops key x)) ∧
      (∀ e ∈ es, t1.toMem.linked e = !hit ops key e) ∧
      (∀ d, multimap_erase ops fuel t key d =
        some (t1, d ++ es.filter (hit ops key), (es.filter (hit ops key)).length)) := by
  obtain ⟨cs0, hr, hg⟩ := Inv.of_reachable he h
  have hlt := hr.enough_lt hf
  rw [hr.chains_eq hlt] at hcs
  obtain rfl : cs0 = cs := Option.some.inj hcs
  rw [hr.entries_eq hf] at hes
  obtain rfl : cs0.flatten = es := Option.some.inj hes
  obtain ⟨hfh, hfm, hfc⟩ := hg.filter_hit he hr.linked key
  obtain ⟨hks, _, _, _⟩ := hg.key_split he hr.linked key
  obtain ⟨t1, hp, hr1, hbl⟩ := hr.pop_all_spec ops cbk key hlt s
  have hg1 := hg.pop_all hr.linked key
  have hlen : t1.nitems + ((from_key ops cs0 key).takeWhile (hit ops key)).length = t.nitems := by
    rw [hr1.count, hr.count, chains_pop_all_flatten ops hr.linked key]
    conv_rhs => rw [hks]
    simp only [List.length_append]
    omega
  have hlt1 : t1.nitems < fuel := by omega
  have hf1 : t1.enough fuel := by
    unfold Table.enough at hf ⊢
    omega
  have hnohit : ∀ x ∈ (chains_pop_all ops cs0 key).flatten, hit ops key x = false := by
    intro x hx
    rw [← hfm] at hx
    simpa using (List.mem_filter.mp hx).2
  have hany1 : (chain_of ops (chains_pop_all ops cs0 key) key).any (hit ops key) = false := by
    rw [← hg1.any_hit_flatten he hr1.linked key, List.any_eq_false]
    intro x hx
    simp [hnohit x hx]
  refine ⟨t1, ?_, ?_, ?_, ?_, ?_, ?_, hr1.end_eq, ?_, ?_, ?_, ?_, ?_⟩
  · rw [hfh]; exact hp
  · rw [hfh, hfc]
  · exact hr.linked.nodup.filter _
  · rw [hfh]; exact hr.count_eq ops key hlt
  · rw [hr1.count_flatten he hg1 key hlt1, countP_eq_zero_of hnohit]
  · rw [hr1.find_eq ops key hlt1, (from_key_nil_iff ops _ key).mpr hany1, hr1.end_eq]
    rfl
  · rw [hfh]; exact hlen
  · unfold Table.nbuckets
    rw [hbl]
  · rw [hr1.entries_eq hf1, hfm]
  · intro e hmem
    cases hh : hit ops key e with
    | true =>
      have hnot : e ∉ (chains_pop_all ops cs0 key).flatten := fun hx => by
        have := hnohit e hx
        rw [hh] at this
        cases this
      have := hr1.unlinked e hnot
      simp [Mem.linked]
      exact this
    | false =>
      have hin : e ∈ (chains_pop_all ops cs0 key).flatten := by
        rw [← hfm]
        exact List.mem_filter.mpr ⟨hmem, by simp [hh]⟩
      have := hr1.linked.next_ne_null hin
      simp [Mem.linked]
      exact this
  · intro d
    obtain ⟨t2, hp2, hr2, _⟩ := hr.pop_all_spec ops
      (fun node (s : List Nat × Nat) => (s.1 ++ [node], s.2 + 1)) key hlt (d, 0)
    obtain rfl : t2 = t1 := hr2.ext hr1
    simp only [multimap_erase, hp2, Option.bind_eq_bind, Option.some_bind, foldl_collect, hfh]
    simp

theorem erase_all_matching_witness :
    EquivOps demo_ops ∧ Reachable demo_ops demo_multi ∧ demo_multi.enough 32 ∧
    demo_multi.chains 32 = some [[], [], [], [30], [], [52, 51, 50, 120], []] ∧
    demo_multi.entries 32 = some [30, 52, 51, 50, 120] ∧
    [30, 52, 51, 50, 120].filter (hit demo_ops 5) = [52, 51, 50] ∧
    (multimap_erase demo_ops 32 demo_multi 5 []).map
      (fun r => (r.2.1, r.2.2, r.1.size, r.1.entries 32)) =
        some ([52, 51, 50], 3, 2, some [30, 120]) ∧
    ∃ t1, pop_all demo_ops (fun e (s : List Nat) => s ++ [e]) 32 demo_multi 5 [] =
        some (t1, ([30, 52, 51, 50, 120].filter (hit demo_ops 5)).foldl
          (fun s e => s ++ [e]) []) ∧
      [30, 52, 51, 50, 120].filter (hit demo_ops 5) =
        (chain_of demo_ops [[], [], [], [30], [], [52, 51, 50, 120], []] 5).filter
          (hit demo_ops 5) ∧
      ([30, 52, 51, 50, 120].filter (hit demo_ops 5)).Nodup ∧
      count demo_ops 32 demo_multi 5 =
        some ([30, 52, 51, 50, 120].filter (hit demo_ops 5)).length ∧
      count demo_ops 32 t1 5 = some 0 ∧ find demo_ops 32 t1 5 = t1.end_ ∧
      t1.end_ = some Link.null ∧
      t1.size + ([30, 52, 51, 50, 120].filter (hit demo_ops 5)).length = demo_multi.size ∧
      t1.nbuckets = demo_multi.nbuckets ∧
      t1.entries 32 = some ([30, 52, 51, 50, 120].filter (fun x => !hit demo_ops 5 x)) ∧
      (∀ e ∈ [30, 52, 51, 50, 120], t1.toMem.linked e = !hit demo_ops 5 e) ∧
      (∀ d, multimap_erase demo_ops 32 demo_multi 5 d =
        some (t1, d ++ [30, 52, 51, 50, 120].filter (hit demo_ops 5),
          ([30, 52, 51, 50, 120].filter (hit demo_ops 5)).length)) :=
  ⟨demo_ops_equiv, demo_multi_reachable, by decide, by decide, by decide, by decide,
    by decide,
    erase_all_matching demo_ops demo_ops_equiv demo_multi demo_multi_reachable 32 (by decide) 5
      (fun e (s : List Nat) => s ++ [e]) []
      [[], [], [], [30], [], [52, 51, 50, 120], []] (by decide)
      [30, 52, 51, 50, 120] (by decide)⟩

/-- Claim C12 (range erase).  On a reachable table with chains `cs`, let the chain of
bucket `b` be `A ++ X ++ last :: B` where `first` is the first node of `X ++ [last]`
(`first` at or before `last` in one chain; `X` is empty when `first = last`).  Then
`pop(first, last, cbk)` returns, removes exactly the nodes `X` (from `first` inclusive
up to `last` exclusive), invokes `cbk` once per removed node in chain order, decreases
`size()` by the number removed, keeps the bucket count, leaves that chain as
`A ++ last :: B` and every other chain as it was, so `last` and every other entry stay
linked in their previous relative order; when `first = last` nothing is removed and the
table state is unchanged. -/
theorem range_erase {K σ : Type} (ops : Ops K) (he : EquivOps ops) (t : Table)
    (h : Reachable ops t) (fuel : Nat) (hf : t.enough fuel)
    (cbk : Nat → σ → σ) (s : σ)
    (cs : List (List Nat)) (hcs : t.chains fuel = some cs)
    (b : Nat) (A X B : List Nat) (first last : Nat)
    (hc : cs[b]? = some (A ++ X ++ last :: B))
    (hX : (X ++ [last]).head? = some first) :
    ∃ t1, pop_range ops cbk fuel t first (some last) s =
        some (t1, X.foldl (fun s e => cbk e s) s) ∧
      X.Nodup ∧ t1.size + X.length = t.size ∧ t1.nbuckets = t.nbuckets ∧
      t1.chains fuel = some (cs.set b (A ++ last :: B)) ∧
      (∃ P Q, t.entries fuel = some (P ++ X ++ last :: Q) ∧
        t1.entries fuel = some (P ++ last :: Q)) ∧
      (∀ e ∈ X, t1.toMem.linked e = false) ∧
      (∀ e ∈ cs.flatten, e ∉ X → t1.toMem.linked e = true) ∧
      (first = last → X = [] ∧ t1 = t) := by
  obtain ⟨cs0, hr, hg⟩ := Inv.of_reachable he h
  have hlt := hr.enough_lt hf
  rw [hr.chains_eq hlt] at hcs
  obtain rfl : cs0 = cs := Option.some.inj hcs
  obtain ⟨hch, hpo⟩ := chains_pop_range_chain hg hr.linked hc hX
  obtain ⟨t1, hp, hr1, hbl⟩ := hr.pop_range_spec ops cbk first (some last) s hf
  rw [hch] at hr1
  rw [hpo] at hp
  have hfl : cs0.flatten = ((cs0.take b).flatten ++ A) ++ X
      ++ last :: (B ++ (cs0.drop (b + 1)).flatten) := by
    rw [flatten_split hc]
    simp only [List.append_assoc, List.cons_append]
  have hfl1 : (cs0.set b (A ++ last :: B)).flatten = ((cs0.take b).flatten ++ A)
      ++ last :: (B ++ (cs0.drop (b + 1)).flatten) := by
    rw [flatten_set (lt_of_get hc)]
    simp only [List.append_assoc, List.cons_append]
  have hnd := hr.linked.nodup
  rw [hfl] at hnd
  have hXnd : X.Nodup := by
    have h1 := (List.nodup_append.mp hnd).1
    exact (List.nodup_append.mp h1).2.1
  have hlen : t1.nitems + X.length = t.nitems := by
    rw [hr1.count, hr.count, hfl1, hfl]
    simp only [List.length_append, List.length_cons]
    omega
  have hf1 : t1.enough fuel := by
    unfold Table.enough at hf ⊢
    omega
  have hXout : ∀ e ∈ X, e ∉ (cs0.set b (A ++ last :: B)).flatten := by
    intro e heX hin
    rw [hfl1] at hin
    have h1 := List.nodup_append.mp hnd
    have h2 := List.nodup_append.mp h1.1
    rcases List.mem_append.mp hin with h3 | h3
    · exact h2.2.2 h3 heX
    · exact h1.2.2 (List.mem_append_right _ heX) h3
  refine ⟨t1, hp, hXnd, hlen, ?_, hr1.chains_eq (hr1.enough_lt hf1),
    ⟨(cs0.take b).flatten ++ A, B ++ (cs0.drop (b + 1)).flatten, ?_, ?_⟩, ?_, ?_, ?_⟩
  · unfold Table.nbuckets
    rw [hbl]
  · rw [hr.entries_eq hf, hfl]
  · rw [hr1.entries_eq hf1, hfl1]
  · intro e heX
    have := hr1.unlinked e (hXout e heX)
    simp [Mem.linked]
    exact this
  · intro e hmem hnX
    have hin : e ∈ (cs0.set b (A ++ last :: B)).flatten := by
      rw [hfl1]
      rw [hfl] at hmem
      simp only [List.mem_append, List.mem_cons] at hmem ⊢
      tauto
    have := hr1.linked.next_ne_null hin
    simp [Mem.linked]
    exact this
  · intro hfl2
    have hXnil : X = [] := by
      cases X with
      | nil => rfl
      | cons x X1 =>
        exfalso
        simp only [List.cons_append, List.head?_cons, Option.some.injEq] at hX
        have h1 := (List.nodup_append.mp hnd).2.2
        exact h1 (List.mem_append_right _ (List.mem_cons_self x X1))
          (by rw [hX, hfl2]; exact List.mem_cons_self _ _)
    refine ⟨hXnil, ?_⟩
    subst hXnil
    rw [List.append_nil] at hc
    rw [set_get_self hc] at hr1
    exact hr1.ext hr

theorem range_erase_witness :
    EquivOps demo_ops ∧ Reachable demo_ops demo_multi ∧ demo_multi.enough 32 ∧
    demo_multi.chains 32 = some [[], [], [], [30], [], [52, 51, 50, 120], []] ∧
    [[], [], [], [30], [], [52, 51, 50, 120], []][5]? = some ([52] ++ [51, 50] ++ 120 :: []) ∧
    ([51, 50] ++ [120]).head? = some 51 ∧
    (pop_range demo_ops (fun e (s : List Nat) => s ++ [e]) 32 demo_multi 51 (some 120) []).map
      (fun r => (r.2, r.1.size, r.1.chains 32)) =
        some ([51, 50], 3, some [[], [], [], [30], [], [52, 120], []]) ∧
    (pop_range demo_ops (fun e (s : List Nat) => s ++ [e]) 32 demo_multi 51 (some 51) []).map
      (fun r => (r.2, r.1.size, r.1.chains 32)) =
        some ([], 5, some [[], [], [], [30], [], [52, 51, 50, 120], []]) ∧
    ∃ t1, pop_range demo_ops (fun e (s : List Nat) => s ++ [e]) 32 demo_multi 51 (some 120) [] =
        some (t1, [51, 50].foldl (fun s e => s ++ [e]) []) ∧
      [51, 50].Nodup ∧ t1.size + [51, 50].length = demo_multi.size ∧
      t1.nbuckets = demo_multi.nbuckets ∧
      t1.chains 32 = some ([[], [], [], [30], [], [52, 51, 50, 120], []].set 5
        ([52] ++ 120 :: [])) ∧
      (∃ P Q, demo_multi.entries 32 = some (P ++ [51, 50] ++ 120 :: Q) ∧
        t1.entries 32 = some (P ++ 120 :: Q)) ∧
      (∀ e ∈ [51, 50], t1.toMem.linked e = false) ∧
      (∀ e ∈ [[], [], [], [30], [], [52, 51, 50, 120], []].flatten, e ∉ [51, 50] →
        t1.toMem.linked e = true) ∧
      (51 = 120 → [51, 50] = [] ∧ t1 = demo_multi) :=
  ⟨demo_ops_equiv, demo_multi_reachable, by decide, by decide, by decide, by decide,
    by decide, by decide,
    range_erase demo_ops demo_ops_equiv demo_multi demo_multi_reachable 32 (by decide)
      (fun e (s : List Nat) => s ++ [e]) []
      [[], [], [], [30], [], [52, 51, 50, 120], []] (by decide) 5 [52] [51, 50] [] 51 120
      (by decide) (by decide)⟩

/-- Claim C13 (clear).  On a reachable table with entries `es` in iteration order,
`decompose(cbk)` returns and invokes `cbk` exactly once for each linked entry, in
iteration order (the callback state is the fold of `cbk` over `es`, which has no
duplicates); each entry is already unlinked when the callback receives it (a callback
that reads `linked()` records false for every entry); afterwards `size()` is 0,
`begin()` equals `end()`, the bucket count is kept, no node is linked, and the bucket
storage is the freshly initialised one: slot `i` holds the continuation to slot `i + 1`
for every `i < N` and slot `N` holds null.  The `clear` of `ownintrhash_t` and of the
adaptors therefore destroys every stored entry exactly once. -/
theorem clear_all {σ K : Type} (ops : Ops K) (he : EquivOps ops) (t : Table)
    (h : Reachable ops t) (fuel : Nat) (hf : t.enough fuel) (cbk : Nat → σ → σ) (s : σ)
    (es : List Nat) (hes : t.entries fuel = some es) :
    ∃ t1, decompose cbk fuel t s = some (t1, es.foldl (fun s e => cbk e s) s) ∧
      es.Nodup ∧ es.length = t.size ∧
      decompose_with linked_probe fuel t [] = some (t1, es.map (fun e => (e, false))) ∧
      t1.size = 0 ∧ t1.begin fuel = t1.end_ ∧ t1.end_ = some Link.null ∧
      t1.entries fuel = some [] ∧
      t1.nbuckets = t.nbuckets ∧ t1.buckets = init_buckets_ (t.nbuckets + 1) ∧
      (∀ i, i < t.nbuckets → t1.buckets[i]? = some (Link.bucket (i + 1))) ∧
      t1.buckets[t.nbuckets]? = some Link.null ∧
      (∀ e, t1.toMem.linked e = false) ∧
      (∀ d, clear fuel t d = some (t1, d ++ es)) := by
  obtain ⟨cs, hr, hg⟩ := Inv.of_reachable he h
  rw [hr.entries_eq hf] at hes
  obtain rfl : cs.flatten = es := Option.some.inj hes
  have hN := hr.nbuckets_eq
  have hr1 := @rep_empty_table cs.length hr.linked.pos
  have hib := init_buckets_get cs.length
  have hf1 : (empty_table cs.length).enough fuel := by
    have := hr.buckets_length
    unfold Table.enough at hf ⊢
    simp only [empty_table, hib.2.2]
    omega
  have hfun : (fun x => if x ∈ cs.flatten then Link.null else t.next x)
      = fun _ => Link.null := by
    funext x
    by_cases hx : x ∈ cs.flatten
    · simp [hx]
    · simp [hx, hr.unlinked x hx]
  refine ⟨empty_table cs.length, hr.decompose_spec cbk s hf, hr.linked.nodup, hr.count.symm,
    ?_, rfl, ?_, hr1.end_eq, ?_, ?_, ?_, ?_, ?_, ?_, ?_⟩
  · rw [hr.decompose_with_spec _ linked_probe_frame [] hf, drain_probe, hfun]
    rfl
  · rw [hr1.begin_eq hf1, hr1.end_eq, flatten_replicate_nil]
    rfl
  · rw [hr1.entries_eq hf1, flatten_replicate_nil]
  · rw [hr1.nbuckets_eq, hN, List.length_replicate]
  · rw [hN]
    rfl
  · intro i hi
    rw [hN] at hi
    exact hib.1 i hi
  · rw [hN]
    exact hib.2.1
  · intro e
    simp [Mem.linked, empty_table]
  · intro d
    rw [clear, hr.decompose_spec _ d hf, foldl_snoc]

theorem clear_all_witness :
    EquivOps demo_ops ∧ Reachable demo_ops demo_multi ∧ demo_multi.enough 32 ∧
    demo_multi.entries 32 = some [30, 52, 51, 50, 120] ∧
    (clear 32 demo_multi []).map (fun r => (r.2, r.1.size, r.1.buckets)) =
      some ([30, 52, 51, 50, 120], 0,
        [Link.bucket 1, Link.bucket 2, Link.bucket 3, Link.bucket 4, Link.bucket 5,
          Link.bucket 6, Link.bucket 7, Link.null]) ∧
    ∃ t1, decompose (fun e (s : List Nat) => e :: s) 32 demo_multi [] =
        some (t1, [30, 52, 51, 50, 120].foldl (fun s e => e :: s) []) ∧
      [30, 52, 51, 50, 120].Nodup ∧ [30, 52, 51, 50, 120].length = demo_multi.size ∧
      decompose_with linked_probe 32 demo_multi [] =
        some (t1, [30, 52, 51, 50, 120].map (fun e => (e, false))) ∧
      t1.size = 0 ∧ t1.begin 32 = t1.end_ ∧ t1.end_ = some Link.null ∧
      t1.entries 32 = some [] ∧
      t1.nbuckets = demo_multi.nbuckets ∧
      t1.buckets = init_buckets_ (demo_multi.nbuckets + 1) ∧
      (∀ i, i < demo_multi.nbuckets → t1.buckets[i]? = some (Link.bucket (i + 1))) ∧
      t1.buckets[demo_multi.nbuckets]? = some Link.null ∧
      (∀ e, t1.toMem.linked e = false) ∧
      (∀ d, clear 32 demo_multi d = some (t1, d ++ [30, 52, 51, 50, 120])) :=
  ⟨demo_ops_equiv, demo_multi_reachable, by decide, by decide, by decide,
    clear_all demo_ops demo_ops_equiv demo_multi demo_multi_reachable 32 (by decide)
      (fun e (s : List Nat) => e :: s) [] [30, 52, 51, 50, 120] (by decide)⟩

/-- Claim C14 (bucket-count selection).  The tabulated list of `buckets_count` is
strictly ascending; for every `n`, `buckets_count(n)` is a member of that list; for
every `n ≤ 4294967291` it is at least `n` and is the smallest tabulated value that is
at least `n`; `buckets_count(0) = 7` and `buckets_count(8) = 17`; for every
`n > 4294967291` it is the maximum 4294967291; and `buckets_count` is monotone
non-decreasing. -/
theorem buckets_count_selection :
    primes.Pairwise (fun a b => a < b) ∧
    (∀ n, buckets_count n ∈ primes) ∧
    (∀ n, n ≤ 4294967291 →
      n ≤ buckets_count n ∧ ∀ p ∈ primes, n ≤ p → buckets_count n ≤ p) ∧
    buckets_count 0 = 7 ∧ buckets_count 8 = 17 ∧
    (∀ n, 4294967291 < n → buckets_count n = 4294967291) ∧
    (∀ a b, a ≤ b → buckets_count a ≤ buckets_count b) :=
  ⟨by decide, fun n => (buckets_count_mem_least n).1,
    fun n hn => ⟨buckets_count_ge_self hn, (buckets_count_mem_least n).2⟩,
    by decide, by decide, fun _ hn => buckets_count_max hn, fun _ _ hab => buckets_count_mono hab⟩

theorem buckets_count_selection_witness :
    (100 ≤ buckets_count 100 ∧ ∀ p ∈ primes, 100 ≤ p → buckets_count 100 ≤ p) ∧
    buckets_count 100 = 193 ∧ buckets_count 4294967292 = 4294967291 ∧
    buckets_count 3221225474 = 4294967291 ∧ buckets_count 17 = 17 :=
  ⟨buckets_count_selection.2.2.1 100 (by decide), by decide, by decide, by decide, by decide⟩

/-- Claim C15 (never shrinks).  Along every sequence of operations (`push`,
`push_no_resize`, `find_or_push`, `find_or_push_no_resize`, `pop` in all forms,
`pop_one`, `pop_all`, `decompose`, `resize` with any argument) that starts in a
reachable table, the bucket count never decreases: it is at least the initial one after
the sequence, no further operation decreases it, and every operation other than `push`,
`find_or_push` and `resize` (every erase operation and `decompose`, and the inserts
without resize) leaves it unchanged. -/
theorem never_shrinks {K : Type} (ops : Ops K) (he : EquivOps ops) (t : Table)
    (h : Reachable ops t) (t1 : Table) (hrun : Run ops t t1) :
    t.nbuckets ≤ t1.nbuckets ∧
    ∀ k t2, Step ops k t1 t2 →
      t1.nbuckets ≤ t2.nbuckets ∧ (k.grows = false → t2.nbuckets = t1.nbuckets) := by
  refine ⟨?_, ?_⟩
  · induction hrun with
    | refl => exact Nat.le_refl _
    | @step ta tb k hr hs ih =>
      have := (hs.buckets_length_le he (hr.reachable_end h)).1
      unfold Table.nbuckets at ih ⊢
      omega
  · intro k t2 hs
    obtain ⟨h1, h2⟩ := hs.buckets_length_le he (hrun.reachable_end h)
    unfold Table.nbuckets
    exact ⟨by omega, fun hk => by rw [h2 hk]⟩

theorem never_shrinks_witness :
    EquivOps demo_ops ∧ Reachable demo_ops demo_full ∧ Run demo_ops demo_full demo_grown ∧
    demo_full.nbuckets = 7 ∧ demo_grown.nbuckets = 17 ∧
    (resize demo_ops 32 demo_grown 3).map Table.nbuckets = some 17 ∧
    (pop_all demo_ops (fun _ (s : Nat) => s + 1) 32 demo_grown 8 0).map
      (fun r => (r.1.nbuckets, r.2)) = some (17, 1) ∧
    (decompose (fun _ (s : Nat) => s + 1) 32 demo_grown 0).map
      (fun r => (r.1.nbuckets, r.2)) = some (17, 8) ∧
    (demo_full.nbuckets ≤ demo_grown.nbuckets ∧
      ∀ k t2, Step demo_ops k demo_grown t2 →
        demo_grown.nbuckets ≤ t2.nbuckets ∧
          (k.grows = false → t2.nbuckets = demo_grown.nbuckets)) :=
  ⟨demo_ops_equiv,
    reachable_push_seq 32 [10, 20, 30, 40, 50, 60, 70] (Reachable.init 0) (by rfl),
    Run.step (Run.refl demo_full)
      (@Step.push Nat demo_ops demo_full demo_grown 32 80 80 (by decide) (by decide) (by rfl)),
    by decide, by decide, by decide, by decide, by decide,
    never_shrinks demo_ops demo_ops_equiv demo_full
      (reachable_push_seq 32 [10, 20, 30, 40, 50, 60, 70] (Reachable.init 0) (by rfl))
      demo_grown
      (Run.step (Run.refl demo_full)
        (@Step.push Nat demo_ops demo_full demo_grown 32 80 80 (by decide) (by decide)
          (by rfl)))⟩

/-- Claim C16 (resize is a no-op when the capacity suffices).  On a reachable table with
bucket count `N`, for every `n ≤ N`, `resize(n)` returns and leaves the whole table
state identical: same bucket storage, same `next_` fields, same chains in the same
order, same `size()`, and therefore the same iteration order. -/
theorem resize_within_capacity {K : Type} (ops : Ops K) (he : EquivOps ops) (t : Table)
    (h : Reachable ops t) (fuel : Nat) (hf : t.enough fuel) (n : Nat) (hn : n ≤ t.nbuckets) :
    ∃ t1 cs es, resize ops fuel t n = some t1 ∧ t1 = t ∧ t1.buckets = t.buckets ∧
      t1.next = t.next ∧ t1.size = t.size ∧
      t.chains fuel = some cs ∧ t1.chains fuel = some cs ∧
      t.entries fuel = some es ∧ t1.entries fuel = some es := by
  obtain ⟨cs, hr, _⟩ := Inv.of_reachable he h
  have hres : resize ops fuel t n = some t := by
    unfold Table.nbuckets at hn
    unfold resize
    rw [if_neg (by omega)]
  exact ⟨t, cs, cs.flatten, hres, rfl, rfl, rfl, rfl, hr.chains_eq (hr.enough_lt hf),
    hr.chains_eq (hr.enough_lt hf), hr.entries_eq hf, hr.entries_eq hf⟩

theorem resize_within_capacity_witness :
    EquivOps demo_ops ∧ Reachable demo_ops demo_multi ∧ demo_multi.enough 32 ∧
    7 ≤ demo_multi.nbuckets ∧
    ∃ t1 cs es, resize demo_ops 32 demo_multi 7 = some t1 ∧ t1 = demo_multi ∧
      t1.buckets = demo_multi.buckets ∧ t1.next = demo_multi.next ∧
      t1.size = demo_multi.size ∧
      demo_multi.chains 32 = some cs ∧ t1.chains 32 = some cs ∧
      demo_multi.entries 32 = some es ∧ t1.entries 32 = some es :=
  ⟨demo_ops_equiv, demo_multi_reachable, by decide, by decide,
    resize_within_capacity demo_ops demo_ops_equiv demo_multi demo_multi_reachable 32
      (by decide) 7 (by decide)⟩

/-- Claim C17 (iteration is complete and duplicate-free).  On a reachable table with
chains `cs`, starting at `begin()` and advancing the iterator reaches `end()` after
exactly `size()` steps (the loop that allows `size() + 1` tests of `it != end()`
completes); the nodes visited are the chains concatenated in increasing bucket index,
each chain in chain order; no node is visited twice; a node is visited if and only if
it is linked; and `begin() == end()` if and only if `size() == 0`. -/
theorem iteration_complete {K : Type} (ops : Ops K) (he : EquivOps ops) (t : Table)
    (h : Reachable ops t) (fuel : Nat) (hf : t.enough fuel) :
    ∃ cs es b, t.chains fuel = some cs ∧ t.entries fuel = some es ∧ es = cs.flatten ∧
      t.begin fuel = some b ∧ t.end_ = some Link.null ∧
      iter_range fuel t.toMem Link.null (t.size + 1) b = some es ∧
      es.length = t.size ∧ es.Nodup ∧
      (∀ e, e ∈ es ↔ t.toMem.linked e = true) ∧
      (b = Link.null ↔ t.size = 0) := by
  obtain ⟨cs, hr, _⟩ := Inv.of_reachable he h
  have hlt := hr.enough_lt hf
  have hbl := hr.buckets_length
  have hN : cs.length < fuel := by
    unfold Table.enough at hf
    omega
  refine ⟨cs, cs.flatten, first_link Link.null cs.flatten, hr.chains_eq hlt, hr.entries_eq hf,
    rfl, hr.begin_eq hf, hr.end_eq, ?_, hr.count.symm, hr.linked.nodup, ?_, ?_⟩
  · have := @Linked.iter_range_flat _ cs hr.linked fuel hN cs.flatten [] [] (t.size + 1)
      (by simp) (by unfold Table.size; rw [hr.count]; omega)
    simpa [first_link] using this
  · intro e
    constructor
    · intro hmem
      have := hr.linked.next_ne_null hmem
      simp [Mem.linked]
      exact this
    · intro hlk
      by_contra hmem
      have := hr.unlinked e hmem
      simp [Mem.linked] at hlk
      exact hlk this
  · unfold Table.size
    rw [hr.count]
    cases hfl : cs.flatten with
    | nil => simp [first_link]
    | cons a l => simp [first_link]

theorem iteration_complete_witness :
    EquivOps demo_ops ∧ Reachable demo_ops demo_multi ∧ demo_multi.enough 32 ∧
    demo_multi.chains 32 = some [[], [], [], [30], [], [52, 51, 50, 120], []] ∧
    demo_multi.entries 32 = some [30, 52, 51, 50, 120] ∧ demo_multi.size = 5 ∧
    demo_multi.begin 32 = some (Link.item 30) ∧
    iter_range 32 demo_multi.toMem Link.null 6 (Link.item 30) = some [30, 52, 51, 50, 120] ∧
    iter_range 32 demo_multi.toMem Link.null 5 (Link.item 30) = none ∧
    Table.default_.begin 32 = Table.default_.end_ ∧
    ∃ cs es b, demo_multi.chains 32 = some cs ∧ demo_multi.entries 32 = some es ∧
      es = cs.flatten ∧
      demo_multi.begin 32 = some b ∧ demo_multi.end_ = some Link.null ∧
      iter_range 32 demo_multi.toMem Link.null (demo_multi.size + 1) b = some es ∧
      es.length = demo_multi.size ∧ es.Nodup ∧
      (∀ e, e ∈ es ↔ demo_multi.toMem.linked e = true) ∧
      (b = Link.null ↔ demo_multi.size = 0) :=
  ⟨demo_ops_equiv, demo_multi_reachable, by decide, by decide, by decide, by decide,
    by decide, by decide, by decide, by decide,
    iteration_complete demo_ops demo_ops_equiv demo_multi demo_multi_reachable 32 (by decide)⟩

/-- Claim C18 (link-encoding invariant).  In every reachable table state with `N` real
buckets and chains `cs`: for every `i < N`, following the links from slot `i` passes
through the finitely many nodes of chain `i` and then reaches the continuation to slot
`i + 1`; no node occurs in two chains or twice in one chain; among the bucket slots the
null value is held by the sentinel slot `N` and by no other slot, and it still is after
any further operation; a node is linked (`linked()` is true, its link is not null) if
and only if it is in a chain; and every node returned by `pop`, `pop_one`, or handed to
the callback of `pop_all`, of `pop(first, last, cbk)` or of `decompose`, has `linked()`
false afterwards. -/
theorem link_encoding {K : Type} (ops : Ops K) (he : EquivOps ops) (t : Table)
    (h : Reachable ops t) (fuel : Nat) (hf : t.enough fuel) :
    ∃ cs, t.chains fuel = some cs ∧ cs.length = t.nbuckets ∧
      (∀ i, i < t.nbuckets → chain_stop t.toMem fuel (.slot i) = some (Link.bucket (i + 1))) ∧
      cs.flatten.Nodup ∧
      t.buckets[t.nbuckets]? = some Link.null ∧
      (∀ i, i < t.nbuckets → t.buckets[i]? ≠ some Link.null) ∧
      (∀ e, e ∈ cs.flatten ↔ t.toMem.linked e = true) ∧
      (∀ k t2, Step ops k t t2 → t2.buckets[t2.nbuckets]? = some Link.null) ∧
      (∀ node t1 r, pop ops fuel t node = some (t1, some r) → t1.toMem.linked r = false) ∧
      (∀ key t1 r, pop_one ops fuel t key = some (t1, some r) → t1.toMem.linked r = false) ∧
      (∀ key t1 l, pop_all ops (fun e (l : List Nat) => l ++ [e]) fuel t key [] = some (t1, l) →
        ∀ e ∈ l, t1.toMem.linked e = false) ∧
      (∀ first last t1 l,
        pop_range ops (fun e (l : List Nat) => l ++ [e]) fuel t first last [] = some (t1, l) →
        ∀ e ∈ l, t1.toMem.linked e = false) ∧
      (∀ t1 l, decompose (fun e (l : List Nat) => l ++ [e]) fuel t [] = some (t1, l) →
        ∀ e ∈ l, t1.toMem.linked e = false) := by
  obtain ⟨cs, hr, hg⟩ := Inv.of_reachable he h
  have hlt := hr.enough_lt hf
  have hN := hr.nbuckets_eq
  refine ⟨cs, hr.chains_eq hlt, hN.symm, ?_, hr.linked.nodup, ?_, ?_, ?_, ?_, ?_, ?_, ?_, ?_, ?_⟩
  · intro i hi
    rw [hN] at hi
    have hb := chain_at_get hi
    exact chain_stop_seg (hr.linked.seg i _ hb)
      (lt_of_le_of_lt (chain_length_le hb) (hr.count ▸ hlt))
  · rw [hN]
    exact hr.linked.sentinel
  · intro i hi
    rw [hN] at hi
    exact hr.linked.slot_ne_null hi
  · intro e
    constructor
    · intro hmem
      have := hr.linked.next_ne_null hmem
      simp [Mem.linked]
      exact this
    · intro hlk
      by_contra hmem
      rw [linked_false_of_next (hr.unlinked e hmem)] at hlk
      cases hlk
  · intro k t2 hs
    obtain ⟨cs2, hr2, _⟩ := Inv.of_reachable he (hs.reachable_next h)
    rw [hr2.nbuckets_eq]
    exact hr2.linked.sentinel
  · intro node t1 r hop
    by_cases hn : node ∈ chain_of ops cs (ops.extract_key node)
    · obtain ⟨t2, h1, _, _, h4⟩ := hr.pop_found ops hn hlt
      rw [h1] at hop
      simp only [Option.some.injEq, Prod.mk.injEq] at hop
      rw [← hop.1, ← hop.2]
      exact linked_false_of_next h4
    · rw [hr.pop_absent ops hn hlt] at hop
      simp at hop
  · intro key t1 r hop
    cases hfk : from_key ops cs key with
    | nil =>
      rw [hr.pop_one_absent ops key hlt ((from_key_nil_iff ops cs key).mp hfk)] at hop
      simp at hop
    | cons y rr =>
      obtain ⟨t2, h1, _, _, h4⟩ := hr.pop_one_found ops key hlt hfk
      rw [h1] at hop
      simp only [Option.some.injEq, Prod.mk.injEq] at hop
      rw [← hop.1, ← hop.2]
      exact linked_false_of_next h4
  · intro key t1 l hop e hel
    obtain ⟨t2, h1, h2, _⟩ := hr.pop_all_spec ops (fun e (l : List Nat) => l ++ [e]) key hlt []
    rw [h1, foldl_snoc] at hop
    simp only [Option.some.injEq, Prod.mk.injEq, List.nil_append] at hop
    rw [← hop.1]
    rw [← hop.2] at hel
    obtain ⟨_, hfm, _⟩ := hg.filter_hit he hr.linked key
    obtain ⟨_, _, hrun, _⟩ := hg.key_split he hr.linked key
    apply linked_false_of_next
    apply h2.unlinked
    rw [← hfm]
    intro hin
    have := (List.mem_filter.mp hin).2
    rw [hrun e hel] at this
    cases this
  · intro first last t1 l hop e hel
    obtain ⟨t2, h1, h2, _⟩ := hr.pop_range_spec ops (fun e (l : List Nat) => l ++ [e])
      first last [] hf
    rw [h1, foldl_snoc] at hop
    simp only [Option.some.injEq, Prod.mk.injEq, List.nil_append] at hop
    rw [← hop.1]
    rw [← hop.2] at hel
    obtain ⟨P, Q, hsp, hsp1⟩ := chains_pop_range_split ops hr.linked first last
    have hnd := hr.linked.nodup
    rw [hsp] at hnd
    apply linked_false_of_next
    apply h2.unlinked
    rw [hsp1]
    exact nodup_middle_out hnd e hel
  · intro t1 l hop e _
    rw [hr.decompose_spec _ [] hf] at hop
    simp only [Option.some.injEq, Prod.mk.injEq] at hop
    rw [← hop.1]
    exact linked_false_of_next rfl

theorem link_encoding_witness :
    EquivOps demo_ops ∧ Reachable demo_ops demo_multi ∧ demo_multi.enough 32 ∧
    demo_multi.buckets = [Link.bucket 1, Link.bucket 2, Link.bucket 3, Link.item 30,
      Link.bucket 5, Link.item 52, Link.bucket 7, Link.null] ∧
    [30, 52, 51, 50, 120].map demo_multi.next = [Link.bucket 4, Link.item 51, Link.item 50,
      Link.item 120, Link.bucket 6] ∧
    ∃ cs, demo_multi.chains 32 = some cs ∧ cs.length = demo_multi.nbuckets ∧
      (∀ i, i < demo_multi.nbuckets →
        chain_stop demo_multi.toMem 32 (.slot i) = some (Link.bucket (i + 1))) ∧
      cs.flatten.Nodup ∧
      demo_multi.buckets[demo_multi.nbuckets]? = some Link.null ∧
      (∀ i, i < demo_multi.nbuckets → demo_multi.buckets[i]? ≠ some Link.null) ∧
      (∀ e, e ∈ cs.flatten ↔ demo_multi.toMem.linked e = true) ∧
      (∀ k t2, Step demo_ops k demo_multi t2 → t2.buckets[t2.nbuckets]? = some Link.null) ∧
      (∀ node t1 r, pop demo_ops 32 demo_multi node = some (t1, some r) →
        t1.toMem.linked r = false) ∧
      (∀ key t1 r, pop_one demo_ops 32 demo_multi key = some (t1, some r) →
        t1.toMem.linked r = false) ∧
      (∀ key t1 l,
        pop_all demo_ops (fun e (l : List Nat) => l ++ [e]) 32 demo_multi key [] = some (t1, l) →
        ∀ e ∈ l, t1.toMem.linked e = false) ∧
      (∀ first last t1 l,
        pop_range demo_ops (fun e (l : List Nat) => l ++ [e]) 32 demo_multi first last [] =
          some (t1, l) →
        ∀ e ∈ l, t1.toMem.linked e = false) ∧
      (∀ t1 l, decompose (fun e (l : List Nat) => l ++ [e]) 32 demo_multi [] = some (t1, l) →
        ∀ e ∈ l, t1.toMem.linked e = false) :=
  ⟨demo_ops_equiv, demo_multi_reachable, by decide, by decide, by decide,
    link_encoding demo_ops demo_ops_equiv demo_multi demo_multi_reachable 32 (by decide)⟩

/-- Claim C19 (resize is all-or-nothing under allocation failure).  On a reachable
table, for every `n` and every behaviour of the allocator, `resize(n)` returns or
throws; it throws exactly when it has to allocate a new bucket array (`n` and
`buckets_count(n)` exceed the bucket count) and that allocation fails; in that case
the table is exactly as it was before the call: same bucket storage, same `next_`
fields, same chains, same `size()`; no entry has been unlinked or moved.  When it does
not throw, the result is that of `resize`. -/
theorem resize_alloc_failure {K : Type} (ops : Ops K) (he : EquivOps ops) (t : Table)
    (h : Reachable ops t) (fuel : Nat) (hf : t.enough fuel) (n : Nat) (alloc : Nat → Bool) :
    ∃ t1 threw, resize_alloc ops alloc fuel t n = some (t1, threw) ∧
      (threw = true ↔ (t.nbuckets < n ∧ t.nbuckets < buckets_count n ∧
        alloc (buckets_count n + 1) = false)) ∧
      (threw = true → t1 = t ∧ t1.buckets = t.buckets ∧ t1.next = t.next ∧
        t1.size = t.size ∧ t1.chains fuel = t.chains fuel ∧
        t1.entries fuel = t.entries fuel ∧ ∀ e, t1.toMem.linked e = t.toMem.linked e) ∧
      (threw = false → resize ops fuel t n = some t1) := by
  obtain ⟨cs, hr, _⟩ := Inv.of_reachable he h
  obtain ⟨t2, h2, _, _⟩ := hr.resize_spec ops n hf
  have hbl := hr.buckets_length
  have hN := hr.nbuckets_eq
  by_cases h1 : n > t.buckets.length - 1
  · by_cases h3 : buckets_count n + 1 > t.buckets.length
    · cases ha : alloc (buckets_count n + 1) with
      | true =>
        have hres : resize_alloc ops alloc fuel t n = some (t2, false) := by
          unfold resize at h2
          rw [if_pos h1] at h2
          simp only [h3, if_true] at h2
          unfold resize_alloc
          rw [if_pos h1]
          simp only [h3, if_true, ha]
          cases hd : decompose_with (rehash_cbk ops) fuel t
              (init_buckets_ (buckets_count n + 1), 0) with
          | none => rw [hd] at h2; simp at h2
          | some r =>
            rw [hd] at h2
            simp only [Option.bind_eq_bind, Option.some_bind, Option.pure_def,
              Option.some.injEq] at h2 ⊢
            rw [← h2]
        refine ⟨t2, false, hres, ?_, (fun hc => by cases hc), fun _ => h2⟩
        simp
      | false =>
        have hres : resize_alloc ops alloc fuel t n = some (t, true) := by
          unfold resize_alloc
          rw [if_pos h1]
          simp only [h3, if_true, ha]
          rfl
        refine ⟨t, true, hres, ?_, fun _ => ⟨rfl, rfl, rfl, rfl, rfl, rfl, fun _ => rfl⟩,
          fun hc => by cases hc⟩
        simp only [true_iff]
        refine ⟨?_, ?_, by trivial⟩
        · rw [hN]; omega
        · rw [hN]; omega
    · have hres : resize_alloc ops alloc fuel t n = some (t, false) := by
        unfold resize_alloc
        rw [if_pos h1]
        simp only [h3, if_false]
      have hres2 : resize ops fuel t n = some t := by
        unfold resize
        rw [if_pos h1]
        simp only [h3, if_false]
      refine ⟨t, false, hres, ?_, (fun hc => by cases hc), fun _ => hres2⟩
      simp only [false_iff, Bool.false_eq_true]
      rintro ⟨_, h5, _⟩
      rw [hN] at h5
      omega
  · have hres : resize_alloc ops alloc fuel t n = some (t, false) := by
      unfold resize_alloc
      rw [if_neg h1]
    have hres2 : resize ops fuel t n = some t := by
      unfold resize
      rw [if_neg h1]
    refine ⟨t, false, hres, ?_, (fun hc => by cases hc), fun _ => hres2⟩
    simp only [false_iff, Bool.false_eq_true]
    rintro ⟨h4, _, _⟩
    rw [hN] at h4
    omega

theorem resize_alloc_failure_witness :
    EquivOps demo_ops ∧ Reachable demo_ops demo_multi ∧ demo_multi.enough 32 ∧
    (resize_alloc demo_ops (fun _ => false) 32 demo_multi 8).map
      (fun r => (r.2, r.1.buckets, r.1.size, r.1.chains 32)) =
      some (true, demo_multi.buckets, 5, some [[], [], [], [30], [], [52, 51, 50, 120], []]) ∧
    (resize_alloc demo_ops (fun _ => true) 32 demo_multi 8).map
      (fun r => (r.2, r.1.nbuckets, r.1.size)) = some (false, 17, 5) ∧
    ∃ t1 threw, resize_alloc demo_ops (fun _ => false) 32 demo_multi 8 = some (t1, threw) ∧
      (threw = true ↔ (demo_multi.nbuckets < 8 ∧ demo_multi.nbuckets < buckets_count 8 ∧
        (fun _ => false) (buckets_count 8 + 1) = false)) ∧
      (threw = true → t1 = demo_multi ∧ t1.buckets = demo_multi.buckets ∧
        t1.next = demo_multi.next ∧
        t1.size = demo_multi.size ∧ t1.chains 32 = demo_multi.chains 32 ∧
        t1.entries 32 = demo_multi.entries 32 ∧
        ∀ e, t1.toMem.linked e = demo_multi.toMem.linked e) ∧
      (threw = false → resize demo_ops 32 demo_multi 8 = some t1) :=
  ⟨demo_ops_equiv, demo_multi_reachable, by decide, by decide, by decide,
    resize_alloc_failure demo_ops demo_ops_equiv demo_multi demo_multi_reachable 32
      (by decide) 8 (fun _ => false)⟩

/-- Claim C20, the claim as stated fails when `size()` equals the bucket count: on the
table with seven entries in seven buckets, a `find_or_push` of the absent key 8 whose
factory fails propagates the failure, yet the table has been rehashed into 17 buckets,
so neither the bucket count nor the bucket storage nor the chains are as before. -/
theorem insert_failure_counterexample :
    Reachable demo_ops demo_full ∧ demo_full.enough 32 ∧
    has demo_ops 32 demo_full 8 = some false ∧
    demo_full.nbuckets = 7 ∧
    demo_full.chains 32 = some [[70], [10], [20], [30], [40], [50], [60]] ∧
    (find_or_push demo_ops 32 demo_full 8 failing_gen 0).map
      (fun r => (r.ret, r.table.nbuckets, r.table.size)) = some (none, 17, 7) ∧
    (find_or_push demo_ops 32 demo_full 8 failing_gen 0).bind (fun r => r.table.chains 32) =
      some [[], [10], [20], [30], [40], [50], [60], [70], [], [], [], [], [], [], [], [], []] ∧
    ¬ ∃ r, find_or_push demo_ops 32 demo_full 8 failing_gen 0 = some r ∧
      r.table.nbuckets = demo_full.nbuckets := by
  have h1 : (find_or_push demo_ops 32 demo_full 8 failing_gen 0).map
      (fun r => (r.ret, r.table.nbuckets, r.table.size)) = some (none, 17, 7) := by
    decide
  refine ⟨reachable_push_seq 32 [10, 20, 30, 40, 50, 60, 70] (Reachable.init 0) (by rfl),
    by decide, by decide, by decide, by decide, h1, by decide, ?_⟩
  rintro ⟨r, h2, h3⟩
  rw [h2] at h1
  simp only [Option.map_some', Option.some.injEq, Prod.mk.injEq] at h1
  rw [h1.2.1] at h3
  exact absurd h3 (by decide)

/-- Claim C20 as amended (insert under node-factory failure).  On a reachable table, for
a key that is absent, when the node factory fails: `find_or_push_no_resize` propagates
the failure and leaves the table exactly as it was; `find_or_push` propagates the
failure and leaves the table as the `resize(size() + 1)` that it runs before the lookup
left it: no entry is linked or unlinked, `size()`, `has` and `count` of every key are
unchanged, the table is exactly as before when `size()` is below the bucket count, and
it has been rehashed into `buckets_count(N + 1)` buckets when `size()` equals the
bucket count `N < 4294967291`. -/
theorem insert_factory_failure {K G : Type} (ops : Ops K) (he : EquivOps ops) (t : Table)
    (h : Reachable ops t) (fuel : Nat) (hf : t.enough fuel) (key : K)
    (gen : G → Option Nat × G) (g g1 : G) (hgen : gen g = (none, g1))
    (habs : has ops fuel t key = some false) :
    find_or_push_no_resize ops fuel t key gen g =
      some { table := t, factory := g1, ret := none } ∧
    ∃ t2, resize ops fuel t (t.size + 1) = some t2 ∧
      find_or_push ops fuel t key gen g = some { table := t2, factory := g1, ret := none } ∧
      t2.size = t.size ∧
      (∃ cs cs2, t.chains fuel = some cs ∧ t2.chains fuel = some cs2 ∧
        cs2.flatten.Perm cs.flatten) ∧
      (∀ k, has ops fuel t2 k = has ops fuel t k ∧ count ops fuel t2 k = count ops fuel t k) ∧
      (∀ e, t2.toMem.linked e = t.toMem.linked e) ∧
      (t.size < t.nbuckets → t2 = t) ∧
      (t.size = t.nbuckets → t.nbuckets < 4294967291 →
        t2.nbuckets = buckets_count (t.nbuckets + 1) ∧ t.nbuckets < t2.nbuckets) := by
  obtain ⟨cs, hr, hg⟩ := Inv.of_reachable he h
  have hlt := hr.enough_lt hf
  have hN := hr.nbuckets_eq
  rw [hr.has_eq ops key hlt] at habs
  have hy : (chain_of ops cs key).any (hit ops key) = false := Option.some.inj habs
  obtain ⟨t2, h1, hr2, h3⟩ := hr.resize_spec ops (t.nitems + 1) hf
  have hg2 := hg.resize he (t.nitems + 1)
  have hp := chains_resize_perm ops cs (t.nitems + 1)
  have hlt2 : t2.nitems < fuel := by rw [h3]; exact hlt
  have hy2 : (chain_of ops (chains_resize ops cs (t.nitems + 1)) key).any (hit ops key)
      = false := by
    rw [← hg2.any_hit_flatten he hr2.linked key, perm_any_eq hp,
      hg.any_hit_flatten he hr.linked key]
    exact hy
  refine ⟨hr.find_or_push_no_resize_fail ops key gen g hlt hy hgen, t2, h1, ?_, h3,
    ⟨cs, _, hr.chains_eq hlt, hr2.chains_eq hlt2, hp⟩, ?_, ?_, ?_, ?_⟩
  · simp only [find_or_push, h1, Option.bind_eq_bind, Option.some_bind]
    exact hr2.find_or_push_no_resize_fail ops key gen g hlt2 hy2 hgen
  · intro k
    refine ⟨?_, ?_⟩
    · rw [hr2.has_flatten he hg2 k hlt2, hr.has_flatten he hg k hlt, perm_any_eq hp]
    · rw [hr2.count_flatten he hg2 k hlt2, hr.count_flatten he hg k hlt, hp.countP_eq]
  · intro e
    rw [hr2.linked_iff, hr.linked_iff]
    exact decide_eq_decide.mpr hp.mem_iff
  · intro hsz
    have hno : resize ops fuel t (t.nitems + 1) = some t := by
      apply hr.resize_noop ops
      rintro ⟨h5, _⟩
      unfold Table.size at hsz
      rw [hN] at hsz
      omega
    have h6 : resize ops fuel t (t.nitems + 1) = some t2 := h1
    rw [hno] at h6
    exact (Option.some.inj h6).symm
  · intro hsz hmax
    rw [hN] at hmax
    have hsz2 : t.nitems = cs.length := by
      unfold Table.size at hsz
      rw [← hN]
      exact hsz
    have hgrow := buckets_count_ge_self (show cs.length + 1 ≤ 4294967291 by omega)
    have hlen2 : (chains_resize ops cs (t.nitems + 1)).length
        = buckets_count (cs.length + 1) := by
      rw [hsz2, chains_resize_full ops cs hmax, chains_rehash_length]
    rw [hr2.nbuckets_eq, hlen2, hN]
    exact ⟨rfl, by omega⟩

theorem insert_factory_failure_witness :
    EquivOps demo_ops ∧ Reachable demo_ops demo_multi ∧ demo_multi.enough 32 ∧
    failing_gen 0 = (none, 1) ∧ has demo_ops 32 demo_multi 8 = some false ∧
    demo_multi.size < demo_multi.nbuckets ∧
    (find_or_push_no_resize demo_ops 32 demo_multi 8 failing_gen 0 =
      some { table := demo_multi, factory := 1, ret := none } ∧
    ∃ t2, resize demo_ops 32 demo_multi (demo_multi.size + 1) = some t2 ∧
      find_or_push demo_ops 32 demo_multi 8 failing_gen 0 =
        some { table := t2, factory := 1, ret := none } ∧
      t2.size = demo_multi.size ∧
      (∃ cs cs2, demo_multi.chains 32 = some cs ∧ t2.chains 32 = some cs2 ∧
        cs2.flatten.Perm cs.flatten) ∧
      (∀ k, has demo_ops 32 t2 k = has demo_ops 32 demo_multi k ∧
        count demo_ops 32 t2 k = count demo_ops 32 demo_multi k) ∧
      (∀ e, t2.toMem.linked e = demo_multi.toMem.linked e) ∧
      (demo_multi.size < demo_multi.nbuckets → t2 = demo_multi) ∧
      (demo_multi.size = demo_multi.nbuckets → demo_multi.nbuckets < 4294967291 →
        t2.nbuckets = buckets_count (demo_multi.nbuckets + 1) ∧
          demo_multi.nbuckets < t2.nbuckets)) :=
  ⟨demo_ops_equiv, demo_multi_reachable, by decide, by decide, by decide, by decide,
    insert_factory_failure demo_ops demo_ops_equiv demo_multi demo_multi_reachable 32
      (by decide) 8 failing_gen 0 1 (by decide) (by decide)⟩

/-- Claim C21 (copy construction clones membership).  For a reachable source table with
chains `cs` and a clone factory whose nodes are new, pairwise distinct and carry the
key of their argument, the copy constructor returns a table with the same bucket count
and `size()`; it invokes the factory exactly once per source entry (the factory state
is the fold over the source entries in iteration order); bucket `i` of the copy holds
exactly the clones of the entries of source bucket `i`; the copy satisfies the hash
placement and the key-group contiguity invariant and links no node twice; `has` and
`count` agree with the source for every key; and the source is unchanged: the
constructor writes no link of a source node, so the source still has the same chains
and iteration order. -/
theorem copy_clones_membership {K G : Type} (ops : Ops K) (he : EquivOps ops) (right : Table)
    (h : Reachable ops right) (fuel : Nat) (hf : right.enough fuel)
    (gen : Nat → G → Nat × G) (clone : Nat → Nat) (g : G)
    (cs : List (List Nat)) (hcs : right.chains fuel = some cs)
    (hgen : ∀ e g, (gen e g).1 = clone e)
    (hfresh : ∀ a ∈ cs.flatten, clone a ∉ cs.flatten)
    (hinj : ∀ a ∈ cs.flatten, ∀ b ∈ cs.flatten, clone a = clone b → a = b)
    (hkey : ∀ a ∈ cs.flatten,
      ops.equal_to (ops.extract_key (clone a)) (ops.extract_key a) = true) :
    ∃ t2, copy_construct gen fuel right g =
        some (t2, cs.flatten.foldl (fun g e => (gen e g).2) g) ∧
      t2.nbuckets = right.nbuckets ∧ t2.size = right.size ∧
      (∃ cs2, t2.chains fuel = some cs2 ∧ cs2.length = cs.length ∧
        (∀ (i : Nat) (c : List Nat), cs[i]? = some c →
          ∃ c2, cs2[i]? = some c2 ∧ c2.Perm (c.map clone)) ∧
        Placed ops cs2 ∧ (∀ c2 ∈ cs2, Contig ops c2) ∧ cs2.flatten.Nodup) ∧
      (∀ k, has ops fuel t2 k = has ops fuel right k ∧
        count ops fuel t2 k = count ops fuel right k) ∧
      (∀ x ∈ cs.flatten, t2.next x = right.next x) ∧
      Table.chains fuel { buckets := right.buckets, next := t2.next, nitems := right.nitems }
        = some cs ∧
      Table.entries fuel { buckets := right.buckets, next := t2.next, nitems := right.nitems }
        = right.entries fuel := by
  obtain ⟨cs0, hr, hg⟩ := Inv.of_reachable he h
  have hlt := hr.enough_lt hf
  rw [hr.chains_eq hlt] at hcs
  obtain rfl : cs0 = cs := Option.some.inj hcs
  obtain ⟨t2, hcopy, hh, hn, hbl, hfr⟩ :=
    hr.copy_construct_spec gen clone hgen hfresh hinj g hlt
  have hg2 := hg.clone he hkey
  have hlt2 : t2.nitems < fuel := by rw [hn]; exact hlt
  have hperm := clone_chains_flatten_perm clone cs0
  have hkeep : ∀ x ∈ cs0.flatten, t2.next x = right.next x := by
    intro x hx
    apply hfr
    intro hin
    obtain ⟨a, ha, rfl⟩ := List.mem_map.mp hin
    exact hfresh a ha hx
  have hsrc : Holds { buckets := right.buckets, next := t2.next, nitems := right.nitems } cs0 :=
    ⟨hr.linked.congr rfl hkeep, hr.count⟩
  refine ⟨t2, hcopy, ?_, hn, ⟨_, hh.chains_val hlt2, by simp, ?_, hg2.placed, hg2.contig,
    hh.linked.nodup⟩, ?_, hkeep, hsrc.chains_val hlt, ?_⟩
  · unfold Table.nbuckets
    rw [hbl]
  · intro i c hc
    refine ⟨clone_chain clone c, ?_, List.reverse_perm _⟩
    rw [List.getElem?_map, hc]
    rfl
  · intro k
    obtain ⟨h1, h2⟩ := any_map_clone he k cs0.flatten hkey
    refine ⟨?_, ?_⟩
    · rw [hh.has_any he hg2 k hlt2, hr.has_flatten he hg k hlt, perm_any_eq hperm, h1]
    · rw [hh.count_countP he hg2 k hlt2, hr.count_flatten he hg k hlt, hperm.countP_eq, h2]
  · rw [hr.entries_eq hf]
    exact hsrc.entries_val hf

theorem copy_clones_membership_witness :
    EquivOps demo_ops ∧ Reachable demo_ops demo_multi ∧ demo_multi.enough 32 ∧
    demo_multi.chains 32 = some [[], [], [], [30], [], [52, 51, 50, 120], []] ∧
    (copy_construct demo_clone_gen 32 demo_multi []).map Prod.snd =
      some [30, 52, 51, 50, 120] ∧
    demo_copy.chains 32 = some [[], [], [], [35], [], [125, 55, 56, 57], []] ∧
    demo_copy.size = 5 ∧
    ∃ t2, copy_construct demo_clone_gen 32 demo_multi [] =
        some (t2, [[], [], [], [30], [], [52, 51, 50, 120], []].flatten.foldl
          (fun g e => (demo_clone_gen e g).2) []) ∧
      t2.nbuckets = demo_multi.nbuckets ∧ t2.size = demo_multi.size ∧
      (∃ cs2, t2.chains 32 = some cs2 ∧
        cs2.length = [[], [], [], [30], [], [52, 51, 50, 120], []].length ∧
        (∀ (i : Nat) (c : List Nat),
          [[], [], [], [30], [], [52, 51, 50, 120], []][i]? = some c →
          ∃ c2, cs2[i]? = some c2 ∧ c2.Perm (c.map demo_clone)) ∧
        Placed demo_ops cs2 ∧ (∀ c2 ∈ cs2, Contig demo_ops c2) ∧ cs2.flatten.Nodup) ∧
      (∀ k, has demo_ops 32 t2 k = has demo_ops 32 demo_multi k ∧
        count demo_ops 32 t2 k = count demo_ops 32 demo_multi k) ∧
      (∀ x ∈ [[], [], [], [30], [], [52, 51, 50, 120], []].flatten,
        t2.next x = demo_multi.next x) ∧
      Table.chains 32
        { buckets := demo_multi.buckets, next := t2.next, nitems := demo_multi.nitems }
        = some [[], [], [], [30], [], [52, 51, 50, 120], []] ∧
      Table.entries 32
        { buckets := demo_multi.buckets, next := t2.next, nitems := demo_multi.nitems }
        = demo_multi.entries 32 :=
  ⟨demo_ops_equiv, demo_multi_reachable, by decide, by decide, by decide, by decide, by decide,
    copy_clones_membership demo_ops demo_ops_equiv demo_multi demo_multi_reachable 32
      (by decide) demo_clone_gen demo_clone []
      [[], [], [], [30], [], [52, 51, 50, 120], []] (by decide)
      (fun _ _ => rfl) (by decide) (by decide) (by decide)⟩

/-- Claim C22, the claim as stated fails: the copy of the table whose bucket 5 holds the
nodes 52, 51, 50, 120 in this order holds their clones 57, 56, 55, 125 in the order
125, 55, 56, 57, so neither the chain of the copy nor the iteration of the copy lists
the clones in the order of the source. -/
theorem copy_order_counterexample :
    Reachable demo_ops demo_multi ∧
    (copy_construct demo_clone_gen 32 demo_multi []).map Prod.fst = some demo_copy ∧
    demo_multi.chains 32 = some [[], [], [], [30], [], [52, 51, 50, 120], []] ∧
    [52, 51, 50, 120].map demo_clone = [57, 56, 55, 125] ∧
    demo_copy.chains 32 = some [[], [], [], [35], [], [125, 55, 56, 57], []] ∧
    demo_multi.entries 32 = some [30, 52, 51, 50, 120] ∧
    demo_copy.entries 32 = some [35, 125, 55, 56, 57] ∧
    demo_copy.chains 32 ≠
      (demo_multi.chains 32).map (fun cs => cs.map (fun c => c.map demo_clone)) ∧
    demo_copy.entries 32 ≠ (demo_multi.entries 32).map (fun es => es.map demo_clone) :=
  ⟨demo_multi_reachable, by rfl, by decide, by decide, by decide, by decide, by decide,
    by decide, by decide⟩

/-- Claim C22 as amended (copy construction links at the head).  For a reachable source
table with chains `cs` and a clone factory whose nodes are new and pairwise distinct,
the copy constructor walks each source bucket in chain order and links each clone at
the head of the corresponding bucket of the copy: every bucket chain of the copy lists
the clones of the source chain in reversed order, and iterating the copy from `begin()`
visits the buckets in the order of the source and, within each bucket, the clones in
reversed order. -/
theorem copy_reverses_chains {K G : Type} (ops : Ops K) (he : EquivOps ops) (right : Table)
    (h : Reachable ops right) (fuel : Nat) (hf : right.enough fuel)
    (gen : Nat → G → Nat × G) (clone : Nat → Nat) (g : G)
    (cs : List (List Nat)) (hcs : right.chains fuel = some cs)
    (hgen : ∀ e g, (gen e g).1 = clone e)
    (hfresh : ∀ a ∈ cs.flatten, clone a ∉ cs.flatten)
    (hinj : ∀ a ∈ cs.flatten, ∀ b ∈ cs.flatten, clone a = clone b → a = b) :
    ∃ t2 g2, copy_construct gen fuel right g = some (t2, g2) ∧
      t2.chains fuel = some (cs.map (fun c => (c.map clone).reverse)) ∧
      right.entries fuel = some cs.flatten ∧
      t2.entries fuel = some (cs.map (fun c => (c.map clone).reverse)).flatten ∧
      (∀ (i : Nat) (c : List Nat), cs[i]? = some c → c.length ≤ 1 →
        (cs.map (fun c => (c.map clone).reverse))[i]? = some (c.map clone)) := by
  obtain ⟨cs0, hr, _⟩ := Inv.of_reachable he h
  have hlt := hr.enough_lt hf
  rw [hr.chains_eq hlt] at hcs
  obtain rfl : cs0 = cs := Option.some.inj hcs
  obtain ⟨t2, hcopy, hh, hn, hbl, _⟩ :=
    hr.copy_construct_spec gen clone hgen hfresh hinj g hlt
  have hlt2 : t2.nitems < fuel := by rw [hn]; exact hlt
  have hf2 : t2.enough fuel := by
    unfold Table.enough at hf ⊢
    rw [hn, hbl]
    exact hf
  refine ⟨t2, _, hcopy, hh.chains_val hlt2, hr.entries_eq hf, hh.entries_val hf2, ?_⟩
  intro i c hc hlen
  rw [List.getElem?_map, hc]
  simp only [Option.map_some', Option.some.injEq]
  match c, hlen with
  | [], _ => rfl
  | [a], _ => rfl
  | _ :: _ :: _, hlen => simp at hlen

theorem copy_reverses_chains_witness :
    EquivOps demo_ops ∧ Reachable demo_ops demo_multi ∧ demo_multi.enough 32 ∧
    demo_multi.chains 32 = some [[], [], [], [30], [], [52, 51, 50, 120], []] ∧
    ∃ t2 g2, copy_construct demo_clone_gen 32 demo_multi [] = some (t2, g2) ∧
      t2.chains 32 = some ([[], [], [], [30], [], [52, 51, 50, 120], []].map
        (fun c => (c.map demo_clone).reverse)) ∧
      demo_multi.entries 32 = some [[], [], [], [30], [], [52, 51, 50, 120], []].flatten ∧
      t2.entries 32 = some ([[], [], [], [30], [], [52, 51, 50, 120], []].map
        (fun c => (c.map demo_clone).reverse)).flatten ∧
      (∀ (i : Nat) (c : List Nat),
        [[], [], [], [30], [], [52, 51, 50, 120], []][i]? = some c → c.length ≤ 1 →
        ([[], [], [], [30], [], [52, 51, 50, 120], []].map
          (fun c => (c.map demo_clone).reverse))[i]? = some (c.map demo_clone)) :=
  ⟨demo_ops_equiv, demo_multi_reachable, by decide, by decide,
    copy_reverses_chains demo_ops demo_ops_equiv demo_multi demo_multi_reachable 32
      (by decide) demo_clone_gen demo_clone []
      [[], [], [], [30], [], [52, 51, 50, 120], []] (by decide)
      (fun _ _ => rfl) (by decide) (by decide)⟩

/-- Claim C23 (rehash order).  On a reachable table with bucket count `N` and entries
`es` in iteration order, for every `n > N` with `buckets_count(n) > N`, `resize(n)`
returns a table with `M = buckets_count(n)` buckets and the same `size()`; for every new
bucket `j < M` its chain is exactly the reverse of the subsequence of `es` of the
entries with `hash(key) mod M == j`; consequently, for every key, the entries with that
key appear in the new iteration order in reversed relative order, and equal keys are
still contiguous. -/
theorem rehash_order {K : Type} (ops : Ops K) (he : EquivOps ops) (t : Table)
    (h : Reachable ops t) (fuel : Nat) (hf : t.enough fuel) (n : Nat)
    (hn : t.nbuckets < n) (hb : t.nbuckets < buckets_count n)
    (es : List Nat) (hes : t.entries fuel = some es) :
    ∃ t1 cs1, resize ops fuel t n = some t1 ∧ t1.nbuckets = buckets_count n ∧
      t1.size = t.size ∧ t1.chains fuel = some cs1 ∧ cs1.length = buckets_count n ∧
      (∀ j, j < buckets_count n → cs1[j]? = some
        (es.filter (fun e => ops.hash (ops.extract_key e) % buckets_count n == j)).reverse) ∧
      (∀ fuel1, t1.enough fuel1 → t1.entries fuel1 = some cs1.flatten) ∧
      (∀ key, cs1.flatten.filter (hit ops key) = (es.filter (hit ops key)).reverse) ∧
      Contig ops cs1.flatten ∧ cs1.flatten.Perm es := by
  obtain ⟨cs, hr, hg⟩ := Inv.of_reachable he h
  have hlt := hr.enough_lt hf
  have hN := hr.nbuckets_eq
  rw [hr.entries_eq hf] at hes
  obtain rfl : cs.flatten = es := Option.some.inj hes
  rw [hN] at hn hb
  have hpos := buckets_count_pos n
  obtain ⟨t1, h1, hr1, h3⟩ := hr.resize_grow ops n hf hn hb
  have hg1 : Good ops (chains_rehash ops cs (buckets_count n)) := hg.rehash he hpos
  have hlen := chains_rehash_length ops cs (buckets_count n)
  refine ⟨t1, _, h1, ?_, h3, hr1.chains_eq (by rw [h3]; exact hlt), hlen,
    fun j hj => chains_rehash_get ops cs hpos hj, fun fuel1 hf1 => hr1.entries_eq hf1, ?_,
    hg1.flatten_contig he, chains_rehash_perm ops cs hpos⟩
  · rw [hr1.nbuckets_eq, hlen]
  · intro key
    obtain ⟨hf1, _, hf3⟩ := hg1.filter_hit he hr1.linked key
    rw [hf1, ← hf3]
    have hco : chain_of ops (chains_rehash ops cs (buckets_count n)) key
        = (cs.flatten.filter (fun e => ops.hash (ops.extract_key e) % buckets_count n
            == ops.hash key % buckets_count n)).reverse := by
      have h5 := hr1.linked.chain_of_get ops key
      have hj : bucket_of ops (chains_rehash ops cs (buckets_count n)) key < buckets_count n := by
        have := lt_of_get h5
        rw [hlen] at this
        exact this
      rw [chains_rehash_get ops cs hpos hj] at h5
      have h6 := (Option.some.inj h5).symm
      rw [h6, bucket_of, hlen]
    rw [hco, List.filter_reverse, filter_filter_hit he]

theorem rehash_order_witness :
    EquivOps demo_ops ∧ Reachable demo_ops demo_multi ∧ demo_multi.enough 32 ∧
    demo_multi.nbuckets < 8 ∧ demo_multi.nbuckets < buckets_count 8 ∧
    demo_multi.entries 32 = some [30, 52, 51, 50, 120] ∧
    (resize demo_ops 32 demo_multi 8).bind (fun t1 => t1.chains 32) =
      some [[], [], [], [30], [], [50, 51, 52], [], [], [], [], [], [], [120], [], [], [], []] ∧
    ∃ t1 cs1, resize demo_ops 32 demo_multi 8 = some t1 ∧ t1.nbuckets = buckets_count 8 ∧
      t1.size = demo_multi.size ∧ t1.chains 32 = some cs1 ∧ cs1.length = buckets_count 8 ∧
      (∀ j, j < buckets_count 8 → cs1[j]? = some
        ([30, 52, 51, 50, 120].filter
          (fun e => demo_ops.hash (demo_ops.extract_key e) % buckets_count 8 == j)).reverse) ∧
      (∀ fuel1, t1.enough fuel1 → t1.entries fuel1 = some cs1.flatten) ∧
      (∀ key, cs1.flatten.filter (hit demo_ops key) =
        ([30, 52, 51, 50, 120].filter (hit demo_ops key)).reverse) ∧
      Contig demo_ops cs1.flatten ∧ cs1.flatten.Perm [30, 52, 51, 50, 120] :=
  ⟨demo_ops_equiv, demo_multi_reachable, by decide, by decide, by decide, by decide, by decide,
    rehash_order demo_ops demo_ops_equiv demo_multi demo_multi_reachable 32 (by decide) 8
      (by decide) (by decide) [30, 52, 51, 50, 120] (by decide)⟩

/-- Claim C24 (multi-insert position).  On a reachable table with chains `cs`, for an
unlinked node `e` with key `k` and bucket `b = hash(k) mod N`, `push_no_resize(e)`
returns `e`, increases `size()` by exactly 1, keeps the bucket count and changes only
the chain of bucket `b`: if that chain held a node with key `k`, `e` is linked
immediately before the first such node; otherwise `e` becomes the last node of the
chain; in both cases `find(k)` now returns `e`, and removing `e` from the new iteration
order gives the old one. -/
theorem multi_insert_position {K : Type} (ops : Ops K) (he : EquivOps ops) (t : Table)
    (h : Reachable ops t) (fuel : Nat) (hf : t.enough fuel) (e : Nat)
    (hun : t.toMem.linked e = false)
    (cs : List (List Nat)) (hcs : t.chains fuel = some cs) :
    ∃ t1 c1, push_no_resize ops fuel t e = some (t1, e) ∧ t1.size = t.size + 1 ∧
      t1.nbuckets = t.nbuckets ∧
      t1.chains fuel = some (cs.set (bucket_of ops cs (ops.extract_key e)) c1) ∧
      ((chain_of ops cs (ops.extract_key e)).any (hit ops (ops.extract_key e)) = true →
        ∃ A y R, chain_of ops cs (ops.extract_key e) = A ++ y :: R ∧
          (∀ x ∈ A, hit ops (ops.extract_key e) x = false) ∧
          hit ops (ops.extract_key e) y = true ∧ c1 = A ++ e :: y :: R) ∧
      ((chain_of ops cs (ops.extract_key e)).any (hit ops (ops.extract_key e)) = false →
        c1 = chain_of ops cs (ops.extract_key e) ++ [e]) ∧
      find ops fuel t1 (ops.extract_key e) = some (Link.item e) ∧
      (∀ fuel1, t1.enough fuel1 → t1.entries fuel1 =
        some (cs.set (bucket_of ops cs (ops.extract_key e)) c1).flatten) ∧
      (cs.set (bucket_of ops cs (ops.extract_key e)) c1).flatten.erase e = cs.flatten ∧
      c1.erase e = chain_of ops cs (ops.extract_key e) := by
  obtain ⟨cs0, hr, hg⟩ := Inv.of_reachable he h
  have hlt := hr.enough_lt hf
  rw [hr.chains_eq hlt] at hcs
  obtain rfl : cs0 = cs := Option.some.inj hcs
  have hnm := hr.not_mem_of_unlinked hun
  obtain ⟨t1, h1, hr1, hbl⟩ := hr.push_no_resize_spec ops hnm hlt
  have hsplit := hr.linked.chain_split ops (ops.extract_key e)
  have hget := hr.linked.chain_of_get ops (ops.extract_key e)
  have hchain : chain_of ops cs0 (ops.extract_key e)
      = before_key ops cs0 (ops.extract_key e) ++ from_key ops cs0 (ops.extract_key e) := by
    rw [hget] at hsplit
    exact Option.some.inj hsplit
  have hpos := hr.linked.pos
  have hbl0 := hr.buckets_length
  have hfl1 : (chains_push ops cs0 e).flatten = ((cs0.take (bucket_of ops cs0 (ops.extract_key e))).flatten
      ++ before_key ops cs0 (ops.extract_key e)) ++ e :: (from_key ops cs0 (ops.extract_key e)
      ++ (cs0.drop (bucket_of ops cs0 (ops.extract_key e) + 1)).flatten) := by
    unfold chains_push
    rw [flatten_set (lt_of_get hsplit)]
    simp only [List.append_assoc, List.cons_append]
  have hfl0 : cs0.flatten = ((cs0.take (bucket_of ops cs0 (ops.extract_key e))).flatten
      ++ before_key ops cs0 (ops.extract_key e)) ++ (from_key ops cs0 (ops.extract_key e)
      ++ (cs0.drop (bucket_of ops cs0 (ops.extract_key e) + 1)).flatten) := by
    rw [flatten_split hsplit]
    simp only [List.append_assoc]
  have hcnt1 : t1.nitems = t.nitems + 1 := by
    rw [hr1.count, hr.count, hfl1, hfl0]
    simp only [List.length_append, List.length_cons]
    omega
  have hlt1 : t1.nitems < fuel := by
    unfold Table.enough at hf
    omega
  have he1 : e ∉ before_key ops cs0 (ops.extract_key e) := by
    intro hin
    apply hnm
    rw [hfl0]
    simp [hin]
  refine ⟨t1, before_key ops cs0 (ops.extract_key e) ++ e :: from_key ops cs0 (ops.extract_key e),
    h1, hcnt1, ?_, hr1.chains_eq hlt1, ?_, ?_, ?_, fun fuel1 hf1 => hr1.entries_eq hf1, ?_, ?_⟩
  · unfold Table.nbuckets
    rw [hbl]
  · intro hany
    rcases dropWhile_miss ops (ops.extract_key e) (chain_of ops cs0 (ops.extract_key e)) with
      h3 | ⟨y, R, h3, h4⟩
    · have := (any_hit_iff ops (ops.extract_key e) _).mp hany
      exact absurd h3 this
    · have hfk : from_key ops cs0 (ops.extract_key e) = y :: R := h3
      refine ⟨before_key ops cs0 (ops.extract_key e), y, R, ?_,
        takeWhile_miss ops _ _, h4, ?_⟩
      · rw [hchain, hfk]
      · rw [hfk]
  · intro hany
    have hfk := (from_key_nil_iff ops cs0 (ops.extract_key e)).mpr hany
    rw [hchain, hfk, List.append_nil]
  · rw [hr1.find_eq ops _ hlt1, from_key_push he hr.linked e]
    rfl
  · have hnot : e ∉ (cs0.take (bucket_of ops cs0 (ops.extract_key e))).flatten
        ++ before_key ops cs0 (ops.extract_key e) := by
      intro hin
      apply hnm
      rw [hfl0]
      exact List.mem_append_left _ hin
    have hfl2 : (cs0.set (bucket_of ops cs0 (ops.extract_key e))
        (before_key ops cs0 (ops.extract_key e) ++ e :: from_key ops cs0 (ops.extract_key e))).flatten
        = (chains_push ops cs0 e).flatten := rfl
    rw [hfl2, hfl1, erase_split hnot, ← hfl0]
  · rw [erase_split he1, hchain]

theorem multi_insert_position_witness :
    EquivOps demo_ops ∧ Reachable demo_ops demo_multi ∧ demo_multi.enough 32 ∧
    demo_multi.toMem.linked 53 = false ∧
    demo_multi.chains 32 = some [[], [], [], [30], [], [52, 51, 50, 120], []] ∧
    (push_no_resize demo_ops 32 demo_multi 53).bind (fun r => r.1.chains 32) =
      some [[], [], [], [30], [], [53, 52, 51, 50, 120], []] ∧
    (push_no_resize demo_ops 32 demo_multi 121).bind (fun r => r.1.chains 32) =
      some [[], [], [], [30], [], [52, 51, 50, 121, 120], []] ∧
    (push_no_resize demo_ops 32 demo_multi 190).bind (fun r => r.1.chains 32) =
      some [[], [], [], [30], [], [52, 51, 50, 120, 190], []] ∧
    ∃ t1 c1, push_no_resize demo_ops 32 demo_multi 53 = some (t1, 53) ∧
      t1.size = demo_multi.size + 1 ∧ t1.nbuckets = demo_multi.nbuckets ∧
      t1.chains 32 = some ([[], [], [], [30], [], [52, 51, 50, 120], []].set
        (bucket_of demo_ops [[], [], [], [30], [], [52, 51, 50, 120], []]
          (demo_ops.extract_key 53)) c1) ∧
      ((chain_of demo_ops [[], [], [], [30], [], [52, 51, 50, 120], []]
          (demo_ops.extract_key 53)).any (hit demo_ops (demo_ops.extract_key 53)) = true →
        ∃ A y R, chain_of demo_ops [[], [], [], [30], [], [52, 51, 50, 120], []]
            (demo_ops.extract_key 53) = A ++ y :: R ∧
          (∀ x ∈ A, hit demo_ops (demo_ops.extract_key 53) x = false) ∧
          hit demo_ops (demo_ops.extract_key 53) y = true ∧ c1 = A ++ 53 :: y :: R) ∧
      ((chain_of demo_ops [[], [], [], [30], [], [52, 51, 50, 120], []]
          (demo_ops.extract_key 53)).any (hit demo_ops (demo_ops.extract_key 53)) = false →
        c1 = chain_of demo_ops [[], [], [], [30], [], [52, 51, 50, 120], []]
          (demo_ops.extract_key 53) ++ [53]) ∧
      find demo_ops 32 t1 (demo_ops.extract_key 53) = some (Link.item 53) ∧
      (∀ fuel1, t1.enough fuel1 → t1.entries fuel1 =
        some ([[], [], [], [30], [], [52, 51, 50, 120], []].set
          (bucket_of demo_ops [[], [], [], [30], [], [52, 51, 50, 120], []]
            (demo_ops.extract_key 53)) c1).flatten) ∧
      ([[], [], [], [30], [], [52, 51, 50, 120], []].set
        (bucket_of demo_ops [[], [], [], [30], [], [52, 51, 50, 120], []]
          (demo_ops.extract_key 53)) c1).flatten.erase 53 =
        [[], [], [], [30], [], [52, 51, 50, 120], []].flatten ∧
      c1.erase 53 = chain_of demo_ops [[], [], [], [30], [], [52, 51, 50, 120], []]
        (demo_ops.extract_key 53) :=
  ⟨demo_ops_equiv, demo_multi_reachable, by decide, by decide, by decide, by decide,
    by decide, by decide,
    multi_insert_position demo_ops demo_ops_equiv demo_multi demo_multi_reachable 32
      (by decide) 53 (by decide) [[], [], [], [30], [], [52, 51, 50, 120], []] (by decide)⟩

/-- Claim C25 (bucket-placement invariant).  In every reachable table state with `N`
real buckets: `N ≥ 7`; `base_ctx_(k)` selects the slot `hash(k) mod N`, whose index is
below `N`, so never the sentinel slot; every entry linked in the chain of bucket `i`
satisfies `hash(extract_key(entry)) mod N == i`; `has(k)` tells whether any linked
entry has key `k`, and `find(k)`, which inspects only bucket `hash(k) mod N`, finds an
entry with key `k` whenever one is linked; and all of this holds again, with respect to
the new bucket count, after every further insert, erase and resize. -/
theorem bucket_placement {K : Type} (ops : Ops K) (he : EquivOps ops) (t : Table)
    (h : Reachable ops t) (fuel : Nat) (hf : t.enough fuel) :
    (7 ≤ t.nbuckets ∧
    (∀ key : K, base_ctx_ ops t.toMem key = some (.slot (ops.hash key % t.nbuckets)) ∧
      ops.hash key % t.nbuckets < t.nbuckets) ∧
    ∃ cs, t.chains fuel = some cs ∧ cs.length = t.nbuckets ∧
      (∀ (i : Nat) (c : List Nat), cs[i]? = some c →
        ∀ e ∈ c, ops.hash (ops.extract_key e) % t.nbuckets = i) ∧
      (∀ key : K, has ops fuel t key = some (cs.flatten.any (hit ops key))) ∧
      (∀ (key : K) (e : Nat), e ∈ cs.flatten → hit ops key e = true →
        e ∈ chain_at cs (ops.hash key % t.nbuckets) ∧
        ∃ y, find ops fuel t key = some (Link.item y) ∧ hit ops key y = true)) ∧
    ∀ k t2 fuel2, Step ops k t t2 → t2.enough fuel2 →
      7 ≤ t2.nbuckets ∧
      (∀ key : K, base_ctx_ ops t2.toMem key = some (.slot (ops.hash key % t2.nbuckets)) ∧
        ops.hash key % t2.nbuckets < t2.nbuckets) ∧
      ∃ cs2, t2.chains fuel2 = some cs2 ∧ cs2.length = t2.nbuckets ∧
        (∀ (i : Nat) (c : List Nat), cs2[i]? = some c →
          ∀ e ∈ c, ops.hash (ops.extract_key e) % t2.nbuckets = i) ∧
        (∀ key : K, has ops fuel2 t2 key = some (cs2.flatten.any (hit ops key))) ∧
        (∀ (key : K) (e : Nat), e ∈ cs2.flatten → hit ops key e = true →
          e ∈ chain_at cs2 (ops.hash key % t2.nbuckets) ∧
          ∃ y, find ops fuel2 t2 key = some (Link.item y) ∧ hit ops key y = true) :=
  ⟨h.placement he hf, fun _ _ _ hs hf2 => (hs.reachable_next h).placement he hf2⟩

theorem bucket_placement_witness :
    EquivOps demo_ops ∧ Reachable demo_ops demo_multi ∧ demo_multi.enough 32 ∧
    demo_multi.nbuckets = 7 ∧
    demo_multi.chains 32 = some [[], [], [], [30], [], [52, 51, 50, 120], []] ∧
    base_ctx_ demo_ops demo_multi.toMem 12 = some (.slot 5) ∧
    ((7 ≤ demo_multi.nbuckets ∧
    (∀ key : Nat, base_ctx_ demo_ops demo_multi.toMem key =
        some (.slot (demo_ops.hash key % demo_multi.nbuckets)) ∧
      demo_ops.hash key % demo_multi.nbuckets < demo_multi.nbuckets) ∧
    ∃ cs, demo_multi.chains 32 = some cs ∧ cs.length = demo_multi.nbuckets ∧
      (∀ (i : Nat) (c : List Nat), cs[i]? = some c →
        ∀ e ∈ c, demo_ops.hash (demo_ops.extract_key e) % demo_multi.nbuckets = i) ∧
      (∀ key : Nat, has demo_ops 32 demo_multi key = some (cs.flatten.any (hit demo_ops key))) ∧
      (∀ (key : Nat) (e : Nat), e ∈ cs.flatten → hit demo_ops key e = true →
        e ∈ chain_at cs (demo_ops.hash key % demo_multi.nbuckets) ∧
        ∃ y, find demo_ops 32 demo_multi key = some (Link.item y) ∧
          hit demo_ops key y = true)) ∧
    ∀ k t2 fuel2, Step demo_ops k demo_multi t2 → t2.enough fuel2 →
      7 ≤ t2.nbuckets ∧
      (∀ key : Nat, base_ctx_ demo_ops t2.toMem key =
          some (.slot (demo_ops.hash key % t2.nbuckets)) ∧
        demo_ops.hash key % t2.nbuckets < t2.nbuckets) ∧
      ∃ cs2, t2.chains fuel2 = some cs2 ∧ cs2.length = t2.nbuckets ∧
        (∀ (i : Nat) (c : List Nat), cs2[i]? = some c →
          ∀ e ∈ c, demo_ops.hash (demo_ops.extract_key e) % t2.nbuckets = i) ∧
        (∀ key : Nat, has demo_ops fuel2 t2 key = some (cs2.flatten.any (hit demo_ops key))) ∧
        (∀ (key : Nat) (e : Nat), e ∈ cs2.flatten → hit demo_ops key e = true →
          e ∈ chain_at cs2 (demo_ops.hash key % t2.nbuckets) ∧
          ∃ y, find demo_ops fuel2 t2 key = some (Link.item y) ∧
            hit demo_ops key y = true)) :=
  ⟨demo_ops_equiv, demo_multi_reachable, by decide, by decide, by decide, by decide,
    bucket_placement demo_ops demo_ops_equiv demo_multi demo_multi_reachable 32 (by decide)⟩

/-- Claim C26 (an unsuccessful unique insert can still rehash).  There is a reachable
table, the one with seven entries in seven buckets, and a key present in it, for which
`find_or_push` returns the existing entry with `inserted == false` and does not invoke
the factory (its state is unchanged), yet the bucket count has changed from 7 to 17 and
every entry sits in new bucket storage, as left by the `resize(size() + 1)` that runs
before the lookup; `size()` and the set of entries are unchanged. -/
theorem unsuccessful_insert_rehashes :
    ∃ (t : Table) (key : Nat) (r : PushResult Nat),
      Reachable demo_ops t ∧ t.enough 32 ∧ has demo_ops 32 t key = some true ∧
      t.nbuckets = 7 ∧ t.size = 7 ∧
      find_or_push demo_ops 32 t key (new_node 15) 0 = some r ∧
      (∃ y, r.ret = some (Link.item y, false) ∧ demo_ops.extract_key y = key) ∧
      r.factory = 0 ∧ new_node 15 0 = (some 15, 1) ∧
      r.table.nbuckets = 17 ∧ r.table.size = 7 ∧
      resize demo_ops 32 t (t.size + 1) = some r.table ∧
      t.chains 32 = some [[70], [10], [20], [30], [40], [50], [60]] ∧
      r.table.chains 32 = some
        [[], [10], [20], [30], [40], [50], [60], [70], [], [], [], [], [], [], [], [], []] ∧
      r.table.buckets ≠ t.buckets ∧
      [70, 10, 20, 30, 40, 50, 60].Perm [10, 20, 30, 40, 50, 60, 70] := by
  have h1 : ∃ r, find_or_push demo_ops 32 demo_full 1 (new_node 15) 0 = some r := by
    cases hr : find_or_push demo_ops 32 demo_full 1 (new_node 15) 0 with
    | some r => exact ⟨r, rfl⟩
    | none =>
      have h2 : (find_or_push demo_ops 32 demo_full 1 (new_node 15) 0).isSome = true := by
        decide
      rw [hr] at h2
      cases h2
  obtain ⟨r, hr⟩ := h1
  have h3 : (find_or_push demo_ops 32 demo_full 1 (new_node 15) 0).map
      (fun r => (r.ret, r.factory, r.table.nbuckets, r.table.size)) =
      some (some (Link.item 10, false), 0, 17, 7) := by decide
  have h4 : (find_or_push demo_ops 32 demo_full 1 (new_node 15) 0).bind
      (fun r => r.table.chains 32) = some
        [[], [10], [20], [30], [40], [50], [60], [70], [], [], [], [], [], [], [], [], []] := by
    decide
  have h5 : (find_or_push demo_ops 32 demo_full 1 (new_node 15) 0).map (fun r => r.table) =
      resize demo_ops 32 demo_full (demo_full.size + 1) := by rfl
  have h6 : (find_or_push demo_ops 32 demo_full 1 (new_node 15) 0).map
      (fun r => decide (r.table.buckets = demo_full.buckets)) = some false := by decide
  rw [hr] at h3 h4 h5 h6
  simp only [Option.map_some', Option.some.injEq, Prod.mk.injEq, Option.some_bind,
    decide_eq_false_iff_not] at h3 h4 h5 h6
  exact ⟨demo_full, 1, r,
    reachable_push_seq 32 [10, 20, 30, 40, 50, 60, 70] (Reachable.init 0) (by rfl),
    by decide, by decide, by decide, by decide, hr, ⟨10, h3.1, by decide⟩, h3.2.1, by rfl,
    h3.2.2.1, h3.2.2.2, h5.symm, by decide, h4, h6, by decide⟩

/-- Claim C27 (load bound).  In every state reachable from a freshly constructed table
using only the resizing inserts `push` and `find_or_push` together with `pop` in all
forms, `pop_one`, `pop_all`, `decompose` and `resize` (not the inserts without resize),
`size() ≤ bucket count` holds whenever `size() ≤ 4294967291`. -/
theorem load_bound {K : Type} (ops : Ops K) (he : EquivOps ops) (t : Table)
    (h : RReachable ops t) (hsz : t.size ≤ 4294967291) : t.size ≤ t.nbuckets := by
  have hl := h.load he
  unfold Loaded at hl
  unfold Table.size at hsz ⊢
  unfold Table.nbuckets
  omega

theorem load_bound_witness :
    EquivOps demo_ops ∧ RReachable demo_ops demo_grown ∧ demo_grown.size ≤ 4294967291 ∧
    demo_grown.size = 8 ∧ demo_grown.nbuckets = 17 ∧
    Reachable demo_ops demo_full ∧
    (push_no_resize demo_ops 32 demo_full 80).map (fun r => (r.1.size, r.1.nbuckets)) =
      some (8, 7) ∧
    demo_grown.size ≤ demo_grown.nbuckets :=
  ⟨demo_ops_equiv,
    RReachable.step
      (rreachable_push_seq 32 [10, 20, 30, 40, 50, 60, 70] (RReachable.init 0) (by rfl))
      (@Step.push Nat demo_ops demo_full demo_grown 32 80 80 (by decide) (by decide) (by rfl))
      (by decide) (by decide),
    by decide, by decide, by decide,
    reachable_push_seq 32 [10, 20, 30, 40, 50, 60, 70] (Reachable.init 0) (by rfl),
    by decide,
    load_bound demo_ops demo_ops_equiv demo_grown
      (RReachable.step
        (rreachable_push_seq 32 [10, 20, 30, 40, 50, 60, 70] (RReachable.init 0) (by rfl))
        (@Step.push Nat demo_ops demo_full demo_grown 32 80 80 (by decide) (by decide) (by rfl))
        (by decide) (by decide))
      (by decide)⟩

/-- Claim C28 (traversal primitives are total).  In every reachable table state with
`N` real buckets and chains `cs`: `item_ctx_` started at any bucket slot `i ≤ N`
returns a slot `j` with `i ≤ j ≤ N`, every bucket from `i` up to `j` being empty, and
`j` is either the first non-empty bucket at or after `i` (its slot points to the first
entry of its chain) or the sentinel slot `N`, which holds null; `find_ctx_(k)` returns
for every key `k`, and when it reports not-found the context it returns is the cell
after the last node of the chain of bucket `hash(k) mod N`, which holds the
continuation to slot `hash(k) mod N + 1`; when it reports found the context points to
an entry with key `k`.  Both return a result, so neither reads outside the bucket
array. -/
theorem traversal_total {K : Type} (ops : Ops K) (he : EquivOps ops) (t : Table)
    (h : Reachable ops t) (fuel : Nat) (hf : t.enough fuel) :
    ∃ cs, t.chains fuel = some cs ∧ cs.length = t.nbuckets ∧
      (∀ i, i ≤ t.nbuckets →
        ∃ j, i ≤ j ∧ j ≤ t.nbuckets ∧ item_ctx_ t.toMem fuel (.slot i) = some (.slot j) ∧
          (∀ x, i ≤ x → x < j → chain_at cs x = []) ∧
          ((j = t.nbuckets ∧ t.read (.slot j) = some Link.null) ∨
            (j < t.nbuckets ∧ ∃ e c, cs[j]? = some (e :: c) ∧
              t.read (.slot j) = some (.item e)))) ∧
      (∀ key : K, ∃ ctx found, find_ctx_ ops fuel t.toMem key = some (ctx, found) ∧
        (found = false →
          ctx = ctx_after (.slot (ops.hash key % t.nbuckets))
            (chain_at cs (ops.hash key % t.nbuckets)) ∧
          t.read ctx = some (Link.bucket (ops.hash key % t.nbuckets + 1)) ∧
          ctx_bucket_ t.toMem ctx = some true) ∧
        (found = true → ∃ y, t.read ctx = some (Link.item y) ∧ hit ops key y = true)) := by
  obtain ⟨cs, hr, hg⟩ := Inv.of_reachable he h
  have hlt := hr.enough_lt hf
  have hN := hr.nbuckets_eq
  have hbl := hr.buckets_length
  refine ⟨cs, hr.chains_eq hlt, hN.symm, ?_, ?_⟩
  · intro i hi
    rw [hN] at hi ⊢
    exact @Linked.item_ctx_slot _ cs hr.linked (cs.length - i) i fuel hi (Nat.le_refl _)
      (by unfold Table.enough at hf; omega)
  · intro key
    refine ⟨_, _, hr.find_ctx_spec ops key hlt, ?_, ?_⟩
    · intro hany
      obtain ⟨h1, _⟩ := any_hit_false ops key _ hany
      have hget := hr.linked.chain_of_get ops key
      have hb0 : cs[bucket_of ops cs key]? = some (chain_of ops cs key ++ []) := by
        simpa using hget
      have hseg := hr.linked.read_after hb0
      rw [seg_nil] at hseg
      have hbk : before_key ops cs key = chain_of ops cs key := h1
      rw [hN, hbk]
      refine ⟨rfl, hseg, ?_⟩
      simp only [ctx_bucket_]
      rw [hseg]
    · intro hany
      rcases dropWhile_miss ops key (chain_of ops cs key) with h3 | ⟨y, R, h3, h4⟩
      · exact absurd h3 ((any_hit_iff ops key _).mp hany)
      · have hsplit := hr.linked.chain_split ops key
        have hfk : from_key ops cs key = y :: R := h3
        rw [hfk] at hsplit
        have := seg_head (hr.linked.read_after hsplit)
        exact ⟨y, this, h4⟩

theorem traversal_total_witness :
    EquivOps demo_ops ∧ Reachable demo_ops demo_multi ∧ demo_multi.enough 32 ∧
    item_ctx_ demo_multi.toMem 32 (.slot 0) = some (.slot 3) ∧
    item_ctx_ demo_multi.toMem 32 (.slot 4) = some (.slot 5) ∧
    item_ctx_ demo_multi.toMem 32 (.slot 6) = some (.slot 7) ∧
    item_ctx_ demo_multi.toMem 32 (.slot 7) = some (.slot 7) ∧
    find_ctx_ demo_ops 32 demo_multi.toMem 19 = some (.entry 120, false) ∧
    find_ctx_ demo_ops 32 demo_multi.toMem 12 = some (.entry 50, true) ∧
    find_ctx_ demo_ops 32 demo_multi.toMem 0 = some (.slot 0, false) ∧
    ∃ cs, demo_multi.chains 32 = some cs ∧ cs.length = demo_multi.nbuckets ∧
      (∀ i, i ≤ demo_multi.nbuckets →
        ∃ j, i ≤ j ∧ j ≤ demo_multi.nbuckets ∧
          item_ctx_ demo_multi.toMem 32 (.slot i) = some (.slot j) ∧
          (∀ x, i ≤ x → x < j → chain_at cs x = []) ∧
          ((j = demo_multi.nbuckets ∧ demo_multi.read (.slot j) = some Link.null) ∨
            (j < demo_multi.nbuckets ∧ ∃ e c, cs[j]? = some (e :: c) ∧
              demo_multi.read (.slot j) = some (.item e)))) ∧
      (∀ key : Nat, ∃ ctx found, find_ctx_ demo_ops 32 demo_multi.toMem key = some (ctx, found) ∧
        (found = false →
          ctx = ctx_after (.slot (demo_ops.hash key % demo_multi.nbuckets))
            (chain_at cs (demo_ops.hash key % demo_multi.nbuckets)) ∧
          demo_multi.read ctx =
            some (Link.bucket (demo_ops.hash key % demo_multi.nbuckets + 1)) ∧
          ctx_bucket_ demo_multi.toMem ctx = some true) ∧
        (found = true →
          ∃ y, demo_multi.read ctx = some (Link.item y) ∧ hit demo_ops key y = true)) :=
  ⟨demo_ops_equiv, demo_multi_reachable, by decide, by decide, by decide, by decide,
    by decide, by decide, by decide, by decide,
    traversal_total demo_ops demo_ops_equiv demo_multi demo_multi_reachable 32 (by decide)⟩

/-- Claim C29 (range erase composes with `equal_range` across bucket boundaries).  On a
reachable table with entries `es` in iteration order, for every key `k` present in it,
`equal_range(k)` returns `(b, e)` with `b` an entry, and `pop(b, e, cbk)` removes exactly
the `count(k)` entries whose key equals `k`, invoking `cbk` once for each in iteration
order, whether `e` is an entry of the same chain, of a later bucket, or `end()`;
afterwards `count(k)` is 0 and every other entry is still linked in its previous
relative order.  More generally, for every linked entry `first`, `pop(first, end(), cbk)`
removes every entry from `first` to the end of the table in iteration order. -/
theorem range_erase_equal_range {K σ : Type} (ops : Ops K) (he : EquivOps ops) (t : Table)
    (h : Reachable ops t) (fuel : Nat) (hf : t.enough fuel) (key : K)
    (hpres : has ops fuel t key = some true) (cbk : Nat → σ → σ) (s : σ)
    (es : List Nat) (hes : t.entries fuel = some es) :
    (∃ b e t1, equal_range ops fuel t key = some (Link.item b, e) ∧
      pop_range ops cbk fuel t b e.node s =
        some (t1, (es.filter (hit ops key)).foldl (fun s x => cbk x s) s) ∧
      count ops fuel t key = some (es.filter (hit ops key)).length ∧
      (es.filter (hit ops key)).Nodup ∧
      t1.size + (es.filter (hit ops key)).length = t.size ∧
      t1.nbuckets = t.nbuckets ∧
      count ops fuel t1 key = some 0 ∧
      t1.entries fuel = some (es.filter (fun x => !hit ops key x)) ∧
      (∀ x ∈ es, t1.toMem.linked x = !hit ops key x)) ∧
    (∀ first ∈ es, ∃ t2, pop_range ops cbk fuel t first none s =
        some (t2, (es.dropWhile (fun x => x != first)).foldl (fun s x => cbk x s) s) ∧
      t2.entries fuel = some (es.takeWhile (fun x => x != first)) ∧
      (∀ x ∈ es.dropWhile (fun x => x != first), t2.toMem.linked x = false)) := by
  obtain ⟨cs, hr, hg⟩ := Inv.of_reachable he h
  have hlt := hr.enough_lt hf
  rw [hr.entries_eq hf] at hes
  obtain rfl : cs.flatten = es := Option.some.inj hes
  rw [hr.has_eq ops key hlt] at hpres
  have hany : (chain_of ops cs key).any (hit ops key) = true := Option.some.inj hpres
  obtain ⟨y, rr, hfk⟩ : ∃ y rr, from_key ops cs key = y :: rr := by
    cases hfk : from_key ops cs key with
    | nil => rw [(from_key_nil_iff ops cs key).mp hfk] at hany; cases hany
    | cons y rr => exact ⟨y, rr, rfl⟩
  have hsub : ∀ {t1 : Table} {cs1 : List (List Nat)}, Rep t1 cs1 →
      t1.buckets.length = t.buckets.length → cs1.flatten.Sublist cs.flatten →
      t1.enough fuel := by
    intro t1 cs1 hr1 hbl hs
    have := hs.length_le
    unfold Table.enough at hf ⊢
    rw [hr1.count, hbl]
    rw [hr.count] at hf
    omega
  refine ⟨?_, ?_⟩
  · obtain ⟨hpo, hch⟩ := chains_pop_range_run he hg hr.linked key hfk
    obtain ⟨t1, hp, hr1, hbl⟩ := hr.pop_range_spec ops cbk y
      (first_link Link.null (rr.dropWhile (hit ops key)
        ++ (cs.drop (bucket_of ops cs key + 1)).flatten)).node s hf
    rw [hpo] at hp
    have hg1 := hg.pop_range hr.linked y
      (first_link Link.null (rr.dropWhile (hit ops key)
        ++ (cs.drop (bucket_of ops cs key + 1)).flatten)).node
    have hf1 : t1.enough fuel := hsub hr1 hbl (by rw [hch]; exact List.filter_sublist _)
    have hlt1 := hr1.enough_lt hf1
    have hnohit : ∀ x ∈ (chains_pop_range ops cs y
        (first_link Link.null (rr.dropWhile (hit ops key)
          ++ (cs.drop (bucket_of ops cs key + 1)).flatten)).node).flatten,
        hit ops key x = false := by
      intro x hx
      rw [hch] at hx
      simpa using (List.mem_filter.mp hx).2
    refine ⟨y, _, t1, hr.equal_range_found ops key hf hfk, hp, ?_, hr.linked.nodup.filter _,
      ?_, ?_, ?_, ?_, ?_⟩
    · rw [hr.count_flatten he hg key hlt, List.countP_eq_length_filter]
    · have h1 := @List.length_eq_length_filter_add _ cs.flatten (hit ops key)
      unfold Table.size
      rw [hr1.count, hr.count, hch]
      omega
    · unfold Table.nbuckets
      rw [hbl]
    · rw [hr1.count_flatten he hg1 key hlt1, countP_eq_zero_of hnohit]
    · rw [hr1.entries_eq hf1, hch]
    · intro x hmem
      rw [hr1.linked_iff, hch]
      cases hh : hit ops key x with
      | true => simp [hh]
      | false =>
        have hin : x ∈ cs.flatten.filter (fun x => !hit ops key x) :=
          List.mem_filter.mpr ⟨hmem, by simp [hh]⟩
        rw [decide_eq_true hin]
        rfl
  · intro first hmem
    obtain ⟨hpo, hch⟩ := chains_pop_range_none hg hr.linked hmem
    obtain ⟨t2, hp, hr2, hbl⟩ := hr.pop_range_spec ops cbk first none s hf
    rw [hpo] at hp
    have hf2 : t2.enough fuel := hsub hr2 hbl (by rw [hch]; exact List.takeWhile_sublist _)
    refine ⟨t2, hp, ?_, ?_⟩
    · rw [hr2.entries_eq hf2, hch]
    · intro x hx
      rw [hr2.linked_iff, hch]
      have hnd := hr.linked.nodup
      rw [← List.takeWhile_append_dropWhile (fun x => x != first) cs.flatten] at hnd
      have := (List.nodup_append.mp hnd).2.2
      simp only [decide_eq_false_iff_not]
      exact fun hin => this hin hx

theorem range_erase_equal_range_witness :
    EquivOps demo_ops ∧ Reachable demo_ops demo_multi ∧ demo_multi.enough 32 ∧
    has demo_ops 32 demo_multi 3 = some true ∧
    demo_multi.entries 32 = some [30, 52, 51, 50, 120] ∧
    demo_multi.chains 32 = some [[], [], [], [30], [], [52, 51, 50, 120], []] ∧
    equal_range demo_ops 32 demo_multi 3 = some (Link.item 30, Link.item 52) ∧
    equal_range demo_ops 32 demo_multi 12 = some (Link.item 120, Link.null) ∧
    (pop_range demo_ops (fun e (s : List Nat) => s ++ [e]) 32 demo_multi 30 (some 52) []).map
      (fun r => (r.2, r.1.chains 32)) =
        some ([30], some [[], [], [], [], [], [52, 51, 50, 120], []]) ∧
    (pop_range demo_ops (fun e (s : List Nat) => s ++ [e]) 32 demo_multi 120 none []).map
      (fun r => (r.2, r.1.chains 32)) =
        some ([120], some [[], [], [], [30], [], [52, 51, 50], []]) ∧
    (pop_range demo_ops (fun e (s : List Nat) => s ++ [e]) 32 demo_multi 30 none []).map
      (fun r => (r.2, r.1.chains 32)) =
        some ([30, 52, 51, 50, 120], some [[], [], [], [], [], [], []]) ∧
    ((∃ b e t1, equal_range demo_ops 32 demo_multi 3 = some (Link.item b, e) ∧
      pop_range demo_ops (fun e (s : List Nat) => s ++ [e]) 32 demo_multi b e.node [] =
        some (t1, ([30, 52, 51, 50, 120].filter (hit demo_ops 3)).foldl
          (fun s x => s ++ [x]) []) ∧
      count demo_ops 32 demo_multi 3 =
        some ([30, 52, 51, 50, 120].filter (hit demo_ops 3)).length ∧
      ([30, 52, 51, 50, 120].filter (hit demo_ops 3)).Nodup ∧
      t1.size + ([30, 52, 51, 50, 120].filter (hit demo_ops 3)).length = demo_multi.size ∧
      t1.nbuckets = demo_multi.nbuckets ∧
      count demo_ops 32 t1 3 = some 0 ∧
      t1.entries 32 = some ([30, 52, 51, 50, 120].filter (fun x => !hit demo_ops 3 x)) ∧
      (∀ x ∈ [30, 52, 51, 50, 120], t1.toMem.linked x = !hit demo_ops 3 x)) ∧
    (∀ first ∈ [30, 52, 51, 50, 120],
      ∃ t2, pop_range demo_ops (fun e (s : List Nat) => s ++ [e]) 32 demo_multi first none [] =
        some (t2, ([30, 52, 51, 50, 120].dropWhile (fun x => x != first)).foldl
          (fun s x => s ++ [x]) []) ∧
      t2.entries 32 = some ([30, 52, 51, 50, 120].takeWhile (fun x => x != first)) ∧
      (∀ x ∈ [30, 52, 51, 50, 120].dropWhile (fun x => x != first),
        t2.toMem.linked x = false))) :=
  ⟨demo_ops_equiv, demo_multi_reachable, by decide, by decide, by decide, by decide,
    by decide, by decide, by decide, by decide, by decide,
    range_erase_equal_range demo_ops demo_ops_equiv demo_multi demo_multi_reachable 32
      (by decide) 3 (by decide) (fun e (s : List Nat) => s ++ [e]) []
      [30, 52, 51, 50, 120] (by decide)⟩


end Intrhash
